import Mathlib

/-!
# Verification of the cookie-cutter geometry core (`ccGeometry.hpp`, `ccData.hpp`)

Shallow embedding of `cc::Vec2`, `cc::Hull`, `cc::Edge`, `cc::CircularArc` and of
the analysis of `cc::Data` over an exact ordered number type `K` (the `double`
coordinates read as exact numbers), followed by the properties of the convex
hull (`Hull::Convex`, Andrew's monotone chain), of the rotating-calipers
bounding box (`Hull::MinimumBox`), of the point algebra, of the curves and of
the padded area.

A second embedding runs the hull, the bounding box, `Vec2::norm`, `Vec2::unit`
and `Edge::length` on IEEE 754 binary64 numbers (the type `Dbl`; the
definitions whose name ends in `D`). The properties that hold over exact
numbers but not under rounding or overflow are stated over `K` and refuted
over `Dbl`.
-/

namespace cc

/-- `struct Vec2 { double x, y; }` with exact coordinates in `K`. -/
@[ext]
structure Vec2 (K : Type) where
  x : K
  y : K
deriving DecidableEq

namespace Vec2

variable {K : Type} [LinearOrderedCommRing K]

/-- `Vec2::operator-`. -/
instance : Sub (Vec2 K) := ⟨fun a b => ⟨a.x - b.x, a.y - b.y⟩⟩

/-- `Vec2::operator+`. -/
instance : Add (Vec2 K) := ⟨fun a b => ⟨a.x + b.x, a.y + b.y⟩⟩

/-- `Vec2::operator<`: `x < b.x || (x == b.x && y < b.y)`. -/
def lt (a b : Vec2 K) : Prop := a.x < b.x ∨ (a.x = b.x ∧ a.y < b.y)

instance (a b : Vec2 K) : Decidable (lt a b) := by
  unfold lt; infer_instance

/-- `Vec2::Dot`. -/
def Dot (a b : Vec2 K) : K := a.x * b.x + a.y * b.y

/-- `Vec2::Cross`. -/
def Cross (a b : Vec2 K) : K := a.x * b.y - a.y * b.x

end Vec2

namespace Hull

open Vec2

variable {K : Type} [LinearOrderedCommRing K]

/-- Step 1 of `Hull::Convex`: `std::sort(input.begin(), input.end())` with
`Vec2::operator<`. The comparator handed to the sort is "not `b < a`"; on exact
coordinates two points that are not ordered by `<` are equal, so every sorting
algorithm returns this same list. -/
def sort (input : List (Vec2 K)) : List (Vec2 K) :=
  input.insertionSort (fun a b => ¬ Vec2.lt b a)

/-- The inner `while` loop of steps 2 and 3. The chain (`lower` / `upper`) is a
`std::vector` used as a stack; it is held here with its back at the head of the
list, so `b` is `chain[size-1]`, `a` is `chain[size-2]` and `pop_back` drops the
head. -/
def popWhile (p : Vec2 K) : List (Vec2 K) → List (Vec2 K)
  | b :: a :: rest =>
      if Cross (b - a) (p - a) ≤ 0 then popWhile p (a :: rest) else b :: a :: rest
  | chain => chain

/-- One `for` loop of steps 2 / 3: every point in turn pops the chain with
`popWhile` and is then pushed (`push_back`). The result is back-first. -/
def chain (pts : List (Vec2 K)) : List (Vec2 K) :=
  pts.foldl (fun st p => p :: popWhile p st) []

/-- `Hull::Convex`. `lower` scans the sorted input left to right, `upper` right
to left; step 4 pops the back of each, step 5 concatenates them in vector
order. On an empty input both `pop_back` calls act on an empty vector, which
is undefined behaviour: the model returns `none` there. -/
def Convex (input : List (Vec2 K)) : Option (List (Vec2 K)) :=
  match input with
  | [] => none
  | _ :: _ =>
    let sorted := sort input
    let lower := chain sorted
    let upper := chain sorted.reverse
    some (lower.tail.reverse ++ upper.tail.reverse)

/-! ### Predicates used in the proofs -/

/-- Vectors pointing weakly forward in the sorting order (lexicographically
non-negative). -/
def fwd (v : Vec2 K) : Prop := 0 < v.x ∨ (v.x = 0 ∧ 0 ≤ v.y)

/-- Vectors pointing weakly backward in the sorting order. -/
def bwd (v : Vec2 K) : Prop := v.x < 0 ∨ (v.x = 0 ∧ v.y ≤ 0)

/-- What the chain argument needs of the scanning direction `H` (`fwd` for the
lower chain, `bwd` for the upper chain): the induced relation on points is a
total order and the cross product orders the directions inside `H`. -/
structure IsDir (H : Vec2 K → Prop) : Prop where
  total : ∀ a b : Vec2 K, H (b - a) ∨ H (a - b)
  antisymm : ∀ a b : Vec2 K, H (b - a) → H (a - b) → a = b
  trans : ∀ a b c : Vec2 K, H (b - a) → H (c - b) → H (c - a)
  cross_trans : ∀ u v w : Vec2 K, H u → H v → H w → v ≠ ⟨0, 0⟩ →
    0 ≤ Cross u v → 0 ≤ Cross v w → 0 ≤ Cross u w

/-- Every three consecutive points of a back-first chain make a strict left
turn (the test of the `while` loop fails on them). -/
def Turns : List (Vec2 K) → Prop
  | c :: b :: a :: rest => 0 < Cross (b - a) (c - a) ∧ Turns (b :: a :: rest)
  | _ => True

/-- Point `p` is on or to the left of every edge of the back-first chain. -/
def Covers (st : List (Vec2 K)) (p : Vec2 K) : Prop :=
  List.Chain' (fun b a => 0 ≤ Cross (b - a) (p - a)) st

/-- What holds of the chain `st` (back-first) once the points `seen` have been
scanned in order. -/
structure ChainInv (H : Vec2 K → Prop) (seen st : List (Vec2 K)) : Prop where
  sub : List.Sublist st.reverse seen
  top : st.head? = seen.getLast?
  bot : st.getLast? = seen.head?
  turns : Turns st
  covers : ∀ p ∈ seen, Covers st p
  len : 2 ≤ seen.length → 2 ≤ st.length

/-- The lower chain in vector order (front first), before step 4 pops its back. -/
def lowerChain (input : List (Vec2 K)) : List (Vec2 K) :=
  (chain (sort input)).reverse

/-- The upper chain in vector order (front first), before step 4 pops its back. -/
def upperChain (input : List (Vec2 K)) : List (Vec2 K) :=
  (chain (sort input).reverse).reverse

end Hull

/-! ## Floating-point library and the bounding box -/

/-- The functions of `<math.h>` that the geometry code calls, read as functions
on the exact number type, together with the constant `PI`. `PI` comes from the
header `ccMacros.hpp`, which is not among the sources at hand, so it is taken
as a parameter as well. -/
structure CMath (K : Type) where
  sqrt : K → K
  atan2 : K → K → K
  cos : K → K
  sin : K → K
  asin : K → K
  PI : K

/-- The library is the real one: the exact functions on the real numbers,
`atan2 y x` being the argument of `x + i y` in `(-π, π]`. -/
def IsRealMath (M : CMath ℝ) : Prop :=
  M.sqrt = Real.sqrt ∧ M.atan2 = (fun y x => Complex.arg ⟨x, y⟩) ∧ M.cos = Real.cos ∧
    M.sin = Real.sin ∧ M.asin = Real.arcsin ∧ M.PI = Real.pi

namespace Vec2

variable {K : Type} [LinearOrderedField K]

/-- `Vec2::norm`. -/
def norm (M : CMath K) (v : Vec2 K) : K := M.sqrt (v.x * v.x + v.y * v.y)

/-- `Vec2::unit`: the zero vector when the norm is zero. -/
def unit (M : CMath K) (v : Vec2 K) : Vec2 K :=
  let n := norm M v
  if n ≠ 0 then ⟨v.x / n, v.y / n⟩ else ⟨0, 0⟩

/-- `Vec2::Dist`. -/
def Dist (M : CMath K) (a b : Vec2 K) : K := norm M (a - b)

/-- `Vec2::Theta(a, b)`: radians between two vectors. -/
def Theta (M : CMath K) (a b : Vec2 K) : K :=
  let ta := unit M a
  let tb := unit M b
  M.atan2 (Cross ta tb) (Dot ta tb)

/-- `Vec2::Theta(v)`, the one-argument overload: radians from `(1,0)`. -/
def ThetaAxis (M : CMath K) (v : Vec2 K) : K := M.atan2 v.y v.x

/-- `Vec2::Construct(mCenter, theta, radius)`. -/
def ConstructAt (M : CMath K) (mCenter : Vec2 K) (theta radius : K) : Vec2 K :=
  mCenter + ⟨M.cos theta * radius, M.sin theta * radius⟩

/-- `Vec2::Construct(theta, radius)`, the two-argument overload. -/
def Construct (M : CMath K) (theta radius : K) : Vec2 K :=
  ⟨M.cos theta * radius, M.sin theta * radius⟩

/-- The point as a pair of coordinates, an element of the plane `K × K`. -/
def toPair (v : Vec2 K) : K × K := (v.x, v.y)

/-- `Vec2::rotate`. -/
def rotate (M : CMath K) (v : Vec2 K) (theta : K) : Vec2 K :=
  Construct M (ThetaAxis M v + theta) (norm M v)

end Vec2

namespace Hull

open Vec2

variable {K : Type} [LinearOrderedField K]

/-- `struct Hull::Box`. -/
structure Box (K : Type) where
  para : Fin 4 → Vec2 K
  idx : Fin 4 → ℕ
  width : K
  height : K

/-- Subscript `input[i]` (never out of range in `MinimumBox`). -/
def nth (input : List (Vec2 K)) (i : ℕ) : Vec2 K := input.getD i ⟨0, 0⟩

/-- The variables of step 2 of `MinimumBox`: the extreme points found so far
and their indices `idx`. -/
structure Extremes (K : Type) where
  minX : Vec2 K
  maxX : Vec2 K
  minY : Vec2 K
  maxY : Vec2 K
  idx : Fin 4 → ℕ

/-- Body of the `for` loop of step 2, for index `i`: four strict comparisons. -/
def scanStep (input : List (Vec2 K)) (e : Extremes K) (i : ℕ) : Extremes K :=
  let p := nth input i
  let e1 : Extremes K :=
    if p.x < e.minX.x then ⟨p, e.maxX, e.minY, e.maxY, Function.update e.idx 0 i⟩ else e
  let e2 : Extremes K :=
    if p.x > e1.maxX.x then ⟨e1.minX, p, e1.minY, e1.maxY, Function.update e1.idx 1 i⟩ else e1
  let e3 : Extremes K :=
    if p.y < e2.minY.y then ⟨e2.minX, e2.maxX, p, e2.maxY, Function.update e2.idx 2 i⟩ else e2
  if p.y > e3.maxY.y then ⟨e3.minX, e3.maxX, e3.minY, p, Function.update e3.idx 3 i⟩ else e3

/-- Step 2 of `MinimumBox`: indices of the points at the extremes. -/
def extremes (input : List (Vec2 K)) : Fin 4 → ℕ :=
  ((List.range input.length).foldl (scanStep input)
    ⟨nth input 0, nth input 0, nth input 0, nth input 0, fun _ => 0⟩).idx

/-- The index after `i` around the hull:
`(i < input.size() - 1) ? i + 1 : 0`. -/
def next (input : List (Vec2 K)) (i : ℕ) : ℕ :=
  if i < input.length - 1 then i + 1 else 0

/-- The variables of the caliper loop: support line directions, anchor
indices, the smallest area so far and the box recorded for it. -/
structure Calipers (K : Type) where
  para : Fin 4 → Vec2 K
  idx : Fin 4 → ℕ
  minArea : K
  box : Box K

/-- The angle `theta[i]` between support line `i` and the next hull edge. -/
def theta (M : CMath K) (input : List (Vec2 K)) (c : Calipers K) (i : Fin 4) : K :=
  M.asin (Cross (c.para i) (unit M (nth input (next input (c.idx i)) - nth input (c.idx i))))

/-- The smallest of the four angles, starting from `PI`. -/
def minTheta (M : CMath K) (input : List (Vec2 K)) (c : Calipers K) : K :=
  (List.finRange 4).foldl
    (fun m i => if theta M input c i < m then theta M input c i else m) M.PI

/-- One pass through the body of the `do ... while` loop of step 4. -/
def caliperStep (M : CMath K) (input : List (Vec2 K)) (c : Calipers K) : Calipers K :=
  let mt := minTheta M input c
  let para : Fin 4 → Vec2 K := fun i => rotate M (c.para i) mt
  let idx : Fin 4 → ℕ := fun i =>
    if theta M input c i = mt then next input (c.idx i) else c.idx i
  let width := abs (Cross (para 0) (nth input (idx 1) - nth input (idx 0)))
  let height := abs (Cross (para 2) (nth input (idx 3) - nth input (idx 2)))
  let area := width * height
  if area < c.minArea then ⟨para, idx, area, ⟨para, idx, width, height⟩⟩
  else ⟨para, idx, c.minArea, c.box⟩

/-- The `do ... while (idx[3] != loopIdx)` loop, with a bound `fuel` on the
number of passes; `none` when the bound is reached. -/
def caliperLoop (M : CMath K) (input : List (Vec2 K)) (loopIdx : ℕ) :
    ℕ → Calipers K → Option (Box K)
  | 0, _ => none
  | fuel + 1, c =>
    let c1 := caliperStep M input c
    if c1.idx 3 ≠ loopIdx then caliperLoop M input loopIdx fuel c1 else some c1.box

/-- `Hull::MinimumBox`. The argument `box` is the value of the local variable
`Box box;`, which the code declares without initialising it. -/
def MinimumBox (M : CMath K) (fuel : ℕ) (box : Box K) (input : List (Vec2 K)) :
    Option (Box K) :=
  if input.length < 3 then some box
  else
    let para : Fin 4 → Vec2 K := ![⟨0, -1⟩, ⟨0, 1⟩, ⟨1, 0⟩, ⟨-1, 0⟩]
    let idx := extremes input
    let loopIdx := idx 0 + 1
    let width := abs (Cross (para 0) (nth input (idx 1) - nth input (idx 0)))
    let height := abs (Cross (para 2) (nth input (idx 3) - nth input (idx 2)))
    caliperLoop M input loopIdx fuel ⟨para, idx, width * height, box⟩

/-- The points of `P` are in strictly convex position: none of them lies in the
convex hull of the others. -/
def ConvexPosition (P : List (Vec2 K)) : Prop :=
  ∀ p ∈ P, toPair p ∉ convexHull K (toPair '' {q | q ∈ P ∧ q ≠ p})

/-- The extent of a list of numbers: largest minus smallest. -/
def extent (l : List K) : K :=
  l.foldl max (l.headD 0) - l.foldl min (l.headD 0)

/-- The area of the rectangle aligned with the hull edge leaving point `i` that
encloses the hull `H`: the extent of `H` along the edge times the extent of `H`
perpendicular to it. This follows the wording of the minimum-area property,
not the code. -/
def edgeBoxArea (M : CMath K) (H : List (Vec2 K)) (i : ℕ) : K :=
  let u := unit M (nth H (next H i) - nth H i)
  extent (H.map (fun p => Dot u p)) * extent (H.map (fun p => Cross u p))

end Hull


/-! ## Edges, circular arcs and the data set (`ccGeometry.hpp`, `ccData.hpp`) -/

/-- `struct Edge`. The vector `mVec` of shared pointers to vertices is held as
the list of the vertices pointed to. -/
structure Edge (K : Type) where
  id : ℤ
  mVec : List (Vec2 K)

/-- `struct CircularArc : Edge`. -/
structure CircularArc (K : Type) extends Edge K where
  mCenter : Vec2 K
  bClockwise : Bool

/-- The members of `class Data` that the analysis reads: the vertices, the
straight edges and the circular arcs. -/
structure Data (K : Type) where
  mVec : List (Vec2 K)
  mEdge : List (Edge K)
  mCircularArc : List (CircularArc K)

namespace Vec2

variable {K : Type} [LinearOrderedField K]

/-- Division as a partial operation: no value when the divisor is zero. -/
def divChecked (a b : K) : Option K := if b = 0 then none else some (a / b)

/-- `Vec2::unit` with its two divisions read as partial operations: `none` if
one of them divides by zero. -/
def unitChecked (M : CMath K) (v : Vec2 K) : Option (Vec2 K) :=
  let n := norm M v
  if n ≠ 0 then do
    let x ← divChecked v.x n
    let y ← divChecked v.y n
    pure ⟨x, y⟩
  else some ⟨0, 0⟩

end Vec2

namespace Edge

open Vec2

variable {K : Type} [LinearOrderedField K]

/-- `Edge::length`. A subscript `mVec[i]` is the partial `mVec[i]?`: reading
past the end of the vector is undefined behaviour and gives `none`. -/
def length (M : CMath K) (e : Edge K) : Option K :=
  if e.mVec.length > 1 then do
    let p1 ← e.mVec[1]?
    let p0 ← e.mVec[0]?
    pure (Vec2.norm M (p1 - p0))
  else some 0

end Edge

namespace CircularArc

open Vec2

variable {K : Type} [LinearOrderedField K]

/-- `CircularArc::radians`. Reads `mVec[0]` and `mVec[1]` without a test of the
size of `mVec`. -/
def radians (M : CMath K) (a : CircularArc K) : Option K := do
  let p0 ← a.mVec[0]?
  let p1 ← a.mVec[1]?
  let t := Theta M (p0 - a.mCenter) (p1 - a.mCenter)
  let t := if t ≥ 0 then t else M.PI + (M.PI - t)
  let t := if a.bClockwise then -(2 * M.PI - t) else t
  pure t

/-- `CircularArc::radius`. -/
def radius (M : CMath K) (a : CircularArc K) : Option K := do
  let p0 ← a.mVec[0]?
  pure (Dist M p0 a.mCenter)

/-- `CircularArc::length`, the override of `Edge::length`:
`radius() * fabs(radians())`. -/
def length (M : CMath K) (a : CircularArc K) : Option K := do
  let r ← radius M a
  let t ← radians M a
  pure (r * |t|)

/-- `CircularArc::discretize(res)` for `res ≥ 0`. The progress
`(float)i/res` is read as the exact quotient. -/
def discretize (M : CMath K) (a : CircularArc K) (res : ℕ) : Option (List (Vec2 K)) := do
  let theta ← radians M a
  let p0 ← a.mVec[0]?
  let start := ThetaAxis M (p0 - a.mCenter)
  let r ← radius M a
  pure ((List.range res).map fun (i : ℕ) =>
    ConstructAt M a.mCenter (start + theta * ((i : K) / (res : K))) r)

end CircularArc

namespace Material

/-- `Material::Padding = .1`, read as the exact number one tenth. -/
def Padding {K : Type} [LinearOrderedField K] : K := 1 / 10

end Material

namespace Data

open Vec2

variable {K : Type} [LinearOrderedField K]

/-- `Data::discretize(res)`: the vertices followed by the points of every arc. -/
def discretize (M : CMath K) (d : Data K) (res : ℕ) : Option (List (Vec2 K)) :=
  d.mCircularArc.foldlM
    (fun points a => do
      let v ← CircularArc.discretize M a res
      pure (points ++ v))
    d.mVec

/-- `Data::area(res)`. The body calls `discretize()` without an argument, so
the point cloud is the one of the default `res = 100`. As in `MinimumBox`,
`fuel` bounds the passes of the caliper loop and `box` is what the
uninitialised local of `MinimumBox` holds. -/
def area (M : CMath K) (fuel : ℕ) (box : Hull.Box K) (d : Data K) (_res : ℕ) : Option K := do
  let points ← discretize M d 100
  let hull ← Hull.Convex points
  let b ← Hull.MinimumBox M fuel box hull
  pure ((b.width + Material.Padding) * (b.height + Material.Padding))

/-- The padded area as the documentation of `Data::area` words it:
`(w + Padding) * (h + Padding)` for the dimensions `w`, `h` of
`MinimumBox(Convex(discretize(res)))`. This follows the wording of the
documentation, not the code. -/
def areaSpec (M : CMath K) (fuel : ℕ) (box : Hull.Box K) (d : Data K) (res : ℕ) :
    Option K := do
  let points ← discretize M d res
  let hull ← Hull.Convex points
  let b ← Hull.MinimumBox M fuel box hull
  pure ((b.width + Material.Padding) * (b.height + Material.Padding))

end Data

/-- The point as an element of the Euclidean plane. -/
def toEuclid (v : Vec2 ℝ) : EuclideanSpace ℝ (Fin 2) := ![v.x, v.y]

/-- All points of `P` lie on one line: every three of them have cross
product zero. -/
def AllCollinear {K : Type} [LinearOrderedCommRing K] (P : List (Vec2 K)) : Prop :=
  ∀ p1 ∈ P, ∀ p2 ∈ P, ∀ p3 ∈ P, Vec2.Cross (p2 - p1) (p3 - p1) = 0

namespace Hull

open Vec2

variable {K : Type} [LinearOrderedField K]

/-- Index `i` is the first index of `input` at which the coordinate `f` is
smallest. -/
def FirstMin (f : Vec2 K → K) (input : List (Vec2 K)) (i : ℕ) : Prop :=
  i < input.length ∧ (∀ j < input.length, f (nth input i) ≤ f (nth input j)) ∧
    ∀ j < i, f (nth input i) < f (nth input j)

/-- Index `i` is the first index of `input` at which the coordinate `f` is
largest. -/
def FirstMax (f : Vec2 K → K) (input : List (Vec2 K)) (i : ℕ) : Prop :=
  i < input.length ∧ (∀ j < input.length, f (nth input j) ≤ f (nth input i)) ∧
    ∀ j < i, f (nth input j) < f (nth input i)

/-- The caliper frame: the four directions have norm 1, `para[1]` and `para[3]`
are the opposites of `para[0]` and `para[2]`, and `para[2]` is `para[0]`
rotated by `PI/2`. -/
def Frame (M : CMath K) (para : Fin 4 → Vec2 K) : Prop :=
  (∀ i, Vec2.norm M (para i) = 1) ∧ para 1 = ⟨-(para 0).x, -(para 0).y⟩ ∧
    para 3 = ⟨-(para 2).x, -(para 2).y⟩ ∧ para 2 = rotate M (para 0) (M.PI / 2)

end Hull

/-! ## The arithmetic of `double`, and the code run on it

The operations `+ - * /` and `sqrt` are those of IEEE 754 binary64 in the
default rounding mode (to nearest, ties to even), each operation rounded on its
own (no contraction of `a*b + c` into a fused multiply-add). -/

/-- A value of type `double` (IEEE 754 binary64). `fin n` is the finite number
`n * 2^(-1074)`: every finite `double` is such a multiple of the smallest
positive one. The two zeros are not told apart: the comparisons do not tell
them apart, and of the operations used below only a division by zero and
`atan2` on the negative x-axis would. -/
inductive Dbl where
  | fin (n : ℤ)
  | pinf
  | ninf
  | nan
deriving DecidableEq

namespace Dbl

/-- The nearest integer to `a / b` (for `b > 0`), ties going to the even one. -/
def rne (a b : ℕ) : ℕ :=
  let q := a / b
  let r := a % b
  if 2 * r < b then q else if b < 2 * r then q + 1 else if q % 2 = 0 then q else q + 1

/-- The infinity of the given sign. -/
def inf (neg : Bool) : Dbl := if neg then ninf else pinf

/-- The search behind `log2`: the exponent of the leading bit of `q`, found one
binary digit of the exponent at a time, from the digit of weight `2^(i-1)`
down. -/
def log2Aux : ℕ → ℕ → ℕ → ℕ
  | 0, _, acc => acc
  | i + 1, q, acc =>
    if 2 ^ 2 ^ i ≤ q then log2Aux i (q / 2 ^ 2 ^ i) (acc + 2 ^ i) else log2Aux i q acc

/-- The exponent of the leading bit of `q`, that is `⌊log₂ q⌋`, for
`0 < q < 2^4096` (and `0` for `q = 0`); the quotients met in the operations
below stay under that bound. -/
def log2 (q : ℕ) : ℕ := log2Aux 12 q 0

/-- Rounding to nearest, ties to even, of the number `± a / b` (counted in
units of `2^(-1074)`, `b > 0`) to a `double`: 53 significant bits are kept, and
a result of `2^1024` or more is an infinity. Below `2^53` units the spacing is
one unit, which is the gradual underflow. -/
def round (neg : Bool) (a b : ℕ) : Dbl :=
  let k := (log2 (a / b) + 1) - 53
  let v := rne a (b * 2 ^ k) * 2 ^ k
  if 2 ^ 2098 ≤ v then inf neg else fin (if neg then -(v : ℤ) else (v : ℤ))

/-- `true` for the negative values. -/
def isNeg : Dbl → Bool
  | fin n => decide (n < 0)
  | ninf => true
  | _ => false

/-- The number `m * 2^e` as a `double`, when it is one (`-1074 ≤ e`, `m` of at
most 53 bits, below the overflow threshold). -/
def ofScaled (m e : ℤ) : Dbl := fin (m * 2 ^ (e + 1074).toNat)

/-- Unary minus. -/
def neg : Dbl → Dbl
  | fin n => fin (-n)
  | pinf => ninf
  | ninf => pinf
  | nan => nan

/-- Addition of `double`s. -/
def add : Dbl → Dbl → Dbl
  | nan, _ => nan
  | _, nan => nan
  | fin x, fin y => round (decide (x + y < 0)) (x + y).natAbs 1
  | fin _, b => b
  | a, fin _ => a
  | pinf, pinf => pinf
  | ninf, ninf => ninf
  | _, _ => nan

/-- Subtraction of `double`s. -/
def sub (a b : Dbl) : Dbl := add a (neg b)

/-- Multiplication of `double`s. -/
def mul : Dbl → Dbl → Dbl
  | nan, _ => nan
  | _, nan => nan
  | fin x, fin y => round (decide (x * y < 0)) (x * y).natAbs (2 ^ 1074)
  | fin x, b => if x = 0 then nan else inf (xor (decide (x < 0)) (isNeg b))
  | a, fin y => if y = 0 then nan else inf (xor (isNeg a) (decide (y < 0)))
  | a, b => inf (xor (isNeg a) (isNeg b))

/-- Division of `double`s. -/
def div : Dbl → Dbl → Dbl
  | nan, _ => nan
  | _, nan => nan
  | fin x, fin y =>
    if y = 0 then (if x = 0 then nan else inf (decide (x < 0)))
    else round (xor (decide (x < 0)) (decide (y < 0))) (x.natAbs * 2 ^ 1074) y.natAbs
  | fin _, _ => fin 0
  | a, fin y => inf (xor (isNeg a) (decide (y < 0)))
  | _, _ => nan

/-- The search behind `isqrt`: the binary digits of the root, from the one of
weight `2^(i-1)` down. -/
def isqrtAux : ℕ → ℕ → ℕ → ℕ
  | 0, _, r => r
  | i + 1, n, r => if (r + 2 ^ i) ^ 2 ≤ n then isqrtAux i n (r + 2 ^ i) else isqrtAux i n r

/-- The integer square root `⌊√n⌋`, for `n < 2^4096`. -/
def isqrt (n : ℕ) : ℕ := isqrtAux 2048 n 0

/-- `sqrt` of `<math.h>` on `double`s, correctly rounded. -/
def sqrt : Dbl → Dbl
  | nan => nan
  | ninf => nan
  | pinf => pinf
  | fin x =>
    if x < 0 then nan
    else
      let N := x.natAbs * 2 ^ 1074
      let k := (log2 (isqrt N) + 1) - 53
      let t := isqrt (N / 4 ^ k)
      let m := if 4 ^ k * (2 * t + 1) ^ 2 < 4 * N then t + 1
        else if 4 * N < 4 ^ k * (2 * t + 1) ^ 2 then t
        else if t % 2 = 0 then t else t + 1
      fin ((m * 2 ^ k : ℕ) : ℤ)

/-- `a <= b` on `double`s: false when one of them is NaN. -/
def le : Dbl → Dbl → Bool
  | nan, _ => false
  | _, nan => false
  | fin x, fin y => decide (x ≤ y)
  | ninf, _ => true
  | _, pinf => true
  | _, _ => false

/-- `a == b` on `double`s: false when one of them is NaN. -/
def eq : Dbl → Dbl → Bool
  | nan, _ => false
  | _, nan => false
  | a, b => decide (a = b)

/-- `a < b` on `double`s. -/
def lt (a b : Dbl) : Bool := le a b && !eq a b

/-- `fabs` of `<math.h>`. -/
def abs : Dbl → Dbl
  | fin n => fin |n|
  | pinf => pinf
  | ninf => pinf
  | nan => nan

/-- The exact value of a finite `double`, counted in units of `2^(-1074)`
(and `0` for the infinities and NaN). -/
def units : Dbl → ℤ
  | fin n => n
  | _ => 0

end Dbl

/-- The functions of `<math.h>` on `double`s other than `sqrt` and `fabs`, which
IEEE 754 fixes, and the constant `PI` of the missing header. IEEE 754 does not
fix the values of these functions, so a value is either known (`some`) or
not (`none`); a run of the code that asks for an unknown value has no result
in this model. -/
structure DMath where
  atan2 : Dbl → Dbl → Option Dbl
  cos : Dbl → Option Dbl
  sin : Dbl → Option Dbl
  asin : Dbl → Option Dbl
  PI : Dbl

namespace DMath

/-- The entry of a table of values at the argument `x`, if there is one. -/
def lookup {α : Type} [DecidableEq α] (t : List (α × Dbl)) (x : α) : Option Dbl :=
  (t.find? (fun p => decide (p.1 = x))).map Prod.snd

/-- The `double` nearest to `π/2`, `0x1.921fb54442d18p+0`. -/
def halfPi : Dbl := Dbl.ofScaled 884279719003555 (-49)

/-- The `double` nearest to `π`, `0x1.921fb54442d18p+1`. -/
def pi : Dbl := Dbl.ofScaled 884279719003555 (-48)

/-- The sum `pi + halfPi` as a `double`, `0x1.2d97c7f3321d2p+2`. -/
def threeHalfPi : Dbl := Dbl.ofScaled 2652839157010665 (-49)

/-- The number `π/2 - halfPi` rounded to a `double`, `0x1.1a62633145c07p-54`
(about `6.1e-17`). -/
def tiny : Dbl := Dbl.ofScaled 4967757600021511 (-106)

/-- The library at the few arguments met below, with the correctly rounded
value of the mathematical function at each; the exact value is at least `0.18`
of a unit in the last place away from the nearest rounding boundary at every
one of them. No value is assumed at any other argument.
* `asin 1 = halfPi`, `asin 0 = 0`;
* `atan2 y x` on and next to the four half-axes; at `(0, -1)` the value `pi` is
  the one for `y = +0`, the zero of the literal `{-1,0}` of the code;
* `cos` and `sin` at `0`, `±halfPi`, `pi`, `threeHalfPi` and `-2^(-52)`;
* `PI` is the `double` nearest to `π`. -/
def libm : DMath where
  asin := lookup
    [(Dbl.ofScaled 1 0, halfPi),
     (Dbl.fin 0, Dbl.fin 0)]
  atan2 := fun y x => lookup
    [((Dbl.ofScaled (-1) 0, Dbl.fin 0), Dbl.neg halfPi),
     ((Dbl.ofScaled 1 0, Dbl.fin 0), halfPi),
     ((Dbl.fin 0, Dbl.ofScaled 1 0), Dbl.fin 0),
     ((Dbl.fin 0, Dbl.ofScaled (-1) 0), pi),
     ((Dbl.ofScaled (-1) 0, tiny), Dbl.neg halfPi),
     ((Dbl.ofScaled 1 0, tiny), halfPi),
     ((Dbl.ofScaled 4967757600021511 (-105), Dbl.ofScaled (-1) 0), pi),
     ((Dbl.ofScaled (-1) 0, Dbl.ofScaled (-3725818200016133) (-104)),
        Dbl.ofScaled (-7074237752028441) (-52))]
    (y, x)
  cos := lookup
    [(Dbl.fin 0, Dbl.ofScaled 1 0),
     (halfPi, tiny),
     (Dbl.neg halfPi, tiny),
     (pi, Dbl.ofScaled (-1) 0),
     (threeHalfPi, Dbl.ofScaled (-3725818200016133) (-104)),
     (Dbl.ofScaled (-1) (-52), Dbl.ofScaled 1 0)]
  sin := lookup
    [(Dbl.fin 0, Dbl.fin 0),
     (halfPi, Dbl.ofScaled 1 0),
     (Dbl.neg halfPi, Dbl.ofScaled (-1) 0),
     (pi, Dbl.ofScaled 4967757600021511 (-105)),
     (threeHalfPi, Dbl.ofScaled (-1) 0),
     (Dbl.ofScaled (-1) (-52), Dbl.ofScaled (-1) (-52))]
  PI := pi

end DMath

namespace Vec2

/-- `Vec2::operator-` on `double`s. -/
def subD (a b : Vec2 Dbl) : Vec2 Dbl := ⟨Dbl.sub a.x b.x, Dbl.sub a.y b.y⟩

/-- `Vec2::operator<` on `double`s. -/
def ltD (a b : Vec2 Dbl) : Bool := Dbl.lt a.x b.x || (Dbl.eq a.x b.x && Dbl.lt a.y b.y)

/-- `Vec2::Cross` on `double`s: each product and the difference are rounded on
their own. -/
def CrossD (a b : Vec2 Dbl) : Dbl := Dbl.sub (Dbl.mul a.x b.y) (Dbl.mul a.y b.x)

/-- `Vec2::norm` on `double`s. -/
def normD (v : Vec2 Dbl) : Dbl := Dbl.sqrt (Dbl.add (Dbl.mul v.x v.x) (Dbl.mul v.y v.y))

/-- `Vec2::unit` on `double`s. -/
def unitD (v : Vec2 Dbl) : Vec2 Dbl :=
  let n := normD v
  if !Dbl.eq n (Dbl.fin 0) then ⟨Dbl.div v.x n, Dbl.div v.y n⟩ else ⟨Dbl.fin 0, Dbl.fin 0⟩

/-- The exact coordinates of a point given in `double`s, in units of
`2^(-1074)`. -/
def unitsD (v : Vec2 Dbl) : Vec2 ℤ := ⟨v.x.units, v.y.units⟩

/-- `Vec2::rotate` on `double`s:
`Construct(Theta(*this) + theta, norm())`, with `Theta(v) = atan2(v.y, v.x)` and
`Construct(t, r) = {cos(t)*r, sin(t)*r}`. -/
def rotateD (L : DMath) (v : Vec2 Dbl) (theta : Dbl) : Option (Vec2 Dbl) := do
  let t ← L.atan2 v.y v.x
  let c ← L.cos (Dbl.add t theta)
  let s ← L.sin (Dbl.add t theta)
  pure ⟨Dbl.mul c (normD v), Dbl.mul s (normD v)⟩

end Vec2

namespace Hull

open Vec2

/-- Step 1 of `Hull::Convex` on `double`s. -/
def sortD (input : List (Vec2 Dbl)) : List (Vec2 Dbl) :=
  input.insertionSort (fun a b => ltD b a = false)

/-- The inner `while` loop of steps 2 and 3 of `Hull::Convex` on `double`s; the
chain is held back-first as in `popWhile`. -/
def popWhileD (p : Vec2 Dbl) : List (Vec2 Dbl) → List (Vec2 Dbl)
  | b :: a :: rest =>
      if Dbl.le (CrossD (subD b a) (subD p a)) (Dbl.fin 0) then popWhileD p (a :: rest)
      else b :: a :: rest
  | chain => chain

/-- One `for` loop of steps 2 / 3 of `Hull::Convex` on `double`s. -/
def chainD (pts : List (Vec2 Dbl)) : List (Vec2 Dbl) :=
  pts.foldl (fun st p => p :: popWhileD p st) []

/-- `Hull::Convex` on `double`s. -/
def ConvexD (input : List (Vec2 Dbl)) : Option (List (Vec2 Dbl)) :=
  match input with
  | [] => none
  | _ :: _ =>
    let sorted := sortD input
    let lower := chainD sorted
    let upper := chainD sorted.reverse
    some (lower.tail.reverse ++ upper.tail.reverse)

/-- Subscript `input[i]` on `double`s (never out of range in `MinimumBox`). -/
def nthD (input : List (Vec2 Dbl)) (i : ℕ) : Vec2 Dbl := input.getD i ⟨Dbl.fin 0, Dbl.fin 0⟩

/-- Body of the `for` loop of step 2 of `MinimumBox` on `double`s. -/
def scanStepD (input : List (Vec2 Dbl)) (e : Extremes Dbl) (i : ℕ) : Extremes Dbl :=
  let p := nthD input i
  let e1 : Extremes Dbl :=
    if Dbl.lt p.x e.minX.x then ⟨p, e.maxX, e.minY, e.maxY, Function.update e.idx 0 i⟩ else e
  let e2 : Extremes Dbl :=
    if Dbl.lt e1.maxX.x p.x then ⟨e1.minX, p, e1.minY, e1.maxY, Function.update e1.idx 1 i⟩
    else e1
  let e3 : Extremes Dbl :=
    if Dbl.lt p.y e2.minY.y then ⟨e2.minX, e2.maxX, p, e2.maxY, Function.update e2.idx 2 i⟩
    else e2
  if Dbl.lt e3.maxY.y p.y then ⟨e3.minX, e3.maxX, e3.minY, p, Function.update e3.idx 3 i⟩
  else e3

/-- Step 2 of `MinimumBox` on `double`s. -/
def extremesD (input : List (Vec2 Dbl)) : Fin 4 → ℕ :=
  ((List.range input.length).foldl (scanStepD input)
    ⟨nthD input 0, nthD input 0, nthD input 0, nthD input 0, fun _ => 0⟩).idx

/-- The index after `i` around the hull:
`(i < input.size() - 1) ? i + 1 : 0`. -/
def nextD (input : List (Vec2 Dbl)) (i : ℕ) : ℕ :=
  if i < input.length - 1 then i + 1 else 0

/-- The angle `theta[i]` on `double`s. -/
def thetaD (L : DMath) (input : List (Vec2 Dbl)) (c : Calipers Dbl) (i : Fin 4) :
    Option Dbl :=
  L.asin (CrossD (c.para i) (unitD (subD (nthD input (nextD input (c.idx i)))
    (nthD input (c.idx i)))))

/-- The smallest of the four angles on `double`s, starting from `PI`. -/
def minThetaD (L : DMath) (input : List (Vec2 Dbl)) (c : Calipers Dbl) : Option Dbl :=
  (List.finRange 4).foldlM
    (fun m i => do
      let t ← thetaD L input c i
      pure (if Dbl.lt t m then t else m))
    L.PI

/-- One pass through the body of the `do ... while` loop of step 4 on
`double`s. -/
def caliperStepD (L : DMath) (input : List (Vec2 Dbl)) (c : Calipers Dbl) :
    Option (Calipers Dbl) := do
  let mt ← minThetaD L input c
  let t0 ← thetaD L input c 0
  let t1 ← thetaD L input c 1
  let t2 ← thetaD L input c 2
  let t3 ← thetaD L input c 3
  let p0 ← rotateD L (c.para 0) mt
  let p1 ← rotateD L (c.para 1) mt
  let p2 ← rotateD L (c.para 2) mt
  let p3 ← rotateD L (c.para 3) mt
  let theta : Fin 4 → Dbl := ![t0, t1, t2, t3]
  let para : Fin 4 → Vec2 Dbl := ![p0, p1, p2, p3]
  let idx : Fin 4 → ℕ := fun i =>
    if Dbl.eq (theta i) mt then nextD input (c.idx i) else c.idx i
  let width := Dbl.abs (CrossD (para 0) (subD (nthD input (idx 1)) (nthD input (idx 0))))
  let height := Dbl.abs (CrossD (para 2) (subD (nthD input (idx 3)) (nthD input (idx 2))))
  let area := Dbl.mul width height
  pure (if Dbl.lt area c.minArea then ⟨para, idx, area, ⟨para, idx, width, height⟩⟩
    else ⟨para, idx, c.minArea, c.box⟩)

/-- The `do ... while (idx[3] != loopIdx)` loop on `double`s, with a bound
`fuel` on the number of passes; `none` when the bound is reached. -/
def caliperLoopD (L : DMath) (input : List (Vec2 Dbl)) (loopIdx : ℕ) :
    ℕ → Calipers Dbl → Option (Box Dbl)
  | 0, _ => none
  | fuel + 1, c =>
    match caliperStepD L input c with
    | none => none
    | some c1 =>
      if c1.idx 3 ≠ loopIdx then caliperLoopD L input loopIdx fuel c1 else some c1.box

/-- The variables of `MinimumBox` on `double`s when the caliper loop is
entered. -/
def startD (box : Box Dbl) (input : List (Vec2 Dbl)) : Calipers Dbl :=
  let para : Fin 4 → Vec2 Dbl :=
    ![⟨Dbl.fin 0, Dbl.ofScaled (-1) 0⟩, ⟨Dbl.fin 0, Dbl.ofScaled 1 0⟩,
      ⟨Dbl.ofScaled 1 0, Dbl.fin 0⟩, ⟨Dbl.ofScaled (-1) 0, Dbl.fin 0⟩]
  let idx := extremesD input
  let width := Dbl.abs (CrossD (para 0) (subD (nthD input (idx 1)) (nthD input (idx 0))))
  let height := Dbl.abs (CrossD (para 2) (subD (nthD input (idx 3)) (nthD input (idx 2))))
  ⟨para, idx, Dbl.mul width height, box⟩

/-- `Hull::MinimumBox` on `double`s. The argument `box` is the value of the
local variable `Box box;`, which the code declares without initialising it. -/
def MinimumBoxD (L : DMath) (fuel : ℕ) (box : Box Dbl) (input : List (Vec2 Dbl)) :
    Option (Box Dbl) :=
  if input.length < 3 then some box
  else caliperLoopD L input (extremesD input 0 + 1) fuel (startD box input)

/-- The caliper loop on `double`s leaves within `fuel` passes and no pass
records a box: a test used in the proofs, which does not look at `c.box`. -/
def quietD (L : DMath) (input : List (Vec2 Dbl)) (loopIdx : ℕ) :
    ℕ → Calipers Dbl → Bool
  | 0, _ => false
  | fuel + 1, c =>
    match caliperStepD L input c with
    | none => false
    | some c1 =>
      !Dbl.lt c1.minArea c.minArea &&
        (if c1.idx 3 ≠ loopIdx then quietD L input loopIdx fuel c1 else true)

end Hull

namespace Edge

/-- `Edge::length` on `double`s. -/
def lengthD (e : Edge Dbl) : Option Dbl :=
  if e.mVec.length > 1 then do
    let p1 ← e.mVec[1]?
    let p0 ← e.mVec[0]?
    pure (Vec2.normD (Vec2.subD p1 p0))
  else some (Dbl.fin 0)

end Edge
/-! ## Point algebra -/

namespace Vec2

variable {K : Type} [LinearOrderedCommRing K]

@[simp] theorem sub_x (a b : Vec2 K) : (a - b).x = a.x - b.x := rfl
@[simp] theorem sub_y (a b : Vec2 K) : (a - b).y = a.y - b.y := rfl
@[simp] theorem add_x (a b : Vec2 K) : (a + b).x = a.x + b.x := rfl
@[simp] theorem add_y (a b : Vec2 K) : (a + b).y = a.y + b.y := rfl

theorem cross_self (a : Vec2 K) : Cross a a = 0 := by
  simp only [Cross]; ring

theorem cross_swap (a b : Vec2 K) : Cross a b = - Cross b a := by
  simp only [Cross]; ring

/-- Moving the base point of the second argument along the first. -/
theorem cross_shift (a b p : Vec2 K) : Cross (b - a) (p - a) = Cross (b - a) (p - b) := by
  simp only [Cross, sub_x, sub_y]; ring

theorem eq_zero_iff (v : Vec2 K) : v = ⟨0, 0⟩ ↔ v.x = 0 ∧ v.y = 0 := by
  constructor
  · rintro rfl; exact ⟨rfl, rfl⟩
  · rintro ⟨h1, h2⟩; ext <;> assumption

theorem sub_eq_zero_iff (a b : Vec2 K) : a - b = ⟨0, 0⟩ ↔ a = b := by
  rw [eq_zero_iff]
  simp only [sub_x, sub_y, sub_eq_zero]
  constructor
  · rintro ⟨h1, h2⟩; ext <;> assumption
  · rintro rfl; exact ⟨rfl, rfl⟩

end Vec2

/-- A point strictly on the far side of a line from a set is not in the convex
hull of the set. -/
theorem not_mem_convexHull_of_sep {F : Type} [LinearOrderedField F] (s : Set (F × F))
    (α β c : F) (p : F × F) (hs : ∀ q ∈ s, α * q.1 + β * q.2 ≤ c)
    (hp : c < α * p.1 + β * p.2) : p ∉ convexHull F s := by
  intro hmem
  have hconv : Convex F {v : F × F | α * v.1 + β * v.2 ≤ c} := by
    intro x hx y hy a b ha hb hab
    simp only [Set.mem_setOf_eq, Prod.fst_add, Prod.smul_fst, smul_eq_mul, Prod.snd_add,
      Prod.smul_snd] at hx hy ⊢
    have h1 := mul_le_mul_of_nonneg_left hx ha
    have h2 := mul_le_mul_of_nonneg_left hy hb
    have h3 : a * c + b * c = c := by rw [← add_mul, hab, one_mul]
    nlinarith
  have hsub : s ⊆ {v : F × F | α * v.1 + β * v.2 ≤ c} := fun q hq => hs q hq
  have hle : α * p.1 + β * p.2 ≤ c := convexHull_min hsub hconv hmem
  linarith

namespace Hull

open Vec2

variable {K : Type} [LinearOrderedCommRing K]

theorem fwd_cross_trans (u v w : Vec2 K) (hu : fwd u) (hv : fwd v) (hw : fwd w)
    (hv0 : v ≠ ⟨0, 0⟩) (h1 : 0 ≤ Cross u v) (h2 : 0 ≤ Cross v w) : 0 ≤ Cross u w := by
  have hux : 0 ≤ u.x := by rcases hu with h | ⟨h, _⟩ <;> [exact h.le; exact h.ge]
  have hwx : 0 ≤ w.x := by rcases hw with h | ⟨h, _⟩ <;> [exact h.le; exact h.ge]
  rcases hv with hvx | ⟨hvx, hvy⟩
  · have key : v.x * Cross u w = u.x * Cross v w + w.x * Cross u v := by
      simp only [Cross]; ring
    have hnn : 0 ≤ v.x * Cross u w := by
      rw [key]; exact add_nonneg (mul_nonneg hux h2) (mul_nonneg hwx h1)
    exact le_of_mul_le_mul_left (by simpa using hnn) hvx
  · have hvy' : 0 < v.y := by
      rcases hvy.lt_or_eq with h | h
      · exact h
      · exact absurd ((eq_zero_iff v).2 ⟨hvx, h.symm⟩) hv0
    have h2' : 0 ≤ - (v.y * w.x) := by
      have := h2; simp only [Cross, hvx] at this; linarith
    have hwx0 : w.x = 0 := by
      have : v.y * w.x ≤ 0 := by linarith
      have : w.x ≤ 0 := by
        by_contra hc; push_neg at hc
        have := mul_pos hvy' hc; linarith
      exact le_antisymm this hwx
    have hwy : 0 ≤ w.y := by
      rcases hw with h | ⟨_, h⟩
      · exact absurd hwx0 h.ne'
      · exact h
    simp only [Cross, hwx0]
    have := mul_nonneg hux hwy
    linarith

theorem fwd_isDir : IsDir (fwd : Vec2 K → Prop) where
  total a b := by
    simp only [fwd, sub_x, sub_y, sub_pos, sub_eq_zero, sub_nonneg]
    rcases lt_trichotomy a.x b.x with h | h | h
    · exact Or.inl (Or.inl h)
    · rcases le_total a.y b.y with h' | h'
      · exact Or.inl (Or.inr ⟨h.symm, h'⟩)
      · exact Or.inr (Or.inr ⟨h, h'⟩)
    · exact Or.inr (Or.inl h)
  antisymm a b h1 h2 := by
    simp only [fwd, sub_x, sub_y, sub_pos, sub_eq_zero, sub_nonneg] at h1 h2
    rcases h1 with h1 | ⟨h1, h1'⟩ <;> rcases h2 with h2 | ⟨h2, h2'⟩
    · exact absurd h1 (lt_asymm h2)
    · exact absurd h2 h1.ne
    · exact absurd h1 h2.ne
    · ext
      · exact h2
      · exact le_antisymm h1' h2'
  trans a b c h1 h2 := by
    simp only [fwd, sub_x, sub_y, sub_pos, sub_eq_zero, sub_nonneg] at h1 h2 ⊢
    rcases h1 with h1 | ⟨h1, h1'⟩ <;> rcases h2 with h2 | ⟨h2, h2'⟩
    · exact Or.inl (h1.trans h2)
    · exact Or.inl (h2 ▸ h1)
    · exact Or.inl (h1 ▸ h2)
    · exact Or.inr ⟨h2.trans h1, h1'.trans h2'⟩
  cross_trans := fwd_cross_trans

theorem bwd_iff_fwd (v : Vec2 K) : bwd v ↔ fwd (⟨0, 0⟩ - v) := by
  simp only [bwd, fwd, sub_x, sub_y, zero_sub, neg_pos, neg_eq_zero, neg_nonneg]

theorem bwd_sub_iff (a b : Vec2 K) : bwd (b - a) ↔ fwd (a - b) := by
  simp only [bwd, fwd, sub_x, sub_y, sub_neg, sub_pos, sub_eq_zero, sub_nonpos, sub_nonneg]
  constructor
  · rintro (h | ⟨h, h'⟩)
    · exact Or.inl h
    · exact Or.inr ⟨h.symm, h'⟩
  · rintro (h | ⟨h, h'⟩)
    · exact Or.inl h
    · exact Or.inr ⟨h.symm, h'⟩

theorem bwd_isDir : IsDir (bwd : Vec2 K → Prop) where
  total a b := by
    rw [bwd_sub_iff, bwd_sub_iff]; exact fwd_isDir.total b a
  antisymm a b h1 h2 := by
    rw [bwd_sub_iff] at h1 h2; exact fwd_isDir.antisymm a b h2 h1
  trans a b c h1 h2 := by
    rw [bwd_sub_iff] at h1 h2 ⊢; exact fwd_isDir.trans c b a h2 h1
  cross_trans u v w hu hv hw hv0 h1 h2 := by
    rw [bwd_iff_fwd] at hu hv hw
    have hv0' : (⟨0, 0⟩ - v : Vec2 K) ≠ ⟨0, 0⟩ := by
      intro h; apply hv0
      rw [eq_zero_iff] at h ⊢
      simpa using h
    have e1 : Cross (⟨0, 0⟩ - u) (⟨0, 0⟩ - v) = Cross u v := by
      simp only [Cross, sub_x, sub_y]; ring
    have e2 : Cross (⟨0, 0⟩ - v) (⟨0, 0⟩ - w) = Cross v w := by
      simp only [Cross, sub_x, sub_y]; ring
    have e3 : Cross (⟨0, 0⟩ - u) (⟨0, 0⟩ - w) = Cross u w := by
      simp only [Cross, sub_x, sub_y]; ring
    rw [← e3]
    exact fwd_cross_trans _ _ _ hu hv hw hv0' (e1 ▸ h1) (e2 ▸ h2)

/-! ## The inner loop -/

theorem popWhile_cons_cons (q b a : Vec2 K) (rest : List (Vec2 K)) :
    popWhile q (b :: a :: rest) =
      if Cross (b - a) (q - a) ≤ 0 then popWhile q (a :: rest) else b :: a :: rest := by
  rw [popWhile]

theorem popWhile_single (q b : Vec2 K) : popWhile q [b] = [b] := by
  rw [popWhile]
  intro b a rest h; simp at h

theorem popWhile_nil (q : Vec2 K) : popWhile q [] = [] := by
  rw [popWhile]
  intro b a rest h; simp at h

/-- Induction along the pops of the inner loop. -/
theorem popWhile_induction (q : Vec2 K) (motive : List (Vec2 K) → Prop)
    (hnil : motive []) (hone : ∀ b, motive [b])
    (hpop : ∀ b a rest, Cross (b - a) (q - a) ≤ 0 → motive (a :: rest) →
      motive (b :: a :: rest))
    (hstop : ∀ b a rest, 0 < Cross (b - a) (q - a) → motive (b :: a :: rest)) :
    ∀ st, motive st := by
  intro st
  induction st with
  | nil => exact hnil
  | cons b t ih =>
    cases t with
    | nil => exact hone b
    | cons a rest =>
      by_cases h : Cross (b - a) (q - a) ≤ 0
      · exact hpop b a rest h ih
      · exact hstop b a rest (not_le.1 h)

theorem popWhile_suffix (q : Vec2 K) (st : List (Vec2 K)) : popWhile q st <:+ st := by
  refine popWhile_induction q (fun st => popWhile q st <:+ st) ?_ ?_ ?_ ?_ st
  · beta_reduce; rw [popWhile_nil]
  · intro b; rw [popWhile_single]
  · intro b a rest h ih
    rw [popWhile_cons_cons, if_pos h]
    exact ih.trans (List.suffix_cons b _)
  · intro b a rest h
    rw [popWhile_cons_cons, if_neg (not_le.2 h)]

theorem popWhile_ne_nil (q : Vec2 K) (st : List (Vec2 K)) (h : st ≠ []) :
    popWhile q st ≠ [] := by
  revert h
  refine popWhile_induction q (fun st => st ≠ [] → popWhile q st ≠ []) ?_ ?_ ?_ ?_ st
  · intro h; exact absurd rfl h
  · intro b _; rw [popWhile_single]; simp
  · intro b a rest h ih _
    rw [popWhile_cons_cons, if_pos h]
    exact ih (by simp)
  · intro b a rest h _
    rw [popWhile_cons_cons, if_neg (not_le.2 h)]; simp

/-- When the inner loop stops on a chain of two or more points, the new point
makes a strict left turn with the last two. -/
theorem popWhile_exit (q : Vec2 K) (st : List (Vec2 K)) :
    ∀ b a rest, popWhile q st = b :: a :: rest → 0 < Cross (b - a) (q - a) := by
  refine popWhile_induction q
    (fun st => ∀ b a rest, popWhile q st = b :: a :: rest → 0 < Cross (b - a) (q - a))
    ?_ ?_ ?_ ?_ st
  · intro b a rest h; rw [popWhile_nil] at h; simp at h
  · intro c b a rest h; rw [popWhile_single] at h; simp at h
  · intro b a rest h ih b' a' rest' h'
    rw [popWhile_cons_cons, if_pos h] at h'
    exact ih b' a' rest' h'
  · intro b a rest h b' a' rest' h'
    rw [popWhile_cons_cons, if_neg (not_le.2 h)] at h'
    simp only [List.cons.injEq] at h'
    obtain ⟨rfl, rfl, _⟩ := h'
    exact h

theorem popWhile_getLast? (q : Vec2 K) (st : List (Vec2 K)) :
    (popWhile q st).getLast? = st.getLast? := by
  refine popWhile_induction q (fun st => (popWhile q st).getLast? = st.getLast?) ?_ ?_ ?_ ?_ st
  · beta_reduce; rw [popWhile_nil]
  · intro b; rw [popWhile_single]
  · intro b a rest h ih
    rw [popWhile_cons_cons, if_pos h, ih]
    simp [List.getLast?_cons_cons]
  · intro b a rest h
    rw [popWhile_cons_cons, if_neg (not_le.2 h)]

/-! ## Chain predicates -/

theorem turns_cons3 (c b a : Vec2 K) (rest : List (Vec2 K)) :
    Turns (c :: b :: a :: rest) ↔ 0 < Cross (b - a) (c - a) ∧ Turns (b :: a :: rest) := by
  rw [Turns]

theorem turns_tail (b : Vec2 K) (t : List (Vec2 K)) (h : Turns (b :: t)) : Turns t := by
  match t, h with
  | [], _ => simp [Turns]
  | [a], _ => simp [Turns]
  | a :: a' :: rest, h => exact ((turns_cons3 b a a' rest).1 h).2

theorem turns_suffix {st st' : List (Vec2 K)} (h : Turns st) (hs : st' <:+ st) : Turns st' := by
  induction st with
  | nil =>
    have : st' = [] := List.suffix_nil.1 hs
    subst this; exact h
  | cons b t ih =>
    rcases List.suffix_cons_iff.1 hs with rfl | h'
    · exact h
    · exact ih (turns_tail b t h) h'

theorem covers_suffix {st st' : List (Vec2 K)} {p : Vec2 K} (h : Covers st p)
    (hs : st' <:+ st) : Covers st' p :=
  List.Chain'.suffix h hs

theorem covers_head {b a p : Vec2 K} {rest : List (Vec2 K)}
    (h : Covers (b :: a :: rest) p) : 0 ≤ Cross (b - a) (p - a) := by
  unfold Covers at h
  exact (List.chain'_cons.1 h).1

/-- A point that comes after the chain and is on or left of its last edge is
on or left of all of its edges. -/
theorem covers_new {H : Vec2 K → Prop} (hH : IsDir H) (q : Vec2 K) :
    ∀ st : List (Vec2 K), Turns st → List.Chain' (fun b a => H (b - a)) st →
      (∀ c ∈ st, H (q - c)) →
      (∀ b a rest, st = b :: a :: rest → 0 ≤ Cross (b - a) (q - a)) → Covers st q := by
  intro st
  induction st with
  | nil => intro _ _ _ _; exact List.chain'_nil
  | cons b t ih =>
    intro hT hS hq htop
    cases t with
    | nil => exact List.chain'_singleton b
    | cons a rest =>
      have h0 : 0 ≤ Cross (b - a) (q - a) := htop b a rest rfl
      refine List.Chain'.cons h0 ?_
      cases rest with
      | nil => exact List.chain'_singleton a
      | cons a2 rest2 =>
        refine ih (turns_tail b _ hT) (List.Chain'.tail hS)
          (fun c hc => hq c (List.mem_cons_of_mem _ hc)) ?_
        intro a1 a3 rest3 heq
        simp only [List.cons.injEq] at heq
        obtain ⟨h1, h2, _⟩ := heq
        subst h1 h2
        -- edge (a2, a) below the top edge (a, b)
        have hturn : 0 < Cross (a - a2) (b - a2) := ((turns_cons3 b a a2 rest2).1 hT).1
        have hS1 : H (b - a) := List.Chain'.rel_head hS
        have hS2 : H (a - a2) := List.Chain'.rel_head (List.Chain'.tail hS)
        have hqa : H (q - a) := hq a (by simp)
        have hne : b - a ≠ ⟨0, 0⟩ := by
          intro h
          rw [sub_eq_zero_iff] at h
          subst h
          rw [Vec2.cross_self] at hturn
          exact lt_irrefl _ hturn
        have h1 : 0 ≤ Cross (a - a2) (b - a) := by
          rw [← cross_shift]; exact hturn.le
        have := hH.cross_trans (a - a2) (b - a) (q - a) hS2 hS1 hqa hne h1 h0
        rw [cross_shift]; exact this

/-- Invariant of the inner loop: the points seen so far that come after the
current back of the chain are on or left of the segment from that back to the
new point `q`. -/
theorem popWhile_after {H : Vec2 K → Prop} (hH : IsDir H) (seen : List (Vec2 K))
    (q : Vec2 K) :
    ∀ st : List (Vec2 K), (∀ p ∈ seen, Covers st p) →
      List.Chain' (fun b a => H (b - a)) st → (∀ c ∈ st, H (q - c)) →
      (∀ p ∈ seen, ∀ b ∈ st.head?, H (p - b) → 0 ≤ Cross (q - b) (p - b)) →
      ∀ p ∈ seen, ∀ b ∈ (popWhile q st).head?, H (p - b) → 0 ≤ Cross (q - b) (p - b) := by
  refine popWhile_induction q _ ?_ ?_ ?_ ?_
  · intro _ _ _ hJ; rw [popWhile_nil]; exact hJ
  · intro b _ _ _ hJ; rw [popWhile_single]; exact hJ
  · intro b a rest hpop ih hcov hS hq hJ
    rw [popWhile_cons_cons, if_pos hpop]
    refine ih (fun p hp => List.Chain'.tail (hcov p hp)) (List.Chain'.tail hS)
      (fun c hc => hq c (List.mem_cons_of_mem _ hc)) ?_
    intro p hp a1 ha1 hpa
    simp only [List.head?_cons, Option.mem_def, Option.some.injEq] at ha1
    subst ha1
    by_cases hba : b = a
    · subst hba
      exact hJ p hp b (by simp) hpa
    · have hne : b - a ≠ ⟨0, 0⟩ := fun h => hba ((sub_eq_zero_iff b a).1 h)
      have h1 : 0 ≤ Cross (q - a) (b - a) := by
        rw [cross_swap]; linarith
      have h2 : 0 ≤ Cross (b - a) (p - a) := covers_head (hcov p hp)
      exact hH.cross_trans (q - a) (b - a) (p - a) (hq a (by simp))
        (List.Chain'.rel_head hS) hpa hne h1 h2
  · intro b a rest hstop _ _ _ hJ
    rw [popWhile_cons_cons, if_neg (not_le.2 hstop)]; exact hJ

/-- After the inner loop every point seen so far is on or left of the new edge
from the back of the chain to the new point `q`. -/
theorem popWhile_newEdge {H : Vec2 K → Prop} (hH : IsDir H) (seen : List (Vec2 K))
    (q : Vec2 K) (st : List (Vec2 K)) (hcov : ∀ p ∈ seen, Covers st p)
    (hS : List.Chain' (fun b a => H (b - a)) st) (hq : ∀ c ∈ st, H (q - c))
    (htop : ∀ p ∈ seen, ∀ b ∈ st.head?, H (b - p))
    (hbot : ∀ p ∈ seen, ∀ c ∈ st.getLast?, H (p - c)) :
    ∀ p ∈ seen, ∀ b ∈ (popWhile q st).head?, 0 ≤ Cross (q - b) (p - b) := by
  have hJ0 : ∀ p ∈ seen, ∀ b ∈ st.head?, H (p - b) → 0 ≤ Cross (q - b) (p - b) := by
    intro p hp b hb hpb
    have : b = p := hH.antisymm b p hpb (htop p hp b hb)
    subst this
    have : Cross (q - b) (b - b) = 0 := by simp only [Cross, sub_x, sub_y]; ring
    rw [this]
  have hJ := popWhile_after hH seen q st hcov hS hq hJ0
  have hsuf := popWhile_suffix q st
  have hlast := popWhile_getLast? q st
  have hexit := popWhile_exit q st
  intro p hp b hb
  rcases hst : popWhile q st with _ | ⟨b1, _ | ⟨a, rest⟩⟩
  · rw [hst] at hb; simp at hb
  · rw [hst] at hb hlast
    simp only [List.head?_cons, Option.mem_def, Option.some.injEq] at hb
    subst hb
    exact hJ p hp b1 (by rw [hst]; simp) (hbot p hp b1 (by rw [← hlast]; simp))
  · rw [hst] at hb hsuf
    simp only [List.head?_cons, Option.mem_def, Option.some.injEq] at hb
    subst hb
    rcases hH.total b1 p with hpb | hbp
    · exact hJ p hp b1 (by rw [hst]; simp) hpb
    · have hx : 0 < Cross (b1 - a) (q - a) := hexit b1 a rest hst
      have hSab : H (b1 - a) := List.Chain'.rel_head (List.Chain'.suffix hS hsuf)
      have hc : 0 ≤ Cross (b1 - a) (p - a) :=
        covers_head (covers_suffix (hcov p hp) hsuf)
      have hne : b1 - a ≠ ⟨0, 0⟩ := by
        intro h
        have : Cross (b1 - a) (q - a) = 0 := by rw [h]; simp [Cross]
        rw [this] at hx; exact lt_irrefl _ hx
      have h1 : 0 ≤ Cross (b1 - p) (b1 - a) := by
        have : Cross (b1 - p) (b1 - a) = Cross (b1 - a) (p - a) := by
          simp only [Cross, sub_x, sub_y]; ring
        rw [this]; exact hc
      have h2 : 0 ≤ Cross (b1 - a) (q - b1) := by
        rw [← cross_shift]; exact hx.le
      have := hH.cross_trans (b1 - p) (b1 - a) (q - b1) hbp hSab
        (hq b1 (hsuf.subset (by simp))) hne h1 h2
      have e : Cross (q - b1) (p - b1) = Cross (b1 - p) (q - b1) := by
        simp only [Cross, sub_x, sub_y]; ring
      rw [e]; exact this

/-! ## The outer loop -/

theorem chain_nil : chain ([] : List (Vec2 K)) = [] := rfl

theorem chain_append_singleton (l : List (Vec2 K)) (q : Vec2 K) :
    chain (l ++ [q]) = q :: popWhile q (chain l) := by
  simp [chain, List.foldl_append]

theorem chainInv_sorted {H : Vec2 K → Prop} {seen st : List (Vec2 K)}
    (hinv : ChainInv H seen st) (hs : seen.Pairwise (fun a b => H (b - a))) :
    List.Chain' (fun b a => H (b - a)) st := by
  have h1 : st.reverse.Pairwise (fun a b => H (b - a)) := hs.sublist hinv.sub
  have h2 := List.Pairwise.chain' h1
  rw [List.chain'_reverse] at h2
  exact h2

/-- The scan keeps the chain invariant on input sorted along `H`. -/
theorem chain_inv {H : Vec2 K → Prop} (hH : IsDir H) (seen : List (Vec2 K))
    (hs : seen.Pairwise (fun a b => H (b - a))) : ChainInv H seen (chain seen) := by
  induction seen using List.reverseRecOn with
  | nil =>
    exact ⟨by simp [chain_nil], rfl, rfl, by simp [chain_nil, Turns],
      fun _ h => by simp at h, fun h => by simp at h⟩
  | append_singleton l q ih =>
    have hsl : l.Pairwise (fun a b => H (b - a)) := (List.pairwise_append.1 hs).1
    have hlq : ∀ p ∈ l, H (q - p) := fun p hp =>
      (List.pairwise_append.1 hs).2.2 p hp q (by simp)
    have inv := ih hsl
    have hS := chainInv_sorted inv hsl
    have hmem : ∀ c ∈ chain l, c ∈ l := fun c hc =>
      inv.sub.subset (List.mem_reverse.2 hc)
    have hq : ∀ c ∈ chain l, H (q - c) := fun c hc => hlq c (hmem c hc)
    have hsuf := popWhile_suffix q (chain l)
    rw [chain_append_singleton]
    have hrefl : ∀ a : Vec2 K, H (a - a) := fun a => by
      rcases hH.total a a with h | h <;> exact h
    have htop : ∀ p ∈ l, ∀ b ∈ (chain l).head?, H (b - p) := by
      intro p hp b hb
      rw [inv.top] at hb
      have hb' : b = l.getLast (List.ne_nil_of_mem hp) := by
        rw [List.getLast?_eq_getLast _ (List.ne_nil_of_mem hp)] at hb
        simpa using hb.symm
      obtain ⟨l', hl'⟩ : ∃ l', l = l' ++ [b] := by
        refine ⟨l.dropLast, ?_⟩
        rw [hb']; exact (List.dropLast_append_getLast _).symm
      rw [hl'] at hsl hp
      rcases List.mem_append.1 hp with h | h
      · exact (List.pairwise_append.1 hsl).2.2 p h b (by simp)
      · simp only [List.mem_singleton] at h; subst h; exact hrefl p
    have hbot : ∀ p ∈ l, ∀ c ∈ (chain l).getLast?, H (p - c) := by
      intro p hp c hc
      rw [inv.bot] at hc
      cases l with
      | nil => simp at hp
      | cons a t =>
        simp only [List.head?_cons, Option.mem_def, Option.some.injEq] at hc
        subst hc
        rcases List.mem_cons.1 hp with h | h
        · subst h; exact hrefl p
        · exact List.rel_of_pairwise_cons hsl h
    have hnew := popWhile_newEdge hH l q (chain l) inv.covers hS hq htop hbot
    have hT' : Turns (popWhile q (chain l)) := turns_suffix inv.turns hsuf
    refine ⟨?_, by simp, ?_, ?_, ?_, ?_⟩
    · rw [List.reverse_cons]
      refine List.Sublist.append ?_ (List.Sublist.refl _)
      exact (List.reverse_sublist.2 hsuf.sublist).trans inv.sub
    · cases l with
      | nil => simp [chain_nil, popWhile_nil]
      | cons a t =>
        have hne : chain (a :: t) ≠ [] := by
          intro h
          have := inv.top; rw [h] at this
          simp at this
          have := List.getLast?_eq_none_iff.1 this.symm
          simp at this
        have hne' := popWhile_ne_nil q _ hne
        have hl := popWhile_getLast? q (chain (a :: t))
        rcases hst : popWhile q (chain (a :: t)) with _ | ⟨b, t'⟩
        · exact absurd hst hne'
        · rw [List.getLast?_cons_cons, ← hst, hl, inv.bot]
          simp
    · rcases hst : popWhile q (chain l) with _ | ⟨b, _ | ⟨a, rest⟩⟩
      · simp [Turns]
      · simp [Turns]
      · rw [turns_cons3]
        exact ⟨popWhile_exit q _ b a rest hst, hst ▸ hT'⟩
    · intro p hp
      have hold : Covers (popWhile q (chain l)) p := by
        rcases List.mem_append.1 hp with h | h
        · exact covers_suffix (inv.covers p h) hsuf
        · simp only [List.mem_singleton] at h
          subst h
          refine covers_new hH p _ hT' (List.Chain'.suffix hS hsuf)
            (fun c hc => hq c (hsuf.subset hc)) ?_
          intro b a rest hst
          exact (popWhile_exit p _ b a rest hst).le
      rcases hst : popWhile q (chain l) with _ | ⟨b, t⟩
      · exact List.chain'_singleton q
      · rw [hst] at hold
        refine List.Chain'.cons ?_ hold
        rcases List.mem_append.1 hp with h | h
        · exact hnew p h b (by rw [hst]; simp)
        · simp only [List.mem_singleton] at h
          subst h
          rw [Vec2.cross_self]
    · intro hlen
      cases l with
      | nil => simp at hlen
      | cons a t =>
        have hne : chain (a :: t) ≠ [] := by
          intro h
          have := inv.top; rw [h] at this
          simp at this
          have := List.getLast?_eq_none_iff.1 this.symm
          simp at this
        have hne' := popWhile_ne_nil q _ hne
        rcases hst : popWhile q (chain (a :: t)) with _ | ⟨b, t'⟩
        · exact absurd hst hne'
        · simp

/-! ## Sorting -/

theorem not_lt_iff_fwd (a b : Vec2 K) : ¬ Vec2.lt b a ↔ fwd (b - a) := by
  simp only [Vec2.lt, fwd, sub_x, sub_y, sub_pos, sub_eq_zero, sub_nonneg, not_or, not_lt,
    not_and]
  constructor
  · rintro ⟨h1, h2⟩
    rcases h1.lt_or_eq with h | h
    · exact Or.inl h
    · exact Or.inr ⟨h.symm, h2 h.symm⟩
  · rintro (h | ⟨h, h'⟩)
    · exact ⟨h.le, fun e => absurd e h.ne'⟩
    · exact ⟨h.ge, fun _ => h'⟩

theorem sortRel_total : IsTotal (Vec2 K) (fun a b => ¬ Vec2.lt b a) :=
  ⟨fun a b => by
    simp only [not_lt_iff_fwd]; exact fwd_isDir.total a b⟩

theorem sortRel_trans : IsTrans (Vec2 K) (fun a b => ¬ Vec2.lt b a) :=
  ⟨fun a b c h1 h2 => by
    simp only [not_lt_iff_fwd] at h1 h2 ⊢; exact fwd_isDir.trans a b c h1 h2⟩

theorem sort_perm (P : List (Vec2 K)) : (sort P).Perm P :=
  List.perm_insertionSort _ P

theorem sort_sorted (P : List (Vec2 K)) : (sort P).Pairwise (fun a b => fwd (b - a)) := by
  haveI := @sortRel_total K _
  haveI := @sortRel_trans K _
  have h := List.sorted_insertionSort (fun a b : Vec2 K => ¬ Vec2.lt b a) P
  exact List.Pairwise.imp (fun {a b} hab => (not_lt_iff_fwd a b).1 hab) h

theorem sort_reverse_sorted (P : List (Vec2 K)) :
    (sort P).reverse.Pairwise (fun a b => bwd (b - a)) := by
  rw [List.pairwise_reverse]
  exact List.Pairwise.imp (fun {a b} hab => (bwd_sub_iff b a).2 hab) (sort_sorted P)

theorem sort_ne_nil {P : List (Vec2 K)} (h : P ≠ []) : sort P ≠ [] := by
  intro h'
  have := (sort_perm P).length_eq
  rw [h'] at this
  exact h (List.length_eq_zero.1 this.symm)

theorem mem_sort {P : List (Vec2 K)} {p : Vec2 K} : p ∈ sort P ↔ p ∈ P :=
  (sort_perm P).mem_iff

/-! ## Anatomy of the hull -/

theorem Convex_eq {P : List (Vec2 K)} (h : P ≠ []) :
    Hull.Convex P = some ((lowerChain P).dropLast ++ (upperChain P).dropLast) := by
  cases P with
  | nil => exact absurd rfl h
  | cons a t => simp [Hull.Convex, lowerChain, upperChain, List.dropLast_reverse]

theorem lower_inv (P : List (Vec2 K)) : ChainInv fwd (sort P) (chain (sort P)) :=
  chain_inv fwd_isDir _ (sort_sorted P)

theorem upper_inv (P : List (Vec2 K)) :
    ChainInv bwd (sort P).reverse (chain (sort P).reverse) :=
  chain_inv bwd_isDir _ (sort_reverse_sorted P)

theorem mem_lowerChain {P : List (Vec2 K)} {p : Vec2 K} (h : p ∈ lowerChain P) : p ∈ P :=
  mem_sort.1 ((lower_inv P).sub.subset h)

theorem mem_upperChain {P : List (Vec2 K)} {p : Vec2 K} (h : p ∈ upperChain P) : p ∈ P :=
  mem_sort.1 (List.mem_reverse.1 ((upper_inv P).sub.subset h))

theorem lowerChain_head? (P : List (Vec2 K)) : (lowerChain P).head? = (sort P).head? := by
  rw [lowerChain, List.head?_reverse, (lower_inv P).bot]

theorem lowerChain_getLast? (P : List (Vec2 K)) :
    (lowerChain P).getLast? = (sort P).getLast? := by
  rw [lowerChain, List.getLast?_reverse, (lower_inv P).top]

theorem upperChain_head? (P : List (Vec2 K)) : (upperChain P).head? = (sort P).getLast? := by
  rw [upperChain, List.head?_reverse, (upper_inv P).bot, List.head?_reverse]

theorem upperChain_getLast? (P : List (Vec2 K)) :
    (upperChain P).getLast? = (sort P).head? := by
  rw [upperChain, List.getLast?_reverse, (upper_inv P).top, List.getLast?_reverse]

theorem length_sort (P : List (Vec2 K)) : (sort P).length = P.length :=
  (sort_perm P).length_eq

theorem lowerChain_length {P : List (Vec2 K)} (h : 2 ≤ P.length) :
    2 ≤ (lowerChain P).length := by
  rw [lowerChain, List.length_reverse]
  exact (lower_inv P).len (by rw [length_sort]; exact h)

theorem upperChain_length {P : List (Vec2 K)} (h : 2 ≤ P.length) :
    2 ≤ (upperChain P).length := by
  rw [upperChain, List.length_reverse]
  exact (upper_inv P).len (by rw [List.length_reverse, length_sort]; exact h)

theorem chain_length_le (seen : List (Vec2 K)) : (chain seen).length ≤ seen.length := by
  induction seen using List.reverseRecOn with
  | nil => simp [chain_nil]
  | append_singleton l q ih =>
    rw [chain_append_singleton]
    have := (popWhile_suffix q (chain l)).length_le
    simp only [List.length_cons, List.length_append, List.length_singleton]
    omega

theorem chain_ne_nil {seen : List (Vec2 K)} (h : seen ≠ []) : chain seen ≠ [] := by
  induction seen using List.reverseRecOn with
  | nil => exact absurd rfl h
  | append_singleton l q _ => rw [chain_append_singleton]; simp

/-- On a single point both chains hold that point only, and the hull is empty. -/
theorem chains_single (a : Vec2 K) :
    lowerChain [a] = [a] ∧ upperChain [a] = [a] := by
  simp [lowerChain, upperChain, sort, chain, popWhile_nil]

theorem chain'_forall_mem {α β : Type} (R : β → α → α → Prop) (P : List β) :
    ∀ l : List α, (∀ p ∈ P, List.Chain' (R p) l) →
      List.Chain' (fun a b => ∀ p ∈ P, R p a b) l
  | [], _ => List.chain'_nil
  | [a], _ => List.chain'_singleton a
  | _ :: b :: l, h =>
    List.Chain'.cons (fun p hp => List.Chain'.rel_head (h p hp))
      (chain'_forall_mem R P (b :: l) (fun p hp => List.Chain'.tail (h p hp)))

/-- Every edge of the lower chain has all input points on its left or on it. -/
theorem lowerChain_covers (P : List (Vec2 K)) :
    List.Chain' (fun a b => ∀ p ∈ P, 0 ≤ Cross (b - a) (p - a)) (lowerChain P) := by
  rw [lowerChain, List.chain'_reverse]
  exact chain'_forall_mem (fun p b a => 0 ≤ Cross (b - a) (p - a)) P _
    (fun p hp => (lower_inv P).covers p (mem_sort.2 hp))

/-- Every edge of the upper chain has all input points on its left or on it. -/
theorem upperChain_covers (P : List (Vec2 K)) :
    List.Chain' (fun a b => ∀ p ∈ P, 0 ≤ Cross (b - a) (p - a)) (upperChain P) := by
  rw [upperChain, List.chain'_reverse]
  exact chain'_forall_mem (fun p b a => 0 ≤ Cross (b - a) (p - a)) P _
    (fun p hp => (upper_inv P).covers p (List.mem_reverse.2 (mem_sort.2 hp)))

/-! ## Indexing the closed loop -/

theorem chain'_getElem? {α : Type} {R : α → α → Prop} :
    ∀ {l : List α}, List.Chain' R l → ∀ (i : ℕ) (a b : α),
      l[i]? = some a → l[i + 1]? = some b → R a b
  | [], _, i, a, b, h, _ => by simp at h
  | [x], _, i, a, b, _, h => by simp at h
  | x :: y :: l, hc, 0, a, b, ha, hb => by
    simp only [List.getElem?_cons_zero, Option.some.injEq, zero_add,
      List.getElem?_cons_succ] at ha hb
    subst ha hb
    exact List.Chain'.rel_head hc
  | x :: y :: l, hc, i + 1, a, b, ha, hb => by
    rw [List.getElem?_cons_succ] at ha hb
    exact @chain'_getElem? α R (y :: l) (List.Chain'.tail hc) i a b ha hb

/-- Points `0 .. |L|-1` of the loop `L.dropLast ++ U.dropLast`, read cyclically,
are the points of `L` (the back of `L` is the front of `U`). -/
theorem loop_index_lower {α : Type} (L U : List α) (hL : 2 ≤ L.length) (hU : 2 ≤ U.length)
    (h1 : L.getLast? = U.head?) (j : ℕ) (hj : j ≤ L.length - 1) :
    (L.dropLast ++ U.dropLast)[j % (L.dropLast ++ U.dropLast).length]? = L[j]? := by
  have hn : (L.dropLast ++ U.dropLast).length = (L.length - 1) + (U.length - 1) := by
    simp
  rw [hn, Nat.mod_eq_of_lt (by omega)]
  by_cases hlt : j < L.length - 1
  · rw [List.getElem?_append_left (by simpa using hlt), List.getElem?_dropLast, if_pos hlt]
  · have hj' : j = L.length - 1 := by omega
    rw [List.getElem?_append_right (by simp; omega), List.getElem?_dropLast]
    simp only [List.length_dropLast]
    rw [hj', Nat.sub_self, if_pos (by omega), ← List.head?_eq_getElem?, ← h1,
      List.getLast?_eq_getElem?]

/-- Points `|L|-1 .. |L|+|U|-2` of the loop, read cyclically, are the points of
`U` (the back of `U` is the front of `L`). -/
theorem loop_index_upper {α : Type} (L U : List α) (hL : 2 ≤ L.length)
    (h2 : U.getLast? = L.head?) (j : ℕ) (hj : j ≤ U.length - 1) :
    (L.dropLast ++ U.dropLast)[(L.length - 1 + j) % (L.dropLast ++ U.dropLast).length]? =
      U[j]? := by
  have hn : (L.dropLast ++ U.dropLast).length = (L.length - 1) + (U.length - 1) := by
    simp
  rw [hn]
  by_cases hlt : j < U.length - 1
  · rw [Nat.mod_eq_of_lt (by omega), List.getElem?_append_right (by simp),
      List.getElem?_dropLast]
    simp only [List.length_dropLast, Nat.add_sub_cancel_left]
    rw [if_pos hlt]
  · have hj' : j = U.length - 1 := by omega
    rw [hj', Nat.mod_self, List.getElem?_append_left (by simp; omega), List.getElem?_dropLast,
      if_pos (by omega), ← List.head?_eq_getElem?, ← h2, List.getLast?_eq_getElem?]

/-- Each pair of cyclically consecutive loop points is an edge of `L` or of `U`. -/
theorem loop_pair {α : Type} (L U : List α) (hL : 2 ≤ L.length) (hU : 2 ≤ U.length)
    (h1 : L.getLast? = U.head?) (h2 : U.getLast? = L.head?) (i : ℕ) (a b : α)
    (ha : (L.dropLast ++ U.dropLast)[i]? = some a)
    (hb : (L.dropLast ++ U.dropLast)[(i + 1) % (L.dropLast ++ U.dropLast).length]? = some b) :
    (∃ j, L[j]? = some a ∧ L[j + 1]? = some b) ∨
      (∃ j, U[j]? = some a ∧ U[j + 1]? = some b) := by
  have hn : (L.dropLast ++ U.dropLast).length = (L.length - 1) + (U.length - 1) := by
    simp
  have hi : i < (L.dropLast ++ U.dropLast).length := by
    rcases List.getElem?_eq_some.1 ha with ⟨h, _⟩; exact h
  have hmod : i % (L.dropLast ++ U.dropLast).length = i := Nat.mod_eq_of_lt hi
  by_cases hlt : i < L.length - 1
  · left
    refine ⟨i, ?_, ?_⟩
    · rw [← loop_index_lower L U hL hU h1 i (by omega), hmod]; exact ha
    · rw [← loop_index_lower L U hL hU h1 (i + 1) (by omega)]; exact hb
  · right
    refine ⟨i - (L.length - 1), ?_, ?_⟩
    · rw [← loop_index_upper L U hL h2 (i - (L.length - 1)) (by omega)]
      rw [show L.length - 1 + (i - (L.length - 1)) = i by omega, hmod]; exact ha
    · rw [← loop_index_upper L U hL h2 (i - (L.length - 1) + 1) (by omega)]
      rw [show L.length - 1 + (i - (L.length - 1) + 1) = i + 1 by omega]; exact hb

theorem chains_join (P : List (Vec2 K)) :
    (lowerChain P).getLast? = (upperChain P).head? ∧
      (upperChain P).getLast? = (lowerChain P).head? := by
  rw [lowerChain_getLast?, upperChain_head?, upperChain_getLast?, lowerChain_head?]
  exact ⟨rfl, rfl⟩

theorem length_cases {α : Type} {P : List α} (hP : P ≠ []) :
    (∃ a, P = [a]) ∨ 2 ≤ P.length := by
  match P, hP with
  | [a], _ => exact Or.inl ⟨a, rfl⟩
  | a :: b :: t, _ => right; simp

theorem Convex_single (a : Vec2 K) : Hull.Convex [a] = some [] := by
  rw [Convex_eq (by simp), (chains_single a).1, (chains_single a).2]; rfl

/-! ## The hull contract -/

/-- C1: for every non-empty input `P`, `Hull::Convex(P)` returns a hull and every
point of it is an element of `P`. -/
theorem convex_subset_input (P : List (Vec2 K)) (hP : P ≠ []) :
    ∃ H, Hull.Convex P = some H ∧ ∀ p ∈ H, p ∈ P := by
  refine ⟨_, Convex_eq hP, ?_⟩
  intro p hp
  rcases List.mem_append.1 hp with h | h
  · exact mem_lowerChain (List.dropLast_subset _ h)
  · exact mem_upperChain (List.dropLast_subset _ h)

/-- Every edge of the closed hull loop has all input points on its left or on it. -/
theorem hull_covers (P : List (Vec2 K)) (hlen : 2 ≤ P.length) (i : ℕ) (a b : Vec2 K)
    (ha : ((lowerChain P).dropLast ++ (upperChain P).dropLast)[i]? = some a)
    (hb : ((lowerChain P).dropLast ++ (upperChain P).dropLast)[(i + 1) %
      ((lowerChain P).dropLast ++ (upperChain P).dropLast).length]? = some b) :
    ∀ p ∈ P, 0 ≤ Cross (b - a) (p - a) := by
  rcases loop_pair _ _ (lowerChain_length hlen) (upperChain_length hlen)
      (chains_join P).1 (chains_join P).2 i a b ha hb with ⟨j, h1, h2⟩ | ⟨j, h1, h2⟩
  · exact chain'_getElem? (lowerChain_covers P) j a b h1 h2
  · exact chain'_getElem? (upperChain_covers P) j a b h1 h2

/-- C2: for every non-empty input `P`, no point of `P` lies strictly outside the
hull: for cyclically consecutive hull points `a`, `b` (the successor of the last
point being the first) and every `p` in `P`, `Cross(b - a, p - a) >= 0`. -/
theorem convex_no_point_outside (P : List (Vec2 K)) (hP : P ≠ []) :
    ∃ H, Hull.Convex P = some H ∧
      ∀ (i : ℕ) (a b : Vec2 K), H[i]? = some a → H[(i + 1) % H.length]? = some b →
        ∀ p ∈ P, 0 ≤ Cross (b - a) (p - a) := by
  refine ⟨_, Convex_eq hP, ?_⟩
  intro i a b ha hb
  rcases length_cases hP with ⟨c, rfl⟩ | hlen
  · rw [(chains_single c).1, (chains_single c).2] at ha
    simp at ha
  · exact hull_covers P hlen i a b ha hb

/-- Witness for C1 on the square `(0,0), (10,0), (10,10), (0,10)`. -/
theorem convex_subset_input_witness :
    ([⟨0, 0⟩, ⟨10, 0⟩, ⟨10, 10⟩, ⟨0, 10⟩] : List (Vec2 ℤ)) ≠ [] ∧
      ∃ H, Hull.Convex ([⟨0, 0⟩, ⟨10, 0⟩, ⟨10, 10⟩, ⟨0, 10⟩] : List (Vec2 ℤ)) = some H ∧
        ∀ p ∈ H, p ∈ ([⟨0, 0⟩, ⟨10, 0⟩, ⟨10, 10⟩, ⟨0, 10⟩] : List (Vec2 ℤ)) :=
  ⟨by decide, convex_subset_input _ (by decide)⟩

/-- Witness for C2 on a triangle with an interior point. -/
theorem convex_no_point_outside_witness :
    ([⟨0, 0⟩, ⟨4, 0⟩, ⟨1, 1⟩, ⟨0, 4⟩] : List (Vec2 ℤ)) ≠ [] ∧
      ∃ H, Hull.Convex ([⟨0, 0⟩, ⟨4, 0⟩, ⟨1, 1⟩, ⟨0, 4⟩] : List (Vec2 ℤ)) = some H ∧
        ∀ (i : ℕ) (a b : Vec2 ℤ), H[i]? = some a → H[(i + 1) % H.length]? = some b →
          ∀ p ∈ ([⟨0, 0⟩, ⟨4, 0⟩, ⟨1, 1⟩, ⟨0, 4⟩] : List (Vec2 ℤ)),
            0 ≤ Cross (b - a) (p - a) :=
  ⟨by decide, convex_no_point_outside _ (by decide)⟩

theorem turns_getElem? :
    ∀ {st : List (Vec2 K)}, Turns st → ∀ (j : ℕ) (c b a : Vec2 K),
      st[j]? = some c → st[j + 1]? = some b → st[j + 2]? = some a →
        0 < Cross (b - a) (c - a)
  | [], _, j, c, b, a, h, _, _ => by simp at h
  | [x], _, j, c, b, a, _, h, _ => by simp at h
  | [x, y], _, j, c, b, a, _, _, h => by simp at h
  | x :: y :: z :: l, hT, 0, c, b, a, hc, hb, ha => by
    simp only [List.getElem?_cons_zero, Option.some.injEq, zero_add,
      List.getElem?_cons_succ] at hc hb ha
    subst hc hb ha
    exact ((turns_cons3 _ _ _ l).1 hT).1
  | x :: y :: z :: l, hT, j + 1, c, b, a, hc, hb, ha => by
    rw [List.getElem?_cons_succ] at hc hb ha
    exact @turns_getElem? (y :: z :: l) (turns_tail x _ hT) j c b a hc hb ha

/-- Strict left turns along a chain given front first, as the reverse of a
back-first chain. -/
theorem turns_reverse_getElem? {st : List (Vec2 K)} (hT : Turns st) (j : ℕ)
    (a b c : Vec2 K) (ha : st.reverse[j]? = some a) (hb : st.reverse[j + 1]? = some b)
    (hc : st.reverse[j + 2]? = some c) : 0 < Cross (b - a) (c - a) := by
  have hlen : j + 2 < st.length := by
    rcases List.getElem?_eq_some.1 hc with ⟨h, _⟩
    simpa using h
  rw [List.getElem?_reverse (by omega)] at ha hb hc
  refine turns_getElem? hT (st.length - 1 - (j + 2)) c b a hc ?_ ?_
  · rw [show st.length - 1 - (j + 2) + 1 = st.length - 1 - (j + 1) by omega]; exact hb
  · rw [show st.length - 1 - (j + 2) + 2 = st.length - 1 - j by omega]; exact ha

theorem lowerChain_turns (P : List (Vec2 K)) (j : ℕ) (a b c : Vec2 K)
    (ha : (lowerChain P)[j]? = some a) (hb : (lowerChain P)[j + 1]? = some b)
    (hc : (lowerChain P)[j + 2]? = some c) : 0 < Cross (b - a) (c - a) :=
  turns_reverse_getElem? (lower_inv P).turns j a b c ha hb hc

theorem upperChain_turns (P : List (Vec2 K)) (j : ℕ) (a b c : Vec2 K)
    (ha : (upperChain P)[j]? = some a) (hb : (upperChain P)[j + 1]? = some b)
    (hc : (upperChain P)[j + 2]? = some c) : 0 < Cross (b - a) (c - a) :=
  turns_reverse_getElem? (upper_inv P).turns j a b c ha hb hc

theorem lowerChain_sorted (P : List (Vec2 K)) :
    (lowerChain P).Pairwise (fun a b => fwd (b - a)) :=
  (sort_sorted P).sublist (lower_inv P).sub

theorem upperChain_sorted (P : List (Vec2 K)) :
    (upperChain P).Pairwise (fun a b => bwd (b - a)) :=
  (sort_reverse_sorted P).sublist (upper_inv P).sub

/-- A chain of three or more points with strict turns has no two equal
neighbours. -/
theorem turns_distinct :
    ∀ st : List (Vec2 K), Turns st → 3 ≤ st.length → List.Chain' (fun b a => b ≠ a) st
  | [], _, h => by simp at h
  | [_], _, h => by simp at h
  | [_, _], _, h => by simp at h
  | [c, b, a], hT, _ => by
    have h := ((turns_cons3 c b a []).1 hT).1
    refine List.Chain'.cons ?_ (List.Chain'.cons ?_ (List.chain'_singleton a))
    · rintro rfl; rw [Vec2.cross_self] at h; exact lt_irrefl _ h
    · rintro rfl
      have : Cross (b - b) (c - b) = 0 := by simp [Cross]
      rw [this] at h; exact lt_irrefl _ h
  | c :: b :: a :: d :: rest, hT, _ => by
    have h := ((turns_cons3 c b a (d :: rest)).1 hT).1
    refine List.Chain'.cons ?_ (turns_distinct (b :: a :: d :: rest) (turns_tail c _ hT) (by simp))
    rintro rfl; rw [Vec2.cross_self] at h; exact lt_irrefl _ h

/-- When the first and last scanned points differ, neighbours on the chain are
distinct. -/
theorem chain_distinct {H : Vec2 K → Prop} {seen st : List (Vec2 K)}
    (hinv : ChainInv H seen st) (hne : seen.head? ≠ seen.getLast?) :
    List.Chain' (fun b a => b ≠ a) st := by
  match st, hinv with
  | [], _ => exact List.chain'_nil
  | [b], _ => exact List.chain'_singleton b
  | [b, a], hinv =>
    refine List.Chain'.cons ?_ (List.chain'_singleton a)
    rintro rfl
    apply hne
    rw [← hinv.top, ← hinv.bot]; simp
  | c :: b :: a :: rest, hinv => exact turns_distinct _ hinv.turns (by simp)

/-- In a list sorted along `H` whose first and last points agree all points
agree. -/
theorem all_eq_of_head_eq_getLast {H : Vec2 K → Prop} (hH : IsDir H) {S : List (Vec2 K)}
    (hs : S.Pairwise (fun a b => H (b - a))) (he : S.head? = S.getLast?) :
    ∀ p ∈ S, ∀ q ∈ S, p = q := by
  have key : ∀ p ∈ S, S.head? = some p := by
    intro p hp
    cases S with
    | nil => simp at hp
    | cons a t =>
      rcases List.mem_cons.1 hp with h | h
      · subst h; rfl
      · have h1 : H (p - a) := List.rel_of_pairwise_cons hs h
        have hl : (a :: t).getLast? = some a := by rw [← he]; rfl
        have hne : a :: t ≠ [] := by simp
        obtain ⟨l', hl'⟩ : ∃ l', a :: t = l' ++ [a] := by
          refine ⟨(a :: t).dropLast, ?_⟩
          have : (a :: t).getLast hne = a := by
            rw [List.getLast?_eq_getLast _ hne] at hl
            simpa using hl
          conv_lhs => rw [← List.dropLast_append_getLast hne, this]
        have hp' : p ∈ l' ++ [a] := hl' ▸ hp
        rcases List.mem_append.1 hp' with h' | h'
        · have h2 : H (a - p) := by
            rw [hl'] at hs
            exact (List.pairwise_append.1 hs).2.2 p h' a (by simp)
          rw [hH.antisymm a p h1 h2]; rfl
        · simp only [List.mem_singleton] at h'; subst h'; rfl
  intro p hp q hq
  have := (key p hp).symm.trans (key q hq)
  simpa using this

/-! ### The two junctions between the chains -/

theorem cross_eq_zero_of_opposite (e f w : Vec2 K) (hd : Dot e f < 0) (hc : Cross e f = 0)
    (h1 : 0 ≤ Cross e w) (h2 : 0 ≤ Cross f w) : Cross e w = 0 := by
  have key : Dot e e * Cross f w = Dot e f * Cross e w - Cross e f * Dot e w := by
    simp only [Dot, Cross]; ring
  rw [hc, zero_mul, sub_zero] at key
  have hee : 0 ≤ Dot e e := by
    simp only [Dot]; nlinarith [mul_self_nonneg e.x, mul_self_nonneg e.y]
  have hl : 0 ≤ Dot e f * Cross e w := by rw [← key]; exact mul_nonneg hee h2
  rcases h1.lt_or_eq with h | h
  · have := mul_neg_of_neg_of_pos hd h
    linarith
  · exact h.symm

theorem dot_neg_of_fwd_bwd (e f : Vec2 K) (he : fwd e) (he0 : e ≠ ⟨0, 0⟩) (hf : bwd f)
    (hf0 : f ≠ ⟨0, 0⟩) (hc : Cross e f = 0) : Dot e f < 0 := by
  simp only [Cross] at hc
  simp only [Dot]
  have hfx : f.x ≤ 0 := by rcases hf with h | ⟨h, _⟩ <;> [exact h.le; exact h.le]
  rcases he with hex | ⟨hex, hey⟩
  · rcases hfx.lt_or_eq with hfx' | hfx'
    · have h1 : e.x * (e.x * f.x + e.y * f.y) = f.x * (e.x * e.x + e.y * e.y) := by
        have : e.x * f.y = e.y * f.x := by linarith
        calc e.x * (e.x * f.x + e.y * f.y) = e.x * e.x * f.x + e.y * (e.x * f.y) := by ring
          _ = e.x * e.x * f.x + e.y * (e.y * f.x) := by rw [this]
          _ = f.x * (e.x * e.x + e.y * e.y) := by ring
      have h2 : 0 < e.x * e.x + e.y * e.y := by
        have := mul_pos hex hex
        nlinarith [mul_self_nonneg e.y]
      have h3 : f.x * (e.x * e.x + e.y * e.y) < 0 := mul_neg_of_neg_of_pos hfx' h2
      rw [← h1] at h3
      by_contra hcon
      push_neg at hcon
      have := mul_nonneg hex.le hcon
      linarith
    · have hfy : f.y < 0 := by
        rcases hf with h | ⟨_, h⟩
        · exact absurd hfx' h.ne
        · rcases h.lt_or_eq with h' | h'
          · exact h'
          · exact absurd ((eq_zero_iff f).2 ⟨hfx', h'⟩) hf0
      rw [hfx'] at hc
      have : e.x * f.y = 0 := by linarith
      rcases mul_eq_zero.1 this with h | h
      · exact absurd h hex.ne'
      · exact absurd h hfy.ne
  · have hey' : 0 < e.y := by
      rcases hey.lt_or_eq with h | h
      · exact h
      · exact absurd ((eq_zero_iff e).2 ⟨hex, h.symm⟩) he0
    rw [hex] at hc
    have hfx0 : f.x = 0 := by
      have : e.y * f.x = 0 := by linarith
      rcases mul_eq_zero.1 this with h | h
      · exact absurd h hey'.ne'
      · exact h
    have hfy : f.y < 0 := by
      rcases hf with h | ⟨_, h⟩
      · exact absurd hfx0 h.ne
      · rcases h.lt_or_eq with h' | h'
        · exact h'
        · exact absurd ((eq_zero_iff f).2 ⟨hfx0, h'⟩) hf0
    rw [hex, hfx0]
    have := mul_neg_of_pos_of_neg hey' hfy
    linarith

/-- Points whose offsets from `b` are all parallel to a non-zero `e` are collinear. -/
theorem collinear_of_parallel (P : List (Vec2 K)) (e b : Vec2 K) (he0 : e ≠ ⟨0, 0⟩)
    (h : ∀ p ∈ P, Cross e (p - b) = 0) :
    ∀ p1 ∈ P, ∀ p2 ∈ P, ∀ p3 ∈ P, Cross (p2 - p1) (p3 - p1) = 0 := by
  have pair : ∀ p ∈ P, ∀ q ∈ P, Cross (p - b) (q - b) = 0 := by
    intro p hp q hq
    have hp' := h p hp
    have hq' := h q hq
    have kx : e.x * Cross (p - b) (q - b) =
        (p - b).x * Cross e (q - b) - (q - b).x * Cross e (p - b) := by
      simp only [Cross, sub_x, sub_y]; ring
    have ky : e.y * Cross (p - b) (q - b) =
        (p - b).y * Cross e (q - b) - (q - b).y * Cross e (p - b) := by
      simp only [Cross, sub_x, sub_y]; ring
    rw [hp', hq', mul_zero, mul_zero, sub_zero] at kx ky
    by_contra hne
    have hx : e.x = 0 := (mul_eq_zero.1 kx).resolve_right hne
    have hy : e.y = 0 := (mul_eq_zero.1 ky).resolve_right hne
    exact he0 ((eq_zero_iff e).2 ⟨hx, hy⟩)
  intro p1 h1 p2 h2 p3 h3
  have e12 := pair p1 h1 p2 h2
  have e13 := pair p1 h1 p3 h3
  have e23 := pair p2 h2 p3 h3
  simp only [Cross, sub_x, sub_y] at e12 e13 e23 ⊢
  linear_combination e23 + e12 - e13

/-- The turn from a forward edge into a backward edge (or from a backward edge
into a forward one) is strict unless the whole input is collinear. -/
theorem junction_strict (P : List (Vec2 K)) (a b c : Vec2 K)
    (hnc : ∃ p1 ∈ P, ∃ p2 ∈ P, ∃ p3 ∈ P, Cross (p2 - p1) (p3 - p1) ≠ 0)
    (hc : c ∈ P) (hab : ∀ p ∈ P, 0 ≤ Cross (b - a) (p - a))
    (hbc : ∀ p ∈ P, 0 ≤ Cross (c - b) (p - b)) (hne1 : a ≠ b) (hne2 : b ≠ c)
    (hdir : (fwd (b - a) ∧ bwd (c - b)) ∨ (bwd (b - a) ∧ fwd (c - b))) :
    0 < Cross (b - a) (c - b) := by
  have h0 : 0 ≤ Cross (b - a) (c - b) := by
    rw [← cross_shift]; exact hab c hc
  rcases h0.lt_or_eq with h | h
  · exact h
  · exfalso
    have he0 : b - a ≠ ⟨0, 0⟩ := fun h' => hne1 ((sub_eq_zero_iff b a).1 h').symm
    have hf0 : c - b ≠ ⟨0, 0⟩ := fun h' => hne2 ((sub_eq_zero_iff c b).1 h').symm
    have hd : Dot (b - a) (c - b) < 0 := by
      rcases hdir with ⟨h1, h2⟩ | ⟨h1, h2⟩
      · exact dot_neg_of_fwd_bwd _ _ h1 he0 h2 hf0 h.symm
      · have := dot_neg_of_fwd_bwd _ _ h2 hf0 h1 he0 (by rw [cross_swap, ← h, neg_zero])
        have e : Dot (b - a) (c - b) = Dot (c - b) (b - a) := by
          simp only [Dot]; ring
        rw [e]; exact this
    have hall : ∀ p ∈ P, Cross (b - a) (p - b) = 0 := by
      intro p hp
      refine cross_eq_zero_of_opposite _ _ _ hd h.symm ?_ (hbc p hp)
      rw [← cross_shift]; exact hab p hp
    obtain ⟨p1, h1, p2, h2, p3, h3, hne⟩ := hnc
    exact hne (collinear_of_parallel P (b - a) b he0 hall p1 h1 p2 h2 p3 h3)

/-- Each triple of cyclically consecutive loop points lies on `L`, on `U`, or
straddles one of the two junctions. -/
theorem loop_triple {α : Type} (L U : List α) (hL : 2 ≤ L.length) (hU : 2 ≤ U.length)
    (h1 : L.getLast? = U.head?) (h2 : U.getLast? = L.head?) (i : ℕ) (a b c : α)
    (ha : (L.dropLast ++ U.dropLast)[i]? = some a)
    (hb : (L.dropLast ++ U.dropLast)[(i + 1) % (L.dropLast ++ U.dropLast).length]? = some b)
    (hc : (L.dropLast ++ U.dropLast)[(i + 2) % (L.dropLast ++ U.dropLast).length]? = some c) :
    (∃ j, L[j]? = some a ∧ L[j + 1]? = some b ∧ L[j + 2]? = some c) ∨
    (∃ j, U[j]? = some a ∧ U[j + 1]? = some b ∧ U[j + 2]? = some c) ∨
    (∃ j, L[j]? = some a ∧ L[j + 1]? = some b ∧ U[0]? = some b ∧ U[1]? = some c) ∨
    (∃ j, U[j]? = some a ∧ U[j + 1]? = some b ∧ L[0]? = some b ∧ L[1]? = some c) := by
  have hn : (L.dropLast ++ U.dropLast).length = (L.length - 1) + (U.length - 1) := by
    simp
  have hi : i < (L.dropLast ++ U.dropLast).length := by
    rcases List.getElem?_eq_some.1 ha with ⟨h, _⟩; exact h
  have hmod : i % (L.dropLast ++ U.dropLast).length = i := Nat.mod_eq_of_lt hi
  have lo := loop_index_lower L U hL hU h1
  have up := loop_index_upper L U hL h2
  by_cases hlt : i + 2 ≤ L.length - 1
  · left
    refine ⟨i, ?_, ?_, ?_⟩
    · rw [← lo i (by omega), hmod]; exact ha
    · rw [← lo (i + 1) (by omega)]; exact hb
    · rw [← lo (i + 2) (by omega)]; exact hc
  · by_cases hlt1 : i + 1 = L.length - 1
    · right; right; left
      refine ⟨i, ?_, ?_, ?_, ?_⟩
      · rw [← lo i (by omega), hmod]; exact ha
      · rw [← lo (i + 1) (by omega)]; exact hb
      · rw [← up 0 (by omega), Nat.add_zero, ← hlt1]; exact hb
      · rw [← up 1 (by omega), ← hlt1]; exact hc
    · by_cases hlt2 : i + 2 ≤ L.length - 1 + (U.length - 1)
      · right; left
        refine ⟨i - (L.length - 1), ?_, ?_, ?_⟩
        · rw [← up (i - (L.length - 1)) (by omega),
            show L.length - 1 + (i - (L.length - 1)) = i by omega, hmod]; exact ha
        · rw [← up (i - (L.length - 1) + 1) (by omega),
            show L.length - 1 + (i - (L.length - 1) + 1) = i + 1 by omega]; exact hb
        · rw [← up (i - (L.length - 1) + 2) (by omega),
            show L.length - 1 + (i - (L.length - 1) + 2) = i + 2 by omega]; exact hc
      · right; right; right
        have hi' : i + 1 = (L.dropLast ++ U.dropLast).length := by omega
        refine ⟨i - (L.length - 1), ?_, ?_, ?_, ?_⟩
        · rw [← up (i - (L.length - 1)) (by omega),
            show L.length - 1 + (i - (L.length - 1)) = i by omega, hmod]; exact ha
        · rw [← up (i - (L.length - 1) + 1) (by omega),
            show L.length - 1 + (i - (L.length - 1) + 1) = i + 1 by omega]; exact hb
        · rw [← lo 0 (by omega), Nat.zero_mod, ← Nat.mod_self (L.dropLast ++ U.dropLast).length]
          rw [hi'] at hb; exact hb
        · rw [← lo 1 (by omega)]
          rw [show i + 2 = (L.dropLast ++ U.dropLast).length + 1 by omega,
            Nat.add_mod_left] at hc
          exact hc

theorem getElem?_mem' {α : Type} {l : List α} {i : ℕ} {a : α} (h : l[i]? = some a) : a ∈ l := by
  rcases List.getElem?_eq_some.1 h with ⟨hi, rfl⟩
  exact List.getElem_mem hi

/-- Non-collinear input has at least two points and its smallest and largest
points differ. -/
theorem noncollinear_facts (P : List (Vec2 K))
    (hnc : ∃ p1 ∈ P, ∃ p2 ∈ P, ∃ p3 ∈ P, Cross (p2 - p1) (p3 - p1) ≠ 0) :
    2 ≤ P.length ∧ (sort P).head? ≠ (sort P).getLast? := by
  obtain ⟨p1, h1, p2, h2, p3, h3, hne⟩ := hnc
  have hdiff : (sort P).head? ≠ (sort P).getLast? := by
    intro he
    have hall := all_eq_of_head_eq_getLast fwd_isDir (sort_sorted P) he
    have e2 := hall p1 (mem_sort.2 h1) p2 (mem_sort.2 h2)
    subst e2
    apply hne
    simp [Cross]
  refine ⟨?_, hdiff⟩
  match P, h1, hdiff with
  | [x], _, hdiff => exact absurd (by simp [sort]) hdiff
  | x :: y :: t, _, _ => simp

/-- C3, as amended: over exact arithmetic (the coordinates in an ordered ring
`K`, every cross product computed without rounding or overflow), for every
input with three non-collinear points the hull has at least 3 points and every
three cyclically consecutive hull points `a`, `b`, `c` (also across the two
junctions of the chains) make a strict left turn: `Cross(b - a, c - b) > 0`. -/
theorem convex_strict_turns (P : List (Vec2 K))
    (hnc : ∃ p1 ∈ P, ∃ p2 ∈ P, ∃ p3 ∈ P, Cross (p2 - p1) (p3 - p1) ≠ 0) :
    ∃ H, Hull.Convex P = some H ∧ 3 ≤ H.length ∧
      ∀ (i : ℕ) (a b c : Vec2 K), H[i]? = some a → H[(i + 1) % H.length]? = some b →
        H[(i + 2) % H.length]? = some c → 0 < Cross (b - a) (c - b) := by
  obtain ⟨hlen, hdiff⟩ := noncollinear_facts P hnc
  have hP : P ≠ [] := by rintro rfl; simp at hlen
  have hL := lowerChain_length hlen
  have hU := upperChain_length hlen
  have hj := chains_join P
  have hdiff' : (sort P).reverse.head? ≠ (sort P).reverse.getLast? := by
    rw [List.head?_reverse, List.getLast?_reverse]; exact fun h => hdiff h.symm
  have hLd : List.Chain' (fun a b => a ≠ b) (lowerChain P) := by
    rw [lowerChain, List.chain'_reverse]
    exact (chain_distinct (lower_inv P) hdiff).imp (fun {a b} h => Ne.symm h)
  have hUd : List.Chain' (fun a b => a ≠ b) (upperChain P) := by
    rw [upperChain, List.chain'_reverse]
    exact (chain_distinct (upper_inv P) hdiff').imp (fun {a b} h => Ne.symm h)
  have hLs := (lowerChain_sorted P).chain'
  have hUs := (upperChain_sorted P).chain'
  -- the two junctions
  have junc1 : ∀ j a b c, (lowerChain P)[j]? = some a → (lowerChain P)[j + 1]? = some b →
      (upperChain P)[0]? = some b → (upperChain P)[1]? = some c →
      0 < Cross (b - a) (c - b) := by
    intro j a b c ha hb hb' hc
    exact junction_strict P a b c hnc (mem_upperChain (getElem?_mem' hc))
      (chain'_getElem? (lowerChain_covers P) j a b ha hb)
      (chain'_getElem? (upperChain_covers P) 0 b c hb' hc)
      (chain'_getElem? hLd j a b ha hb) (chain'_getElem? hUd 0 b c hb' hc)
      (Or.inl ⟨chain'_getElem? hLs j a b ha hb, chain'_getElem? hUs 0 b c hb' hc⟩)
  have junc2 : ∀ j a b c, (upperChain P)[j]? = some a → (upperChain P)[j + 1]? = some b →
      (lowerChain P)[0]? = some b → (lowerChain P)[1]? = some c →
      0 < Cross (b - a) (c - b) := by
    intro j a b c ha hb hb' hc
    exact junction_strict P a b c hnc (mem_lowerChain (getElem?_mem' hc))
      (chain'_getElem? (upperChain_covers P) j a b ha hb)
      (chain'_getElem? (lowerChain_covers P) 0 b c hb' hc)
      (chain'_getElem? hUd j a b ha hb) (chain'_getElem? hLd 0 b c hb' hc)
      (Or.inr ⟨chain'_getElem? hUs j a b ha hb, chain'_getElem? hLs 0 b c hb' hc⟩)
  refine ⟨_, Convex_eq hP, ?_, ?_⟩
  · -- a hull of two points would make the first junction a flat turn
    by_contra hlt
    have hn : ((lowerChain P).dropLast ++ (upperChain P).dropLast).length =
        ((lowerChain P).length - 1) + ((upperChain P).length - 1) := by simp
    have hL2 : (lowerChain P).length = 2 := by omega
    have hU2 : (upperChain P).length = 2 := by omega
    obtain ⟨a, b, hLe⟩ : ∃ a b, lowerChain P = [a, b] := by
      match hl : lowerChain P, hL2 with
      | [a, b], _ => exact ⟨a, b, rfl⟩
    obtain ⟨b', c, hUe⟩ : ∃ b c, upperChain P = [b, c] := by
      match hl : upperChain P, hU2 with
      | [a, b], _ => exact ⟨a, b, rfl⟩
    have e1 := hj.1
    have e2 := hj.2
    rw [hLe, hUe] at e1 e2
    simp at e1 e2
    subst e1 e2
    have := junc1 0 c b c (by rw [hLe]; rfl) (by rw [hLe]; rfl) (by rw [hUe]; rfl)
      (by rw [hUe]; rfl)
    have e : Cross (b - c) (c - b) = 0 := by simp only [Cross, sub_x, sub_y]; ring
    rw [e] at this; exact lt_irrefl _ this
  · intro i a b c ha hb hc
    rcases loop_triple _ _ hL hU hj.1 hj.2 i a b c ha hb hc with
      ⟨j, h1, h2, h3⟩ | ⟨j, h1, h2, h3⟩ | ⟨j, h1, h2, h3, h4⟩ | ⟨j, h1, h2, h3, h4⟩
    · rw [← cross_shift]; exact lowerChain_turns P j a b c h1 h2 h3
    · rw [← cross_shift]; exact upperChain_turns P j a b c h1 h2 h3
    · exact junc1 j a b c h1 h2 h3 h4
    · exact junc2 j a b c h1 h2 h3 h4

/-- Witness for C3 as amended, on the square. -/
theorem convex_strict_turns_witness :
    (∃ p1 ∈ ([⟨0, 0⟩, ⟨10, 0⟩, ⟨10, 10⟩, ⟨0, 10⟩] : List (Vec2 ℤ)),
      ∃ p2 ∈ ([⟨0, 0⟩, ⟨10, 0⟩, ⟨10, 10⟩, ⟨0, 10⟩] : List (Vec2 ℤ)),
      ∃ p3 ∈ ([⟨0, 0⟩, ⟨10, 0⟩, ⟨10, 10⟩, ⟨0, 10⟩] : List (Vec2 ℤ)),
        Cross (p2 - p1) (p3 - p1) ≠ 0) ∧
      ∃ H, Hull.Convex ([⟨0, 0⟩, ⟨10, 0⟩, ⟨10, 10⟩, ⟨0, 10⟩] : List (Vec2 ℤ)) = some H ∧
        3 ≤ H.length ∧
        ∀ (i : ℕ) (a b c : Vec2 ℤ), H[i]? = some a → H[(i + 1) % H.length]? = some b →
          H[(i + 2) % H.length]? = some c → 0 < Cross (b - a) (c - b) :=
  ⟨⟨⟨0, 0⟩, by decide, ⟨10, 0⟩, by decide, ⟨10, 10⟩, by decide, by decide⟩,
    convex_strict_turns _
      ⟨⟨0, 0⟩, by decide, ⟨10, 0⟩, by decide, ⟨10, 10⟩, by decide, by decide⟩⟩

/-! ## Uniqueness of a convex chain, and idempotence -/

theorem rel_head_of_sorted {H : Vec2 K → Prop} (hH : IsDir H) {S : List (Vec2 K)}
    (hs : S.Pairwise (fun a b => H (b - a))) {m : Vec2 K} (hm : S.head? = some m) :
    ∀ p ∈ S, H (p - m) := by
  intro p hp
  cases S with
  | nil => simp at hp
  | cons a t =>
    simp only [List.head?_cons, Option.some.injEq] at hm
    subst hm
    rcases List.mem_cons.1 hp with h | h
    · subst h
      rcases hH.total p p with h' | h' <;> exact h'
    · exact List.rel_of_pairwise_cons hs h

theorem rel_getLast_of_sorted {H : Vec2 K → Prop} (hH : IsDir H) {S : List (Vec2 K)}
    (hs : S.Pairwise (fun a b => H (b - a))) {z : Vec2 K} (hz : S.getLast? = some z) :
    ∀ p ∈ S, H (z - p) := by
  intro p hp
  have hne : S ≠ [] := List.ne_nil_of_mem hp
  have hz' : S.getLast hne = z := by
    rw [List.getLast?_eq_getLast _ hne] at hz
    simpa using hz
  have hS : S = S.dropLast ++ [z] := by
    conv_lhs => rw [← List.dropLast_append_getLast hne, hz']
  rw [hS] at hs hp
  rcases List.mem_append.1 hp with h | h
  · exact (List.pairwise_append.1 hs).2.2 p h z (by simp)
  · simp only [List.mem_singleton] at h
    subst h
    rcases hH.total p p with h' | h' <;> exact h'

/-- Two chains over the same points that start and end together, advance
strictly along `H`, turn strictly left and have every point on or left of every
edge are the same chain. -/
theorem chain_unique {H : Vec2 K → Prop} (hH : IsDir H) (Q : List (Vec2 K)) :
    ∀ C C' : List (Vec2 K), C.head? = C'.head? → C.getLast? = C'.getLast? →
      C.Pairwise (fun a b => H (b - a)) → C'.Pairwise (fun a b => H (b - a)) →
      List.Chain' (fun a b => a ≠ b) C → List.Chain' (fun a b => a ≠ b) C' →
      (∀ j a b c, C[j]? = some a → C[j + 1]? = some b → C[j + 2]? = some c →
        0 < Cross (b - a) (c - a)) →
      (∀ j a b c, C'[j]? = some a → C'[j + 1]? = some b → C'[j + 2]? = some c →
        0 < Cross (b - a) (c - a)) →
      (∀ p ∈ C, p ∈ Q) → (∀ p ∈ C', p ∈ Q) →
      List.Chain' (fun a b => ∀ p ∈ Q, 0 ≤ Cross (b - a) (p - a)) C →
      List.Chain' (fun a b => ∀ p ∈ Q, 0 ≤ Cross (b - a) (p - a)) C' → C = C' := by
  -- a chain cannot pass strictly beyond a collinear point of the other chain
  have shortcut : ∀ (c0 c1 x z : Vec2 K) (r : List (Vec2 K)),
      (c0 :: c1 :: r).Pairwise (fun a b => H (b - a)) →
      (∀ j a b c, (c0 :: c1 :: r)[j]? = some a → (c0 :: c1 :: r)[j + 1]? = some b →
        (c0 :: c1 :: r)[j + 2]? = some c → 0 < Cross (b - a) (c - a)) →
      List.Chain' (fun a b => 0 ≤ Cross (b - a) (x - a)) (c0 :: c1 :: r) →
      (c0 :: c1 :: r).getLast? = some z → H (z - x) → H (x - c1) → c1 ≠ x →
      0 ≤ Cross (x - c0) (c1 - c0) → False := by
    intro c0 c1 x z r hs hT hcov hz hzx hxc hne hx
    have h01 : H (c1 - c0) := List.rel_of_pairwise_cons hs (by simp)
    have hx0 : 0 ≤ Cross (c1 - c0) (x - c0) := (List.chain'_cons.1 hcov).1
    have hzero : Cross (c1 - c0) (x - c0) = 0 := by
      rw [cross_swap] at hx; linarith
    cases r with
    | nil =>
      simp at hz
      subst hz
      exact hne (hH.antisymm c1 x hxc hzx)
    | cons c2 r2 =>
      have hturn : 0 < Cross (c1 - c0) (c2 - c0) := hT 0 c0 c1 c2 (by simp) (by simp) (by simp)
      have h12 : H (c2 - c1) := List.rel_of_pairwise_cons (List.Pairwise.of_cons hs) (by simp)
      have hc2 : 0 ≤ Cross (c2 - c1) (x - c1) :=
        (List.chain'_cons.1 (List.Chain'.tail hcov)).1
      have hd0 : x - c1 ≠ ⟨0, 0⟩ := fun h => hne ((sub_eq_zero_iff x c1).1 h).symm
      have hda : 0 ≤ Cross (x - c1) (c1 - c0) := by
        have : Cross (x - c1) (c1 - c0) = - Cross (c1 - c0) (x - c0) := by
          simp only [Cross, sub_x, sub_y]; ring
        rw [this, hzero, neg_zero]
      have := hH.cross_trans (c2 - c1) (x - c1) (c1 - c0) h12 hxc h01 hd0 hc2 hda
      have e : Cross (c2 - c1) (c1 - c0) = - Cross (c1 - c0) (c2 - c0) := by
        simp only [Cross, sub_x, sub_y]; ring
      rw [e] at this
      linarith
  intro C
  induction C with
  | nil =>
    intro C' hh _ _ _ _ _ _ _ _ _ _ _
    cases C' with
    | nil => rfl
    | cons a t => simp at hh
  | cons c0 C1 ih =>
    intro C' hh hl hs hs' hd hd' hT hT' hQ hQ' hc hc'
    cases C' with
    | nil => simp at hh
    | cons c0' C1' =>
      simp only [List.head?_cons, Option.some.injEq] at hh
      subst hh
      cases C1 with
      | nil =>
        cases C1' with
        | nil => rfl
        | cons c1' r' =>
          exfalso
          have h1 : H (c1' - c0) := List.rel_of_pairwise_cons hs' (by simp)
          have h2 : H (c0 - c1') :=
            rel_getLast_of_sorted hH hs' (z := c0) (by rw [← hl]; rfl) c1' (by simp)
          exact (List.Chain'.rel_head hd') (hH.antisymm c0 c1' h1 h2)
      | cons c1 r =>
        cases C1' with
        | nil =>
          exfalso
          have h1 : H (c1 - c0) := List.rel_of_pairwise_cons hs (by simp)
          have h2 : H (c0 - c1) :=
            rel_getLast_of_sorted hH hs (z := c0) (by rw [hl]; rfl) c1 (by simp)
          exact (List.Chain'.rel_head hd) (hH.antisymm c0 c1 h1 h2)
        | cons c1' r' =>
          have hc1 : c1 = c1' := by
            by_contra hne
            obtain ⟨z, hz⟩ : ∃ z, (c0 :: c1 :: r).getLast? = some z :=
              ⟨_, List.getLast?_eq_getLast _ (by simp)⟩
            have hz' : (c0 :: c1' :: r').getLast? = some z := by rw [← hl]; exact hz
            have cov1 : 0 ≤ Cross (c1 - c0) (c1' - c0) :=
              List.Chain'.rel_head hc c1' (hQ' c1' (by simp))
            have cov2 : 0 ≤ Cross (c1' - c0) (c1 - c0) :=
              List.Chain'.rel_head hc' c1 (hQ c1 (by simp))
            rcases hH.total c1 c1' with h | h
            · refine shortcut c0 c1 c1' z r hs hT ?_ hz
                (rel_getLast_of_sorted hH hs' hz' c1' (by simp)) h hne cov2
              exact List.Chain'.imp (fun {a b} hab => hab c1' (hQ' c1' (by simp))) hc
            · refine shortcut c0 c1' c1 z r' hs' hT' ?_ hz'
                (rel_getLast_of_sorted hH hs hz c1 (by simp)) h (Ne.symm hne) cov1
              exact List.Chain'.imp (fun {a b} hab => hab c1 (hQ c1 (by simp))) hc'
          subst hc1
          have := ih (c1 :: r') rfl (by
              rw [List.getLast?_cons_cons, List.getLast?_cons_cons] at hl
              exact hl)
            (List.Pairwise.of_cons hs) (List.Pairwise.of_cons hs')
            (List.Chain'.tail hd) (List.Chain'.tail hd')
            (fun j a b c h1 h2 h3 => hT (j + 1) a b c
              (by rw [List.getElem?_cons_succ]; exact h1)
              (by rw [List.getElem?_cons_succ]; exact h2)
              (by rw [List.getElem?_cons_succ]; exact h3))
            (fun j a b c h1 h2 h3 => hT' (j + 1) a b c
              (by rw [List.getElem?_cons_succ]; exact h1)
              (by rw [List.getElem?_cons_succ]; exact h2)
              (by rw [List.getElem?_cons_succ]; exact h3))
            (fun p hp => hQ p (List.mem_cons_of_mem _ hp))
            (fun p hp => hQ' p (List.mem_cons_of_mem _ hp))
            (List.Chain'.tail hc) (List.Chain'.tail hc')
          rw [this]

theorem head?_eq_of_sorted {H : Vec2 K → Prop} (hH : IsDir H) {S S' : List (Vec2 K)}
    (hs : S.Pairwise (fun a b => H (b - a))) (hs' : S'.Pairwise (fun a b => H (b - a)))
    (hsub : ∀ p ∈ S', p ∈ S) (hne : S' ≠ []) (hm : ∀ m, S.head? = some m → m ∈ S') :
    S'.head? = S.head? := by
  cases S' with
  | nil => exact absurd rfl hne
  | cons m' t' =>
    cases S with
    | nil => exact absurd (hsub m' (by simp)) (by simp)
    | cons m t =>
      have h1 : H (m - m') := rel_head_of_sorted hH hs' rfl m (hm m rfl)
      have h2 : H (m' - m) := rel_head_of_sorted hH hs rfl m' (hsub m' (by simp))
      rw [hH.antisymm m m' h2 h1]; rfl

theorem getLast?_eq_of_sorted {H : Vec2 K → Prop} (hH : IsDir H) {S S' : List (Vec2 K)}
    (hs : S.Pairwise (fun a b => H (b - a))) (hs' : S'.Pairwise (fun a b => H (b - a)))
    (hsub : ∀ p ∈ S', p ∈ S) (hne : S' ≠ []) (hm : ∀ z, S.getLast? = some z → z ∈ S') :
    S'.getLast? = S.getLast? := by
  obtain ⟨z', hz'⟩ : ∃ z', S'.getLast? = some z' := ⟨_, List.getLast?_eq_getLast _ hne⟩
  have hz'mem : z' ∈ S' := List.mem_of_getLast?_eq_some hz'
  have hneS : S ≠ [] := List.ne_nil_of_mem (hsub z' hz'mem)
  obtain ⟨z, hz⟩ : ∃ z, S.getLast? = some z := ⟨_, List.getLast?_eq_getLast _ hneS⟩
  have h1 : H (z' - z) := rel_getLast_of_sorted hH hs' hz' z (hm z hz)
  have h2 : H (z - z') := rel_getLast_of_sorted hH hs hz z' (hsub z' hz'mem)
  rw [hz, hz', hH.antisymm z z' h1 h2]

theorem mem_loop_of_mem_left {α : Type} (L U : List α) (hU : 2 ≤ U.length)
    (h1 : L.getLast? = U.head?) {p : α} (hp : p ∈ L) : p ∈ L.dropLast ++ U.dropLast := by
  have hne : L ≠ [] := List.ne_nil_of_mem hp
  rw [← List.dropLast_append_getLast hne] at hp
  rcases List.mem_append.1 hp with h | h
  · exact List.mem_append_left _ h
  · simp only [List.mem_singleton] at h
    refine List.mem_append_right _ ?_
    match U, hU, h1 with
    | x :: y :: t, _, h1 =>
      rw [List.getLast?_eq_getLast _ hne] at h1
      simp only [List.head?_cons, Option.some.injEq] at h1
      rw [h, h1]
      simp [List.dropLast]

theorem mem_loop_of_mem_right {α : Type} (L U : List α) (hL : 2 ≤ L.length)
    (h2 : U.getLast? = L.head?) {p : α} (hp : p ∈ U) : p ∈ L.dropLast ++ U.dropLast := by
  have hne : U ≠ [] := List.ne_nil_of_mem hp
  rw [← List.dropLast_append_getLast hne] at hp
  rcases List.mem_append.1 hp with h | h
  · exact List.mem_append_right _ h
  · simp only [List.mem_singleton] at h
    refine List.mem_append_left _ ?_
    match L, hL, h2 with
    | x :: y :: t, _, h2 =>
      rw [List.getLast?_eq_getLast _ hne] at h2
      simp only [List.head?_cons, Option.some.injEq] at h2
      rw [h, h2]
      simp [List.dropLast]

theorem lowerChain_distinct (P : List (Vec2 K)) (hdiff : (sort P).head? ≠ (sort P).getLast?) :
    List.Chain' (fun a b => a ≠ b) (lowerChain P) := by
  rw [lowerChain, List.chain'_reverse]
  exact (chain_distinct (lower_inv P) hdiff).imp (fun {a b} h => Ne.symm h)

theorem upperChain_distinct (P : List (Vec2 K)) (hdiff : (sort P).head? ≠ (sort P).getLast?) :
    List.Chain' (fun a b => a ≠ b) (upperChain P) := by
  have hdiff' : (sort P).reverse.head? ≠ (sort P).reverse.getLast? := by
    rw [List.head?_reverse, List.getLast?_reverse]; exact fun h => hdiff h.symm
  rw [upperChain, List.chain'_reverse]
  exact (chain_distinct (upper_inv P) hdiff').imp (fun {a b} h => Ne.symm h)

/-- When all input points coincide (and there are two or more) the hull is that
point twice. -/
theorem Convex_all_eq (P : List (Vec2 K)) (hlen : 2 ≤ P.length)
    (hall : ∀ p ∈ P, ∀ q ∈ P, p = q) : ∃ a, a ∈ P ∧ Hull.Convex P = some [a, a] := by
  have hP : P ≠ [] := by rintro rfl; simp at hlen
  have two : ∀ C : List (Vec2 K), 2 ≤ C.length → (∀ p ∈ C, p ∈ P) →
      (∀ j a b c, C[j]? = some a → C[j + 1]? = some b → C[j + 2]? = some c →
        0 < Cross (b - a) (c - a)) → ∃ x y, C = [x, y] := by
    intro C hC hmem hT
    match C, hC, hmem, hT with
    | [x, y], _, _, _ => exact ⟨x, y, rfl⟩
    | x :: y :: z :: t, _, hmem, hT =>
      exfalso
      have h := hT 0 x y z (by simp) (by simp) (by simp)
      have e1 := hall x (hmem x (by simp)) y (hmem y (by simp))
      subst e1
      have : Cross (x - x) (z - x) = 0 := by simp [Cross]
      rw [this] at h; exact lt_irrefl _ h
  obtain ⟨x, y, hLe⟩ := two (lowerChain P) (lowerChain_length hlen)
    (fun p hp => mem_lowerChain hp) (lowerChain_turns P)
  obtain ⟨x', y', hUe⟩ := two (upperChain P) (upperChain_length hlen)
    (fun p hp => mem_upperChain hp) (upperChain_turns P)
  have hx : x ∈ P := mem_lowerChain (by rw [hLe]; simp)
  have hx' : x' ∈ P := mem_upperChain (by rw [hUe]; simp)
  refine ⟨x, hx, ?_⟩
  rw [Convex_eq hP, hLe, hUe, hall x' hx' x hx]
  rfl

/-- The chains of the hull are the chains of the input. -/
theorem chains_of_hull (P : List (Vec2 K)) (hlen : 2 ≤ P.length)
    (hdiff : (sort P).head? ≠ (sort P).getLast?) :
    lowerChain ((lowerChain P).dropLast ++ (upperChain P).dropLast) = lowerChain P ∧
      upperChain ((lowerChain P).dropLast ++ (upperChain P).dropLast) = upperChain P := by
  have hL := lowerChain_length hlen
  have hU := upperChain_length hlen
  have hj := chains_join P
  have hsub : ∀ p ∈ (lowerChain P).dropLast ++ (upperChain P).dropLast, p ∈ P := by
    intro p hp
    rcases List.mem_append.1 hp with h | h
    · exact mem_lowerChain (List.dropLast_subset _ h)
    · exact mem_upperChain (List.dropLast_subset _ h)
  have hLsub : ∀ p ∈ lowerChain P, p ∈ (lowerChain P).dropLast ++ (upperChain P).dropLast :=
    fun p hp => mem_loop_of_mem_left _ _ hU hj.1 hp
  have hUsub : ∀ p ∈ upperChain P, p ∈ (lowerChain P).dropLast ++ (upperChain P).dropLast :=
    fun p hp => mem_loop_of_mem_right _ _ hL hj.2 hp
  have hne : (lowerChain P).dropLast ++ (upperChain P).dropLast ≠ [] := by
    intro h
    have := congrArg List.length h
    simp at this
    omega
  have hhead : (sort ((lowerChain P).dropLast ++ (upperChain P).dropLast)).head? =
      (sort P).head? := by
    refine head?_eq_of_sorted fwd_isDir (sort_sorted P) (sort_sorted _)
      (fun p hp => mem_sort.2 (hsub p (mem_sort.1 hp))) (sort_ne_nil hne) ?_
    intro m hm
    rw [← lowerChain_head?] at hm
    exact mem_sort.2 (hLsub m (List.mem_of_mem_head? hm))
  have hlast : (sort ((lowerChain P).dropLast ++ (upperChain P).dropLast)).getLast? =
      (sort P).getLast? := by
    refine getLast?_eq_of_sorted fwd_isDir (sort_sorted P) (sort_sorted _)
      (fun p hp => mem_sort.2 (hsub p (mem_sort.1 hp))) (sort_ne_nil hne) ?_
    intro z hz
    rw [← lowerChain_getLast?] at hz
    exact mem_sort.2 (hLsub z (List.mem_of_getLast?_eq_some hz))
  have hdiff' : (sort ((lowerChain P).dropLast ++ (upperChain P).dropLast)).head? ≠
      (sort ((lowerChain P).dropLast ++ (upperChain P).dropLast)).getLast? := by
    rw [hhead, hlast]; exact hdiff
  constructor
  · refine chain_unique fwd_isDir ((lowerChain P).dropLast ++ (upperChain P).dropLast) _ _
      ?_ ?_ (lowerChain_sorted _) (lowerChain_sorted _) (lowerChain_distinct _ hdiff')
      (lowerChain_distinct _ hdiff) (lowerChain_turns _) (lowerChain_turns _)
      (fun p hp => mem_lowerChain hp) hLsub (lowerChain_covers _) ?_
    · rw [lowerChain_head?, lowerChain_head?, hhead]
    · rw [lowerChain_getLast?, lowerChain_getLast?, hlast]
    · exact (lowerChain_covers P).imp (fun {a b} h p hp => h p (hsub p hp))
  · refine chain_unique bwd_isDir ((lowerChain P).dropLast ++ (upperChain P).dropLast) _ _
      ?_ ?_ (upperChain_sorted _) (upperChain_sorted _) (upperChain_distinct _ hdiff')
      (upperChain_distinct _ hdiff) (upperChain_turns _) (upperChain_turns _)
      (fun p hp => mem_upperChain hp) hUsub (upperChain_covers _) ?_
    · rw [upperChain_head?, upperChain_head?, hlast]
    · rw [upperChain_getLast?, upperChain_getLast?, hhead]
    · exact (upperChain_covers P).imp (fun {a b} h p hp => h p (hsub p hp))

/-- C5, as amended: over exact arithmetic (the coordinates in an ordered ring
`K`, every cross product computed without rounding or overflow), `Hull::Convex`
is idempotent: whenever `Convex(P)` is a non-empty hull `H`, `Convex(H)` is `H`
again, as a sequence. -/
theorem convex_idempotent (P H : List (Vec2 K)) (h : Hull.Convex P = some H) (hH : H ≠ []) :
    Hull.Convex H = some H := by
  have hP : P ≠ [] := by rintro rfl; simp [Hull.Convex] at h
  rcases length_cases hP with ⟨a, rfl⟩ | hlen
  · rw [Convex_single] at h
    simp only [Option.some.injEq] at h
    exact absurd h.symm hH
  · by_cases he : (sort P).head? = (sort P).getLast?
    · have hall : ∀ p ∈ P, ∀ q ∈ P, p = q := fun p hp q hq =>
        all_eq_of_head_eq_getLast fwd_isDir (sort_sorted P) he p (mem_sort.2 hp) q
          (mem_sort.2 hq)
      obtain ⟨a, _, ha⟩ := Convex_all_eq P hlen hall
      rw [ha] at h
      simp only [Option.some.injEq] at h
      subst h
      obtain ⟨b, hb, hb'⟩ := Convex_all_eq [a, a] (by simp) (by
        intro p hp q hq
        simp only [List.mem_cons, List.mem_singleton, List.not_mem_nil, or_false, or_self] at hp hq
        rw [hp, hq])
      simp only [List.mem_cons, List.mem_singleton, List.not_mem_nil, or_false, or_self] at hb
      rw [hb', hb]
    · rw [Convex_eq hP] at h
      simp only [Option.some.injEq] at h
      subst h
      obtain ⟨e1, e2⟩ := chains_of_hull P hlen he
      rw [Convex_eq hH, e1, e2]

/-- Witness for C5 as amended, on a square with its centre. -/
theorem convex_idempotent_witness :
    (Hull.Convex ([⟨0, 0⟩, ⟨10, 0⟩, ⟨5, 5⟩, ⟨10, 10⟩, ⟨0, 10⟩] : List (Vec2 ℤ)) =
        some [⟨0, 0⟩, ⟨10, 0⟩, ⟨10, 10⟩, ⟨0, 10⟩] ∧
      ([⟨0, 0⟩, ⟨10, 0⟩, ⟨10, 10⟩, ⟨0, 10⟩] : List (Vec2 ℤ)) ≠ []) ∧
      Hull.Convex ([⟨0, 0⟩, ⟨10, 0⟩, ⟨10, 10⟩, ⟨0, 10⟩] : List (Vec2 ℤ)) =
        some [⟨0, 0⟩, ⟨10, 0⟩, ⟨10, 10⟩, ⟨0, 10⟩] :=
  ⟨⟨by decide, by decide⟩,
    convex_idempotent [⟨0, 0⟩, ⟨10, 0⟩, ⟨5, 5⟩, ⟨10, 10⟩, ⟨0, 10⟩] _ (by decide) (by decide)⟩

/-! ## Points in convex position -/

theorem fwd_strict_cross_trans (u v w : Vec2 K) (hu : fwd u) (hv : fwd v) (hw : fwd w)
    (h1 : 0 < Cross u v) (h2 : 0 < Cross v w) : 0 < Cross u w := by
  have hwx : 0 ≤ w.x := by rcases hw with h | ⟨h, _⟩ <;> [exact h.le; exact h.ge]
  have hux : 0 < u.x := by
    rcases hu with h | ⟨h, h'⟩
    · exact h
    · exfalso
      simp only [Cross, h] at h1
      have hvx : 0 ≤ v.x := by rcases hv with h | ⟨h, _⟩ <;> [exact h.le; exact h.ge]
      have := mul_nonneg h' hvx
      linarith
  rcases hv with hvx | ⟨hvx, hvy⟩
  · have key : v.x * Cross u w = u.x * Cross v w + w.x * Cross u v := by
      simp only [Cross]; ring
    have hpos : 0 < v.x * Cross u w := by
      rw [key]
      have := mul_pos hux h2
      have := mul_nonneg hwx h1.le
      linarith
    exact pos_of_mul_pos_left (by rw [mul_comm]; exact hpos) hvx.le
  · exfalso
    simp only [Cross, hvx] at h2
    have := mul_nonneg hvy hwx
    linarith

/-- In a chain sorted along `H` with distinct neighbours all points differ. -/
theorem pairwise_ne_of_sorted {H : Vec2 K → Prop} (hH : IsDir H) :
    ∀ C : List (Vec2 K), C.Pairwise (fun a b => H (b - a)) →
      List.Chain' (fun a b => a ≠ b) C → C.Pairwise (fun a b => a ≠ b)
  | [], _, _ => List.Pairwise.nil
  | [a], _, _ => List.pairwise_singleton _ a
  | a :: b :: t, hs, hd => by
    have ih := pairwise_ne_of_sorted hH (b :: t) (List.Pairwise.of_cons hs) (List.Chain'.tail hd)
    refine List.Pairwise.cons ?_ ih
    intro x hx hax
    subst hax
    have hab : H (b - a) := List.rel_of_pairwise_cons hs (by simp)
    have hba : H (a - b) := by
      rcases List.mem_cons.1 hx with h | h
      · subst h
        rcases hH.total a a with h' | h' <;> exact h'
      · exact List.rel_of_pairwise_cons (List.Pairwise.of_cons hs) h
    exact (List.Chain'.rel_head hd) (hH.antisymm a b hab hba)

theorem pairwise_getElem? {α : Type} {R : α → α → Prop} {l : List α} (h : l.Pairwise R)
    {i j : ℕ} (hij : i < j) {a b : α} (ha : l[i]? = some a) (hb : l[j]? = some b) : R a b := by
  rcases List.getElem?_eq_some.1 ha with ⟨hi, rfl⟩
  rcases List.getElem?_eq_some.1 hb with ⟨hj, rfl⟩
  exact List.pairwise_iff_getElem.1 h i j hi hj hij

/-- A chain point `x` strictly before `a` and covered by the edge into `a` sees the
edge out of `a` strictly from the left. -/
theorem apex_after {H : Vec2 K → Prop} (hH : IsDir H) (c a b x : Vec2 K) (hca : H (a - c))
    (hab : H (b - a)) (hxa : H (a - x)) (hne : a ≠ x) (hturn : 0 < Cross (a - c) (b - c))
    (hcov : 0 ≤ Cross (a - c) (x - c)) : 0 < Cross (b - a) (x - a) := by
  by_contra hcon
  push_neg at hcon
  have hX0 : a - x ≠ ⟨0, 0⟩ := fun h => hne ((sub_eq_zero_iff a x).1 h)
  have h1 : 0 ≤ Cross (b - a) (a - x) := by
    have : Cross (b - a) (a - x) = - Cross (b - a) (x - a) := by
      simp only [Cross, sub_x, sub_y]; ring
    rw [this]; linarith
  have h2 : 0 ≤ Cross (a - x) (a - c) := by
    have : Cross (a - x) (a - c) = Cross (a - c) (x - c) := by
      simp only [Cross, sub_x, sub_y]; ring
    rw [this]; exact hcov
  have := hH.cross_trans (b - a) (a - x) (a - c) hab hxa hca hX0 h1 h2
  have e : Cross (b - a) (a - c) = - Cross (a - c) (b - c) := by
    simp only [Cross, sub_x, sub_y]; ring
  rw [e] at this
  linarith

/-- A chain point `x` strictly after `b` and covered by the edge out of `b` sees the
edge into `b` strictly from the left. -/
theorem apex_before {H : Vec2 K → Prop} (hH : IsDir H) (a b d x : Vec2 K) (hab : H (b - a))
    (hbd : H (d - b)) (hbx : H (x - b)) (hne : x ≠ b) (hturn : 0 < Cross (b - a) (d - a))
    (hcov : 0 ≤ Cross (d - b) (x - b)) : 0 < Cross (b - a) (x - a) := by
  by_contra hcon
  push_neg at hcon
  have hX0 : x - b ≠ ⟨0, 0⟩ := fun h => hne ((sub_eq_zero_iff x b).1 h)
  have h2 : 0 ≤ Cross (x - b) (b - a) := by
    have : Cross (x - b) (b - a) = - Cross (b - a) (x - a) := by
      simp only [Cross, sub_x, sub_y]; ring
    rw [this]; linarith
  have := hH.cross_trans (d - b) (x - b) (b - a) hbd hbx hab hX0 hcov h2
  have e : Cross (d - b) (b - a) = - Cross (b - a) (d - a) := by
    simp only [Cross, sub_x, sub_y]; ring
  rw [e] at this
  linarith

/-- A pair of consecutive loop points after the first point lies on `L` with a
predecessor, or on `U` with a successor. -/
theorem loop_pair_inner {α : Type} (L U : List α) (hL : 2 ≤ L.length) (hU : 2 ≤ U.length)
    (h1 : L.getLast? = U.head?) (h2 : U.getLast? = L.head?) (i : ℕ) (a b : α)
    (ha : (L.dropLast ++ U.dropLast)[i + 1]? = some a)
    (hb : (L.dropLast ++ U.dropLast)[i + 2]? = some b) :
    (∃ c, L[i]? = some c ∧ L[i + 1]? = some a ∧ L[i + 2]? = some b) ∨
      (∃ d j, U[j]? = some a ∧ U[j + 1]? = some b ∧ U[j + 2]? = some d) := by
  have hn : (L.dropLast ++ U.dropLast).length = (L.length - 1) + (U.length - 1) := by
    simp
  have hi : i + 2 < (L.dropLast ++ U.dropLast).length := by
    rcases List.getElem?_eq_some.1 hb with ⟨h, _⟩; exact h
  have lo := loop_index_lower L U hL hU h1
  have up := loop_index_upper L U hL h2
  have hmod : ∀ j, j < (L.dropLast ++ U.dropLast).length →
      j % (L.dropLast ++ U.dropLast).length = j := fun j hj => Nat.mod_eq_of_lt hj
  by_cases hlt : i + 2 ≤ L.length - 1
  · left
    obtain ⟨c, hc⟩ : ∃ c, (L.dropLast ++ U.dropLast)[i]? = some c :=
      ⟨_, List.getElem?_eq_getElem (by omega)⟩
    refine ⟨c, ?_, ?_, ?_⟩
    · rw [← lo i (by omega), hmod i (by omega)]; exact hc
    · rw [← lo (i + 1) (by omega), hmod (i + 1) (by omega)]; exact ha
    · rw [← lo (i + 2) (by omega), hmod (i + 2) (by omega)]; exact hb
  · right
    have hlt3 : (i + 3) % (L.dropLast ++ U.dropLast).length <
        (L.dropLast ++ U.dropLast).length := Nat.mod_lt _ (by omega)
    obtain ⟨d, hd⟩ : ∃ d, (L.dropLast ++ U.dropLast)[(i + 3) %
        (L.dropLast ++ U.dropLast).length]? = some d :=
      ⟨_, List.getElem?_eq_getElem hlt3⟩
    refine ⟨d, i + 1 - (L.length - 1), ?_, ?_, ?_⟩
    · rw [← up (i + 1 - (L.length - 1)) (by omega),
        show L.length - 1 + (i + 1 - (L.length - 1)) = i + 1 by omega, hmod (i + 1) (by omega)]
      exact ha
    · rw [← up (i + 1 - (L.length - 1) + 1) (by omega),
        show L.length - 1 + (i + 1 - (L.length - 1) + 1) = i + 2 by omega,
        hmod (i + 2) (by omega)]
      exact hb
    · rw [← up (i + 1 - (L.length - 1) + 2) (by omega),
        show L.length - 1 + (i + 1 - (L.length - 1) + 2) = i + 3 by omega]
      exact hd

theorem lowerChain_ne (P : List (Vec2 K)) (hdiff : (sort P).head? ≠ (sort P).getLast?) :
    (lowerChain P).Pairwise (fun a b => a ≠ b) :=
  pairwise_ne_of_sorted fwd_isDir _ (lowerChain_sorted P) (lowerChain_distinct P hdiff)

theorem upperChain_ne (P : List (Vec2 K)) (hdiff : (sort P).head? ≠ (sort P).getLast?) :
    (upperChain P).Pairwise (fun a b => a ≠ b) :=
  pairwise_ne_of_sorted bwd_isDir _ (upperChain_sorted P) (upperChain_distinct P hdiff)

/-- Seen from the first hull point `l0`, consecutive later hull points turn
strictly left: the fan triangles `(l0, a, b)` have positive area. -/
theorem hull_fan_pos (P : List (Vec2 K)) (hlen : 2 ≤ P.length)
    (hdiff : (sort P).head? ≠ (sort P).getLast?) (i : ℕ) (l0 a b : Vec2 K)
    (h0 : ((lowerChain P).dropLast ++ (upperChain P).dropLast)[0]? = some l0)
    (ha : ((lowerChain P).dropLast ++ (upperChain P).dropLast)[i + 1]? = some a)
    (hb : ((lowerChain P).dropLast ++ (upperChain P).dropLast)[i + 2]? = some b) :
    0 < Cross (a - l0) (b - l0) := by
  have hL := lowerChain_length hlen
  have hU := upperChain_length hlen
  have hj := chains_join P
  have hL0 : (lowerChain P)[0]? = some l0 := by
    rw [← loop_index_lower _ _ hL hU hj.1 0 (by omega), Nat.zero_mod]; exact h0
  have hl0P : l0 ∈ P := mem_lowerChain (getElem?_mem' hL0)
  have e : Cross (a - l0) (b - l0) = Cross (b - a) (l0 - a) := by
    simp only [Cross, sub_x, sub_y]; ring
  rw [e]
  rcases loop_pair_inner _ _ hL hU hj.1 hj.2 i a b ha hb with ⟨c, hc, ha', hb'⟩ | ⟨d, j, ha', hb', hd⟩
  · exact apex_after fwd_isDir c a b l0
      (pairwise_getElem? (lowerChain_sorted P) (Nat.lt_succ_self i) hc ha')
      (pairwise_getElem? (lowerChain_sorted P) (Nat.lt_succ_self (i + 1)) ha' hb')
      (pairwise_getElem? (lowerChain_sorted P) (Nat.succ_pos i) hL0 ha')
      (Ne.symm (pairwise_getElem? (lowerChain_ne P hdiff) (Nat.succ_pos i) hL0 ha'))
      (lowerChain_turns P i c a b hc ha' hb')
      (chain'_getElem? (lowerChain_covers P) i c a hc ha' l0 hl0P)
  · have hUm : (upperChain P)[(upperChain P).length - 1]? = some l0 := by
      rw [← List.getLast?_eq_getElem?, hj.2, List.head?_eq_getElem?]; exact hL0
    have hjlt : j + 1 < (upperChain P).length - 1 := by
      rcases List.getElem?_eq_some.1 hd with ⟨h, _⟩
      omega
    exact apex_before bwd_isDir a b d l0
      (pairwise_getElem? (upperChain_sorted P) (Nat.lt_succ_self j) ha' hb')
      (pairwise_getElem? (upperChain_sorted P) (Nat.lt_succ_self (j + 1)) hb' hd)
      (pairwise_getElem? (upperChain_sorted P) hjlt hb' hUm)
      (Ne.symm (pairwise_getElem? (upperChain_ne P hdiff) hjlt hb' hUm))
      (upperChain_turns P j a b d ha' hb' hd)
      (chain'_getElem? (upperChain_covers P) (j + 1) b d hb' hd l0 hl0P)

theorem chain'_of_getElem? {α : Type} {R : α → α → Prop} :
    ∀ l : List α, (∀ i a b, l[i]? = some a → l[i + 1]? = some b → R a b) → List.Chain' R l
  | [], _ => List.chain'_nil
  | [a], _ => List.chain'_singleton a
  | a :: b :: t, h =>
    List.Chain'.cons (h 0 a b (by simp) (by simp))
      (chain'_of_getElem? (b :: t) (fun i x y hx hy => h (i + 1) x y
        (by rw [List.getElem?_cons_succ]; exact hx) (by rw [List.getElem?_cons_succ]; exact hy)))

theorem mem_hull_input {P : List (Vec2 K)} {p : Vec2 K}
    (hp : p ∈ (lowerChain P).dropLast ++ (upperChain P).dropLast) : p ∈ P := by
  rcases List.mem_append.1 hp with h | h
  · exact mem_lowerChain (List.dropLast_subset _ h)
  · exact mem_upperChain (List.dropLast_subset _ h)

/-- The first hull point is the smallest input point. -/
theorem hull_head (P : List (Vec2 K)) (hlen : 2 ≤ P.length) :
    ∃ l0, ((lowerChain P).dropLast ++ (upperChain P).dropLast)[0]? = some l0 ∧
      (sort P).head? = some l0 ∧ (lowerChain P)[0]? = some l0 := by
  have hL := lowerChain_length hlen
  have hU := upperChain_length hlen
  have hj := chains_join P
  obtain ⟨l0, hl0⟩ : ∃ l0, (lowerChain P)[0]? = some l0 :=
    ⟨_, List.getElem?_eq_getElem (by omega)⟩
  refine ⟨l0, ?_, ?_, hl0⟩
  · have := loop_index_lower _ _ hL hU hj.1 0 (by omega)
    rw [Nat.zero_mod] at this
    rw [this]; exact hl0
  · rw [← lowerChain_head?, List.head?_eq_getElem?]; exact hl0

/-- The hull of two or more points that are not all equal has no repeated point. -/
theorem hull_nodup (P : List (Vec2 K)) (hlen : 2 ≤ P.length)
    (hdiff : (sort P).head? ≠ (sort P).getLast?) :
    ((lowerChain P).dropLast ++ (upperChain P).dropLast).Nodup := by
  have hL := lowerChain_length hlen
  have hU := upperChain_length hlen
  have hj := chains_join P
  obtain ⟨l0, h0, hs0, hL0⟩ := hull_head P hlen
  have hLne : (lowerChain P).dropLast ≠ [] := by
    intro h
    have := congrArg List.length h
    simp at this; omega
  -- split off the first point
  obtain ⟨t, ht⟩ : ∃ t, (lowerChain P).dropLast = l0 :: t := by
    cases hd : (lowerChain P).dropLast with
    | nil => exact absurd hd hLne
    | cons x t =>
      refine ⟨t, ?_⟩
      rw [hd] at h0
      simp only [List.cons_append, List.getElem?_cons_zero, Option.some.injEq] at h0
      rw [h0]
  have hH : (lowerChain P).dropLast ++ (upperChain P).dropLast =
      l0 :: (t ++ (upperChain P).dropLast) := by rw [ht]; rfl
  -- the first point does not come back
  have hLn := lowerChain_ne P hdiff
  have hUn := upperChain_ne P hdiff
  have hLsplit : lowerChain P = l0 :: t ++ [(lowerChain P).getLast (by
      intro h; rw [h] at hL; simp at hL)] := by
    rw [← ht]; exact (List.dropLast_append_getLast _).symm
  have hUlast : (upperChain P).getLast? = some l0 := by
    rw [hj.2, List.head?_eq_getElem?]; exact hL0
  have hUne : upperChain P ≠ [] := by intro h; rw [h] at hU; simp at hU
  have hUsplit : upperChain P = (upperChain P).dropLast ++ [l0] := by
    have : (upperChain P).getLast hUne = l0 := by
      rw [List.getLast?_eq_getLast _ hUne] at hUlast
      simpa using hUlast
    conv_lhs => rw [← List.dropLast_append_getLast hUne, this]
  have hnot : l0 ∉ t ++ (upperChain P).dropLast := by
    intro hmem
    rcases List.mem_append.1 hmem with h | h
    · rw [hLsplit] at hLn
      have := List.rel_of_pairwise_cons hLn (List.mem_append_left _ h)
      exact this rfl
    · rw [hUsplit] at hUn
      exact (List.pairwise_append.1 hUn).2.2 l0 h l0 (by simp) rfl
  rw [hH]
  refine List.nodup_cons.2 ⟨hnot, ?_⟩
  -- the later points are strictly ordered by angle around the first
  have hmin : ∀ v ∈ t ++ (upperChain P).dropLast, fwd (v - l0) := by
    intro v hv
    have hvP : v ∈ P := mem_hull_input (by rw [hH]; exact List.mem_cons_of_mem _ hv)
    exact rel_head_of_sorted fwd_isDir (sort_sorted P) hs0 v (mem_sort.2 hvP)
  have hchain : List.Chain' (fun a b => 0 < Cross (a - l0) (b - l0))
      (t ++ (upperChain P).dropLast) := by
    refine chain'_of_getElem? _ ?_
    intro i a b ha hb
    refine hull_fan_pos P hlen hdiff i l0 a b h0 ?_ ?_
    · rw [hH, List.getElem?_cons_succ]; exact ha
    · rw [hH, List.getElem?_cons_succ]; exact hb
  have hchain2 : List.Chain' (fun a b => fwd (a - l0) ∧ fwd (b - l0) ∧
      0 < Cross (a - l0) (b - l0)) (t ++ (upperChain P).dropLast) := by
    rw [List.Chain'.iff_mem] at hchain
    exact hchain.imp (fun {a b} h => ⟨hmin a h.1, hmin b h.2.1, h.2.2⟩)
  haveI : IsTrans (Vec2 K) (fun a b => fwd (a - l0) ∧ fwd (b - l0) ∧
      0 < Cross (a - l0) (b - l0)) :=
    ⟨fun a b c h1 h2 =>
      ⟨h1.1, h2.2.1, fwd_strict_cross_trans _ _ _ h1.1 h1.2.1 h2.2.1 h1.2.2 h2.2.2⟩⟩
  have hpw := List.chain'_iff_pairwise.1 hchain2
  exact hpw.imp (fun {a b} h hab => by
    subst hab
    have := h.2.2
    rw [Vec2.cross_self] at this
    exact lt_irrefl _ this)

theorem mem_convexHull_three {F : Type} [LinearOrderedField F] (s : Set (F × F))
    (x y z : F × F) (hx : x ∈ s) (hy : y ∈ s) (hz : z ∈ s) (c0 c1 c2 : F) (h0 : 0 ≤ c0)
    (h1 : 0 ≤ c1) (h2 : 0 ≤ c2) (hsum : c0 + c1 + c2 = 1) :
    c0 • x + c1 • y + c2 • z ∈ convexHull F s := by
  have hc := convex_convexHull F s
  have key := hc.sum_mem (t := Finset.univ) (w := ![c0, c1, c2]) (z := ![x, y, z])
    (by intro i _; fin_cases i <;> simp [h0, h1, h2])
    (by simp [Fin.sum_univ_three, hsum])
    (by
      intro i _
      fin_cases i
      · exact subset_convexHull F s hx
      · exact subset_convexHull F s hy
      · exact subset_convexHull F s hz)
  simpa [Fin.sum_univ_three, add_assoc] using key

/-- A sign change along a list happens between two neighbours. -/
theorem sign_change {α F : Type} [LinearOrderedField F] (g : α → F) :
    ∀ V : List α, ∀ a0 ∈ V.head?, ∀ z ∈ V.getLast?, 0 ≤ g a0 → g z ≤ 0 →
      V.length = 1 ∨ ∃ i a b, V[i]? = some a ∧ V[i + 1]? = some b ∧ 0 ≤ g a ∧ g b ≤ 0
  | [], a0, h, _, _, _, _ => by simp at h
  | [a], _, _, _, _, _, _ => Or.inl rfl
  | a :: b :: t, a0, h0, z, hz, hg0, hgz => by
    simp only [List.head?_cons, Option.mem_def, Option.some.injEq] at h0
    subst h0
    right
    by_cases hb : g b ≤ 0
    · exact ⟨0, a, b, by simp, by simp, hg0, hb⟩
    · have hz' : z ∈ (b :: t).getLast? := by
        rw [List.getLast?_cons_cons] at hz; exact hz
      rcases sign_change g (b :: t) b (by simp) z hz' (not_le.1 hb).le hgz with h1 | ⟨i, x, y, hx, hy, h⟩
      · exfalso
        have : t = [] := by
          cases t with
          | nil => rfl
          | cons c t' => simp at h1
        subst this
        simp only [List.getLast?_singleton, Option.mem_def, Option.some.injEq] at hz'
        subst hz'
        exact hb hgz
      · exact ⟨i + 1, x, y, by rw [List.getElem?_cons_succ]; exact hx,
          by rw [List.getElem?_cons_succ]; exact hy, h⟩

/-- A point inside the fan triangle `(l0, a, b)` is a convex combination of its
corners. -/
theorem mem_triangle {F : Type} [LinearOrderedField F] (s : Set (F × F)) (l0 a b p : Vec2 F)
    (hl : toPair l0 ∈ s) (ha : toPair a ∈ s) (hb : toPair b ∈ s)
    (hpos : 0 < Cross (a - l0) (b - l0)) (h1 : 0 ≤ Cross (a - l0) (p - l0))
    (h2 : Cross (b - l0) (p - l0) ≤ 0) (h3 : 0 ≤ Cross (b - a) (p - a)) :
    toPair p ∈ convexHull F s := by
  have hne := hpos.ne'
  have key := mem_convexHull_three s (toPair l0) (toPair a) (toPair b) hl ha hb
    (Cross (b - a) (p - a) / Cross (a - l0) (b - l0))
    (- Cross (b - l0) (p - l0) / Cross (a - l0) (b - l0))
    (Cross (a - l0) (p - l0) / Cross (a - l0) (b - l0))
    (div_nonneg h3 hpos.le) (div_nonneg (by linarith) hpos.le) (div_nonneg h1 hpos.le)
    (by
      rw [← add_div, ← add_div, div_eq_one_iff_eq hne]
      simp only [Cross, sub_x, sub_y]; ring)
  have e : toPair p =
      (Cross (b - a) (p - a) / Cross (a - l0) (b - l0)) • toPair l0 +
      (- Cross (b - l0) (p - l0) / Cross (a - l0) (b - l0)) • toPair a +
      (Cross (a - l0) (p - l0) / Cross (a - l0) (b - l0)) • toPair b := by
    simp only [toPair, Prod.smul_mk, Prod.mk_add_mk, smul_eq_mul, Prod.mk.injEq]
    constructor
    · field_simp
      simp only [Cross, sub_x, sub_y]; ring
    · field_simp
      simp only [Cross, sub_x, sub_y]; ring
  rw [e]; exact key

/-- A point on the line through `l0` and `z` that lies between them in the
sorting order is a convex combination of the two. -/
theorem mem_segment_of_between {F : Type} [LinearOrderedField F] (s : Set (F × F))
    (l0 z p : Vec2 F) (hl : toPair l0 ∈ s) (hz : toPair z ∈ s) (hne : l0 ≠ z)
    (hlz : fwd (z - l0)) (hlp : fwd (p - l0)) (hpz : fwd (z - p))
    (hc : Cross (z - l0) (p - l0) = 0) : toPair p ∈ convexHull F s := by
  simp only [Cross, sub_x, sub_y] at hc
  have comb : ∀ t : F, 0 ≤ t → t ≤ 1 → p.x = (1 - t) * l0.x + t * z.x →
      p.y = (1 - t) * l0.y + t * z.y → toPair p ∈ convexHull F s := by
    intro t ht0 ht1 hx hy
    have key := mem_convexHull_three s (toPair l0) (toPair z) (toPair z) hl hz hz (1 - t) t 0
      (by linarith) ht0 le_rfl (by ring)
    have e : toPair p = (1 - t) • toPair l0 + t • toPair z + (0 : F) • toPair z := by
      simp only [toPair, Prod.smul_mk, Prod.mk_add_mk, smul_eq_mul, Prod.mk.injEq]
      constructor
      · rw [hx]; ring
      · rw [hy]; ring
    rw [e]; exact key
  simp only [fwd, sub_x, sub_y] at hlz hlp hpz
  rcases hlz with hx | ⟨hx, hy⟩
  · -- the segment is not vertical: interpolate along x
    have hpx : 0 ≤ p.x - l0.x := by rcases hlp with h | ⟨h, _⟩ <;> [exact h.le; exact h.ge]
    have hzx : 0 ≤ z.x - p.x := by rcases hpz with h | ⟨h, _⟩ <;> [exact h.le; exact h.ge]
    refine comb ((p.x - l0.x) / (z.x - l0.x)) (div_nonneg hpx hx.le)
      ((div_le_one hx).2 (by linarith)) ?_ ?_
    · field_simp; ring
    · field_simp
      linear_combination hc
  · -- vertical segment: interpolate along y
    have hy' : 0 < z.y - l0.y := by
      rcases hy.lt_or_eq with h | h
      · exact h
      · exfalso; apply hne; ext
        · linarith
        · linarith
    have hpx0 : p.x - l0.x = 0 := by
      rw [hx] at hc
      have : (z.y - l0.y) * (p.x - l0.x) = 0 := by linarith
      rcases mul_eq_zero.1 this with h | h
      · exact absurd h hy'.ne'
      · exact h
    have hpy : 0 ≤ p.y - l0.y := by
      rcases hlp with h | ⟨_, h⟩
      · rw [hpx0] at h; exact absurd h (lt_irrefl _)
      · exact h
    have hzy : 0 ≤ z.y - p.y := by
      rcases hpz with h | ⟨_, h⟩
      · exfalso; linarith
      · exact h
    refine comb ((p.y - l0.y) / (z.y - l0.y)) (div_nonneg hpy hy'.le)
      ((div_le_one hy').2 (by linarith)) ?_ ?_
    · field_simp
      have h1 : p.x = l0.x := by linarith
      have h2 : z.x = l0.x := by linarith
      rw [h1, h2]; ring
    · field_simp; ring

/-- Every input point that is not a hull point lies in the convex hull of the
hull points. -/
theorem hull_contains {F : Type} [LinearOrderedField F] (P : List (Vec2 F))
    (hlen : 2 ≤ P.length) (hdiff : (sort P).head? ≠ (sort P).getLast?) (p : Vec2 F)
    (hp : p ∈ P) :
    toPair p ∈ convexHull F
      (toPair '' {q | q ∈ (lowerChain P).dropLast ++ (upperChain P).dropLast}) := by
  have hL := lowerChain_length hlen
  have hU := upperChain_length hlen
  have hj := chains_join P
  obtain ⟨l0, h0, hs0, hL0⟩ := hull_head P hlen
  have hn : ((lowerChain P).dropLast ++ (upperChain P).dropLast).length =
      ((lowerChain P).length - 1) + ((upperChain P).length - 1) := by simp
  have hmem : ∀ i a, ((lowerChain P).dropLast ++ (upperChain P).dropLast)[i]? = some a →
      toPair a ∈ toPair '' {q | q ∈ (lowerChain P).dropLast ++ (upperChain P).dropLast} :=
    fun i a h => ⟨a, getElem?_mem' h, rfl⟩
  obtain ⟨v1, hv1⟩ : ∃ v1, ((lowerChain P).dropLast ++ (upperChain P).dropLast)[1]? = some v1 :=
    ⟨_, List.getElem?_eq_getElem (by omega)⟩
  obtain ⟨vz, hvz⟩ : ∃ vz, ((lowerChain P).dropLast ++ (upperChain P).dropLast)[
      ((lowerChain P).dropLast ++ (upperChain P).dropLast).length - 1]? = some vz :=
    ⟨_, List.getElem?_eq_getElem (by omega)⟩
  have g1 : 0 ≤ Cross (v1 - l0) (p - l0) := by
    refine hull_covers P hlen 0 l0 v1 h0 ?_ p hp
    rw [zero_add, Nat.mod_eq_of_lt (by omega)]; exact hv1
  have gz : Cross (vz - l0) (p - l0) ≤ 0 := by
    have := hull_covers P hlen _ vz l0 hvz (by
      rw [Nat.sub_add_cancel (by omega), Nat.mod_self]; exact h0) p hp
    have e : Cross (l0 - vz) (p - vz) = - Cross (vz - l0) (p - l0) := by
      simp only [Cross, sub_x, sub_y]; ring
    rw [e] at this; linarith
  have hV1 : v1 ∈ ((lowerChain P).dropLast ++ (upperChain P).dropLast).tail.head? := by
    rw [List.head?_eq_getElem?, List.getElem?_tail]; exact hv1
  have hVz : vz ∈ ((lowerChain P).dropLast ++ (upperChain P).dropLast).tail.getLast? := by
    rw [List.getLast?_eq_getElem?, List.getElem?_tail, List.length_tail,
      show ((lowerChain P).dropLast ++ (upperChain P).dropLast).length - 1 - 1 + 1 =
        ((lowerChain P).dropLast ++ (upperChain P).dropLast).length - 1 by omega]
    exact hvz
  rcases sign_change (fun v => Cross (v - l0) (p - l0)) _ v1 hV1 vz hVz g1 gz with
    hone | ⟨i, a, b, ha, hb, hga, hgb⟩
  · -- the hull is a segment
    rw [List.length_tail] at hone
    have hk : (lowerChain P).length - 1 = 1 := by omega
    have hz : (sort P).getLast? = some v1 := by
      rw [← upperChain_head?, List.head?_eq_getElem?,
        ← loop_index_upper _ _ hL hj.2 0 (by omega), hk, Nat.mod_eq_of_lt (by omega)]
      exact hv1
    have hvz1 : vz = v1 := by
      rw [show ((lowerChain P).dropLast ++ (upperChain P).dropLast).length - 1 = 1 by omega,
        hv1] at hvz
      simpa using hvz.symm
    subst hvz1
    refine mem_segment_of_between _ l0 vz p (hmem 0 l0 h0) (hmem 1 vz hv1) ?_
      (rel_getLast_of_sorted fwd_isDir (sort_sorted P) hz l0 (List.mem_of_mem_head? hs0))
      (rel_head_of_sorted fwd_isDir (sort_sorted P) hs0 p (mem_sort.2 hp))
      (rel_getLast_of_sorted fwd_isDir (sort_sorted P) hz p (mem_sort.2 hp))
      (le_antisymm gz g1)
    intro h
    apply hdiff
    rw [hs0, hz, h]
  · rw [List.getElem?_tail] at ha hb
    have hi : i + 2 < ((lowerChain P).dropLast ++ (upperChain P).dropLast).length := by
      rcases List.getElem?_eq_some.1 hb with ⟨h, _⟩; exact h
    refine mem_triangle _ l0 a b p (hmem 0 l0 h0) (hmem _ a ha) (hmem _ b hb)
      (hull_fan_pos P hlen hdiff i l0 a b h0 ha hb) hga hgb ?_
    refine hull_covers P hlen (i + 1) a b ha ?_ p hp
    rw [Nat.mod_eq_of_lt hi]; exact hb

theorem head?_ne_getLast?_of_nodup {α : Type} :
    ∀ l : List α, l.Nodup → 2 ≤ l.length → l.head? ≠ l.getLast?
  | [], _, h => by simp at h
  | [_], _, h => by simp at h
  | a :: b :: t, hnd, _ => by
    intro h
    rw [List.getLast?_cons_cons, List.head?_cons] at h
    have hmem : a ∈ b :: t := List.mem_of_getLast?_eq_some h.symm
    exact (List.nodup_cons.1 hnd).1 hmem

/-- C6, as amended: over exact arithmetic (the coordinates in an ordered field
`F`, every cross product computed without rounding or overflow), for every
input `P` of at least two pairwise distinct points in strictly convex position
(no point of `P` lies in the convex hull of the others), `Hull::Convex(P)`
returns all points of `P`, each exactly once: the hull is a permutation of
`P`. -/
theorem convex_of_convex_position {F : Type} [LinearOrderedField F] (P : List (Vec2 F))
    (hlen : 2 ≤ P.length) (hnd : P.Nodup) (hpos : ConvexPosition P) :
    ∃ H, Hull.Convex P = some H ∧ H.Perm P := by
  have hP : P ≠ [] := by rintro rfl; simp at hlen
  have hdiff : (sort P).head? ≠ (sort P).getLast? :=
    head?_ne_getLast?_of_nodup _ ((sort_perm P).nodup_iff.2 hnd)
      (by rw [length_sort]; exact hlen)
  refine ⟨_, Convex_eq hP, ?_⟩
  refine (List.perm_ext_iff_of_nodup (hull_nodup P hlen hdiff) hnd).2 ?_
  intro p
  refine ⟨mem_hull_input, ?_⟩
  intro hp
  by_contra hnot
  apply hpos p hp
  refine convexHull_mono ?_ (hull_contains P hlen hdiff p hp)
  rintro _ ⟨q, hq, rfl⟩
  refine ⟨q, ⟨mem_hull_input hq, ?_⟩, rfl⟩
  rintro rfl
  exact hnot hq

/-- The single-point half of the failure of C6: `[(0,0)]` is a list of pairwise
distinct points in strictly convex position (there are no other points), but
`Hull::Convex` pops the only point of both chains and returns the empty hull,
which does not contain `(0,0)`. -/
theorem convex_single_point_lost :
    (([⟨0, 0⟩] : List (Vec2 ℝ)).Nodup ∧ ConvexPosition ([⟨0, 0⟩] : List (Vec2 ℝ))) ∧
      Hull.Convex ([⟨0, 0⟩] : List (Vec2 ℝ)) = some [] ∧
      ¬ ∃ H, Hull.Convex ([⟨0, 0⟩] : List (Vec2 ℝ)) = some H ∧ H.Perm [⟨0, 0⟩] := by
  refine ⟨⟨List.nodup_singleton _, ?_⟩, Convex_single _, ?_⟩
  · intro p hp
    have : {q : Vec2 ℝ | q ∈ ([⟨0, 0⟩] : List (Vec2 ℝ)) ∧ q ≠ p} = ∅ := by
      ext q
      simp only [List.mem_singleton] at hp
      simp only [List.mem_singleton, Set.mem_setOf_eq, Set.mem_empty_iff_false, iff_false,
        not_and, not_not]
      intro hq; rw [hq, hp]
    rw [this, Set.image_empty, convexHull_empty]
    exact Set.not_mem_empty _
  · rintro ⟨H, hH, hperm⟩
    rw [Convex_single] at hH
    simp only [Option.some.injEq] at hH
    subst hH
    simpa using hperm.length_eq

/-- The corners of the square of side 10 are in strictly convex position. -/
theorem square_convexPosition :
    ConvexPosition ([⟨0, 0⟩, ⟨10, 0⟩, ⟨10, 10⟩, ⟨0, 10⟩] : List (Vec2 ℝ)) := by
  intro p hp
  simp only [List.mem_cons, List.mem_singleton, List.not_mem_nil, or_false] at hp
  rcases hp with rfl | rfl | rfl | rfl
  · refine not_mem_convexHull_of_sep _ (-1) (-1) (-10) _ ?_ (by norm_num [toPair])
    rintro _ ⟨q, ⟨hq, hne⟩, rfl⟩
    simp only [List.mem_cons, List.mem_singleton, List.not_mem_nil, or_false] at hq
    rcases hq with rfl | rfl | rfl | rfl
    · exact absurd rfl hne
    · norm_num [toPair]
    · norm_num [toPair]
    · norm_num [toPair]
  · refine not_mem_convexHull_of_sep _ 1 (-1) 0 _ ?_ (by norm_num [toPair])
    rintro _ ⟨q, ⟨hq, hne⟩, rfl⟩
    simp only [List.mem_cons, List.mem_singleton, List.not_mem_nil, or_false] at hq
    rcases hq with rfl | rfl | rfl | rfl
    · norm_num [toPair]
    · exact absurd rfl hne
    · norm_num [toPair]
    · norm_num [toPair]
  · refine not_mem_convexHull_of_sep _ 1 1 10 _ ?_ (by norm_num [toPair])
    rintro _ ⟨q, ⟨hq, hne⟩, rfl⟩
    simp only [List.mem_cons, List.mem_singleton, List.not_mem_nil, or_false] at hq
    rcases hq with rfl | rfl | rfl | rfl
    · norm_num [toPair]
    · norm_num [toPair]
    · exact absurd rfl hne
    · norm_num [toPair]
  · refine not_mem_convexHull_of_sep _ (-1) 1 0 _ ?_ (by norm_num [toPair])
    rintro _ ⟨q, ⟨hq, hne⟩, rfl⟩
    simp only [List.mem_cons, List.mem_singleton, List.not_mem_nil, or_false] at hq
    rcases hq with rfl | rfl | rfl | rfl
    · norm_num [toPair]
    · norm_num [toPair]
    · norm_num [toPair]
    · exact absurd rfl hne

theorem square_nodup : ([⟨0, 0⟩, ⟨10, 0⟩, ⟨10, 10⟩, ⟨0, 10⟩] : List (Vec2 ℝ)).Nodup := by
  simp [Vec2.mk.injEq]

/-- Witness for C6 as amended: the corners of the square of side 10; the hull
is a permutation of the 4 corners. -/
theorem convex_of_convex_position_witness :
    (2 ≤ ([⟨0, 0⟩, ⟨10, 0⟩, ⟨10, 10⟩, ⟨0, 10⟩] : List (Vec2 ℝ)).length ∧
      ([⟨0, 0⟩, ⟨10, 0⟩, ⟨10, 10⟩, ⟨0, 10⟩] : List (Vec2 ℝ)).Nodup ∧
      ConvexPosition ([⟨0, 0⟩, ⟨10, 0⟩, ⟨10, 10⟩, ⟨0, 10⟩] : List (Vec2 ℝ))) ∧
      ∃ H, Hull.Convex ([⟨0, 0⟩, ⟨10, 0⟩, ⟨10, 10⟩, ⟨0, 10⟩] : List (Vec2 ℝ)) = some H ∧
        H.Perm [⟨0, 0⟩, ⟨10, 0⟩, ⟨10, 10⟩, ⟨0, 10⟩] :=
  ⟨⟨by simp, square_nodup, square_convexPosition⟩,
    convex_of_convex_position _ (by simp) square_nodup square_convexPosition⟩

/-! ## The bounding box -/

theorem range_four : List.range 4 = [0, 1, 2, 3] := by decide

theorem finRange_four : List.finRange 4 = [0, 1, 2, 3] := by decide

/-- The extreme-point scan on the hull of an axis-aligned rectangle. -/
theorem extremes_rect {K : Type} [LinearOrderedField K] (w h : K) (hw : 0 < w) (hh : 0 < h) :
    extremes ([⟨0, 0⟩, ⟨w, 0⟩, ⟨w, h⟩, ⟨0, h⟩] : List (Vec2 K)) = ![0, 1, 0, 2] := by
  have hw' : ¬ w < 0 := not_lt.2 hw.le
  have hh' : ¬ h < 0 := not_lt.2 hh.le
  have s0 : scanStep ([⟨0, 0⟩, ⟨w, 0⟩, ⟨w, h⟩, ⟨0, h⟩] : List (Vec2 K))
      ⟨⟨0, 0⟩, ⟨0, 0⟩, ⟨0, 0⟩, ⟨0, 0⟩, fun _ => 0⟩ 0 =
      ⟨⟨0, 0⟩, ⟨0, 0⟩, ⟨0, 0⟩, ⟨0, 0⟩, fun _ => 0⟩ := by
    simp [scanStep, nth]
  have s1 : scanStep ([⟨0, 0⟩, ⟨w, 0⟩, ⟨w, h⟩, ⟨0, h⟩] : List (Vec2 K))
      ⟨⟨0, 0⟩, ⟨0, 0⟩, ⟨0, 0⟩, ⟨0, 0⟩, fun _ => 0⟩ 1 =
      ⟨⟨0, 0⟩, ⟨w, 0⟩, ⟨0, 0⟩, ⟨0, 0⟩, Function.update (fun _ => 0) 1 1⟩ := by
    simp [scanStep, nth, hw, hw']
  have s2 : scanStep ([⟨0, 0⟩, ⟨w, 0⟩, ⟨w, h⟩, ⟨0, h⟩] : List (Vec2 K))
      ⟨⟨0, 0⟩, ⟨w, 0⟩, ⟨0, 0⟩, ⟨0, 0⟩, Function.update (fun _ => 0) 1 1⟩ 2 =
      ⟨⟨0, 0⟩, ⟨w, 0⟩, ⟨0, 0⟩, ⟨w, h⟩,
        Function.update (Function.update (fun _ => 0) 1 1) 3 2⟩ := by
    simp [scanStep, nth, hw, hw', hh, hh']
  have s3 : scanStep ([⟨0, 0⟩, ⟨w, 0⟩, ⟨w, h⟩, ⟨0, h⟩] : List (Vec2 K))
      ⟨⟨0, 0⟩, ⟨w, 0⟩, ⟨0, 0⟩, ⟨w, h⟩,
        Function.update (Function.update (fun _ => 0) 1 1) 3 2⟩ 3 =
      ⟨⟨0, 0⟩, ⟨w, 0⟩, ⟨0, 0⟩, ⟨w, h⟩,
        Function.update (Function.update (fun _ => 0) 1 1) 3 2⟩ := by
    simp [scanStep, nth, hw, hw', hh, hh', hw.le]
  have e : extremes ([⟨0, 0⟩, ⟨w, 0⟩, ⟨w, h⟩, ⟨0, h⟩] : List (Vec2 K)) =
      Function.update (Function.update (fun _ => 0) 1 1) 3 2 := by
    have hn : nth ([⟨0, 0⟩, ⟨w, 0⟩, ⟨w, h⟩, ⟨0, h⟩] : List (Vec2 K)) 0 = ⟨0, 0⟩ := rfl
    have hl : ([⟨0, 0⟩, ⟨w, 0⟩, ⟨w, h⟩, ⟨0, h⟩] : List (Vec2 K)).length = 4 := rfl
    unfold extremes
    rw [hl, range_four, hn]
    simp only [List.foldl_cons, List.foldl_nil]
    rw [s0, s1, s2, s3]
  rw [e]
  funext i
  fin_cases i <;> simp [Function.update]

/-! ## The library on the real numbers -/

theorem norm_real {M : CMath ℝ} (hM : IsRealMath M) (v : Vec2 ℝ) :
    Vec2.norm M v = Real.sqrt (v.x * v.x + v.y * v.y) := by
  rw [Vec2.norm, hM.1]

/-- Over the reals `Vec2::rotate` is the rotation matrix. -/
theorem rotate_real {M : CMath ℝ} (hM : IsRealMath M) (v : Vec2 ℝ) (t : ℝ) :
    rotate M v t =
      ⟨v.x * Real.cos t - v.y * Real.sin t, v.x * Real.sin t + v.y * Real.cos t⟩ := by
  obtain ⟨h1, h2, h3, h4, _, _⟩ := hM
  have habs : Real.sqrt (v.x * v.x + v.y * v.y) = Complex.abs ⟨v.x, v.y⟩ := by
    rw [Complex.abs_apply, Complex.normSq_mk]
  have hc := Complex.abs_mul_cos_arg (⟨v.x, v.y⟩ : ℂ)
  have hs := Complex.abs_mul_sin_arg (⟨v.x, v.y⟩ : ℂ)
  simp only at hc hs
  simp only [rotate, Construct, ThetaAxis, Vec2.norm, h1, h2, h3, h4, habs]
  rw [Real.cos_add, Real.sin_add]
  ext
  · simp only; linear_combination Real.cos t * hc - Real.sin t * hs
  · simp only; linear_combination Real.sin t * hc + Real.cos t * hs

theorem unit_x {M : CMath ℝ} (hM : IsRealMath M) (a : ℝ) (ha : a ≠ 0) :
    unit M ⟨a, 0⟩ = ⟨a / |a|, 0⟩ := by
  have hn : Vec2.norm M ⟨a, 0⟩ = |a| := by
    rw [norm_real hM]; simp [Real.sqrt_mul_self_eq_abs]
  rw [unit]
  simp only [hn]
  rw [if_pos (abs_ne_zero.2 ha)]
  simp

theorem unit_y {M : CMath ℝ} (hM : IsRealMath M) (a : ℝ) (ha : a ≠ 0) :
    unit M ⟨0, a⟩ = ⟨0, a / |a|⟩ := by
  have hn : Vec2.norm M ⟨0, a⟩ = |a| := by
    rw [norm_real hM]; simp [Real.sqrt_mul_self_eq_abs]
  rw [unit]
  simp only [hn]
  rw [if_pos (abs_ne_zero.2 ha)]
  simp

/-! ## The caliper loop on a rectangle -/

theorem caliperStep_keep {K : Type} [LinearOrderedField K] (M : CMath K)
    (input : List (Vec2 K)) (c : Calipers K) (mt : K) (para1 : Fin 4 → Vec2 K)
    (idx1 : Fin 4 → ℕ) (hmt : minTheta M input c = mt)
    (hpara : ∀ i, rotate M (c.para i) mt = para1 i)
    (hidx : ∀ i, (if theta M input c i = mt then next input (c.idx i) else c.idx i) = idx1 i)
    (harea : ¬ abs (Cross (para1 0) (nth input (idx1 1) - nth input (idx1 0))) *
        abs (Cross (para1 2) (nth input (idx1 3) - nth input (idx1 2))) < c.minArea) :
    caliperStep M input c = ⟨para1, idx1, c.minArea, c.box⟩ := by
  unfold caliperStep
  simp only [hmt, hpara, hidx]
  rw [if_neg harea]

theorem minTheta_eq {K : Type} [LinearOrderedField K] (M : CMath K)
    (input : List (Vec2 K)) (c : Calipers K) (t0 t1 t2 t3 : K)
    (h0 : theta M input c 0 = t0) (h1 : theta M input c 1 = t1)
    (h2 : theta M input c 2 = t2) (h3 : theta M input c 3 = t3) :
    minTheta M input c =
      (fun m => if t3 < m then t3 else m)
        ((fun m => if t2 < m then t2 else m)
          ((fun m => if t1 < m then t1 else m) (if t0 < M.PI then t0 else M.PI))) := by
  unfold minTheta
  rw [finRange_four]
  simp only [List.foldl_cons, List.foldl_nil, h0, h1, h2, h3]

theorem real_consts {M : CMath ℝ} (hM : IsRealMath M) :
    M.PI = Real.pi ∧ M.asin 0 = 0 ∧ M.asin 1 = Real.pi / 2 := by
  obtain ⟨_, _, _, _, h5, h6⟩ := hM
  exact ⟨h6, by rw [h5, Real.arcsin_zero], by rw [h5, Real.arcsin_one]⟩

theorem mk_sub_mk {K : Type} [LinearOrderedCommRing K] (a b c d : K) :
    (⟨a, b⟩ - ⟨c, d⟩ : Vec2 K) = ⟨a - c, b - d⟩ := rfl

theorem unit_east {M : CMath ℝ} (hM : IsRealMath M) (w : ℝ) (hw : 0 < w) :
    unit M ⟨w, 0⟩ = ⟨1, 0⟩ := by
  rw [unit_x hM w hw.ne', abs_of_pos hw, div_self hw.ne']

theorem unit_west {M : CMath ℝ} (hM : IsRealMath M) (w : ℝ) (hw : 0 < w) :
    unit M ⟨-w, 0⟩ = ⟨-1, 0⟩ := by
  rw [unit_x hM (-w) (neg_ne_zero.2 hw.ne'), abs_neg, abs_of_pos hw, neg_div, div_self hw.ne']

theorem unit_north {M : CMath ℝ} (hM : IsRealMath M) (h : ℝ) (hh : 0 < h) :
    unit M ⟨0, h⟩ = ⟨0, 1⟩ := by
  rw [unit_y hM h hh.ne', abs_of_pos hh, div_self hh.ne']

theorem unit_south {M : CMath ℝ} (hM : IsRealMath M) (h : ℝ) (hh : 0 < h) :
    unit M ⟨0, -h⟩ = ⟨0, -1⟩ := by
  rw [unit_y hM (-h) (neg_ne_zero.2 hh.ne'), abs_neg, abs_of_pos hh, neg_div, div_self hh.ne']

/-- First pass on the rectangle: three support lines are already flush with an
edge, so the rotation is by 0 and only the anchors move. -/
theorem rect_step1 {M : CMath ℝ} (hM : IsRealMath M) (w h : ℝ) (hw : 0 < w) (hh : 0 < h)
    (box : Box ℝ) :
    caliperStep M [⟨0, 0⟩, ⟨w, 0⟩, ⟨w, h⟩, ⟨0, h⟩]
        ⟨![⟨0, -1⟩, ⟨0, 1⟩, ⟨1, 0⟩, ⟨-1, 0⟩], ![0, 1, 0, 2], w * h, box⟩ =
      ⟨![⟨0, -1⟩, ⟨0, 1⟩, ⟨1, 0⟩, ⟨-1, 0⟩], ![0, 2, 1, 3], w * h, box⟩ := by
  obtain ⟨hpi, hz, ho⟩ := real_consts hM
  have hpos := Real.pi_pos
  have t0 : theta M [⟨0, 0⟩, ⟨w, 0⟩, ⟨w, h⟩, ⟨0, h⟩]
      ⟨![⟨0, -1⟩, ⟨0, 1⟩, ⟨1, 0⟩, ⟨-1, 0⟩], ![0, 1, 0, 2], w * h, box⟩ 0 = Real.pi / 2 := by
    simp [theta, next, nth, mk_sub_mk, unit_east hM w hw, Cross, ho]
  have t1 : theta M [⟨0, 0⟩, ⟨w, 0⟩, ⟨w, h⟩, ⟨0, h⟩]
      ⟨![⟨0, -1⟩, ⟨0, 1⟩, ⟨1, 0⟩, ⟨-1, 0⟩], ![0, 1, 0, 2], w * h, box⟩ 1 = 0 := by
    simp [theta, next, nth, mk_sub_mk, unit_north hM h hh, Cross, hz]
  have t2 : theta M [⟨0, 0⟩, ⟨w, 0⟩, ⟨w, h⟩, ⟨0, h⟩]
      ⟨![⟨0, -1⟩, ⟨0, 1⟩, ⟨1, 0⟩, ⟨-1, 0⟩], ![0, 1, 0, 2], w * h, box⟩ 2 = 0 := by
    simp [theta, next, nth, mk_sub_mk, unit_east hM w hw, Cross, hz]
  have t3 : theta M [⟨0, 0⟩, ⟨w, 0⟩, ⟨w, h⟩, ⟨0, h⟩]
      ⟨![⟨0, -1⟩, ⟨0, 1⟩, ⟨1, 0⟩, ⟨-1, 0⟩], ![0, 1, 0, 2], w * h, box⟩ 3 = 0 := by
    simp [theta, next, nth, mk_sub_mk, unit_west hM w hw, Cross, hz]
  have hmt : minTheta M [⟨0, 0⟩, ⟨w, 0⟩, ⟨w, h⟩, ⟨0, h⟩]
      ⟨![⟨0, -1⟩, ⟨0, 1⟩, ⟨1, 0⟩, ⟨-1, 0⟩], ![0, 1, 0, 2], w * h, box⟩ = 0 := by
    rw [minTheta_eq M _ _ _ _ _ _ t0 t1 t2 t3, hpi]
    have h1 : Real.pi / 2 < Real.pi := by linarith
    have h2 : (0 : ℝ) < Real.pi / 2 := by linarith
    simp [h1, h2]
  refine caliperStep_keep M _ _ 0 _ _ hmt ?_ ?_ ?_
  · intro i
    rw [rotate_real hM]
    fin_cases i <;> simp
  · intro i
    fin_cases i
    · show (if theta M _ _ 0 = 0 then _ else _) = _
      rw [t0]; simp [Real.pi_ne_zero]
    · show (if theta M _ _ 1 = 0 then _ else _) = _
      rw [t1]; simp [next]
    · show (if theta M _ _ 2 = 0 then _ else _) = _
      rw [t2]; simp [next]
    · show (if theta M _ _ 3 = 0 then _ else _) = _
      rw [t3]; simp [next]
  · simp [nth, mk_sub_mk, Cross, abs_of_pos hw, abs_of_pos hh]

/-- Second pass: all four support lines need a quarter turn to lie flush. -/
theorem rect_step2 {M : CMath ℝ} (hM : IsRealMath M) (w h : ℝ) (hw : 0 < w) (hh : 0 < h)
    (box : Box ℝ) :
    caliperStep M [⟨0, 0⟩, ⟨w, 0⟩, ⟨w, h⟩, ⟨0, h⟩]
        ⟨![⟨0, -1⟩, ⟨0, 1⟩, ⟨1, 0⟩, ⟨-1, 0⟩], ![0, 2, 1, 3], w * h, box⟩ =
      ⟨![⟨1, 0⟩, ⟨-1, 0⟩, ⟨0, 1⟩, ⟨0, -1⟩], ![1, 3, 2, 0], w * h, box⟩ := by
  obtain ⟨hpi, hz, ho⟩ := real_consts hM
  have hpos := Real.pi_pos
  have t0 : theta M [⟨0, 0⟩, ⟨w, 0⟩, ⟨w, h⟩, ⟨0, h⟩]
      ⟨![⟨0, -1⟩, ⟨0, 1⟩, ⟨1, 0⟩, ⟨-1, 0⟩], ![0, 2, 1, 3], w * h, box⟩ 0 = Real.pi / 2 := by
    simp [theta, next, nth, mk_sub_mk, unit_east hM w hw, Cross, ho]
  have t1 : theta M [⟨0, 0⟩, ⟨w, 0⟩, ⟨w, h⟩, ⟨0, h⟩]
      ⟨![⟨0, -1⟩, ⟨0, 1⟩, ⟨1, 0⟩, ⟨-1, 0⟩], ![0, 2, 1, 3], w * h, box⟩ 1 = Real.pi / 2 := by
    simp [theta, next, nth, mk_sub_mk, unit_west hM w hw, Cross, ho]
  have t2 : theta M [⟨0, 0⟩, ⟨w, 0⟩, ⟨w, h⟩, ⟨0, h⟩]
      ⟨![⟨0, -1⟩, ⟨0, 1⟩, ⟨1, 0⟩, ⟨-1, 0⟩], ![0, 2, 1, 3], w * h, box⟩ 2 = Real.pi / 2 := by
    simp [theta, next, nth, mk_sub_mk, unit_north hM h hh, Cross, ho]
  have t3 : theta M [⟨0, 0⟩, ⟨w, 0⟩, ⟨w, h⟩, ⟨0, h⟩]
      ⟨![⟨0, -1⟩, ⟨0, 1⟩, ⟨1, 0⟩, ⟨-1, 0⟩], ![0, 2, 1, 3], w * h, box⟩ 3 = Real.pi / 2 := by
    simp [theta, next, nth, mk_sub_mk, unit_south hM h hh, Cross, ho]
  have hmt : minTheta M [⟨0, 0⟩, ⟨w, 0⟩, ⟨w, h⟩, ⟨0, h⟩]
      ⟨![⟨0, -1⟩, ⟨0, 1⟩, ⟨1, 0⟩, ⟨-1, 0⟩], ![0, 2, 1, 3], w * h, box⟩ = Real.pi / 2 := by
    rw [minTheta_eq M _ _ _ _ _ _ t0 t1 t2 t3, hpi]
    have h1 : Real.pi / 2 < Real.pi := by linarith
    simp [h1]
  refine caliperStep_keep M _ _ (Real.pi / 2) _ _ hmt ?_ ?_ ?_
  · intro i
    rw [rotate_real hM]
    fin_cases i <;> simp
  · intro i
    fin_cases i
    · show (if theta M _ _ 0 = Real.pi / 2 then _ else _) = _
      rw [t0]; simp [next]
    · show (if theta M _ _ 1 = Real.pi / 2 then _ else _) = _
      rw [t1]; simp [next]
    · show (if theta M _ _ 2 = Real.pi / 2 then _ else _) = _
      rw [t2]; simp [next]
    · show (if theta M _ _ 3 = Real.pi / 2 then _ else _) = _
      rw [t3]; simp [next]
  · simp [nth, mk_sub_mk, Cross, abs_of_pos hw, abs_of_pos hh, mul_comm]

/-- Third pass: another quarter turn, after which `idx[3]` is `loopIdx`. -/
theorem rect_step3 {M : CMath ℝ} (hM : IsRealMath M) (w h : ℝ) (hw : 0 < w) (hh : 0 < h)
    (box : Box ℝ) :
    caliperStep M [⟨0, 0⟩, ⟨w, 0⟩, ⟨w, h⟩, ⟨0, h⟩]
        ⟨![⟨1, 0⟩, ⟨-1, 0⟩, ⟨0, 1⟩, ⟨0, -1⟩], ![1, 3, 2, 0], w * h, box⟩ =
      ⟨![⟨0, 1⟩, ⟨0, -1⟩, ⟨-1, 0⟩, ⟨1, 0⟩], ![2, 0, 3, 1], w * h, box⟩ := by
  obtain ⟨hpi, hz, ho⟩ := real_consts hM
  have hpos := Real.pi_pos
  have t0 : theta M [⟨0, 0⟩, ⟨w, 0⟩, ⟨w, h⟩, ⟨0, h⟩]
      ⟨![⟨1, 0⟩, ⟨-1, 0⟩, ⟨0, 1⟩, ⟨0, -1⟩], ![1, 3, 2, 0], w * h, box⟩ 0 = Real.pi / 2 := by
    simp [theta, next, nth, mk_sub_mk, unit_north hM h hh, Cross, ho]
  have t1 : theta M [⟨0, 0⟩, ⟨w, 0⟩, ⟨w, h⟩, ⟨0, h⟩]
      ⟨![⟨1, 0⟩, ⟨-1, 0⟩, ⟨0, 1⟩, ⟨0, -1⟩], ![1, 3, 2, 0], w * h, box⟩ 1 = Real.pi / 2 := by
    simp [theta, next, nth, mk_sub_mk, unit_south hM h hh, Cross, ho]
  have t2 : theta M [⟨0, 0⟩, ⟨w, 0⟩, ⟨w, h⟩, ⟨0, h⟩]
      ⟨![⟨1, 0⟩, ⟨-1, 0⟩, ⟨0, 1⟩, ⟨0, -1⟩], ![1, 3, 2, 0], w * h, box⟩ 2 = Real.pi / 2 := by
    simp [theta, next, nth, mk_sub_mk, unit_west hM w hw, Cross, ho]
  have t3 : theta M [⟨0, 0⟩, ⟨w, 0⟩, ⟨w, h⟩, ⟨0, h⟩]
      ⟨![⟨1, 0⟩, ⟨-1, 0⟩, ⟨0, 1⟩, ⟨0, -1⟩], ![1, 3, 2, 0], w * h, box⟩ 3 = Real.pi / 2 := by
    simp [theta, next, nth, mk_sub_mk, unit_east hM w hw, Cross, ho]
  have hmt : minTheta M [⟨0, 0⟩, ⟨w, 0⟩, ⟨w, h⟩, ⟨0, h⟩]
      ⟨![⟨1, 0⟩, ⟨-1, 0⟩, ⟨0, 1⟩, ⟨0, -1⟩], ![1, 3, 2, 0], w * h, box⟩ = Real.pi / 2 := by
    rw [minTheta_eq M _ _ _ _ _ _ t0 t1 t2 t3, hpi]
    have h1 : Real.pi / 2 < Real.pi := by linarith
    simp [h1]
  refine caliperStep_keep M _ _ (Real.pi / 2) _ _ hmt ?_ ?_ ?_
  · intro i
    rw [rotate_real hM]
    fin_cases i <;> simp
  · intro i
    fin_cases i
    · show (if theta M _ _ 0 = Real.pi / 2 then _ else _) = _
      rw [t0]; simp [next]
    · show (if theta M _ _ 1 = Real.pi / 2 then _ else _) = _
      rw [t1]; simp [next]
    · show (if theta M _ _ 2 = Real.pi / 2 then _ else _) = _
      rw [t2]; simp [next]
    · show (if theta M _ _ 3 = Real.pi / 2 then _ else _) = _
      rw [t3]; simp [next]
  · simp [nth, mk_sub_mk, Cross, abs_of_pos hw, abs_of_pos hh]

/-- Over exact reals, on the hull of an axis-aligned rectangle the loop of
`MinimumBox` makes three passes, never finds an area strictly below the
starting area `w * h`, and so returns the local `box` as it was declared, never
assigned. (On `double`s the rotated directions are slightly off the axes and
the areas of the passes differ from `w * h` in the last place, in either
direction: see the run on `double`s at the end of the development.) -/
theorem minimumBox_rect {M : CMath ℝ} (hM : IsRealMath M) (w h : ℝ) (hw : 0 < w)
    (hh : 0 < h) (fuel : ℕ) (box : Box ℝ) :
    MinimumBox M (fuel + 3) box [⟨0, 0⟩, ⟨w, 0⟩, ⟨w, h⟩, ⟨0, h⟩] = some box := by
  have he := extremes_rect w h hw hh
  have hl : ¬ ([⟨0, 0⟩, ⟨w, 0⟩, ⟨w, h⟩, ⟨0, h⟩] : List (Vec2 ℝ)).length < 3 := by simp
  unfold MinimumBox
  rw [if_neg hl]
  simp only [he]
  have ha : abs (Cross ((![⟨0, -1⟩, ⟨0, 1⟩, ⟨1, 0⟩, ⟨-1, 0⟩] : Fin 4 → Vec2 ℝ) 0)
      (nth [⟨0, 0⟩, ⟨w, 0⟩, ⟨w, h⟩, ⟨0, h⟩] ((![0, 1, 0, 2] : Fin 4 → ℕ) 1) -
        nth [⟨0, 0⟩, ⟨w, 0⟩, ⟨w, h⟩, ⟨0, h⟩] ((![0, 1, 0, 2] : Fin 4 → ℕ) 0))) *
      abs (Cross ((![⟨0, -1⟩, ⟨0, 1⟩, ⟨1, 0⟩, ⟨-1, 0⟩] : Fin 4 → Vec2 ℝ) 2)
      (nth [⟨0, 0⟩, ⟨w, 0⟩, ⟨w, h⟩, ⟨0, h⟩] ((![0, 1, 0, 2] : Fin 4 → ℕ) 3) -
        nth [⟨0, 0⟩, ⟨w, 0⟩, ⟨w, h⟩, ⟨0, h⟩] ((![0, 1, 0, 2] : Fin 4 → ℕ) 2))) = w * h := by
    simp [nth, mk_sub_mk, Cross, abs_of_pos hw, abs_of_pos hh]
  rw [ha]
  have hi : (![0, 1, 0, 2] : Fin 4 → ℕ) 0 + 1 = 1 := by simp
  rw [hi]
  rw [caliperLoop]
  simp only [rect_step1 hM w h hw hh box]
  rw [if_pos (by simp)]
  rw [caliperLoop]
  simp only [rect_step2 hM w h hw hh box]
  rw [if_pos (by simp)]
  rw [caliperLoop]
  simp only [rect_step3 hM w h hw hh box]
  rw [if_neg (by simp)]

/-- The hull of the corners of an axis-aligned rectangle is the corners,
counter-clockwise from `(0,0)`. -/
theorem Convex_rect {K : Type} [LinearOrderedField K] (w h : K) (hw : 0 < w) (hh : 0 < h) :
    Hull.Convex ([⟨0, 0⟩, ⟨w, 0⟩, ⟨w, h⟩, ⟨0, h⟩] : List (Vec2 K)) =
      some [⟨0, 0⟩, ⟨w, 0⟩, ⟨w, h⟩, ⟨0, h⟩] := by
  have hwh : 0 < w * h := mul_pos hw hh
  have r1 : ¬ ¬ Vec2.lt (⟨0, h⟩ : Vec2 K) ⟨w, h⟩ := by simp [Vec2.lt, hw]
  have r2 : ¬ ¬ Vec2.lt (⟨0, h⟩ : Vec2 K) ⟨w, 0⟩ := by simp [Vec2.lt, hw]
  have r3 : ¬ Vec2.lt (⟨w, h⟩ : Vec2 K) ⟨w, 0⟩ := by simp [Vec2.lt, hh.le]
  have r4 : ¬ Vec2.lt (⟨0, h⟩ : Vec2 K) ⟨0, 0⟩ := by simp [Vec2.lt, hh.le]
  have hs : sort ([⟨0, 0⟩, ⟨w, 0⟩, ⟨w, h⟩, ⟨0, h⟩] : List (Vec2 K)) =
      [⟨0, 0⟩, ⟨0, h⟩, ⟨w, 0⟩, ⟨w, h⟩] := by
    simp only [sort, List.insertionSort, List.orderedInsert]
    rw [if_neg r1]
    simp only [List.orderedInsert]
    rw [if_neg r2]
    simp only [List.orderedInsert]
    rw [if_pos r3]
    simp only [List.orderedInsert]
    rw [if_pos r4]
  have x1 : Cross ((⟨0, h⟩ : Vec2 K) - ⟨0, 0⟩) (⟨w, 0⟩ - ⟨0, 0⟩) ≤ 0 := by
    simp only [Cross, mk_sub_mk]; linarith
  have x2 : ¬ Cross ((⟨w, 0⟩ : Vec2 K) - ⟨0, 0⟩) (⟨w, h⟩ - ⟨0, 0⟩) ≤ 0 := by
    simp only [Cross, mk_sub_mk]; simp only [not_le]; linarith
  have x3 : Cross ((⟨w, 0⟩ : Vec2 K) - ⟨w, h⟩) (⟨0, h⟩ - ⟨w, h⟩) ≤ 0 := by
    simp only [Cross, mk_sub_mk]; linarith
  have x4 : ¬ Cross ((⟨0, h⟩ : Vec2 K) - ⟨w, h⟩) (⟨0, 0⟩ - ⟨w, h⟩) ≤ 0 := by
    simp only [Cross, mk_sub_mk]; simp only [not_le]; linarith
  have hlow : chain ([⟨0, 0⟩, ⟨0, h⟩, ⟨w, 0⟩, ⟨w, h⟩] : List (Vec2 K)) =
      [⟨w, h⟩, ⟨w, 0⟩, ⟨0, 0⟩] := by
    simp only [chain, List.foldl_cons, List.foldl_nil, popWhile_nil, popWhile_single]
    rw [popWhile_cons_cons, if_pos x1, popWhile_single, popWhile_cons_cons, if_neg x2]
  have hup : chain ([⟨w, h⟩, ⟨w, 0⟩, ⟨0, h⟩, ⟨0, 0⟩] : List (Vec2 K)) =
      [⟨0, 0⟩, ⟨0, h⟩, ⟨w, h⟩] := by
    simp only [chain, List.foldl_cons, List.foldl_nil, popWhile_nil, popWhile_single]
    rw [popWhile_cons_cons, if_pos x3, popWhile_single, popWhile_cons_cons, if_neg x4]
  simp only [Hull.Convex, hs, hlow, List.reverse_cons, List.reverse_nil, List.nil_append,
    List.cons_append, hup, List.tail_cons]

/-! ## The caliper loop on the right triangle `(0,0), (4,0), (4,3)` -/

theorem caliperStep_record {K : Type} [LinearOrderedField K] (M : CMath K)
    (input : List (Vec2 K)) (c : Calipers K) (mt : K) (para1 : Fin 4 → Vec2 K)
    (idx1 : Fin 4 → ℕ) (w h : K) (hmt : minTheta M input c = mt)
    (hpara : ∀ i, rotate M (c.para i) mt = para1 i)
    (hidx : ∀ i, (if theta M input c i = mt then next input (c.idx i) else c.idx i) = idx1 i)
    (hw : abs (Cross (para1 0) (nth input (idx1 1) - nth input (idx1 0))) = w)
    (hh : abs (Cross (para1 2) (nth input (idx1 3) - nth input (idx1 2))) = h)
    (harea : w * h < c.minArea) :
    caliperStep M input c = ⟨para1, idx1, w * h, ⟨para1, idx1, w, h⟩⟩ := by
  unfold caliperStep
  simp only [hmt, hpara, hidx, hw, hh]
  rw [if_pos harea]

theorem extremes_tri :
    extremes ([⟨0, 0⟩, ⟨4, 0⟩, ⟨4, 3⟩] : List (Vec2 ℝ)) = ![0, 1, 0, 2] := by
  have s0 : scanStep ([⟨0, 0⟩, ⟨4, 0⟩, ⟨4, 3⟩] : List (Vec2 ℝ))
      ⟨⟨0, 0⟩, ⟨0, 0⟩, ⟨0, 0⟩, ⟨0, 0⟩, fun _ => 0⟩ 0 =
      ⟨⟨0, 0⟩, ⟨0, 0⟩, ⟨0, 0⟩, ⟨0, 0⟩, fun _ => 0⟩ := by
    simp [scanStep, nth]
  have s1 : scanStep ([⟨0, 0⟩, ⟨4, 0⟩, ⟨4, 3⟩] : List (Vec2 ℝ))
      ⟨⟨0, 0⟩, ⟨0, 0⟩, ⟨0, 0⟩, ⟨0, 0⟩, fun _ => 0⟩ 1 =
      ⟨⟨0, 0⟩, ⟨4, 0⟩, ⟨0, 0⟩, ⟨0, 0⟩, Function.update (fun _ => 0) 1 1⟩ := by
    norm_num [scanStep, nth]
  have s2 : scanStep ([⟨0, 0⟩, ⟨4, 0⟩, ⟨4, 3⟩] : List (Vec2 ℝ))
      ⟨⟨0, 0⟩, ⟨4, 0⟩, ⟨0, 0⟩, ⟨0, 0⟩, Function.update (fun _ => 0) 1 1⟩ 2 =
      ⟨⟨0, 0⟩, ⟨4, 0⟩, ⟨0, 0⟩, ⟨4, 3⟩,
        Function.update (Function.update (fun _ => 0) 1 1) 3 2⟩ := by
    norm_num [scanStep, nth]
  have e : extremes ([⟨0, 0⟩, ⟨4, 0⟩, ⟨4, 3⟩] : List (Vec2 ℝ)) =
      Function.update (Function.update (fun _ => 0) 1 1) 3 2 := by
    have hn : nth ([⟨0, 0⟩, ⟨4, 0⟩, ⟨4, 3⟩] : List (Vec2 ℝ)) 0 = ⟨0, 0⟩ := rfl
    have hl : ([⟨0, 0⟩, ⟨4, 0⟩, ⟨4, 3⟩] : List (Vec2 ℝ)).length = 3 := rfl
    have hr : List.range 3 = [0, 1, 2] := by decide
    unfold extremes
    rw [hl, hr, hn]
    simp only [List.foldl_cons, List.foldl_nil]
    rw [s0, s1, s2]
  rw [e]
  funext i
  fin_cases i <;> simp [Function.update]

theorem unit_hyp {M : CMath ℝ} (hM : IsRealMath M) :
    unit M ⟨-4, -3⟩ = ⟨-4 / 5, -3 / 5⟩ := by
  have hn : Vec2.norm M ⟨-4, -3⟩ = 5 := by
    rw [norm_real hM]
    rw [show ((-4 : ℝ) * -4 + -3 * -3) = 5 * 5 by norm_num]
    exact Real.sqrt_mul_self (by norm_num)
  rw [unit]
  simp only [hn]
  rw [if_pos (by norm_num)]

/-- The angles that occur: `0 < asin(3/5) < asin(4/5) < π/2 < π`, and the
rotation by `asin(3/5)` has cosine `4/5` and sine `3/5`. -/
theorem angles_345 :
    0 < Real.arcsin (3 / 5) ∧ Real.arcsin (3 / 5) < Real.arcsin (4 / 5) ∧
      Real.arcsin (4 / 5) < Real.pi / 2 ∧ Real.cos (Real.arcsin (3 / 5)) = 4 / 5 ∧
      Real.sin (Real.arcsin (3 / 5)) = 3 / 5 := by
  refine ⟨Real.arcsin_pos.2 (by norm_num), ?_, ?_, ?_, ?_⟩
  · exact Real.strictMonoOn_arcsin ⟨by norm_num, by norm_num⟩ ⟨by norm_num, by norm_num⟩
      (by norm_num)
  · rw [Real.arcsin_lt_pi_div_two]; norm_num
  · rw [Real.cos_arcsin]
    rw [show (1 - (3 / 5 : ℝ) ^ 2) = (4 / 5) * (4 / 5) by norm_num]
    exact Real.sqrt_mul_self (by norm_num)
  · exact Real.sin_arcsin (by norm_num) (by norm_num)

/-- First pass on the triangle: two support lines are flush, rotation by 0. -/
theorem tri_step1 {M : CMath ℝ} (hM : IsRealMath M) (box : Box ℝ) :
    caliperStep M [⟨0, 0⟩, ⟨4, 0⟩, ⟨4, 3⟩]
        ⟨![⟨0, -1⟩, ⟨0, 1⟩, ⟨1, 0⟩, ⟨-1, 0⟩], ![0, 1, 0, 2], 4 * 3, box⟩ =
      ⟨![⟨0, -1⟩, ⟨0, 1⟩, ⟨1, 0⟩, ⟨-1, 0⟩], ![0, 2, 1, 2], 4 * 3, box⟩ := by
  obtain ⟨hpi, hz, ho⟩ := real_consts hM
  have hasin : M.asin = Real.arcsin := hM.2.2.2.2.1
  obtain ⟨a0, a1, a2, ac, as⟩ := angles_345
  have hpos := Real.pi_pos
  have t0 : theta M [⟨0, 0⟩, ⟨4, 0⟩, ⟨4, 3⟩]
      ⟨![⟨0, -1⟩, ⟨0, 1⟩, ⟨1, 0⟩, ⟨-1, 0⟩], ![0, 1, 0, 2], 4 * 3, box⟩ 0 = Real.pi / 2 := by
    simp [theta, next, nth, mk_sub_mk, unit_east hM 4 (by norm_num), Cross, ho]
  have t1 : theta M [⟨0, 0⟩, ⟨4, 0⟩, ⟨4, 3⟩]
      ⟨![⟨0, -1⟩, ⟨0, 1⟩, ⟨1, 0⟩, ⟨-1, 0⟩], ![0, 1, 0, 2], 4 * 3, box⟩ 1 = 0 := by
    simp [theta, next, nth, mk_sub_mk, unit_north hM 3 (by norm_num), Cross, hz]
  have t2 : theta M [⟨0, 0⟩, ⟨4, 0⟩, ⟨4, 3⟩]
      ⟨![⟨0, -1⟩, ⟨0, 1⟩, ⟨1, 0⟩, ⟨-1, 0⟩], ![0, 1, 0, 2], 4 * 3, box⟩ 2 = 0 := by
    simp [theta, next, nth, mk_sub_mk, unit_east hM 4 (by norm_num), Cross, hz]
  have t3 : theta M [⟨0, 0⟩, ⟨4, 0⟩, ⟨4, 3⟩]
      ⟨![⟨0, -1⟩, ⟨0, 1⟩, ⟨1, 0⟩, ⟨-1, 0⟩], ![0, 1, 0, 2], 4 * 3, box⟩ 3 =
      Real.arcsin (3 / 5) := by
    simp [theta, next, nth, mk_sub_mk, unit_hyp hM, Cross, hasin]
    rw [neg_div, Real.arcsin_neg, neg_neg]
  have hmt : minTheta M [⟨0, 0⟩, ⟨4, 0⟩, ⟨4, 3⟩]
      ⟨![⟨0, -1⟩, ⟨0, 1⟩, ⟨1, 0⟩, ⟨-1, 0⟩], ![0, 1, 0, 2], 4 * 3, box⟩ = 0 := by
    rw [minTheta_eq M _ _ _ _ _ _ t0 t1 t2 t3, hpi]
    have h1 : Real.pi / 2 < Real.pi := by linarith
    have h2 : (0 : ℝ) < Real.pi / 2 := by linarith
    have h3 : ¬ Real.arcsin (3 / 5) < 0 := not_lt.2 a0.le
    simp [h1, h2, h3]
  refine caliperStep_keep M _ _ 0 _ _ hmt ?_ ?_ ?_
  · intro i
    rw [rotate_real hM]
    fin_cases i <;> simp
  · intro i
    fin_cases i
    · show (if theta M _ _ 0 = 0 then _ else _) = _
      rw [t0]; simp [Real.pi_ne_zero]
    · show (if theta M _ _ 1 = 0 then _ else _) = _
      rw [t1]; simp [next]
    · show (if theta M _ _ 2 = 0 then _ else _) = _
      rw [t2]; simp [next]
    · show (if theta M _ _ 3 = 0 then _ else _) = _
      rw [t3, if_neg a0.ne']; rfl
  · norm_num [nth, mk_sub_mk, Cross]

/-- Second pass on the triangle: the top support line turns by `asin(3/5)` onto
the hypotenuse. The area is again 12, so nothing is recorded. -/
theorem tri_step2 {M : CMath ℝ} (hM : IsRealMath M) (box : Box ℝ) :
    caliperStep M [⟨0, 0⟩, ⟨4, 0⟩, ⟨4, 3⟩]
        ⟨![⟨0, -1⟩, ⟨0, 1⟩, ⟨1, 0⟩, ⟨-1, 0⟩], ![0, 2, 1, 2], 4 * 3, box⟩ =
      ⟨![⟨3 / 5, -(4 / 5)⟩, ⟨-(3 / 5), 4 / 5⟩, ⟨4 / 5, 3 / 5⟩, ⟨-(4 / 5), -(3 / 5)⟩],
        ![0, 2, 1, 0], 4 * 3, box⟩ := by
  obtain ⟨hpi, hz, ho⟩ := real_consts hM
  have hasin : M.asin = Real.arcsin := hM.2.2.2.2.1
  obtain ⟨a0, a1, a2, ac, as⟩ := angles_345
  have hpos := Real.pi_pos
  have t0 : theta M [⟨0, 0⟩, ⟨4, 0⟩, ⟨4, 3⟩]
      ⟨![⟨0, -1⟩, ⟨0, 1⟩, ⟨1, 0⟩, ⟨-1, 0⟩], ![0, 2, 1, 2], 4 * 3, box⟩ 0 = Real.pi / 2 := by
    simp [theta, next, nth, mk_sub_mk, unit_east hM 4 (by norm_num), Cross, ho]
  have t1 : theta M [⟨0, 0⟩, ⟨4, 0⟩, ⟨4, 3⟩]
      ⟨![⟨0, -1⟩, ⟨0, 1⟩, ⟨1, 0⟩, ⟨-1, 0⟩], ![0, 2, 1, 2], 4 * 3, box⟩ 1 =
      Real.arcsin (4 / 5) := by
    simp [theta, next, nth, mk_sub_mk, unit_hyp hM, Cross, hasin]
    rw [neg_div, Real.arcsin_neg, neg_neg]
  have t2 : theta M [⟨0, 0⟩, ⟨4, 0⟩, ⟨4, 3⟩]
      ⟨![⟨0, -1⟩, ⟨0, 1⟩, ⟨1, 0⟩, ⟨-1, 0⟩], ![0, 2, 1, 2], 4 * 3, box⟩ 2 = Real.pi / 2 := by
    simp [theta, next, nth, mk_sub_mk, unit_north hM 3 (by norm_num), Cross, ho]
  have t3 : theta M [⟨0, 0⟩, ⟨4, 0⟩, ⟨4, 3⟩]
      ⟨![⟨0, -1⟩, ⟨0, 1⟩, ⟨1, 0⟩, ⟨-1, 0⟩], ![0, 2, 1, 2], 4 * 3, box⟩ 3 =
      Real.arcsin (3 / 5) := by
    simp [theta, next, nth, mk_sub_mk, unit_hyp hM, Cross, hasin]
    rw [neg_div, Real.arcsin_neg, neg_neg]
  have hmt : minTheta M [⟨0, 0⟩, ⟨4, 0⟩, ⟨4, 3⟩]
      ⟨![⟨0, -1⟩, ⟨0, 1⟩, ⟨1, 0⟩, ⟨-1, 0⟩], ![0, 2, 1, 2], 4 * 3, box⟩ =
      Real.arcsin (3 / 5) := by
    rw [minTheta_eq M _ _ _ _ _ _ t0 t1 t2 t3, hpi]
    have h1 : Real.pi / 2 < Real.pi := by linarith
    have h3 : ¬ Real.pi / 2 < Real.arcsin (4 / 5) := not_lt.2 a2.le
    simp [h1, a2, h3, a1]
  refine caliperStep_keep M _ _ (Real.arcsin (3 / 5)) _ _ hmt ?_ ?_ ?_
  · intro i
    rw [rotate_real hM, ac, as]
    fin_cases i <;> simp
  · intro i
    fin_cases i
    · show (if theta M _ _ 0 = Real.arcsin (3 / 5) then _ else _) = _
      rw [t0, if_neg (by linarith : Real.pi / 2 ≠ Real.arcsin (3 / 5))]; rfl
    · show (if theta M _ _ 1 = Real.arcsin (3 / 5) then _ else _) = _
      rw [t1, if_neg a1.ne']; rfl
    · show (if theta M _ _ 2 = Real.arcsin (3 / 5) then _ else _) = _
      rw [t2, if_neg (by linarith : Real.pi / 2 ≠ Real.arcsin (3 / 5))]; rfl
    · show (if theta M _ _ 3 = Real.arcsin (3 / 5) then _ else _) = _
      rw [t3]; simp [next]
  · have h125 : |(12 / 5 : ℝ)| = 12 / 5 := abs_of_pos (by norm_num)
    norm_num [nth, mk_sub_mk, Cross, h125]

/-- Third pass on the triangle: the support line at `(0,0)` makes an obtuse angle
with the next edge, `asin` of the cross product reads it as `asin(3/5)`, and the
calipers turn by that amount; two anchors then coincide, the "height" is 0 and
the area 0 is recorded as the minimum. -/
theorem tri_step3 {M : CMath ℝ} (hM : IsRealMath M) (box : Box ℝ) :
    caliperStep M [⟨0, 0⟩, ⟨4, 0⟩, ⟨4, 3⟩]
        ⟨![⟨3 / 5, -(4 / 5)⟩, ⟨-(3 / 5), 4 / 5⟩, ⟨4 / 5, 3 / 5⟩, ⟨-(4 / 5), -(3 / 5)⟩],
          ![0, 2, 1, 0], 4 * 3, box⟩ =
      ⟨![⟨24 / 25, -(7 / 25)⟩, ⟨-(24 / 25), 7 / 25⟩, ⟨7 / 25, 24 / 25⟩,
          ⟨-(7 / 25), -(24 / 25)⟩], ![0, 2, 1, 1], 4 * 0,
        ⟨![⟨24 / 25, -(7 / 25)⟩, ⟨-(24 / 25), 7 / 25⟩, ⟨7 / 25, 24 / 25⟩,
          ⟨-(7 / 25), -(24 / 25)⟩], ![0, 2, 1, 1], 4, 0⟩⟩ := by
  obtain ⟨hpi, hz, ho⟩ := real_consts hM
  have hasin : M.asin = Real.arcsin := hM.2.2.2.2.1
  obtain ⟨a0, a1, a2, ac, as⟩ := angles_345
  have hpos := Real.pi_pos
  have t0 : theta M [⟨0, 0⟩, ⟨4, 0⟩, ⟨4, 3⟩]
      ⟨![⟨3 / 5, -(4 / 5)⟩, ⟨-(3 / 5), 4 / 5⟩, ⟨4 / 5, 3 / 5⟩, ⟨-(4 / 5), -(3 / 5)⟩],
        ![0, 2, 1, 0], 4 * 3, box⟩ 0 = Real.arcsin (4 / 5) := by
    simp [theta, next, nth, mk_sub_mk, unit_east hM 4 (by norm_num), Cross, hasin]
  have t1 : theta M [⟨0, 0⟩, ⟨4, 0⟩, ⟨4, 3⟩]
      ⟨![⟨3 / 5, -(4 / 5)⟩, ⟨-(3 / 5), 4 / 5⟩, ⟨4 / 5, 3 / 5⟩, ⟨-(4 / 5), -(3 / 5)⟩],
        ![0, 2, 1, 0], 4 * 3, box⟩ 1 = Real.pi / 2 := by
    simp [theta, next, nth, mk_sub_mk, unit_hyp hM, Cross]
    norm_num [ho]
  have t2 : theta M [⟨0, 0⟩, ⟨4, 0⟩, ⟨4, 3⟩]
      ⟨![⟨3 / 5, -(4 / 5)⟩, ⟨-(3 / 5), 4 / 5⟩, ⟨4 / 5, 3 / 5⟩, ⟨-(4 / 5), -(3 / 5)⟩],
        ![0, 2, 1, 0], 4 * 3, box⟩ 2 = Real.arcsin (4 / 5) := by
    simp [theta, next, nth, mk_sub_mk, unit_north hM 3 (by norm_num), Cross, hasin]
  have t3 : theta M [⟨0, 0⟩, ⟨4, 0⟩, ⟨4, 3⟩]
      ⟨![⟨3 / 5, -(4 / 5)⟩, ⟨-(3 / 5), 4 / 5⟩, ⟨4 / 5, 3 / 5⟩, ⟨-(4 / 5), -(3 / 5)⟩],
        ![0, 2, 1, 0], 4 * 3, box⟩ 3 = Real.arcsin (3 / 5) := by
    simp [theta, next, nth, mk_sub_mk, unit_east hM 4 (by norm_num), Cross, hasin]
  have hmt : minTheta M [⟨0, 0⟩, ⟨4, 0⟩, ⟨4, 3⟩]
      ⟨![⟨3 / 5, -(4 / 5)⟩, ⟨-(3 / 5), 4 / 5⟩, ⟨4 / 5, 3 / 5⟩, ⟨-(4 / 5), -(3 / 5)⟩],
        ![0, 2, 1, 0], 4 * 3, box⟩ = Real.arcsin (3 / 5) := by
    rw [minTheta_eq M _ _ _ _ _ _ t0 t1 t2 t3, hpi]
    have h1 : Real.arcsin (4 / 5) < Real.pi := by linarith
    have h3 : ¬ Real.pi / 2 < Real.arcsin (4 / 5) := not_lt.2 a2.le
    simp [h1, h3, a1]
  refine caliperStep_record M _ _ (Real.arcsin (3 / 5)) _ _ 4 0 hmt ?_ ?_ ?_ ?_ (by norm_num)
  · intro i
    rw [rotate_real hM, ac, as]
    fin_cases i <;> norm_num
  · intro i
    fin_cases i
    · show (if theta M _ _ 0 = Real.arcsin (3 / 5) then _ else _) = _
      rw [t0, if_neg a1.ne']; rfl
    · show (if theta M _ _ 1 = Real.arcsin (3 / 5) then _ else _) = _
      rw [t1, if_neg (by linarith : Real.pi / 2 ≠ Real.arcsin (3 / 5))]; rfl
    · show (if theta M _ _ 2 = Real.arcsin (3 / 5) then _ else _) = _
      rw [t2, if_neg a1.ne']; rfl
    · show (if theta M _ _ 3 = Real.arcsin (3 / 5) then _ else _) = _
      rw [t3]; simp [next]
  · norm_num [nth, mk_sub_mk, Cross]
  · norm_num [nth, mk_sub_mk, Cross]

/-- On the hull `(0,0), (4,0), (4,3)` of a right triangle `MinimumBox` ends after
three passes and returns a recorded box of width 4 and height 0. -/
theorem minimumBox_tri {M : CMath ℝ} (hM : IsRealMath M) (fuel : ℕ) (box : Box ℝ) :
    MinimumBox M (fuel + 3) box [⟨0, 0⟩, ⟨4, 0⟩, ⟨4, 3⟩] =
      some ⟨![⟨24 / 25, -(7 / 25)⟩, ⟨-(24 / 25), 7 / 25⟩, ⟨7 / 25, 24 / 25⟩,
        ⟨-(7 / 25), -(24 / 25)⟩], ![0, 2, 1, 1], 4, 0⟩ := by
  have hl : ¬ ([⟨0, 0⟩, ⟨4, 0⟩, ⟨4, 3⟩] : List (Vec2 ℝ)).length < 3 := by simp
  unfold MinimumBox
  rw [if_neg hl]
  simp only [extremes_tri]
  have ha : abs (Cross ((![⟨0, -1⟩, ⟨0, 1⟩, ⟨1, 0⟩, ⟨-1, 0⟩] : Fin 4 → Vec2 ℝ) 0)
      (nth [⟨0, 0⟩, ⟨4, 0⟩, ⟨4, 3⟩] ((![0, 1, 0, 2] : Fin 4 → ℕ) 1) -
        nth [⟨0, 0⟩, ⟨4, 0⟩, ⟨4, 3⟩] ((![0, 1, 0, 2] : Fin 4 → ℕ) 0))) *
      abs (Cross ((![⟨0, -1⟩, ⟨0, 1⟩, ⟨1, 0⟩, ⟨-1, 0⟩] : Fin 4 → Vec2 ℝ) 2)
      (nth [⟨0, 0⟩, ⟨4, 0⟩, ⟨4, 3⟩] ((![0, 1, 0, 2] : Fin 4 → ℕ) 3) -
        nth [⟨0, 0⟩, ⟨4, 0⟩, ⟨4, 3⟩] ((![0, 1, 0, 2] : Fin 4 → ℕ) 2))) = 4 * 3 := by
    norm_num [nth, mk_sub_mk, Cross]
  rw [ha]
  have hi : (![0, 1, 0, 2] : Fin 4 → ℕ) 0 + 1 = 1 := by simp
  rw [hi]
  rw [caliperLoop]
  simp only [tri_step1 hM box]
  rw [if_pos (by simp)]
  rw [caliperLoop]
  simp only [tri_step2 hM box]
  rw [if_pos (by simp)]
  rw [caliperLoop]
  simp only [tri_step3 hM box]
  rw [if_neg (by simp)]

theorem Convex_tri :
    Hull.Convex ([⟨0, 0⟩, ⟨4, 0⟩, ⟨4, 3⟩] : List (Vec2 ℝ)) =
      some [⟨0, 0⟩, ⟨4, 0⟩, ⟨4, 3⟩] := by
  have r1 : ¬ Vec2.lt (⟨4, 3⟩ : Vec2 ℝ) ⟨4, 0⟩ := by norm_num [Vec2.lt]
  have r2 : ¬ Vec2.lt (⟨4, 0⟩ : Vec2 ℝ) ⟨0, 0⟩ := by norm_num [Vec2.lt]
  have hs : sort ([⟨0, 0⟩, ⟨4, 0⟩, ⟨4, 3⟩] : List (Vec2 ℝ)) =
      [⟨0, 0⟩, ⟨4, 0⟩, ⟨4, 3⟩] := by
    simp only [sort, List.insertionSort, List.orderedInsert]
    rw [if_pos r1]
    simp only [List.orderedInsert]
    rw [if_pos r2]
  have x1 : ¬ Cross ((⟨4, 0⟩ : Vec2 ℝ) - ⟨0, 0⟩) (⟨4, 3⟩ - ⟨0, 0⟩) ≤ 0 := by
    norm_num [Cross, mk_sub_mk]
  have x2 : Cross ((⟨4, 0⟩ : Vec2 ℝ) - ⟨4, 3⟩) (⟨0, 0⟩ - ⟨4, 3⟩) ≤ 0 := by
    norm_num [Cross, mk_sub_mk]
  have hlow : chain ([⟨0, 0⟩, ⟨4, 0⟩, ⟨4, 3⟩] : List (Vec2 ℝ)) =
      [⟨4, 3⟩, ⟨4, 0⟩, ⟨0, 0⟩] := by
    simp only [chain, List.foldl_cons, List.foldl_nil, popWhile_nil, popWhile_single]
    rw [popWhile_cons_cons, if_neg x1]
  have hup : chain ([⟨4, 3⟩, ⟨4, 0⟩, ⟨0, 0⟩] : List (Vec2 ℝ)) = [⟨0, 0⟩, ⟨4, 3⟩] := by
    simp only [chain, List.foldl_cons, List.foldl_nil, popWhile_nil, popWhile_single]
    rw [popWhile_cons_cons, if_pos x2, popWhile_single]
  simp only [Hull.Convex, hs, hlow, List.reverse_cons, List.reverse_nil, List.nil_append,
    List.cons_append, hup, List.tail_cons]

/-! ## The caliper loop on the parallelogram `(0,8), (4,5), (16,0), (12,3)` -/

theorem unit_pyth {M : CMath ℝ} (hM : IsRealMath M) (x y n : ℝ) (hn : 0 < n)
    (h : x * x + y * y = n * n) : unit M ⟨x, y⟩ = ⟨x / n, y / n⟩ := by
  have hnorm : Vec2.norm M ⟨x, y⟩ = n := by
    rw [norm_real hM]
    simp only
    rw [h]
    exact Real.sqrt_mul_self hn.le
  rw [unit]
  simp only [hnorm]
  rw [if_pos hn.ne']

theorem extremes_par :
    extremes ([⟨0, 8⟩, ⟨4, 5⟩, ⟨16, 0⟩, ⟨12, 3⟩] : List (Vec2 ℝ)) = ![0, 2, 2, 0] := by
  have s0 : scanStep ([⟨0, 8⟩, ⟨4, 5⟩, ⟨16, 0⟩, ⟨12, 3⟩] : List (Vec2 ℝ))
      ⟨⟨0, 8⟩, ⟨0, 8⟩, ⟨0, 8⟩, ⟨0, 8⟩, fun _ => 0⟩ 0 =
      ⟨⟨0, 8⟩, ⟨0, 8⟩, ⟨0, 8⟩, ⟨0, 8⟩, fun _ => 0⟩ := by
    simp [scanStep, nth]
  have s1 : scanStep ([⟨0, 8⟩, ⟨4, 5⟩, ⟨16, 0⟩, ⟨12, 3⟩] : List (Vec2 ℝ))
      ⟨⟨0, 8⟩, ⟨0, 8⟩, ⟨0, 8⟩, ⟨0, 8⟩, fun _ => 0⟩ 1 =
      ⟨⟨0, 8⟩, ⟨4, 5⟩, ⟨4, 5⟩, ⟨0, 8⟩,
        Function.update (Function.update (fun _ => 0) 1 1) 2 1⟩ := by
    norm_num [scanStep, nth]
  have s2 : scanStep ([⟨0, 8⟩, ⟨4, 5⟩, ⟨16, 0⟩, ⟨12, 3⟩] : List (Vec2 ℝ))
      ⟨⟨0, 8⟩, ⟨4, 5⟩, ⟨4, 5⟩, ⟨0, 8⟩,
        Function.update (Function.update (fun _ => 0) 1 1) 2 1⟩ 2 =
      ⟨⟨0, 8⟩, ⟨16, 0⟩, ⟨16, 0⟩, ⟨0, 8⟩,
        Function.update (Function.update
          (Function.update (Function.update (fun _ => 0) 1 1) 2 1) 1 2) 2 2⟩ := by
    norm_num [scanStep, nth]
  have s3 : scanStep ([⟨0, 8⟩, ⟨4, 5⟩, ⟨16, 0⟩, ⟨12, 3⟩] : List (Vec2 ℝ))
      ⟨⟨0, 8⟩, ⟨16, 0⟩, ⟨16, 0⟩, ⟨0, 8⟩,
        Function.update (Function.update
          (Function.update (Function.update (fun _ => 0) 1 1) 2 1) 1 2) 2 2⟩ 3 =
      ⟨⟨0, 8⟩, ⟨16, 0⟩, ⟨16, 0⟩, ⟨0, 8⟩,
        Function.update (Function.update
          (Function.update (Function.update (fun _ => 0) 1 1) 2 1) 1 2) 2 2⟩ := by
    norm_num [scanStep, nth]
  have e : extremes ([⟨0, 8⟩, ⟨4, 5⟩, ⟨16, 0⟩, ⟨12, 3⟩] : List (Vec2 ℝ)) =
      Function.update (Function.update
          (Function.update (Function.update (fun _ => 0) 1 1) 2 1) 1 2) 2 2 := by
    have hn : nth ([⟨0, 8⟩, ⟨4, 5⟩, ⟨16, 0⟩, ⟨12, 3⟩] : List (Vec2 ℝ)) 0 = ⟨0, 8⟩ := rfl
    have hl : ([⟨0, 8⟩, ⟨4, 5⟩, ⟨16, 0⟩, ⟨12, 3⟩] : List (Vec2 ℝ)).length = 4 := rfl
    have hr : List.range 4 = [0, 1, 2, 3] := by decide
    unfold extremes
    rw [hl, hr, hn]
    simp only [List.foldl_cons, List.foldl_nil]
    rw [s0, s1, s2, s3]
  rw [e]
  funext i
  fin_cases i <;> simp [Function.update]

/-- The only pass on the parallelogram. The support lines through `(16,0)`
and `(0,8)` make obtuse angles with their next edges; `asin` of the cross
product reads both as `asin(3/5)`, which is then the smallest of the four
angles. The calipers turn by it, the anchors 2 and 3 advance, and the area
`8 * 32/5` is recorded; anchor 3 is now at `loopIdx = 1`. -/
theorem par_step1 {M : CMath ℝ} (hM : IsRealMath M) (box : Box ℝ) :
    caliperStep M [⟨0, 8⟩, ⟨4, 5⟩, ⟨16, 0⟩, ⟨12, 3⟩]
        ⟨![⟨0, -1⟩, ⟨0, 1⟩, ⟨1, 0⟩, ⟨-1, 0⟩], ![0, 2, 2, 0], 16 * 8, box⟩ =
      ⟨![⟨3 / 5, -(4 / 5)⟩, ⟨-(3 / 5), 4 / 5⟩, ⟨4 / 5, 3 / 5⟩, ⟨-(4 / 5), -(3 / 5)⟩],
        ![0, 2, 3, 1], 8 * (32 / 5),
        ⟨![⟨3 / 5, -(4 / 5)⟩, ⟨-(3 / 5), 4 / 5⟩, ⟨4 / 5, 3 / 5⟩, ⟨-(4 / 5), -(3 / 5)⟩],
          ![0, 2, 3, 1], 8, 32 / 5⟩⟩ := by
  obtain ⟨hpi, hz, ho⟩ := real_consts hM
  have hasin : M.asin = Real.arcsin := hM.2.2.2.2.1
  obtain ⟨a0, a1, a2, ac, as⟩ := angles_345
  have hpos := Real.pi_pos
  have u1 : unit M (⟨4, -3⟩ : Vec2 ℝ) = ⟨4 / 5, -3 / 5⟩ :=
    unit_pyth hM 4 (-3) 5 (by norm_num) (by norm_num)
  have u2 : unit M (⟨-4, 3⟩ : Vec2 ℝ) = ⟨-4 / 5, 3 / 5⟩ :=
    unit_pyth hM (-4) 3 5 (by norm_num) (by norm_num)
  have e01 : nth ([⟨0, 8⟩, ⟨4, 5⟩, ⟨16, 0⟩, ⟨12, 3⟩] : List (Vec2 ℝ)) 1 -
      nth [⟨0, 8⟩, ⟨4, 5⟩, ⟨16, 0⟩, ⟨12, 3⟩] 0 = ⟨4, -3⟩ := by
    norm_num [nth, mk_sub_mk]
  have e23 : nth ([⟨0, 8⟩, ⟨4, 5⟩, ⟨16, 0⟩, ⟨12, 3⟩] : List (Vec2 ℝ)) 3 -
      nth [⟨0, 8⟩, ⟨4, 5⟩, ⟨16, 0⟩, ⟨12, 3⟩] 2 = ⟨-4, 3⟩ := by
    norm_num [nth, mk_sub_mk]
  have n0 : next ([⟨0, 8⟩, ⟨4, 5⟩, ⟨16, 0⟩, ⟨12, 3⟩] : List (Vec2 ℝ)) 0 = 1 := by
    simp [next]
  have n2 : next ([⟨0, 8⟩, ⟨4, 5⟩, ⟨16, 0⟩, ⟨12, 3⟩] : List (Vec2 ℝ)) 2 = 3 := by
    simp [next]
  have t0 : theta M [⟨0, 8⟩, ⟨4, 5⟩, ⟨16, 0⟩, ⟨12, 3⟩]
      ⟨![⟨0, -1⟩, ⟨0, 1⟩, ⟨1, 0⟩, ⟨-1, 0⟩], ![0, 2, 2, 0], 16 * 8, box⟩ 0 =
      Real.arcsin (4 / 5) := by
    show M.asin (Cross ⟨0, -1⟩ (unit M (nth _ (next _ 0) - nth _ 0))) = _
    rw [n0, e01, u1, hasin]
    norm_num [Cross]
  have t1 : theta M [⟨0, 8⟩, ⟨4, 5⟩, ⟨16, 0⟩, ⟨12, 3⟩]
      ⟨![⟨0, -1⟩, ⟨0, 1⟩, ⟨1, 0⟩, ⟨-1, 0⟩], ![0, 2, 2, 0], 16 * 8, box⟩ 1 =
      Real.arcsin (4 / 5) := by
    show M.asin (Cross ⟨0, 1⟩ (unit M (nth _ (next _ 2) - nth _ 2))) = _
    rw [n2, e23, u2, hasin]
    norm_num [Cross]
  have t2 : theta M [⟨0, 8⟩, ⟨4, 5⟩, ⟨16, 0⟩, ⟨12, 3⟩]
      ⟨![⟨0, -1⟩, ⟨0, 1⟩, ⟨1, 0⟩, ⟨-1, 0⟩], ![0, 2, 2, 0], 16 * 8, box⟩ 2 =
      Real.arcsin (3 / 5) := by
    show M.asin (Cross ⟨1, 0⟩ (unit M (nth _ (next _ 2) - nth _ 2))) = _
    rw [n2, e23, u2, hasin]
    norm_num [Cross]
  have t3 : theta M [⟨0, 8⟩, ⟨4, 5⟩, ⟨16, 0⟩, ⟨12, 3⟩]
      ⟨![⟨0, -1⟩, ⟨0, 1⟩, ⟨1, 0⟩, ⟨-1, 0⟩], ![0, 2, 2, 0], 16 * 8, box⟩ 3 =
      Real.arcsin (3 / 5) := by
    show M.asin (Cross ⟨-1, 0⟩ (unit M (nth _ (next _ 0) - nth _ 0))) = _
    rw [n0, e01, u1, hasin]
    norm_num [Cross]
  have hmt : minTheta M [⟨0, 8⟩, ⟨4, 5⟩, ⟨16, 0⟩, ⟨12, 3⟩]
      ⟨![⟨0, -1⟩, ⟨0, 1⟩, ⟨1, 0⟩, ⟨-1, 0⟩], ![0, 2, 2, 0], 16 * 8, box⟩ =
      Real.arcsin (3 / 5) := by
    rw [minTheta_eq M _ _ _ _ _ _ t0 t1 t2 t3, hpi]
    have h1 : Real.arcsin (4 / 5) < Real.pi := by linarith
    simp [h1, a1]
  refine caliperStep_record M _ _ (Real.arcsin (3 / 5)) _ _ 8 (32 / 5) hmt ?_ ?_ ?_ ?_
    (by norm_num)
  · intro i
    rw [rotate_real hM, ac, as]
    fin_cases i <;> norm_num
  · intro i
    fin_cases i
    · show (if theta M _ _ 0 = Real.arcsin (3 / 5) then _ else _) = _
      rw [t0, if_neg a1.ne']; rfl
    · show (if theta M _ _ 1 = Real.arcsin (3 / 5) then _ else _) = _
      rw [t1, if_neg a1.ne']; rfl
    · show (if theta M _ _ 2 = Real.arcsin (3 / 5) then _ else _) = _
      rw [t2]; simp [next]
    · show (if theta M _ _ 3 = Real.arcsin (3 / 5) then _ else _) = _
      rw [t3]; simp [next]
  · norm_num [nth, mk_sub_mk, Cross]
  · have h325 : |(32 / 5 : ℝ)| = 32 / 5 := abs_of_pos (by norm_num)
    norm_num [nth, mk_sub_mk, Cross, h325]

/-- On the parallelogram hull `(0,8), (4,5), (16,0), (12,3)` the loop of
`MinimumBox` ends after a single pass, with the recorded box `8` by `32/5`. -/
theorem minimumBox_par {M : CMath ℝ} (hM : IsRealMath M) (fuel : ℕ) (box : Box ℝ) :
    MinimumBox M (fuel + 1) box [⟨0, 8⟩, ⟨4, 5⟩, ⟨16, 0⟩, ⟨12, 3⟩] =
      some ⟨![⟨3 / 5, -(4 / 5)⟩, ⟨-(3 / 5), 4 / 5⟩, ⟨4 / 5, 3 / 5⟩, ⟨-(4 / 5), -(3 / 5)⟩],
        ![0, 2, 3, 1], 8, 32 / 5⟩ := by
  have hl : ¬ ([⟨0, 8⟩, ⟨4, 5⟩, ⟨16, 0⟩, ⟨12, 3⟩] : List (Vec2 ℝ)).length < 3 := by simp
  unfold MinimumBox
  rw [if_neg hl]
  simp only [extremes_par]
  have ha : abs (Cross ((![⟨0, -1⟩, ⟨0, 1⟩, ⟨1, 0⟩, ⟨-1, 0⟩] : Fin 4 → Vec2 ℝ) 0)
      (nth [⟨0, 8⟩, ⟨4, 5⟩, ⟨16, 0⟩, ⟨12, 3⟩] ((![0, 2, 2, 0] : Fin 4 → ℕ) 1) -
        nth [⟨0, 8⟩, ⟨4, 5⟩, ⟨16, 0⟩, ⟨12, 3⟩] ((![0, 2, 2, 0] : Fin 4 → ℕ) 0))) *
      abs (Cross ((![⟨0, -1⟩, ⟨0, 1⟩, ⟨1, 0⟩, ⟨-1, 0⟩] : Fin 4 → Vec2 ℝ) 2)
      (nth [⟨0, 8⟩, ⟨4, 5⟩, ⟨16, 0⟩, ⟨12, 3⟩] ((![0, 2, 2, 0] : Fin 4 → ℕ) 3) -
        nth [⟨0, 8⟩, ⟨4, 5⟩, ⟨16, 0⟩, ⟨12, 3⟩] ((![0, 2, 2, 0] : Fin 4 → ℕ) 2))) =
      16 * 8 := by
    norm_num [nth, mk_sub_mk, Cross]
  rw [ha]
  have hi : (![0, 2, 2, 0] : Fin 4 → ℕ) 0 + 1 = 1 := by simp
  rw [hi]
  rw [caliperLoop]
  simp only [par_step1 hM box]
  rw [if_neg (by simp)]

theorem Convex_par :
    Hull.Convex ([⟨0, 8⟩, ⟨4, 5⟩, ⟨16, 0⟩, ⟨12, 3⟩] : List (Vec2 ℝ)) =
      some [⟨0, 8⟩, ⟨4, 5⟩, ⟨16, 0⟩, ⟨12, 3⟩] := by
  have r1 : Vec2.lt (⟨12, 3⟩ : Vec2 ℝ) ⟨16, 0⟩ := by norm_num [Vec2.lt]
  have r2 : ¬ Vec2.lt (⟨12, 3⟩ : Vec2 ℝ) ⟨4, 5⟩ := by norm_num [Vec2.lt]
  have r3 : ¬ Vec2.lt (⟨4, 5⟩ : Vec2 ℝ) ⟨0, 8⟩ := by norm_num [Vec2.lt]
  have hs : sort ([⟨0, 8⟩, ⟨4, 5⟩, ⟨16, 0⟩, ⟨12, 3⟩] : List (Vec2 ℝ)) =
      [⟨0, 8⟩, ⟨4, 5⟩, ⟨12, 3⟩, ⟨16, 0⟩] := by
    simp only [sort, List.insertionSort, List.orderedInsert]
    rw [if_neg (not_not.2 r1)]
    simp only [List.orderedInsert]
    rw [if_pos r2]
    simp only [List.orderedInsert]
    rw [if_pos r3]
  have x1 : ¬ Cross ((⟨4, 5⟩ : Vec2 ℝ) - ⟨0, 8⟩) (⟨12, 3⟩ - ⟨0, 8⟩) ≤ 0 := by
    norm_num [Cross, mk_sub_mk]
  have x2 : Cross ((⟨12, 3⟩ : Vec2 ℝ) - ⟨4, 5⟩) (⟨16, 0⟩ - ⟨4, 5⟩) ≤ 0 := by
    norm_num [Cross, mk_sub_mk]
  have x3 : ¬ Cross ((⟨4, 5⟩ : Vec2 ℝ) - ⟨0, 8⟩) (⟨16, 0⟩ - ⟨0, 8⟩) ≤ 0 := by
    norm_num [Cross, mk_sub_mk]
  have y1 : ¬ Cross ((⟨12, 3⟩ : Vec2 ℝ) - ⟨16, 0⟩) (⟨4, 5⟩ - ⟨16, 0⟩) ≤ 0 := by
    norm_num [Cross, mk_sub_mk]
  have y2 : Cross ((⟨4, 5⟩ : Vec2 ℝ) - ⟨12, 3⟩) (⟨0, 8⟩ - ⟨12, 3⟩) ≤ 0 := by
    norm_num [Cross, mk_sub_mk]
  have y3 : ¬ Cross ((⟨12, 3⟩ : Vec2 ℝ) - ⟨16, 0⟩) (⟨0, 8⟩ - ⟨16, 0⟩) ≤ 0 := by
    norm_num [Cross, mk_sub_mk]
  have hlow : chain ([⟨0, 8⟩, ⟨4, 5⟩, ⟨12, 3⟩, ⟨16, 0⟩] : List (Vec2 ℝ)) =
      [⟨16, 0⟩, ⟨4, 5⟩, ⟨0, 8⟩] := by
    simp only [chain, List.foldl_cons, List.foldl_nil, popWhile_nil, popWhile_single]
    rw [popWhile_cons_cons, if_neg x1, popWhile_cons_cons, if_pos x2, popWhile_cons_cons,
      if_neg x3]
  have hup : chain ([⟨16, 0⟩, ⟨12, 3⟩, ⟨4, 5⟩, ⟨0, 8⟩] : List (Vec2 ℝ)) =
      [⟨0, 8⟩, ⟨12, 3⟩, ⟨16, 0⟩] := by
    simp only [chain, List.foldl_cons, List.foldl_nil, popWhile_nil, popWhile_single]
    rw [popWhile_cons_cons, if_neg y1, popWhile_cons_cons, if_pos y2, popWhile_cons_cons,
      if_neg y3]
  simp only [Hull.Convex, hs, hlow, List.reverse_cons, List.reverse_nil, List.nil_append,
    List.cons_append, hup, List.tail_cons]

/-- The rectangle aligned with the edge `(4,5) -> (16,0)` of the parallelogram
that encloses it has area `232/13 * 16/13`. -/
theorem edgeBoxArea_par {M : CMath ℝ} (hM : IsRealMath M) :
    edgeBoxArea M [⟨0, 8⟩, ⟨4, 5⟩, ⟨16, 0⟩, ⟨12, 3⟩] 1 = 232 / 13 * (16 / 13) := by
  have hu : unit M ((⟨16, 0⟩ : Vec2 ℝ) - ⟨4, 5⟩) = ⟨12 / 13, -5 / 13⟩ := by
    have e12 : ((⟨16, 0⟩ : Vec2 ℝ) - ⟨4, 5⟩) = ⟨12, -5⟩ := by
      rw [mk_sub_mk]; norm_num
    rw [e12]
    exact unit_pyth hM 12 (-5) 13 (by norm_num) (by norm_num)
  have hn : next ([⟨0, 8⟩, ⟨4, 5⟩, ⟨16, 0⟩, ⟨12, 3⟩] : List (Vec2 ℝ)) 1 = 2 := by
    simp [next]
  have h1 : nth ([⟨0, 8⟩, ⟨4, 5⟩, ⟨16, 0⟩, ⟨12, 3⟩] : List (Vec2 ℝ)) 2 = ⟨16, 0⟩ := rfl
  have h2 : nth ([⟨0, 8⟩, ⟨4, 5⟩, ⟨16, 0⟩, ⟨12, 3⟩] : List (Vec2 ℝ)) 1 = ⟨4, 5⟩ := rfl
  rw [edgeBoxArea, hn, h1, h2]
  simp only [hu]
  norm_num [extent, Dot, Cross]
/-! ## The bounding-box contract -/

/-- C8 (defect of the code): on the parallelogram hull `(0,8), (4,5), (16,0),
(12,3)` the loop of `Hull::MinimumBox` ends after a single pass, whatever the
local `box` held, and returns the box recorded in that pass, `8` by `32/5`
(area `51.2`). The rectangle aligned with the hull edge `(4,5) -> (16,0)` that
encloses the hull has the smaller area `232/13 * 16/13` (about `21.96`). In
that pass the support lines through `(16,0)` and `(0,8)` make obtuse angles
with their next edges and `asin` of the cross product reads them as
`asin(3/5)`; the calipers turn by it and anchor 3, which started at index 0
(the leftmost hull point is also the topmost one), advances to
`loopIdx = idx[0] + 1`, which ends the loop. -/
theorem minimumBox_parallelogram_not_minimal {M : CMath ℝ} (hM : IsRealMath M) (fuel : ℕ)
    (box : Box ℝ) :
    ∃ H b, Hull.Convex ([⟨0, 8⟩, ⟨4, 5⟩, ⟨16, 0⟩, ⟨12, 3⟩] : List (Vec2 ℝ)) = some H ∧
      3 ≤ H.length ∧ MinimumBox M (fuel + 1) box H = some b ∧
      edgeBoxArea M H 1 < b.width * b.height := by
  refine ⟨_, _, Convex_par, by simp, minimumBox_par hM fuel box, ?_⟩
  rw [edgeBoxArea_par hM]
  norm_num

/-- Witness for C8 with the real library, the local `box` holding zeros. -/
theorem minimumBox_parallelogram_not_minimal_witness :
    IsRealMath ⟨Real.sqrt, fun y x => Complex.arg ⟨x, y⟩, Real.cos, Real.sin, Real.arcsin,
        Real.pi⟩ ∧
      ∃ H b, Hull.Convex ([⟨0, 8⟩, ⟨4, 5⟩, ⟨16, 0⟩, ⟨12, 3⟩] : List (Vec2 ℝ)) = some H ∧
        3 ≤ H.length ∧
        MinimumBox ⟨Real.sqrt, fun y x => Complex.arg ⟨x, y⟩, Real.cos, Real.sin,
            Real.arcsin, Real.pi⟩ (0 + 1) ⟨fun _ => ⟨0, 0⟩, fun _ => 0, 0, 0⟩ H = some b ∧
        edgeBoxArea ⟨Real.sqrt, fun y x => Complex.arg ⟨x, y⟩, Real.cos, Real.sin,
            Real.arcsin, Real.pi⟩ H 1 < b.width * b.height :=
  ⟨⟨rfl, rfl, rfl, rfl, rfl, rfl⟩,
    minimumBox_parallelogram_not_minimal ⟨rfl, rfl, rfl, rfl, rfl, rfl⟩ 0 _⟩

/-- C9 (defect of the code): on the hull `(0,0), (4,0), (4,3)` of a right triangle
`Hull::MinimumBox` ends after three passes and returns a recorded box of height
0, whatever the local `box` held: the support line at `(0,0)` makes an obtuse
angle with its next edge, `asin` of the cross product reads it as the acute
angle `asin(3/5)`, the calipers turn too little and two anchors meet. The hull
points `(4,3)` and `(0,0)` are 3 apart across `para[2]`, more than the returned
height, so the returned box does not bound the hull. -/
theorem minimumBox_triangle_not_bounding {M : CMath ℝ} (hM : IsRealMath M) (box : Box ℝ) :
    ∃ H b, Hull.Convex ([⟨0, 0⟩, ⟨4, 0⟩, ⟨4, 3⟩] : List (Vec2 ℝ)) = some H ∧
      MinimumBox M 3 box H = some b ∧ (⟨4, 3⟩ : Vec2 ℝ) ∈ H ∧ (⟨0, 0⟩ : Vec2 ℝ) ∈ H ∧
      b.height < abs (Cross (b.para 2) ((⟨4, 3⟩ : Vec2 ℝ) - ⟨0, 0⟩)) := by
  refine ⟨_, _, Convex_tri, minimumBox_tri hM 0 box, by simp, by simp, ?_⟩
  norm_num [Cross, mk_sub_mk]

/-- Witness for C9 with the real library, the local `box` holding zeros. -/
theorem minimumBox_triangle_not_bounding_witness :
    IsRealMath ⟨Real.sqrt, fun y x => Complex.arg ⟨x, y⟩, Real.cos, Real.sin, Real.arcsin,
        Real.pi⟩ ∧
      ∃ H b, Hull.Convex ([⟨0, 0⟩, ⟨4, 0⟩, ⟨4, 3⟩] : List (Vec2 ℝ)) = some H ∧
        MinimumBox ⟨Real.sqrt, fun y x => Complex.arg ⟨x, y⟩, Real.cos, Real.sin,
            Real.arcsin, Real.pi⟩ 3 ⟨fun _ => ⟨0, 0⟩, fun _ => 0, 0, 0⟩ H = some b ∧
        (⟨4, 3⟩ : Vec2 ℝ) ∈ H ∧ (⟨0, 0⟩ : Vec2 ℝ) ∈ H ∧
        b.height < abs (Cross (b.para 2) ((⟨4, 3⟩ : Vec2 ℝ) - ⟨0, 0⟩)) :=
  ⟨⟨rfl, rfl, rfl, rfl, rfl, rfl⟩,
    minimumBox_triangle_not_bounding ⟨rfl, rfl, rfl, rfl, rfl, rfl⟩ _⟩

/-- C10 (defect of the code): for every input of fewer than 3 points
`Hull::MinimumBox` returns at once, without a single pass of the caliper loop
(no fuel is needed), and what it returns is its local `Box box;` exactly as
declared: nothing sets the width and the height to zero, they are whatever that
storage held. `Data::area` reads them at once: for every data set whose point
cloud has such a hull, the area it returns is computed from that storage. -/
theorem minimumBox_short_input {K : Type} [LinearOrderedField K] (M : CMath K) (fuel : ℕ)
    (box : Box K) (input : List (Vec2 K)) (h : input.length < 3) :
    MinimumBox M fuel box input = some box ∧
      ∀ (d : Data K) (res : ℕ) (points : List (Vec2 K)),
        Data.discretize M d 100 = some points → Hull.Convex points = some input →
          Data.area M fuel box d res =
            some ((box.width + Material.Padding) * (box.height + Material.Padding)) := by
  have hb : MinimumBox M fuel box input = some box := by rw [MinimumBox, if_pos h]
  refine ⟨hb, ?_⟩
  intro d res points hd hc
  simp only [Data.area, hd, hc, hb, Option.bind_eq_bind, Option.some_bind, Option.pure_def]

/-- The hull of the three collinear points `(0,0), (1,0), (2,0)` is the 2-point
hull `(0,0), (2,0)`. -/
theorem Convex_three_collinear :
    Hull.Convex ([⟨0, 0⟩, ⟨1, 0⟩, ⟨2, 0⟩] : List (Vec2 ℝ)) = some [⟨0, 0⟩, ⟨2, 0⟩] := by
  have r1 : ¬ Vec2.lt (⟨2, 0⟩ : Vec2 ℝ) ⟨1, 0⟩ := by norm_num [Vec2.lt]
  have r2 : ¬ Vec2.lt (⟨1, 0⟩ : Vec2 ℝ) ⟨0, 0⟩ := by norm_num [Vec2.lt]
  have hs : sort ([⟨0, 0⟩, ⟨1, 0⟩, ⟨2, 0⟩] : List (Vec2 ℝ)) =
      [⟨0, 0⟩, ⟨1, 0⟩, ⟨2, 0⟩] := by
    simp only [sort, List.insertionSort, List.orderedInsert]
    rw [if_pos r1]
    simp only [List.orderedInsert]
    rw [if_pos r2]
  have x1 : Cross ((⟨1, 0⟩ : Vec2 ℝ) - ⟨0, 0⟩) (⟨2, 0⟩ - ⟨0, 0⟩) ≤ 0 := by
    norm_num [Cross, mk_sub_mk]
  have x2 : Cross ((⟨1, 0⟩ : Vec2 ℝ) - ⟨2, 0⟩) (⟨0, 0⟩ - ⟨2, 0⟩) ≤ 0 := by
    norm_num [Cross, mk_sub_mk]
  have hlow : chain ([⟨0, 0⟩, ⟨1, 0⟩, ⟨2, 0⟩] : List (Vec2 ℝ)) = [⟨2, 0⟩, ⟨0, 0⟩] := by
    simp only [chain, List.foldl_cons, List.foldl_nil, popWhile_nil, popWhile_single]
    rw [popWhile_cons_cons, if_pos x1, popWhile_single]
  have hup : chain ([⟨2, 0⟩, ⟨1, 0⟩, ⟨0, 0⟩] : List (Vec2 ℝ)) = [⟨0, 0⟩, ⟨2, 0⟩] := by
    simp only [chain, List.foldl_cons, List.foldl_nil, popWhile_nil, popWhile_single]
    rw [popWhile_cons_cons, if_pos x2, popWhile_single]
  simp only [Hull.Convex, hs, hlow, List.reverse_cons, List.reverse_nil, List.nil_append,
    List.singleton_append, List.cons_append, hup, List.tail_cons]

/-- Witness for C10: the three collinear vertices `(0,0), (1,0), (2,0)` of the
documentation, whose hull is `(0,0), (2,0)`; no fuel, the real library, the
local `box` holding width 7 and height 5: `Data::area` returns
`(7 + 0.1) * (5 + 0.1)`. -/
theorem minimumBox_short_input_witness :
    ([⟨0, 0⟩, ⟨2, 0⟩] : List (Vec2 ℝ)).length < 3 ∧
      MinimumBox ⟨Real.sqrt, fun y x => Complex.arg ⟨x, y⟩, Real.cos, Real.sin, Real.arcsin,
          Real.pi⟩ 0 ⟨fun _ => ⟨0, 0⟩, fun _ => 0, 7, 5⟩ [⟨0, 0⟩, ⟨2, 0⟩] =
        some ⟨fun _ => ⟨0, 0⟩, fun _ => 0, 7, 5⟩ ∧
      Data.area ⟨Real.sqrt, fun y x => Complex.arg ⟨x, y⟩, Real.cos, Real.sin,
          Real.arcsin, Real.pi⟩ 0 ⟨fun _ => ⟨0, 0⟩, fun _ => 0, 7, 5⟩
          ⟨[⟨0, 0⟩, ⟨1, 0⟩, ⟨2, 0⟩], [], []⟩ 100 =
        some ((7 + Material.Padding) * (5 + Material.Padding)) :=
  ⟨by simp, (minimumBox_short_input _ 0 _ _ (by simp)).1,
    (minimumBox_short_input _ 0 _ _ (by simp)).2 _ 100 _ rfl Convex_three_collinear⟩

/-- The returned box need not be the zero box: on the 2-point input
`(0,0), (2,0)` the returned box is the local `box` as declared; when that
storage holds width 7 and height 5 the returned width and height are not 0. -/
theorem minimumBox_short_input_not_zero :
    ∃ b, MinimumBox ⟨Real.sqrt, fun y x => Complex.arg ⟨x, y⟩, Real.cos, Real.sin,
          Real.arcsin, Real.pi⟩ 0 ⟨fun _ => ⟨0, 0⟩, fun _ => 0, 7, 5⟩
        [⟨0, 0⟩, ⟨2, 0⟩] = some b ∧ ¬ (b.width = 0 ∧ b.height = 0) := by
  refine ⟨_, rfl, ?_⟩
  norm_num


/-! ## Collinear inputs -/

/-- A chain of strict left turns through points of a collinear set has at most
two points. -/
theorem length_le_two_of_collinear {F : Type} [LinearOrderedCommRing F]
    {P st : List (Vec2 F)} (hc : AllCollinear P) (hsub : ∀ p ∈ st, p ∈ P)
    (hT : Turns st) : st.length ≤ 2 := by
  match st, hsub, hT with
  | [], _, _ => simp
  | [_], _, _ => simp
  | [_, _], _, _ => simp
  | c :: b :: a :: rest, hsub, hT =>
    have h := ((turns_cons3 c b a rest).1 hT).1
    have h0 := hc a (hsub a (by simp)) b (hsub b (by simp)) c (hsub c (by simp))
    rw [h0] at h
    exact absurd h (lt_irrefl 0)

theorem lowerChain_length_le_two {F : Type} [LinearOrderedCommRing F] {P : List (Vec2 F)}
    (hc : AllCollinear P) : (lowerChain P).length ≤ 2 := by
  rw [lowerChain, List.length_reverse]
  refine length_le_two_of_collinear hc (fun p hp => mem_lowerChain ?_) (lower_inv P).turns
  rw [lowerChain]
  exact List.mem_reverse.2 hp

theorem upperChain_length_le_two {F : Type} [LinearOrderedCommRing F] {P : List (Vec2 F)}
    (hc : AllCollinear P) : (upperChain P).length ≤ 2 := by
  rw [upperChain, List.length_reverse]
  refine length_le_two_of_collinear hc (fun p hp => mem_upperChain ?_) (upper_inv P).turns
  rw [upperChain]
  exact List.mem_reverse.2 hp

theorem head?_of_mem_dropLast {α : Type} {L : List α} (h : L.length ≤ 2) {p : α}
    (hp : p ∈ L.dropLast) : L.head? = some p := by
  match L, h, hp with
  | [], _, hp => simp at hp
  | [_], _, hp => simp at hp
  | [a, b], _, hp =>
    simp only [List.dropLast_cons₂, List.dropLast_single, List.mem_singleton] at hp
    rw [hp]; rfl
  | _ :: _ :: _ :: _, h, _ => simp at h

/-- C20, as amended: over exact arithmetic (the coordinates in an ordered ring
`F`, every cross product computed without rounding or overflow), for every
non-empty input whose points are all collinear (duplicates allowed)
`Hull::Convex` returns a hull of fewer than 3 points, and every point it keeps
is a first or a last point of the input in the sorting order: the points in
between are dropped. -/
theorem convex_collinear_degenerate {F : Type} [LinearOrderedCommRing F] (P : List (Vec2 F))
    (hP : P ≠ []) (hc : AllCollinear P) :
    ∃ H, Hull.Convex P = some H ∧ H.length < 3 ∧
      ∀ p ∈ H, (∀ q ∈ P, ¬ Vec2.lt q p) ∨ (∀ q ∈ P, ¬ Vec2.lt p q) := by
  refine ⟨_, Convex_eq hP, ?_, ?_⟩
  · have h1 := lowerChain_length_le_two hc
    have h2 := upperChain_length_le_two hc
    rw [List.length_append, List.length_dropLast, List.length_dropLast]
    omega
  · intro p hp
    rcases List.mem_append.1 hp with h | h
    · left
      have hh := head?_of_mem_dropLast (lowerChain_length_le_two hc) h
      rw [lowerChain_head?] at hh
      intro q hq
      exact (not_lt_iff_fwd p q).2
        (rel_head_of_sorted fwd_isDir (sort_sorted P) hh q (mem_sort.2 hq))
    · right
      have hh := head?_of_mem_dropLast (upperChain_length_le_two hc) h
      rw [upperChain_head?] at hh
      intro q hq
      exact (not_lt_iff_fwd q p).2
        (rel_getLast_of_sorted fwd_isDir (sort_sorted P) hh q (mem_sort.2 hq))

/-- Witness for C20 as amended: the three collinear points `(0,0), (1,0), (2,0)` give the
2-point hull `(0,0), (2,0)`. -/
theorem convex_collinear_degenerate_witness :
    (([⟨0, 0⟩, ⟨1, 0⟩, ⟨2, 0⟩] : List (Vec2 ℤ)) ≠ [] ∧
      AllCollinear ([⟨0, 0⟩, ⟨1, 0⟩, ⟨2, 0⟩] : List (Vec2 ℤ))) ∧
      Hull.Convex ([⟨0, 0⟩, ⟨1, 0⟩, ⟨2, 0⟩] : List (Vec2 ℤ)) = some [⟨0, 0⟩, ⟨2, 0⟩] ∧
      ∃ H, Hull.Convex ([⟨0, 0⟩, ⟨1, 0⟩, ⟨2, 0⟩] : List (Vec2 ℤ)) = some H ∧ H.length < 3 ∧
        ∀ p ∈ H, (∀ q ∈ ([⟨0, 0⟩, ⟨1, 0⟩, ⟨2, 0⟩] : List (Vec2 ℤ)), ¬ Vec2.lt q p) ∨
          (∀ q ∈ ([⟨0, 0⟩, ⟨1, 0⟩, ⟨2, 0⟩] : List (Vec2 ℤ)), ¬ Vec2.lt p q) :=
  ⟨⟨by simp, by unfold AllCollinear; decide⟩, by decide,
    convex_collinear_degenerate _ (by simp) (by unfold AllCollinear; decide)⟩

/-! ## The caliper loop on the trapezoid `(-4,3), (0,0), (4,0), (4,3)` -/

theorem extremes_trap :
    extremes ([⟨-4, 3⟩, ⟨0, 0⟩, ⟨4, 0⟩, ⟨4, 3⟩] : List (Vec2 ℝ)) = ![0, 2, 1, 0] := by
  have s0 : scanStep ([⟨-4, 3⟩, ⟨0, 0⟩, ⟨4, 0⟩, ⟨4, 3⟩] : List (Vec2 ℝ))
      ⟨⟨-4, 3⟩, ⟨-4, 3⟩, ⟨-4, 3⟩, ⟨-4, 3⟩, fun _ => 0⟩ 0 =
      ⟨⟨-4, 3⟩, ⟨-4, 3⟩, ⟨-4, 3⟩, ⟨-4, 3⟩, fun _ => 0⟩ := by
    simp [scanStep, nth]
  have s1 : scanStep ([⟨-4, 3⟩, ⟨0, 0⟩, ⟨4, 0⟩, ⟨4, 3⟩] : List (Vec2 ℝ))
      ⟨⟨-4, 3⟩, ⟨-4, 3⟩, ⟨-4, 3⟩, ⟨-4, 3⟩, fun _ => 0⟩ 1 =
      ⟨⟨-4, 3⟩, ⟨0, 0⟩, ⟨0, 0⟩, ⟨-4, 3⟩,
        Function.update (Function.update (fun _ => 0) 1 1) 2 1⟩ := by
    norm_num [scanStep, nth]
  have s2 : scanStep ([⟨-4, 3⟩, ⟨0, 0⟩, ⟨4, 0⟩, ⟨4, 3⟩] : List (Vec2 ℝ))
      ⟨⟨-4, 3⟩, ⟨0, 0⟩, ⟨0, 0⟩, ⟨-4, 3⟩,
        Function.update (Function.update (fun _ => 0) 1 1) 2 1⟩ 2 =
      ⟨⟨-4, 3⟩, ⟨4, 0⟩, ⟨0, 0⟩, ⟨-4, 3⟩,
        Function.update (Function.update (Function.update (fun _ => 0) 1 1) 2 1) 1 2⟩ := by
    norm_num [scanStep, nth]
  have s3 : scanStep ([⟨-4, 3⟩, ⟨0, 0⟩, ⟨4, 0⟩, ⟨4, 3⟩] : List (Vec2 ℝ))
      ⟨⟨-4, 3⟩, ⟨4, 0⟩, ⟨0, 0⟩, ⟨-4, 3⟩,
        Function.update (Function.update (Function.update (fun _ => 0) 1 1) 2 1) 1 2⟩ 3 =
      ⟨⟨-4, 3⟩, ⟨4, 0⟩, ⟨0, 0⟩, ⟨-4, 3⟩,
        Function.update (Function.update (Function.update (fun _ => 0) 1 1) 2 1) 1 2⟩ := by
    norm_num [scanStep, nth]
  have e : extremes ([⟨-4, 3⟩, ⟨0, 0⟩, ⟨4, 0⟩, ⟨4, 3⟩] : List (Vec2 ℝ)) =
      Function.update (Function.update (Function.update (fun _ => 0) 1 1) 2 1) 1 2 := by
    have hn : nth ([⟨-4, 3⟩, ⟨0, 0⟩, ⟨4, 0⟩, ⟨4, 3⟩] : List (Vec2 ℝ)) 0 = ⟨-4, 3⟩ := rfl
    have hl : ([⟨-4, 3⟩, ⟨0, 0⟩, ⟨4, 0⟩, ⟨4, 3⟩] : List (Vec2 ℝ)).length = 4 := rfl
    have hr : List.range 4 = [0, 1, 2, 3] := by decide
    unfold extremes
    rw [hl, hr, hn]
    simp only [List.foldl_cons, List.foldl_nil]
    rw [s0, s1, s2, s3]
  rw [e]
  funext i
  fin_cases i <;> simp [Function.update]

/-- The edges of the trapezoid and their unit vectors. -/
theorem trap_edges {M : CMath ℝ} (hM : IsRealMath M) :
    unit M (nth ([⟨-4, 3⟩, ⟨0, 0⟩, ⟨4, 0⟩, ⟨4, 3⟩] : List (Vec2 ℝ)) 1 -
        nth [⟨-4, 3⟩, ⟨0, 0⟩, ⟨4, 0⟩, ⟨4, 3⟩] 0) = ⟨4 / 5, -3 / 5⟩ ∧
      unit M (nth ([⟨-4, 3⟩, ⟨0, 0⟩, ⟨4, 0⟩, ⟨4, 3⟩] : List (Vec2 ℝ)) 2 -
        nth [⟨-4, 3⟩, ⟨0, 0⟩, ⟨4, 0⟩, ⟨4, 3⟩] 1) = ⟨1, 0⟩ ∧
      unit M (nth ([⟨-4, 3⟩, ⟨0, 0⟩, ⟨4, 0⟩, ⟨4, 3⟩] : List (Vec2 ℝ)) 3 -
        nth [⟨-4, 3⟩, ⟨0, 0⟩, ⟨4, 0⟩, ⟨4, 3⟩] 2) = ⟨0, 1⟩ ∧
      unit M (nth ([⟨-4, 3⟩, ⟨0, 0⟩, ⟨4, 0⟩, ⟨4, 3⟩] : List (Vec2 ℝ)) 0 -
        nth [⟨-4, 3⟩, ⟨0, 0⟩, ⟨4, 0⟩, ⟨4, 3⟩] 3) = ⟨-1, 0⟩ := by
  have e01 : nth ([⟨-4, 3⟩, ⟨0, 0⟩, ⟨4, 0⟩, ⟨4, 3⟩] : List (Vec2 ℝ)) 1 -
      nth [⟨-4, 3⟩, ⟨0, 0⟩, ⟨4, 0⟩, ⟨4, 3⟩] 0 = ⟨4, -3⟩ := by
    norm_num [nth, mk_sub_mk]
  have e12 : nth ([⟨-4, 3⟩, ⟨0, 0⟩, ⟨4, 0⟩, ⟨4, 3⟩] : List (Vec2 ℝ)) 2 -
      nth [⟨-4, 3⟩, ⟨0, 0⟩, ⟨4, 0⟩, ⟨4, 3⟩] 1 = ⟨4, 0⟩ := by
    norm_num [nth, mk_sub_mk]
  have e23 : nth ([⟨-4, 3⟩, ⟨0, 0⟩, ⟨4, 0⟩, ⟨4, 3⟩] : List (Vec2 ℝ)) 3 -
      nth [⟨-4, 3⟩, ⟨0, 0⟩, ⟨4, 0⟩, ⟨4, 3⟩] 2 = ⟨0, 3⟩ := by
    norm_num [nth, mk_sub_mk]
  have e30 : nth ([⟨-4, 3⟩, ⟨0, 0⟩, ⟨4, 0⟩, ⟨4, 3⟩] : List (Vec2 ℝ)) 0 -
      nth [⟨-4, 3⟩, ⟨0, 0⟩, ⟨4, 0⟩, ⟨4, 3⟩] 3 = ⟨-8, 0⟩ := by
    norm_num [nth, mk_sub_mk]
  rw [e01, e12, e23, e30]
  exact ⟨unit_pyth hM 4 (-3) 5 (by norm_num) (by norm_num), unit_east hM 4 (by norm_num),
    unit_north hM 3 (by norm_num), unit_west hM 8 (by norm_num)⟩

theorem trap_next :
    next ([⟨-4, 3⟩, ⟨0, 0⟩, ⟨4, 0⟩, ⟨4, 3⟩] : List (Vec2 ℝ)) 0 = 1 ∧
      next ([⟨-4, 3⟩, ⟨0, 0⟩, ⟨4, 0⟩, ⟨4, 3⟩] : List (Vec2 ℝ)) 1 = 2 ∧
      next ([⟨-4, 3⟩, ⟨0, 0⟩, ⟨4, 0⟩, ⟨4, 3⟩] : List (Vec2 ℝ)) 2 = 3 ∧
      next ([⟨-4, 3⟩, ⟨0, 0⟩, ⟨4, 0⟩, ⟨4, 3⟩] : List (Vec2 ℝ)) 3 = 0 := by
  simp [next]

/-- First pass on the trapezoid: two support lines are flush, rotation by 0,
the area stays 24 and nothing is recorded. -/
theorem trap_step1 {M : CMath ℝ} (hM : IsRealMath M) (box : Box ℝ) :
    caliperStep M [⟨-4, 3⟩, ⟨0, 0⟩, ⟨4, 0⟩, ⟨4, 3⟩]
        ⟨![⟨0, -1⟩, ⟨0, 1⟩, ⟨1, 0⟩, ⟨-1, 0⟩], ![0, 2, 1, 0], 8 * 3, box⟩ =
      ⟨![⟨0, -1⟩, ⟨0, 1⟩, ⟨1, 0⟩, ⟨-1, 0⟩], ![0, 3, 2, 0], 8 * 3, box⟩ := by
  obtain ⟨hpi, hz, ho⟩ := real_consts hM
  have hasin : M.asin = Real.arcsin := hM.2.2.2.2.1
  obtain ⟨a0, a1, a2, ac, as⟩ := angles_345
  have hpos := Real.pi_pos
  obtain ⟨u01, u12, u23, u30⟩ := trap_edges hM
  obtain ⟨n0, n1, n2, n3⟩ := trap_next
  have a4 : 0 < Real.arcsin (4 / 5) := a0.trans a1
  have t0 : theta M [⟨-4, 3⟩, ⟨0, 0⟩, ⟨4, 0⟩, ⟨4, 3⟩]
      ⟨![⟨0, -1⟩, ⟨0, 1⟩, ⟨1, 0⟩, ⟨-1, 0⟩], ![0, 2, 1, 0], 8 * 3, box⟩ 0 =
      Real.arcsin (4 / 5) := by
    show M.asin (Cross ⟨0, -1⟩ (unit M (nth _ (next _ 0) - nth _ 0))) = _
    rw [n0, u01, hasin]
    norm_num [Cross]
  have t1 : theta M [⟨-4, 3⟩, ⟨0, 0⟩, ⟨4, 0⟩, ⟨4, 3⟩]
      ⟨![⟨0, -1⟩, ⟨0, 1⟩, ⟨1, 0⟩, ⟨-1, 0⟩], ![0, 2, 1, 0], 8 * 3, box⟩ 1 = 0 := by
    show M.asin (Cross ⟨0, 1⟩ (unit M (nth _ (next _ 2) - nth _ 2))) = _
    rw [n2, u23]
    norm_num [Cross, hz]
  have t2 : theta M [⟨-4, 3⟩, ⟨0, 0⟩, ⟨4, 0⟩, ⟨4, 3⟩]
      ⟨![⟨0, -1⟩, ⟨0, 1⟩, ⟨1, 0⟩, ⟨-1, 0⟩], ![0, 2, 1, 0], 8 * 3, box⟩ 2 = 0 := by
    show M.asin (Cross ⟨1, 0⟩ (unit M (nth _ (next _ 1) - nth _ 1))) = _
    rw [n1, u12]
    norm_num [Cross, hz]
  have t3 : theta M [⟨-4, 3⟩, ⟨0, 0⟩, ⟨4, 0⟩, ⟨4, 3⟩]
      ⟨![⟨0, -1⟩, ⟨0, 1⟩, ⟨1, 0⟩, ⟨-1, 0⟩], ![0, 2, 1, 0], 8 * 3, box⟩ 3 =
      Real.arcsin (3 / 5) := by
    show M.asin (Cross ⟨-1, 0⟩ (unit M (nth _ (next _ 0) - nth _ 0))) = _
    rw [n0, u01, hasin]
    norm_num [Cross]
  have hmt : minTheta M [⟨-4, 3⟩, ⟨0, 0⟩, ⟨4, 0⟩, ⟨4, 3⟩]
      ⟨![⟨0, -1⟩, ⟨0, 1⟩, ⟨1, 0⟩, ⟨-1, 0⟩], ![0, 2, 1, 0], 8 * 3, box⟩ = 0 := by
    rw [minTheta_eq M _ _ _ _ _ _ t0 t1 t2 t3, hpi]
    have h1 : Real.arcsin (4 / 5) < Real.pi := by linarith
    have h3 : ¬ Real.arcsin (3 / 5) < 0 := not_lt.2 a0.le
    simp [h1, a4, h3]
  refine caliperStep_keep M _ _ 0 _ _ hmt ?_ ?_ ?_
  · intro i
    rw [rotate_real hM]
    fin_cases i <;> simp
  · intro i
    fin_cases i
    · show (if theta M _ _ 0 = 0 then _ else _) = _
      rw [t0, if_neg a4.ne']; rfl
    · show (if theta M _ _ 1 = 0 then _ else _) = _
      rw [t1]; simp [next]
    · show (if theta M _ _ 2 = 0 then _ else _) = _
      rw [t2]; simp [next]
    · show (if theta M _ _ 3 = 0 then _ else _) = _
      rw [t3, if_neg a0.ne']; rfl
  · norm_num [nth, mk_sub_mk, Cross]

/-- Second pass on the trapezoid: the calipers turn by `asin(3/5)`, anchor 3
advances to `loopIdx = 1` and the area `32/5 * 12/5` is recorded. -/
theorem trap_step2 {M : CMath ℝ} (hM : IsRealMath M) (box : Box ℝ) :
    caliperStep M [⟨-4, 3⟩, ⟨0, 0⟩, ⟨4, 0⟩, ⟨4, 3⟩]
        ⟨![⟨0, -1⟩, ⟨0, 1⟩, ⟨1, 0⟩, ⟨-1, 0⟩], ![0, 3, 2, 0], 8 * 3, box⟩ =
      ⟨![⟨3 / 5, -(4 / 5)⟩, ⟨-(3 / 5), 4 / 5⟩, ⟨4 / 5, 3 / 5⟩, ⟨-(4 / 5), -(3 / 5)⟩],
        ![0, 3, 2, 1], 32 / 5 * (12 / 5),
        ⟨![⟨3 / 5, -(4 / 5)⟩, ⟨-(3 / 5), 4 / 5⟩, ⟨4 / 5, 3 / 5⟩, ⟨-(4 / 5), -(3 / 5)⟩],
          ![0, 3, 2, 1], 32 / 5, 12 / 5⟩⟩ := by
  obtain ⟨hpi, hz, ho⟩ := real_consts hM
  have hasin : M.asin = Real.arcsin := hM.2.2.2.2.1
  obtain ⟨a0, a1, a2, ac, as⟩ := angles_345
  have hpos := Real.pi_pos
  obtain ⟨u01, u12, u23, u30⟩ := trap_edges hM
  obtain ⟨n0, n1, n2, n3⟩ := trap_next
  have t0 : theta M [⟨-4, 3⟩, ⟨0, 0⟩, ⟨4, 0⟩, ⟨4, 3⟩]
      ⟨![⟨0, -1⟩, ⟨0, 1⟩, ⟨1, 0⟩, ⟨-1, 0⟩], ![0, 3, 2, 0], 8 * 3, box⟩ 0 =
      Real.arcsin (4 / 5) := by
    show M.asin (Cross ⟨0, -1⟩ (unit M (nth _ (next _ 0) - nth _ 0))) = _
    rw [n0, u01, hasin]
    norm_num [Cross]
  have t1 : theta M [⟨-4, 3⟩, ⟨0, 0⟩, ⟨4, 0⟩, ⟨4, 3⟩]
      ⟨![⟨0, -1⟩, ⟨0, 1⟩, ⟨1, 0⟩, ⟨-1, 0⟩], ![0, 3, 2, 0], 8 * 3, box⟩ 1 = Real.pi / 2 := by
    show M.asin (Cross ⟨0, 1⟩ (unit M (nth _ (next _ 3) - nth _ 3))) = _
    rw [n3, u30]
    norm_num [Cross, ho]
  have t2 : theta M [⟨-4, 3⟩, ⟨0, 0⟩, ⟨4, 0⟩, ⟨4, 3⟩]
      ⟨![⟨0, -1⟩, ⟨0, 1⟩, ⟨1, 0⟩, ⟨-1, 0⟩], ![0, 3, 2, 0], 8 * 3, box⟩ 2 = Real.pi / 2 := by
    show M.asin (Cross ⟨1, 0⟩ (unit M (nth _ (next _ 2) - nth _ 2))) = _
    rw [n2, u23]
    norm_num [Cross, ho]
  have t3 : theta M [⟨-4, 3⟩, ⟨0, 0⟩, ⟨4, 0⟩, ⟨4, 3⟩]
      ⟨![⟨0, -1⟩, ⟨0, 1⟩, ⟨1, 0⟩, ⟨-1, 0⟩], ![0, 3, 2, 0], 8 * 3, box⟩ 3 =
      Real.arcsin (3 / 5) := by
    show M.asin (Cross ⟨-1, 0⟩ (unit M (nth _ (next _ 0) - nth _ 0))) = _
    rw [n0, u01, hasin]
    norm_num [Cross]
  have hmt : minTheta M [⟨-4, 3⟩, ⟨0, 0⟩, ⟨4, 0⟩, ⟨4, 3⟩]
      ⟨![⟨0, -1⟩, ⟨0, 1⟩, ⟨1, 0⟩, ⟨-1, 0⟩], ![0, 3, 2, 0], 8 * 3, box⟩ =
      Real.arcsin (3 / 5) := by
    rw [minTheta_eq M _ _ _ _ _ _ t0 t1 t2 t3, hpi]
    have h1 : Real.arcsin (4 / 5) < Real.pi := by linarith
    have h3 : ¬ Real.pi / 2 < Real.arcsin (4 / 5) := not_lt.2 a2.le
    simp [h1, h3, a1]
  refine caliperStep_record M _ _ (Real.arcsin (3 / 5)) _ _ (32 / 5) (12 / 5) hmt ?_ ?_ ?_ ?_
    (by norm_num)
  · intro i
    rw [rotate_real hM, ac, as]
    fin_cases i <;> norm_num
  · intro i
    fin_cases i
    · show (if theta M _ _ 0 = Real.arcsin (3 / 5) then _ else _) = _
      rw [t0, if_neg a1.ne']; rfl
    · show (if theta M _ _ 1 = Real.arcsin (3 / 5) then _ else _) = _
      rw [t1, if_neg (by linarith : Real.pi / 2 ≠ Real.arcsin (3 / 5))]; rfl
    · show (if theta M _ _ 2 = Real.arcsin (3 / 5) then _ else _) = _
      rw [t2, if_neg (by linarith : Real.pi / 2 ≠ Real.arcsin (3 / 5))]; rfl
    · show (if theta M _ _ 3 = Real.arcsin (3 / 5) then _ else _) = _
      rw [t3]; simp [next]
  · have h325 : |(32 / 5 : ℝ)| = 32 / 5 := abs_of_pos (by norm_num)
    norm_num [nth, mk_sub_mk, Cross, h325]
  · have h125 : |(12 / 5 : ℝ)| = 12 / 5 := abs_of_pos (by norm_num)
    norm_num [nth, mk_sub_mk, Cross, h125]

/-- On the trapezoid hull `(-4,3), (0,0), (4,0), (4,3)` the loop of
`MinimumBox` ends after two passes, with the recorded box `32/5` by `12/5`. -/
theorem minimumBox_trap {M : CMath ℝ} (hM : IsRealMath M) (fuel : ℕ) (box : Box ℝ) :
    MinimumBox M (fuel + 2) box [⟨-4, 3⟩, ⟨0, 0⟩, ⟨4, 0⟩, ⟨4, 3⟩] =
      some ⟨![⟨3 / 5, -(4 / 5)⟩, ⟨-(3 / 5), 4 / 5⟩, ⟨4 / 5, 3 / 5⟩, ⟨-(4 / 5), -(3 / 5)⟩],
        ![0, 3, 2, 1], 32 / 5, 12 / 5⟩ := by
  have hl : ¬ ([⟨-4, 3⟩, ⟨0, 0⟩, ⟨4, 0⟩, ⟨4, 3⟩] : List (Vec2 ℝ)).length < 3 := by simp
  unfold MinimumBox
  rw [if_neg hl]
  simp only [extremes_trap]
  have ha : abs (Cross ((![⟨0, -1⟩, ⟨0, 1⟩, ⟨1, 0⟩, ⟨-1, 0⟩] : Fin 4 → Vec2 ℝ) 0)
      (nth [⟨-4, 3⟩, ⟨0, 0⟩, ⟨4, 0⟩, ⟨4, 3⟩] ((![0, 2, 1, 0] : Fin 4 → ℕ) 1) -
        nth [⟨-4, 3⟩, ⟨0, 0⟩, ⟨4, 0⟩, ⟨4, 3⟩] ((![0, 2, 1, 0] : Fin 4 → ℕ) 0))) *
      abs (Cross ((![⟨0, -1⟩, ⟨0, 1⟩, ⟨1, 0⟩, ⟨-1, 0⟩] : Fin 4 → Vec2 ℝ) 2)
      (nth [⟨-4, 3⟩, ⟨0, 0⟩, ⟨4, 0⟩, ⟨4, 3⟩] ((![0, 2, 1, 0] : Fin 4 → ℕ) 3) -
        nth [⟨-4, 3⟩, ⟨0, 0⟩, ⟨4, 0⟩, ⟨4, 3⟩] ((![0, 2, 1, 0] : Fin 4 → ℕ) 2))) =
      8 * 3 := by
    norm_num [nth, mk_sub_mk, Cross]
  rw [ha]
  have hi : (![0, 2, 1, 0] : Fin 4 → ℕ) 0 + 1 = 1 := by simp
  rw [hi]
  rw [caliperLoop]
  simp only [trap_step1 hM box]
  rw [if_pos (by simp)]
  rw [caliperLoop]
  simp only [trap_step2 hM box]
  rw [if_neg (by simp)]

/-! ## The two point clouds of the data set used for `Data::area` -/

theorem Convex_cloud1 :
    Hull.Convex ([⟨0, 0⟩, ⟨4, 0⟩, ⟨4, 3⟩, ⟨4, 3⟩] : List (Vec2 ℝ)) =
      some [⟨0, 0⟩, ⟨4, 0⟩, ⟨4, 3⟩] := by
  have hs : sort ([⟨0, 0⟩, ⟨4, 0⟩, ⟨4, 3⟩, ⟨4, 3⟩] : List (Vec2 ℝ)) =
      [⟨0, 0⟩, ⟨4, 0⟩, ⟨4, 3⟩, ⟨4, 3⟩] := by
    norm_num [sort, List.insertionSort, List.orderedInsert, Vec2.lt]
  have hlow : chain ([⟨0, 0⟩, ⟨4, 0⟩, ⟨4, 3⟩, ⟨4, 3⟩] : List (Vec2 ℝ)) =
      [⟨4, 3⟩, ⟨4, 0⟩, ⟨0, 0⟩] := by
    norm_num [chain, popWhile_cons_cons, popWhile_single, popWhile_nil, Cross, mk_sub_mk]
  have hup : chain ([⟨4, 3⟩, ⟨4, 3⟩, ⟨4, 0⟩, ⟨0, 0⟩] : List (Vec2 ℝ)) = [⟨0, 0⟩, ⟨4, 3⟩] := by
    norm_num [chain, popWhile_cons_cons, popWhile_single, popWhile_nil, Cross, mk_sub_mk]
  simp only [Hull.Convex, hs, hlow, List.reverse_cons, List.reverse_nil, List.nil_append,
    List.cons_append, hup, List.tail_cons]

theorem Convex_cloud2 :
    Hull.Convex ([⟨0, 0⟩, ⟨4, 0⟩, ⟨4, 3⟩, ⟨4, 3⟩, ⟨-4, 3⟩] : List (Vec2 ℝ)) =
      some [⟨-4, 3⟩, ⟨0, 0⟩, ⟨4, 0⟩, ⟨4, 3⟩] := by
  have hs : sort ([⟨0, 0⟩, ⟨4, 0⟩, ⟨4, 3⟩, ⟨4, 3⟩, ⟨-4, 3⟩] : List (Vec2 ℝ)) =
      [⟨-4, 3⟩, ⟨0, 0⟩, ⟨4, 0⟩, ⟨4, 3⟩, ⟨4, 3⟩] := by
    norm_num [sort, List.insertionSort, List.orderedInsert, Vec2.lt]
  have hlow : chain ([⟨-4, 3⟩, ⟨0, 0⟩, ⟨4, 0⟩, ⟨4, 3⟩, ⟨4, 3⟩] : List (Vec2 ℝ)) =
      [⟨4, 3⟩, ⟨4, 0⟩, ⟨0, 0⟩, ⟨-4, 3⟩] := by
    norm_num [chain, popWhile_cons_cons, popWhile_single, popWhile_nil, Cross, mk_sub_mk]
  have hup : chain ([⟨4, 3⟩, ⟨4, 3⟩, ⟨4, 0⟩, ⟨0, 0⟩, ⟨-4, 3⟩] : List (Vec2 ℝ)) =
      [⟨-4, 3⟩, ⟨4, 3⟩] := by
    norm_num [chain, popWhile_cons_cons, popWhile_single, popWhile_nil, Cross, mk_sub_mk]
  simp only [Hull.Convex, hs, hlow, List.reverse_cons, List.reverse_nil, List.nil_append,
    List.cons_append, hup, List.tail_cons]

/-! ## The scan for the extreme points -/

theorem scanStep_minX {F : Type} [LinearOrderedField F] (input : List (Vec2 F))
    (e : Extremes F) (i : ℕ) :
    (scanStep input e i).minX = if (nth input i).x < e.minX.x then nth input i else e.minX := by
  unfold scanStep
  by_cases h1 : (nth input i).x < e.minX.x <;> by_cases h2 : (nth input i).x > e.maxX.x <;>
    by_cases h3 : (nth input i).y < e.minY.y <;> by_cases h4 : (nth input i).y > e.maxY.y <;>
    simp [h1, h2, h3, h4, Function.update]

theorem scanStep_idx0 {F : Type} [LinearOrderedField F] (input : List (Vec2 F))
    (e : Extremes F) (i : ℕ) :
    (scanStep input e i).idx 0 = if (nth input i).x < e.minX.x then i else e.idx 0 := by
  unfold scanStep
  by_cases h1 : (nth input i).x < e.minX.x <;> by_cases h2 : (nth input i).x > e.maxX.x <;>
    by_cases h3 : (nth input i).y < e.minY.y <;> by_cases h4 : (nth input i).y > e.maxY.y <;>
    simp [h1, h2, h3, h4, Function.update]

theorem scanStep_maxX {F : Type} [LinearOrderedField F] (input : List (Vec2 F))
    (e : Extremes F) (i : ℕ) :
    (scanStep input e i).maxX = if (nth input i).x > e.maxX.x then nth input i else e.maxX := by
  unfold scanStep
  by_cases h1 : (nth input i).x < e.minX.x <;> by_cases h2 : (nth input i).x > e.maxX.x <;>
    by_cases h3 : (nth input i).y < e.minY.y <;> by_cases h4 : (nth input i).y > e.maxY.y <;>
    simp [h1, h2, h3, h4, Function.update]

theorem scanStep_idx1 {F : Type} [LinearOrderedField F] (input : List (Vec2 F))
    (e : Extremes F) (i : ℕ) :
    (scanStep input e i).idx 1 = if (nth input i).x > e.maxX.x then i else e.idx 1 := by
  unfold scanStep
  by_cases h1 : (nth input i).x < e.minX.x <;> by_cases h2 : (nth input i).x > e.maxX.x <;>
    by_cases h3 : (nth input i).y < e.minY.y <;> by_cases h4 : (nth input i).y > e.maxY.y <;>
    simp [h1, h2, h3, h4, Function.update]

theorem scanStep_minY {F : Type} [LinearOrderedField F] (input : List (Vec2 F))
    (e : Extremes F) (i : ℕ) :
    (scanStep input e i).minY = if (nth input i).y < e.minY.y then nth input i else e.minY := by
  unfold scanStep
  by_cases h1 : (nth input i).x < e.minX.x <;> by_cases h2 : (nth input i).x > e.maxX.x <;>
    by_cases h3 : (nth input i).y < e.minY.y <;> by_cases h4 : (nth input i).y > e.maxY.y <;>
    simp [h1, h2, h3, h4, Function.update]

theorem scanStep_idx2 {F : Type} [LinearOrderedField F] (input : List (Vec2 F))
    (e : Extremes F) (i : ℕ) :
    (scanStep input e i).idx 2 = if (nth input i).y < e.minY.y then i else e.idx 2 := by
  unfold scanStep
  by_cases h1 : (nth input i).x < e.minX.x <;> by_cases h2 : (nth input i).x > e.maxX.x <;>
    by_cases h3 : (nth input i).y < e.minY.y <;> by_cases h4 : (nth input i).y > e.maxY.y <;>
    simp [h1, h2, h3, h4, Function.update]

theorem scanStep_maxY {F : Type} [LinearOrderedField F] (input : List (Vec2 F))
    (e : Extremes F) (i : ℕ) :
    (scanStep input e i).maxY = if (nth input i).y > e.maxY.y then nth input i else e.maxY := by
  unfold scanStep
  by_cases h1 : (nth input i).x < e.minX.x <;> by_cases h2 : (nth input i).x > e.maxX.x <;>
    by_cases h3 : (nth input i).y < e.minY.y <;> by_cases h4 : (nth input i).y > e.maxY.y <;>
    simp [h1, h2, h3, h4, Function.update]

theorem scanStep_idx3 {F : Type} [LinearOrderedField F] (input : List (Vec2 F))
    (e : Extremes F) (i : ℕ) :
    (scanStep input e i).idx 3 = if (nth input i).y > e.maxY.y then i else e.idx 3 := by
  unfold scanStep
  by_cases h1 : (nth input i).x < e.minX.x <;> by_cases h2 : (nth input i).x > e.maxX.x <;>
    by_cases h3 : (nth input i).y < e.minY.y <;> by_cases h4 : (nth input i).y > e.maxY.y <;>
    simp [h1, h2, h3, h4, Function.update]

/-- What holds of the scan variables once the indices `0, ..., k` have been
visited. -/
theorem scan_inv {F : Type} [LinearOrderedField F] (input : List (Vec2 F)) (k : ℕ)
    (e : Extremes F)
    (he : e = (List.range (k + 1)).foldl (scanStep input)
      ⟨nth input 0, nth input 0, nth input 0, nth input 0, fun _ => 0⟩) :
    (e.minX = nth input (e.idx 0) ∧ e.idx 0 < k + 1 ∧
        (∀ j < k + 1, e.minX.x ≤ (nth input j).x) ∧ ∀ j < e.idx 0, e.minX.x < (nth input j).x) ∧
      (e.maxX = nth input (e.idx 1) ∧ e.idx 1 < k + 1 ∧
        (∀ j < k + 1, (nth input j).x ≤ e.maxX.x) ∧ ∀ j < e.idx 1, (nth input j).x < e.maxX.x) ∧
      (e.minY = nth input (e.idx 2) ∧ e.idx 2 < k + 1 ∧
        (∀ j < k + 1, e.minY.y ≤ (nth input j).y) ∧ ∀ j < e.idx 2, e.minY.y < (nth input j).y) ∧
      (e.maxY = nth input (e.idx 3) ∧ e.idx 3 < k + 1 ∧
        (∀ j < k + 1, (nth input j).y ≤ e.maxY.y) ∧ ∀ j < e.idx 3, (nth input j).y < e.maxY.y) := by
  induction k generalizing e with
  | zero =>
    have h0 : scanStep input ⟨nth input 0, nth input 0, nth input 0, nth input 0, fun _ => 0⟩ 0 =
        ⟨nth input 0, nth input 0, nth input 0, nth input 0, fun _ => 0⟩ := by
      simp [scanStep]
    have hr : List.range (0 + 1) = [0] := by decide
    rw [hr, List.foldl_cons, List.foldl_nil, h0] at he
    subst he
    have hj0 : ∀ j, j < 0 + 1 → j = 0 := fun j hj => by omega
    refine ⟨⟨rfl, Nat.zero_lt_one, ?_, ?_⟩, ⟨rfl, Nat.zero_lt_one, ?_, ?_⟩,
      ⟨rfl, Nat.zero_lt_one, ?_, ?_⟩, ⟨rfl, Nat.zero_lt_one, ?_, ?_⟩⟩
    all_goals intro j hj
    all_goals first
      | (rw [hj0 j hj])
      | exact absurd hj (Nat.not_lt_zero j)
  | succ k ih =>
    rw [List.range_succ, List.foldl_append, List.foldl_cons, List.foldl_nil] at he
    obtain ⟨⟨a1, a2, a3, a4⟩, ⟨b1, b2, b3, b4⟩, ⟨c1, c2, c3, c4⟩, ⟨d1, d2, d3, d4⟩⟩ := ih _ rfl
    have key : ∀ j, j < k + 1 + 1 → j < k + 1 ∨ j = k + 1 := fun j hj => by omega
    subst he
    refine ⟨?_, ?_, ?_, ?_⟩
    · rw [scanStep_minX, scanStep_idx0]
      by_cases h : (nth input (k + 1)).x < (List.foldl (scanStep input) ⟨nth input 0, nth input 0, nth input 0, nth input 0, fun _ => 0⟩ (List.range (k + 1))).minX.x
      · rw [if_pos h, if_pos h]
        refine ⟨rfl, by omega, ?_, ?_⟩
        · intro j hj
          rcases key j hj with hj' | rfl
          · exact (h.trans_le (a3 j hj')).le
          · exact le_refl _
        · intro j hj
          exact h.trans_le (a3 j hj)
      · rw [if_neg h, if_neg h]
        refine ⟨a1, by omega, ?_, a4⟩
        intro j hj
        rcases key j hj with hj' | rfl
        · exact a3 j hj'
        · exact not_lt.1 h
    · rw [scanStep_maxX, scanStep_idx1]
      by_cases h : (nth input (k + 1)).x > (List.foldl (scanStep input) ⟨nth input 0, nth input 0, nth input 0, nth input 0, fun _ => 0⟩ (List.range (k + 1))).maxX.x
      · rw [if_pos h, if_pos h]
        refine ⟨rfl, by omega, ?_, ?_⟩
        · intro j hj
          rcases key j hj with hj' | rfl
          · exact ((b3 j hj').trans_lt h).le
          · exact le_refl _
        · intro j hj
          exact (b3 j hj).trans_lt h
      · rw [if_neg h, if_neg h]
        refine ⟨b1, by omega, ?_, b4⟩
        intro j hj
        rcases key j hj with hj' | rfl
        · exact b3 j hj'
        · exact not_lt.1 h
    · rw [scanStep_minY, scanStep_idx2]
      by_cases h : (nth input (k + 1)).y < (List.foldl (scanStep input) ⟨nth input 0, nth input 0, nth input 0, nth input 0, fun _ => 0⟩ (List.range (k + 1))).minY.y
      · rw [if_pos h, if_pos h]
        refine ⟨rfl, by omega, ?_, ?_⟩
        · intro j hj
          rcases key j hj with hj' | rfl
          · exact (h.trans_le (c3 j hj')).le
          · exact le_refl _
        · intro j hj
          exact h.trans_le (c3 j hj)
      · rw [if_neg h, if_neg h]
        refine ⟨c1, by omega, ?_, c4⟩
        intro j hj
        rcases key j hj with hj' | rfl
        · exact c3 j hj'
        · exact not_lt.1 h
    · rw [scanStep_maxY, scanStep_idx3]
      by_cases h : (nth input (k + 1)).y > (List.foldl (scanStep input) ⟨nth input 0, nth input 0, nth input 0, nth input 0, fun _ => 0⟩ (List.range (k + 1))).maxY.y
      · rw [if_pos h, if_pos h]
        refine ⟨rfl, by omega, ?_, ?_⟩
        · intro j hj
          rcases key j hj with hj' | rfl
          · exact ((d3 j hj').trans_lt h).le
          · exact le_refl _
        · intro j hj
          exact (d3 j hj).trans_lt h
      · rw [if_neg h, if_neg h]
        refine ⟨d1, by omega, ?_, d4⟩
        intro j hj
        rcases key j hj with hj' | rfl
        · exact d3 j hj'
        · exact not_lt.1 h

/-- C22: for an input of at least 3 points the scan of step 2 leaves in
`idx[0..3]` the indices of a point of smallest `x`, largest `x`, smallest `y`
and largest `y`, each the first index at which that extreme is attained. -/
theorem extremes_first_extreme {F : Type} [LinearOrderedField F] (input : List (Vec2 F))
    (h : 3 ≤ input.length) :
    FirstMin Vec2.x input (extremes input 0) ∧ FirstMax Vec2.x input (extremes input 1) ∧
      FirstMin Vec2.y input (extremes input 2) ∧ FirstMax Vec2.y input (extremes input 3) := by
  obtain ⟨k, hk⟩ : ∃ k, input.length = k + 1 := ⟨input.length - 1, by omega⟩
  obtain ⟨⟨a1, a2, a3, a4⟩, ⟨b1, b2, b3, b4⟩, ⟨c1, c2, c3, c4⟩, ⟨d1, d2, d3, d4⟩⟩ :=
    scan_inv input k _ rfl
  unfold FirstMin FirstMax extremes
  rw [hk]
  refine ⟨⟨a2, ?_, ?_⟩, ⟨b2, ?_, ?_⟩, ⟨c2, ?_, ?_⟩, ⟨d2, ?_, ?_⟩⟩
  · rw [← a1]; exact a3
  · rw [← a1]; exact a4
  · rw [← b1]; exact b3
  · rw [← b1]; exact b4
  · rw [← c1]; exact c3
  · rw [← c1]; exact c4
  · rw [← d1]; exact d3
  · rw [← d1]; exact d4

/-- Witness for C22: on the trapezoid `(-4,3), (0,0), (4,0), (4,3)` the scan
gives the indices 0, 2, 1, 0; the largest `x` is attained at the indices 2 and
3 and the largest `y` at the indices 0 and 3, and the first of them is kept. -/
theorem extremes_first_extreme_witness :
    3 ≤ ([⟨-4, 3⟩, ⟨0, 0⟩, ⟨4, 0⟩, ⟨4, 3⟩] : List (Vec2 ℝ)).length ∧
      extremes ([⟨-4, 3⟩, ⟨0, 0⟩, ⟨4, 0⟩, ⟨4, 3⟩] : List (Vec2 ℝ)) = ![0, 2, 1, 0] ∧
      FirstMin Vec2.x ([⟨-4, 3⟩, ⟨0, 0⟩, ⟨4, 0⟩, ⟨4, 3⟩] : List (Vec2 ℝ))
        (extremes ([⟨-4, 3⟩, ⟨0, 0⟩, ⟨4, 0⟩, ⟨4, 3⟩] : List (Vec2 ℝ)) 0) ∧
      FirstMax Vec2.x ([⟨-4, 3⟩, ⟨0, 0⟩, ⟨4, 0⟩, ⟨4, 3⟩] : List (Vec2 ℝ))
        (extremes ([⟨-4, 3⟩, ⟨0, 0⟩, ⟨4, 0⟩, ⟨4, 3⟩] : List (Vec2 ℝ)) 1) ∧
      FirstMin Vec2.y ([⟨-4, 3⟩, ⟨0, 0⟩, ⟨4, 0⟩, ⟨4, 3⟩] : List (Vec2 ℝ))
        (extremes ([⟨-4, 3⟩, ⟨0, 0⟩, ⟨4, 0⟩, ⟨4, 3⟩] : List (Vec2 ℝ)) 2) ∧
      FirstMax Vec2.y ([⟨-4, 3⟩, ⟨0, 0⟩, ⟨4, 0⟩, ⟨4, 3⟩] : List (Vec2 ℝ))
        (extremes ([⟨-4, 3⟩, ⟨0, 0⟩, ⟨4, 0⟩, ⟨4, 3⟩] : List (Vec2 ℝ)) 3) :=
  ⟨by simp, extremes_trap, extremes_first_extreme _ (by simp)⟩

/-! ## The caliper frame -/

theorem caliperStep_para {F : Type} [LinearOrderedField F] (M : CMath F)
    (input : List (Vec2 F)) (c : Calipers F) :
    (caliperStep M input c).para = fun i => rotate M (c.para i) (minTheta M input c) := by
  unfold caliperStep
  simp only
  split_ifs <;> rfl

theorem caliperStep_idx {F : Type} [LinearOrderedField F] (M : CMath F)
    (input : List (Vec2 F)) (c : Calipers F) :
    (caliperStep M input c).idx = fun i =>
      if theta M input c i = minTheta M input c then next input (c.idx i) else c.idx i := by
  unfold caliperStep
  simp only
  split_ifs <;> rfl

/-- `Vec2::rotate` keeps the norm. -/
theorem norm_rotate {M : CMath ℝ} (hM : IsRealMath M) (v : Vec2 ℝ) (t : ℝ) :
    Vec2.norm M (rotate M v t) = Vec2.norm M v := by
  rw [rotate_real hM, norm_real hM, norm_real hM]
  congr 1
  simp only
  linear_combination (v.x * v.x + v.y * v.y) * Real.cos_sq_add_sin_sq t

/-- Rotation by `PI/2` over the reals: `(x, y)` goes to `(-y, x)`. -/
theorem rotate_quarter {M : CMath ℝ} (hM : IsRealMath M) (v : Vec2 ℝ) :
    rotate M v (M.PI / 2) = ⟨-v.y, v.x⟩ := by
  rw [rotate_real hM, hM.2.2.2.2.2, Real.cos_pi_div_two, Real.sin_pi_div_two]
  ext <;> simp

/-- The four axis directions of step 1 form a caliper frame. -/
theorem frame_init {M : CMath ℝ} (hM : IsRealMath M) :
    Frame M ![⟨0, -1⟩, ⟨0, 1⟩, ⟨1, 0⟩, ⟨-1, 0⟩] := by
  refine ⟨?_, ?_, ?_, ?_⟩
  · intro i
    rw [norm_real hM]
    fin_cases i <;> simp
  · ext <;> simp
  · ext <;> simp
  · rw [rotate_quarter hM]
    ext <;> simp

/-- Rotating the four directions by one angle keeps the caliper frame. -/
theorem frame_rotate {M : CMath ℝ} (hM : IsRealMath M) (para : Fin 4 → Vec2 ℝ) (t : ℝ)
    (h : Frame M para) : Frame M (fun i => rotate M (para i) t) := by
  obtain ⟨h1, h2, h3, h4⟩ := h
  rw [rotate_quarter hM] at h4
  refine ⟨fun i => ?_, ?_, ?_, ?_⟩
  · rw [norm_rotate hM]; exact h1 i
  · simp only
    rw [h2, rotate_real hM, rotate_real hM]
    ext <;> simp only <;> ring
  · simp only
    rw [h3, rotate_real hM, rotate_real hM]
    ext <;> simp only <;> ring
  · simp only
    rw [rotate_quarter hM, h4, rotate_real hM, rotate_real hM]
    ext <;> simp only <;> ring

/-- C23: in `Hull::MinimumBox` over the reals, after the initialisation and
after every pass of the loop the four caliper directions are unit vectors,
`para[1]` and `para[3]` are the opposites of `para[0]` and `para[2]`, and
`para[2]` is `para[0]` rotated by `PI/2`; every pass rotates all four by the
same angle. -/
theorem caliper_frame {M : CMath ℝ} (hM : IsRealMath M) (input : List (Vec2 ℝ))
    (idx : Fin 4 → ℕ) (minArea : ℝ) (box : Box ℝ) (n : ℕ) :
    Frame M ((caliperStep M input)^[n]
      ⟨![⟨0, -1⟩, ⟨0, 1⟩, ⟨1, 0⟩, ⟨-1, 0⟩], idx, minArea, box⟩).para := by
  induction n with
  | zero => exact frame_init hM
  | succ n ih =>
    rw [Function.iterate_succ_apply', caliperStep_para]
    exact frame_rotate hM _ _ ih

/-- Witness for C23 with the real library: the frame after two passes on the
trapezoid `(-4,3), (0,0), (4,0), (4,3)`. -/
theorem caliper_frame_witness :
    IsRealMath ⟨Real.sqrt, fun y x => Complex.arg ⟨x, y⟩, Real.cos, Real.sin, Real.arcsin,
        Real.pi⟩ ∧
      Frame ⟨Real.sqrt, fun y x => Complex.arg ⟨x, y⟩, Real.cos, Real.sin, Real.arcsin,
        Real.pi⟩
        ((caliperStep ⟨Real.sqrt, fun y x => Complex.arg ⟨x, y⟩, Real.cos, Real.sin,
          Real.arcsin, Real.pi⟩ [⟨-4, 3⟩, ⟨0, 0⟩, ⟨4, 0⟩, ⟨4, 3⟩])^[2]
          ⟨![⟨0, -1⟩, ⟨0, 1⟩, ⟨1, 0⟩, ⟨-1, 0⟩], ![0, 2, 1, 0], 8 * 3,
            ⟨fun _ => ⟨0, 0⟩, fun _ => 0, 0, 0⟩⟩).para :=
  ⟨⟨rfl, rfl, rfl, rfl, rfl, rfl⟩, caliper_frame ⟨rfl, rfl, rfl, rfl, rfl, rfl⟩ _ _ _ _ 2⟩

/-! ## The caliper loop on the triangle `(0,0), (4,0), (0,3)` -/

theorem cos_sin_arcsin (x y : ℝ) (hy : 0 ≤ y) (h : x * x + y * y = 1) :
    Real.cos (Real.arcsin x) = y ∧ Real.sin (Real.arcsin x) = x := by
  have hx1 : x ≤ 1 := by nlinarith
  have hx2 : -1 ≤ x := by nlinarith
  constructor
  · rw [Real.cos_arcsin, show 1 - x ^ 2 = y * y by rw [sq]; linarith]
    exact Real.sqrt_mul_self hy
  · exact Real.sin_arcsin hx2 hx1

/-- One pass of the loop when the angle of caliper 2 is strictly the smallest
of the four: all directions turn by it and anchor 2 alone advances. -/
theorem caliperStep_third {M : CMath ℝ} (hM : IsRealMath M) (input : List (Vec2 ℝ))
    (c : Calipers ℝ) (x0 x1 x2 x3 : ℝ)
    (h0 : Cross (c.para 0)
      (unit M (nth input (next input (c.idx 0)) - nth input (c.idx 0))) = x0)
    (h1 : Cross (c.para 1)
      (unit M (nth input (next input (c.idx 1)) - nth input (c.idx 1))) = x1)
    (h2 : Cross (c.para 2)
      (unit M (nth input (next input (c.idx 2)) - nth input (c.idx 2))) = x2)
    (h3 : Cross (c.para 3)
      (unit M (nth input (next input (c.idx 3)) - nth input (c.idx 3))) = x3)
    (hlo : -1 ≤ x2) (h20 : x2 < x0) (h21 : x2 < x1) (h23 : x2 < x3)
    (u0 : x0 ≤ 1) (u1 : x1 ≤ 1) (u3 : x3 ≤ 1) :
    (caliperStep M input c).para = (fun i => rotate M (c.para i) (Real.arcsin x2)) ∧
      (caliperStep M input c).idx = Function.update c.idx 2 (next input (c.idx 2)) := by
  have hasin : M.asin = Real.arcsin := hM.2.2.2.2.1
  have t0 : theta M input c 0 = Real.arcsin x0 := by rw [theta, h0, hasin]
  have t1 : theta M input c 1 = Real.arcsin x1 := by rw [theta, h1, hasin]
  have t2 : theta M input c 2 = Real.arcsin x2 := by rw [theta, h2, hasin]
  have t3 : theta M input c 3 = Real.arcsin x3 := by rw [theta, h3, hasin]
  have m0 : Real.arcsin x2 < Real.arcsin x0 :=
    Real.strictMonoOn_arcsin ⟨hlo, by linarith⟩ ⟨by linarith, u0⟩ h20
  have m1 : Real.arcsin x2 < Real.arcsin x1 :=
    Real.strictMonoOn_arcsin ⟨hlo, by linarith⟩ ⟨by linarith, u1⟩ h21
  have m3 : Real.arcsin x2 < Real.arcsin x3 :=
    Real.strictMonoOn_arcsin ⟨hlo, by linarith⟩ ⟨by linarith, u3⟩ h23
  have hpi : Real.arcsin x2 < Real.pi :=
    lt_of_le_of_lt (Real.arcsin_le_pi_div_two x2) (by linarith [Real.pi_pos])
  have hmt : minTheta M input c = Real.arcsin x2 := by
    rw [minTheta_eq M _ _ _ _ _ _ t0 t1 t2 t3, hM.2.2.2.2.2]
    simp only
    split_ifs <;> linarith
  constructor
  · rw [caliperStep_para, hmt]
  · rw [caliperStep_idx, hmt]
    funext i
    fin_cases i
    · show (if theta M input c 0 = _ then _ else _) = _
      rw [t0, if_neg m0.ne']; simp [Function.update]
    · show (if theta M input c 1 = _ then _ else _) = _
      rw [t1, if_neg m1.ne']; simp [Function.update]
    · show (if theta M input c 2 = _ then _ else _) = _
      rw [t2, if_pos rfl]; simp [Function.update]
    · show (if theta M input c 3 = _ then _ else _) = _
      rw [t3, if_neg m3.ne']; simp [Function.update]

theorem calipers_eta {F : Type} (c : Calipers F) (p : Fin 4 → Vec2 F) (i : Fin 4 → ℕ)
    (hp : c.para = p) (hi : c.idx = i) : c = ⟨p, i, c.minArea, c.box⟩ := by
  cases c
  simp only at hp hi
  subst hp hi
  rfl

/-- The edges of the triangle `(0,0), (4,0), (0,3)` and their unit vectors. -/
theorem tri2_edges {M : CMath ℝ} (hM : IsRealMath M) :
    unit M (nth ([⟨0, 0⟩, ⟨4, 0⟩, ⟨0, 3⟩] : List (Vec2 ℝ)) 1 -
        nth [⟨0, 0⟩, ⟨4, 0⟩, ⟨0, 3⟩] 0) = ⟨1, 0⟩ ∧
      unit M (nth ([⟨0, 0⟩, ⟨4, 0⟩, ⟨0, 3⟩] : List (Vec2 ℝ)) 2 -
        nth [⟨0, 0⟩, ⟨4, 0⟩, ⟨0, 3⟩] 1) = ⟨-4 / 5, 3 / 5⟩ ∧
      unit M (nth ([⟨0, 0⟩, ⟨4, 0⟩, ⟨0, 3⟩] : List (Vec2 ℝ)) 0 -
        nth [⟨0, 0⟩, ⟨4, 0⟩, ⟨0, 3⟩] 2) = ⟨0, -1⟩ := by
  have e01 : nth ([⟨0, 0⟩, ⟨4, 0⟩, ⟨0, 3⟩] : List (Vec2 ℝ)) 1 -
      nth [⟨0, 0⟩, ⟨4, 0⟩, ⟨0, 3⟩] 0 = ⟨4, 0⟩ := by
    norm_num [nth, mk_sub_mk]
  have e12 : nth ([⟨0, 0⟩, ⟨4, 0⟩, ⟨0, 3⟩] : List (Vec2 ℝ)) 2 -
      nth [⟨0, 0⟩, ⟨4, 0⟩, ⟨0, 3⟩] 1 = ⟨-4, 3⟩ := by
    norm_num [nth, mk_sub_mk]
  have e20 : nth ([⟨0, 0⟩, ⟨4, 0⟩, ⟨0, 3⟩] : List (Vec2 ℝ)) 0 -
      nth [⟨0, 0⟩, ⟨4, 0⟩, ⟨0, 3⟩] 2 = ⟨0, -3⟩ := by
    norm_num [nth, mk_sub_mk]
  rw [e01, e12, e20]
  exact ⟨unit_east hM 4 (by norm_num), unit_pyth hM (-4) 3 5 (by norm_num) (by norm_num),
    unit_south hM 3 (by norm_num)⟩

theorem tri2_next :
    next ([⟨0, 0⟩, ⟨4, 0⟩, ⟨0, 3⟩] : List (Vec2 ℝ)) 0 = 1 ∧
      next ([⟨0, 0⟩, ⟨4, 0⟩, ⟨0, 3⟩] : List (Vec2 ℝ)) 1 = 2 ∧
      next ([⟨0, 0⟩, ⟨4, 0⟩, ⟨0, 3⟩] : List (Vec2 ℝ)) 2 = 0 := by
  simp [next]

theorem extremes_tri2 :
    extremes ([⟨0, 0⟩, ⟨4, 0⟩, ⟨0, 3⟩] : List (Vec2 ℝ)) = ![0, 1, 0, 2] := by
  have s0 : scanStep ([⟨0, 0⟩, ⟨4, 0⟩, ⟨0, 3⟩] : List (Vec2 ℝ))
      ⟨⟨0, 0⟩, ⟨0, 0⟩, ⟨0, 0⟩, ⟨0, 0⟩, fun _ => 0⟩ 0 =
      ⟨⟨0, 0⟩, ⟨0, 0⟩, ⟨0, 0⟩, ⟨0, 0⟩, fun _ => 0⟩ := by
    simp [scanStep, nth]
  have s1 : scanStep ([⟨0, 0⟩, ⟨4, 0⟩, ⟨0, 3⟩] : List (Vec2 ℝ))
      ⟨⟨0, 0⟩, ⟨0, 0⟩, ⟨0, 0⟩, ⟨0, 0⟩, fun _ => 0⟩ 1 =
      ⟨⟨0, 0⟩, ⟨4, 0⟩, ⟨0, 0⟩, ⟨0, 0⟩, Function.update (fun _ => 0) 1 1⟩ := by
    norm_num [scanStep, nth]
  have s2 : scanStep ([⟨0, 0⟩, ⟨4, 0⟩, ⟨0, 3⟩] : List (Vec2 ℝ))
      ⟨⟨0, 0⟩, ⟨4, 0⟩, ⟨0, 0⟩, ⟨0, 0⟩, Function.update (fun _ => 0) 1 1⟩ 2 =
      ⟨⟨0, 0⟩, ⟨4, 0⟩, ⟨0, 0⟩, ⟨0, 3⟩,
        Function.update (Function.update (fun _ => 0) 1 1) 3 2⟩ := by
    norm_num [scanStep, nth]
  have e : extremes ([⟨0, 0⟩, ⟨4, 0⟩, ⟨0, 3⟩] : List (Vec2 ℝ)) =
      Function.update (Function.update (fun _ => 0) 1 1) 3 2 := by
    have hn : nth ([⟨0, 0⟩, ⟨4, 0⟩, ⟨0, 3⟩] : List (Vec2 ℝ)) 0 = ⟨0, 0⟩ := rfl
    have hl : ([⟨0, 0⟩, ⟨4, 0⟩, ⟨0, 3⟩] : List (Vec2 ℝ)).length = 3 := rfl
    have hr : List.range 3 = [0, 1, 2] := by decide
    unfold extremes
    rw [hl, hr, hn]
    simp only [List.foldl_cons, List.foldl_nil]
    rw [s0, s1, s2]
  rw [e]
  funext i
  fin_cases i <;> simp [Function.update]

/-- First pass: anchor 2 advances without a rotation. -/
theorem cyc_step0 {M : CMath ℝ} (hM : IsRealMath M) (a : ℝ) (b : Box ℝ) :
    (caliperStep M [⟨0, 0⟩, ⟨4, 0⟩, ⟨0, 3⟩]
        ⟨![⟨0, -1⟩, ⟨0, 1⟩, ⟨1, 0⟩, ⟨-1, 0⟩], ![0, 1, 0, 2], a, b⟩).para =
        ![⟨0, -1⟩, ⟨0, 1⟩, ⟨1, 0⟩, ⟨-1, 0⟩] ∧
      (caliperStep M [⟨0, 0⟩, ⟨4, 0⟩, ⟨0, 3⟩]
        ⟨![⟨0, -1⟩, ⟨0, 1⟩, ⟨1, 0⟩, ⟨-1, 0⟩], ![0, 1, 0, 2], a, b⟩).idx =
        ![0, 1, 1, 2] := by
  obtain ⟨u01, u12, u20⟩ := tri2_edges hM
  obtain ⟨n0, n1, n2⟩ := tri2_next
  obtain ⟨hc, hs⟩ := cos_sin_arcsin (0) (1) (by norm_num) (by norm_num)
  have h0 : Cross (⟨0, -1⟩ : Vec2 ℝ)
      (unit M (nth ([⟨0, 0⟩, ⟨4, 0⟩, ⟨0, 3⟩] : List (Vec2 ℝ))
          (next ([⟨0, 0⟩, ⟨4, 0⟩, ⟨0, 3⟩] : List (Vec2 ℝ)) 0) -
        nth ([⟨0, 0⟩, ⟨4, 0⟩, ⟨0, 3⟩] : List (Vec2 ℝ)) 0)) = 1 := by
    rw [n0, u01]
    norm_num [Cross]
  have h1 : Cross (⟨0, 1⟩ : Vec2 ℝ)
      (unit M (nth ([⟨0, 0⟩, ⟨4, 0⟩, ⟨0, 3⟩] : List (Vec2 ℝ))
          (next ([⟨0, 0⟩, ⟨4, 0⟩, ⟨0, 3⟩] : List (Vec2 ℝ)) 1) -
        nth ([⟨0, 0⟩, ⟨4, 0⟩, ⟨0, 3⟩] : List (Vec2 ℝ)) 1)) = 4 / 5 := by
    rw [n1, u12]
    norm_num [Cross]
  have h2 : Cross (⟨1, 0⟩ : Vec2 ℝ)
      (unit M (nth ([⟨0, 0⟩, ⟨4, 0⟩, ⟨0, 3⟩] : List (Vec2 ℝ))
          (next ([⟨0, 0⟩, ⟨4, 0⟩, ⟨0, 3⟩] : List (Vec2 ℝ)) 0) -
        nth ([⟨0, 0⟩, ⟨4, 0⟩, ⟨0, 3⟩] : List (Vec2 ℝ)) 0)) = 0 := by
    rw [n0, u01]
    norm_num [Cross]
  have h3 : Cross (⟨-1, 0⟩ : Vec2 ℝ)
      (unit M (nth ([⟨0, 0⟩, ⟨4, 0⟩, ⟨0, 3⟩] : List (Vec2 ℝ))
          (next ([⟨0, 0⟩, ⟨4, 0⟩, ⟨0, 3⟩] : List (Vec2 ℝ)) 2) -
        nth ([⟨0, 0⟩, ⟨4, 0⟩, ⟨0, 3⟩] : List (Vec2 ℝ)) 2)) = 1 := by
    rw [n2, u20]
    norm_num [Cross]
  obtain ⟨hp, hi⟩ := caliperStep_third hM [⟨0, 0⟩, ⟨4, 0⟩, ⟨0, 3⟩]
    ⟨![⟨0, -1⟩, ⟨0, 1⟩, ⟨1, 0⟩, ⟨-1, 0⟩], ![0, 1, 0, 2], a, b⟩
    _ _ _ _ h0 h1 h2 h3
    (by norm_num) (by norm_num) (by norm_num) (by norm_num) (by norm_num) (by norm_num)
    (by norm_num)
  constructor
  · rw [hp]
    funext i
    rw [rotate_real hM, hc, hs]
    fin_cases i <;> norm_num
  · rw [hi]
    funext i
    fin_cases i <;> simp [Function.update, next]

/-- From the first state of the cycle: the calipers turn by `asin(3/5)`. -/
theorem cyc_stepA {M : CMath ℝ} (hM : IsRealMath M) (a : ℝ) (b : Box ℝ) :
    (caliperStep M [⟨0, 0⟩, ⟨4, 0⟩, ⟨0, 3⟩]
        ⟨![⟨0, -1⟩, ⟨0, 1⟩, ⟨1, 0⟩, ⟨-1, 0⟩], ![0, 1, 1, 2], a, b⟩).para =
        ![⟨3 / 5, -(4 / 5)⟩, ⟨-(3 / 5), 4 / 5⟩, ⟨4 / 5, 3 / 5⟩, ⟨-(4 / 5), -(3 / 5)⟩] ∧
      (caliperStep M [⟨0, 0⟩, ⟨4, 0⟩, ⟨0, 3⟩]
        ⟨![⟨0, -1⟩, ⟨0, 1⟩, ⟨1, 0⟩, ⟨-1, 0⟩], ![0, 1, 1, 2], a, b⟩).idx =
        ![0, 1, 2, 2] := by
  obtain ⟨u01, u12, u20⟩ := tri2_edges hM
  obtain ⟨n0, n1, n2⟩ := tri2_next
  obtain ⟨hc, hs⟩ := cos_sin_arcsin (3 / 5) (4 / 5) (by norm_num) (by norm_num)
  have h0 : Cross (⟨0, -1⟩ : Vec2 ℝ)
      (unit M (nth ([⟨0, 0⟩, ⟨4, 0⟩, ⟨0, 3⟩] : List (Vec2 ℝ))
          (next ([⟨0, 0⟩, ⟨4, 0⟩, ⟨0, 3⟩] : List (Vec2 ℝ)) 0) -
        nth ([⟨0, 0⟩, ⟨4, 0⟩, ⟨0, 3⟩] : List (Vec2 ℝ)) 0)) = 1 := by
    rw [n0, u01]
    norm_num [Cross]
  have h1 : Cross (⟨0, 1⟩ : Vec2 ℝ)
      (unit M (nth ([⟨0, 0⟩, ⟨4, 0⟩, ⟨0, 3⟩] : List (Vec2 ℝ))
          (next ([⟨0, 0⟩, ⟨4, 0⟩, ⟨0, 3⟩] : List (Vec2 ℝ)) 1) -
        nth ([⟨0, 0⟩, ⟨4, 0⟩, ⟨0, 3⟩] : List (Vec2 ℝ)) 1)) = 4 / 5 := by
    rw [n1, u12]
    norm_num [Cross]
  have h2 : Cross (⟨1, 0⟩ : Vec2 ℝ)
      (unit M (nth ([⟨0, 0⟩, ⟨4, 0⟩, ⟨0, 3⟩] : List (Vec2 ℝ))
          (next ([⟨0, 0⟩, ⟨4, 0⟩, ⟨0, 3⟩] : List (Vec2 ℝ)) 1) -
        nth ([⟨0, 0⟩, ⟨4, 0⟩, ⟨0, 3⟩] : List (Vec2 ℝ)) 1)) = 3 / 5 := by
    rw [n1, u12]
    norm_num [Cross]
  have h3 : Cross (⟨-1, 0⟩ : Vec2 ℝ)
      (unit M (nth ([⟨0, 0⟩, ⟨4, 0⟩, ⟨0, 3⟩] : List (Vec2 ℝ))
          (next ([⟨0, 0⟩, ⟨4, 0⟩, ⟨0, 3⟩] : List (Vec2 ℝ)) 2) -
        nth ([⟨0, 0⟩, ⟨4, 0⟩, ⟨0, 3⟩] : List (Vec2 ℝ)) 2)) = 1 := by
    rw [n2, u20]
    norm_num [Cross]
  obtain ⟨hp, hi⟩ := caliperStep_third hM [⟨0, 0⟩, ⟨4, 0⟩, ⟨0, 3⟩]
    ⟨![⟨0, -1⟩, ⟨0, 1⟩, ⟨1, 0⟩, ⟨-1, 0⟩], ![0, 1, 1, 2], a, b⟩
    _ _ _ _ h0 h1 h2 h3
    (by norm_num) (by norm_num) (by norm_num) (by norm_num) (by norm_num) (by norm_num)
    (by norm_num)
  constructor
  · rw [hp]
    funext i
    rw [rotate_real hM, hc, hs]
    fin_cases i <;> norm_num
  · rw [hi]
    funext i
    fin_cases i <;> simp [Function.update, next]

/-- From the second state of the cycle: the cross product of caliper 2 is
`-4/5`, and the calipers turn back by `asin(-4/5)`. -/
theorem cyc_stepB {M : CMath ℝ} (hM : IsRealMath M) (a : ℝ) (b : Box ℝ) :
    (caliperStep M [⟨0, 0⟩, ⟨4, 0⟩, ⟨0, 3⟩]
        ⟨![⟨3 / 5, -(4 / 5)⟩, ⟨-(3 / 5), 4 / 5⟩, ⟨4 / 5, 3 / 5⟩, ⟨-(4 / 5), -(3 / 5)⟩],
          ![0, 1, 2, 2], a, b⟩).para =
        ![⟨-(7 / 25), -(24 / 25)⟩, ⟨7 / 25, 24 / 25⟩, ⟨24 / 25, -(7 / 25)⟩, ⟨-(24 / 25), 7 / 25⟩] ∧
      (caliperStep M [⟨0, 0⟩, ⟨4, 0⟩, ⟨0, 3⟩]
        ⟨![⟨3 / 5, -(4 / 5)⟩, ⟨-(3 / 5), 4 / 5⟩, ⟨4 / 5, 3 / 5⟩, ⟨-(4 / 5), -(3 / 5)⟩],
          ![0, 1, 2, 2], a, b⟩).idx =
        ![0, 1, 0, 2] := by
  obtain ⟨u01, u12, u20⟩ := tri2_edges hM
  obtain ⟨n0, n1, n2⟩ := tri2_next
  obtain ⟨hc, hs⟩ := cos_sin_arcsin (-(4 / 5)) (3 / 5) (by norm_num) (by norm_num)
  have h0 : Cross (⟨3 / 5, -(4 / 5)⟩ : Vec2 ℝ)
      (unit M (nth ([⟨0, 0⟩, ⟨4, 0⟩, ⟨0, 3⟩] : List (Vec2 ℝ))
          (next ([⟨0, 0⟩, ⟨4, 0⟩, ⟨0, 3⟩] : List (Vec2 ℝ)) 0) -
        nth ([⟨0, 0⟩, ⟨4, 0⟩, ⟨0, 3⟩] : List (Vec2 ℝ)) 0)) = 4 / 5 := by
    rw [n0, u01]
    norm_num [Cross]
  have h1 : Cross (⟨-(3 / 5), 4 / 5⟩ : Vec2 ℝ)
      (unit M (nth ([⟨0, 0⟩, ⟨4, 0⟩, ⟨0, 3⟩] : List (Vec2 ℝ))
          (next ([⟨0, 0⟩, ⟨4, 0⟩, ⟨0, 3⟩] : List (Vec2 ℝ)) 1) -
        nth ([⟨0, 0⟩, ⟨4, 0⟩, ⟨0, 3⟩] : List (Vec2 ℝ)) 1)) = 7 / 25 := by
    rw [n1, u12]
    norm_num [Cross]
  have h2 : Cross (⟨4 / 5, 3 / 5⟩ : Vec2 ℝ)
      (unit M (nth ([⟨0, 0⟩, ⟨4, 0⟩, ⟨0, 3⟩] : List (Vec2 ℝ))
          (next ([⟨0, 0⟩, ⟨4, 0⟩, ⟨0, 3⟩] : List (Vec2 ℝ)) 2) -
        nth ([⟨0, 0⟩, ⟨4, 0⟩, ⟨0, 3⟩] : List (Vec2 ℝ)) 2)) = -(4 / 5) := by
    rw [n2, u20]
    norm_num [Cross]
  have h3 : Cross (⟨-(4 / 5), -(3 / 5)⟩ : Vec2 ℝ)
      (unit M (nth ([⟨0, 0⟩, ⟨4, 0⟩, ⟨0, 3⟩] : List (Vec2 ℝ))
          (next ([⟨0, 0⟩, ⟨4, 0⟩, ⟨0, 3⟩] : List (Vec2 ℝ)) 2) -
        nth ([⟨0, 0⟩, ⟨4, 0⟩, ⟨0, 3⟩] : List (Vec2 ℝ)) 2)) = 4 / 5 := by
    rw [n2, u20]
    norm_num [Cross]
  obtain ⟨hp, hi⟩ := caliperStep_third hM [⟨0, 0⟩, ⟨4, 0⟩, ⟨0, 3⟩]
    ⟨![⟨3 / 5, -(4 / 5)⟩, ⟨-(3 / 5), 4 / 5⟩, ⟨4 / 5, 3 / 5⟩, ⟨-(4 / 5), -(3 / 5)⟩],
      ![0, 1, 2, 2], a, b⟩
    _ _ _ _ h0 h1 h2 h3
    (by norm_num) (by norm_num) (by norm_num) (by norm_num) (by norm_num) (by norm_num)
    (by norm_num)
  constructor
  · rw [hp]
    funext i
    rw [rotate_real hM, hc, hs]
    fin_cases i <;> norm_num
  · rw [hi]
    funext i
    fin_cases i <;> simp [Function.update, next]

/-- From the third state of the cycle: the calipers turn by `asin(7/25)` and
are back in the first state. -/
theorem cyc_stepC {M : CMath ℝ} (hM : IsRealMath M) (a : ℝ) (b : Box ℝ) :
    (caliperStep M [⟨0, 0⟩, ⟨4, 0⟩, ⟨0, 3⟩]
        ⟨![⟨-(7 / 25), -(24 / 25)⟩, ⟨7 / 25, 24 / 25⟩, ⟨24 / 25, -(7 / 25)⟩, ⟨-(24 / 25), 7 / 25⟩],
          ![0, 1, 0, 2], a, b⟩).para =
        ![⟨0, -1⟩, ⟨0, 1⟩, ⟨1, 0⟩, ⟨-1, 0⟩] ∧
      (caliperStep M [⟨0, 0⟩, ⟨4, 0⟩, ⟨0, 3⟩]
        ⟨![⟨-(7 / 25), -(24 / 25)⟩, ⟨7 / 25, 24 / 25⟩, ⟨24 / 25, -(7 / 25)⟩, ⟨-(24 / 25), 7 / 25⟩],
          ![0, 1, 0, 2], a, b⟩).idx =
        ![0, 1, 1, 2] := by
  obtain ⟨u01, u12, u20⟩ := tri2_edges hM
  obtain ⟨n0, n1, n2⟩ := tri2_next
  obtain ⟨hc, hs⟩ := cos_sin_arcsin (7 / 25) (24 / 25) (by norm_num) (by norm_num)
  have h0 : Cross (⟨-(7 / 25), -(24 / 25)⟩ : Vec2 ℝ)
      (unit M (nth ([⟨0, 0⟩, ⟨4, 0⟩, ⟨0, 3⟩] : List (Vec2 ℝ))
          (next ([⟨0, 0⟩, ⟨4, 0⟩, ⟨0, 3⟩] : List (Vec2 ℝ)) 0) -
        nth ([⟨0, 0⟩, ⟨4, 0⟩, ⟨0, 3⟩] : List (Vec2 ℝ)) 0)) = 24 / 25 := by
    rw [n0, u01]
    norm_num [Cross]
  have h1 : Cross (⟨7 / 25, 24 / 25⟩ : Vec2 ℝ)
      (unit M (nth ([⟨0, 0⟩, ⟨4, 0⟩, ⟨0, 3⟩] : List (Vec2 ℝ))
          (next ([⟨0, 0⟩, ⟨4, 0⟩, ⟨0, 3⟩] : List (Vec2 ℝ)) 1) -
        nth ([⟨0, 0⟩, ⟨4, 0⟩, ⟨0, 3⟩] : List (Vec2 ℝ)) 1)) = 117 / 125 := by
    rw [n1, u12]
    norm_num [Cross]
  have h2 : Cross (⟨24 / 25, -(7 / 25)⟩ : Vec2 ℝ)
      (unit M (nth ([⟨0, 0⟩, ⟨4, 0⟩, ⟨0, 3⟩] : List (Vec2 ℝ))
          (next ([⟨0, 0⟩, ⟨4, 0⟩, ⟨0, 3⟩] : List (Vec2 ℝ)) 0) -
        nth ([⟨0, 0⟩, ⟨4, 0⟩, ⟨0, 3⟩] : List (Vec2 ℝ)) 0)) = 7 / 25 := by
    rw [n0, u01]
    norm_num [Cross]
  have h3 : Cross (⟨-(24 / 25), 7 / 25⟩ : Vec2 ℝ)
      (unit M (nth ([⟨0, 0⟩, ⟨4, 0⟩, ⟨0, 3⟩] : List (Vec2 ℝ))
          (next ([⟨0, 0⟩, ⟨4, 0⟩, ⟨0, 3⟩] : List (Vec2 ℝ)) 2) -
        nth ([⟨0, 0⟩, ⟨4, 0⟩, ⟨0, 3⟩] : List (Vec2 ℝ)) 2)) = 24 / 25 := by
    rw [n2, u20]
    norm_num [Cross]
  obtain ⟨hp, hi⟩ := caliperStep_third hM [⟨0, 0⟩, ⟨4, 0⟩, ⟨0, 3⟩]
    ⟨![⟨-(7 / 25), -(24 / 25)⟩, ⟨7 / 25, 24 / 25⟩, ⟨24 / 25, -(7 / 25)⟩, ⟨-(24 / 25), 7 / 25⟩],
      ![0, 1, 0, 2], a, b⟩
    _ _ _ _ h0 h1 h2 h3
    (by norm_num) (by norm_num) (by norm_num) (by norm_num) (by norm_num) (by norm_num)
    (by norm_num)
  constructor
  · rw [hp]
    funext i
    rw [rotate_real hM, hc, hs]
    fin_cases i <;> norm_num
  · rw [hi]
    funext i
    fin_cases i <;> simp [Function.update, next]

/-- From each of the three states of the cycle the loop never reaches
`idx[3] = loopIdx = 1`: anchor 3 stays at index 2, only anchor 2 moves, and
after three passes the directions and the anchors are the same again. -/
theorem caliperLoop_cycle {M : CMath ℝ} (hM : IsRealMath M) :
    ∀ (fuel : ℕ) (a : ℝ) (b : Box ℝ),
      caliperLoop M [⟨0, 0⟩, ⟨4, 0⟩, ⟨0, 3⟩] 1 fuel
          ⟨![⟨0, -1⟩, ⟨0, 1⟩, ⟨1, 0⟩, ⟨-1, 0⟩], ![0, 1, 1, 2], a, b⟩ = none ∧
        caliperLoop M [⟨0, 0⟩, ⟨4, 0⟩, ⟨0, 3⟩] 1 fuel
          ⟨![⟨3 / 5, -(4 / 5)⟩, ⟨-(3 / 5), 4 / 5⟩, ⟨4 / 5, 3 / 5⟩, ⟨-(4 / 5), -(3 / 5)⟩],
            ![0, 1, 2, 2], a, b⟩ = none ∧
        caliperLoop M [⟨0, 0⟩, ⟨4, 0⟩, ⟨0, 3⟩] 1 fuel
          ⟨![⟨-(7 / 25), -(24 / 25)⟩, ⟨7 / 25, 24 / 25⟩,
            ⟨24 / 25, -(7 / 25)⟩, ⟨-(24 / 25), 7 / 25⟩],
            ![0, 1, 0, 2], a, b⟩ = none := by
  intro fuel
  induction fuel with
  | zero => intro a b; exact ⟨rfl, rfl, rfl⟩
  | succ fuel ih =>
    intro a b
    refine ⟨?_, ?_, ?_⟩
    · obtain ⟨hp, hi⟩ := cyc_stepA hM a b
      rw [caliperLoop]
      rw [if_pos (by rw [hi]; simp), calipers_eta _ _ _ hp hi]
      exact (ih _ _).2.1
    · obtain ⟨hp, hi⟩ := cyc_stepB hM a b
      rw [caliperLoop]
      rw [if_pos (by rw [hi]; simp), calipers_eta _ _ _ hp hi]
      exact (ih _ _).2.2
    · obtain ⟨hp, hi⟩ := cyc_stepC hM a b
      rw [caliperLoop]
      rw [if_pos (by rw [hi]; simp), calipers_eta _ _ _ hp hi]
      exact (ih _ _).1

/-- On the hull `(0,0), (4,0), (0,3)` the loop of `MinimumBox` does not end,
whatever the bound on the number of passes. -/
theorem minimumBox_tri2 {M : CMath ℝ} (hM : IsRealMath M) (fuel : ℕ) (box : Box ℝ) :
    MinimumBox M fuel box [⟨0, 0⟩, ⟨4, 0⟩, ⟨0, 3⟩] = none := by
  have hl : ¬ ([⟨0, 0⟩, ⟨4, 0⟩, ⟨0, 3⟩] : List (Vec2 ℝ)).length < 3 := by simp
  unfold MinimumBox
  rw [if_neg hl]
  simp only [extremes_tri2]
  have hi : (![0, 1, 0, 2] : Fin 4 → ℕ) 0 + 1 = 1 := by simp
  rw [hi]
  cases fuel with
  | zero => rfl
  | succ fuel =>
    obtain ⟨hp, hx⟩ := cyc_step0 hM
      (abs (Cross ((![⟨0, -1⟩, ⟨0, 1⟩, ⟨1, 0⟩, ⟨-1, 0⟩] : Fin 4 → Vec2 ℝ) 0)
        (nth [⟨0, 0⟩, ⟨4, 0⟩, ⟨0, 3⟩] ((![0, 1, 0, 2] : Fin 4 → ℕ) 1) -
          nth [⟨0, 0⟩, ⟨4, 0⟩, ⟨0, 3⟩] ((![0, 1, 0, 2] : Fin 4 → ℕ) 0))) *
      abs (Cross ((![⟨0, -1⟩, ⟨0, 1⟩, ⟨1, 0⟩, ⟨-1, 0⟩] : Fin 4 → Vec2 ℝ) 2)
        (nth [⟨0, 0⟩, ⟨4, 0⟩, ⟨0, 3⟩] ((![0, 1, 0, 2] : Fin 4 → ℕ) 3) -
          nth [⟨0, 0⟩, ⟨4, 0⟩, ⟨0, 3⟩] ((![0, 1, 0, 2] : Fin 4 → ℕ) 2)))) box
    rw [caliperLoop]
    rw [if_pos (by rw [hx]; simp), calipers_eta _ _ _ hp hx]
    exact (caliperLoop_cycle hM fuel _ _).1

theorem Convex_tri2 :
    Hull.Convex ([⟨0, 0⟩, ⟨4, 0⟩, ⟨0, 3⟩] : List (Vec2 ℝ)) =
      some [⟨0, 0⟩, ⟨4, 0⟩, ⟨0, 3⟩] := by
  have hs : sort ([⟨0, 0⟩, ⟨4, 0⟩, ⟨0, 3⟩] : List (Vec2 ℝ)) =
      [⟨0, 0⟩, ⟨0, 3⟩, ⟨4, 0⟩] := by
    norm_num [sort, List.insertionSort, List.orderedInsert, Vec2.lt]
  have hlow : chain ([⟨0, 0⟩, ⟨0, 3⟩, ⟨4, 0⟩] : List (Vec2 ℝ)) = [⟨4, 0⟩, ⟨0, 0⟩] := by
    norm_num [chain, popWhile_cons_cons, popWhile_single, popWhile_nil, Cross, mk_sub_mk]
  have hup : chain ([⟨4, 0⟩, ⟨0, 3⟩, ⟨0, 0⟩] : List (Vec2 ℝ)) =
      [⟨0, 0⟩, ⟨0, 3⟩, ⟨4, 0⟩] := by
    norm_num [chain, popWhile_cons_cons, popWhile_single, popWhile_nil, Cross, mk_sub_mk]
  simp only [Hull.Convex, hs, hlow, List.reverse_cons, List.reverse_nil, List.nil_append,
    List.cons_append, hup, List.tail_cons]

/-- C21 (defect of the code): on the hull `(0,0), (4,0), (0,3)` of a right
triangle the loop of `Hull::MinimumBox` does not end: for every bound `fuel`
on the number of passes the bound is reached (`none`). After the first pass
the loop goes round three states for ever; in one of them the cross product of
caliper 2 with its next edge is `-4/5`, `asin` gives a negative angle and the
calipers turn back. Anchor 3 stays at index 2 and never reaches
`loopIdx = 1`, while anchor 2 advances in every pass. -/
theorem minimumBox_not_terminating {M : CMath ℝ} (hM : IsRealMath M) (fuel : ℕ)
    (box : Box ℝ) :
    ∃ H, Hull.Convex ([⟨0, 0⟩, ⟨4, 0⟩, ⟨0, 3⟩] : List (Vec2 ℝ)) = some H ∧ 3 ≤ H.length ∧
      MinimumBox M fuel box H = none :=
  ⟨_, Convex_tri2, by simp, minimumBox_tri2 hM fuel box⟩

/-- Witness for C21 with the real library: 1000 passes are not enough. -/
theorem minimumBox_not_terminating_witness :
    IsRealMath ⟨Real.sqrt, fun y x => Complex.arg ⟨x, y⟩, Real.cos, Real.sin, Real.arcsin,
        Real.pi⟩ ∧
      ∃ H, Hull.Convex ([⟨0, 0⟩, ⟨4, 0⟩, ⟨0, 3⟩] : List (Vec2 ℝ)) = some H ∧ 3 ≤ H.length ∧
        MinimumBox ⟨Real.sqrt, fun y x => Complex.arg ⟨x, y⟩, Real.cos, Real.sin,
          Real.arcsin, Real.pi⟩ 1000 ⟨fun _ => ⟨0, 0⟩, fun _ => 0, 0, 0⟩ H = none :=
  ⟨⟨rfl, rfl, rfl, rfl, rfl, rfl⟩,
    minimumBox_not_terminating ⟨rfl, rfl, rfl, rfl, rfl, rfl⟩ 1000 _⟩

end Hull

/-! ## Point algebra over the real library -/

namespace Vec2

theorem norm_nonneg_real {M : CMath ℝ} (hM : IsRealMath M) (v : Vec2 ℝ) :
    0 ≤ Vec2.norm M v := by
  rw [Hull.norm_real hM]; exact Real.sqrt_nonneg _

theorem norm_eq_abs {M : CMath ℝ} (hM : IsRealMath M) (v : Vec2 ℝ) :
    Vec2.norm M v = Complex.abs ⟨v.x, v.y⟩ := by
  rw [Hull.norm_real hM, Complex.abs_apply, Complex.normSq_mk]

/-- Polar form: the point at angle `Theta(v)` and radius `norm(v)` around
`mCenter` is `mCenter + v`. -/
theorem constructAt_polar {M : CMath ℝ} (hM : IsRealMath M) (mCenter v : Vec2 ℝ) :
    ConstructAt M mCenter (ThetaAxis M v) (Vec2.norm M v) = mCenter + v := by
  have hn := norm_eq_abs hM v
  obtain ⟨_, h2, h3, h4, _, _⟩ := hM
  have hc := Complex.abs_mul_cos_arg (⟨v.x, v.y⟩ : ℂ)
  have hs := Complex.abs_mul_sin_arg (⟨v.x, v.y⟩ : ℂ)
  simp only at hc hs
  rw [ConstructAt, ThetaAxis, hn, h2, h3, h4]
  ext
  · simp only [add_x]; linarith
  · simp only [add_y]; linarith

theorem add_sub_cancel_vec {K : Type} [LinearOrderedCommRing K] (c p : Vec2 K) :
    c + (p - c) = p := by
  ext
  · simp
  · simp

/-- No division of `Vec2::unit` has a zero divisor: with the divisions read as
partial operations the result is still the one of `unit`. -/
theorem unitChecked_eq {K : Type} [LinearOrderedField K] (M : CMath K) (v : Vec2 K) :
    unitChecked M v = some (unit M v) := by
  by_cases h : Vec2.norm M v = 0
  · simp [unitChecked, unit, h]
  · simp [unitChecked, unit, divChecked, h]

/-- C17, as amended: over exact real arithmetic (squares, sum, square root and
quotients without rounding, overflow or underflow), `Vec2::unit` never divides
by zero; it returns the zero vector when the norm is zero; when the norm is not
zero it is positive, the result has norm 1 and scaled by the norm it gives the
vector back. -/
theorem unit_spec {M : CMath ℝ} (hM : IsRealMath M) (v : Vec2 ℝ) :
    unitChecked M v = some (unit M v) ∧
      (Vec2.norm M v = 0 → unit M v = ⟨0, 0⟩) ∧
      (Vec2.norm M v ≠ 0 → 0 < Vec2.norm M v ∧ Vec2.norm M (unit M v) = 1 ∧
        (unit M v).x * Vec2.norm M v = v.x ∧ (unit M v).y * Vec2.norm M v = v.y) := by
  refine ⟨unitChecked_eq M v, ?_, ?_⟩
  · intro h
    rw [unit]
    simp only [h]
    rw [if_neg (by simp)]
  · intro h
    have hpos : 0 < Vec2.norm M v := lt_of_le_of_ne (norm_nonneg_real hM v) (Ne.symm h)
    have hu : unit M v = ⟨v.x / Vec2.norm M v, v.y / Vec2.norm M v⟩ := by
      rw [unit]
      exact if_pos h
    have hsq : Vec2.norm M v * Vec2.norm M v = v.x * v.x + v.y * v.y := by
      rw [Hull.norm_real hM]
      exact Real.mul_self_sqrt (add_nonneg (mul_self_nonneg _) (mul_self_nonneg _))
    refine ⟨hpos, ?_, ?_, ?_⟩
    · rw [hu, Hull.norm_real hM]
      simp only
      have e : v.x / Vec2.norm M v * (v.x / Vec2.norm M v) +
          v.y / Vec2.norm M v * (v.y / Vec2.norm M v) = 1 := by
        field_simp
        linarith
      rw [e, Real.sqrt_one]
    · rw [hu]; simp only; field_simp
    · rw [hu]; simp only; field_simp

/-- Witness for C17 as amended, with the real library: the zero vector and `(3, 4)`. -/
theorem unit_spec_witness :
    IsRealMath ⟨Real.sqrt, fun y x => Complex.arg ⟨x, y⟩, Real.cos, Real.sin, Real.arcsin,
        Real.pi⟩ ∧
      unit ⟨Real.sqrt, fun y x => Complex.arg ⟨x, y⟩, Real.cos, Real.sin, Real.arcsin,
        Real.pi⟩ (⟨0, 0⟩ : Vec2 ℝ) = ⟨0, 0⟩ ∧
      Vec2.norm ⟨Real.sqrt, fun y x => Complex.arg ⟨x, y⟩, Real.cos, Real.sin, Real.arcsin,
        Real.pi⟩ (unit ⟨Real.sqrt, fun y x => Complex.arg ⟨x, y⟩, Real.cos, Real.sin,
          Real.arcsin, Real.pi⟩ (⟨3, 4⟩ : Vec2 ℝ)) = 1 := by
  have hL : IsRealMath ⟨Real.sqrt, fun y x => Complex.arg ⟨x, y⟩, Real.cos, Real.sin,
      Real.arcsin, Real.pi⟩ := ⟨rfl, rfl, rfl, rfl, rfl, rfl⟩
  have h5 : Vec2.norm ⟨Real.sqrt, fun y x => Complex.arg ⟨x, y⟩, Real.cos, Real.sin,
      Real.arcsin, Real.pi⟩ (⟨3, 4⟩ : Vec2 ℝ) = 5 := by
    rw [Hull.norm_real hL]
    simp only
    rw [show ((3 : ℝ) * 3 + 4 * 4) = 5 * 5 by norm_num]
    exact Real.sqrt_mul_self (by norm_num)
  have h0 : Vec2.norm ⟨Real.sqrt, fun y x => Complex.arg ⟨x, y⟩, Real.cos, Real.sin,
      Real.arcsin, Real.pi⟩ (⟨0, 0⟩ : Vec2 ℝ) = 0 := by
    rw [Hull.norm_real hL]
    simp
  exact ⟨hL, (unit_spec hL ⟨0, 0⟩).2.1 h0,
    ((unit_spec hL ⟨3, 4⟩).2.2 (by rw [h5]; norm_num)).2.1⟩

end Vec2

/-! ## Straight edges -/

namespace Edge

open Vec2

theorem dist_toEuclid (p q : Vec2 ℝ) :
    dist (toEuclid p) (toEuclid q) =
      Real.sqrt ((p.x - q.x) * (p.x - q.x) + (p.y - q.y) * (p.y - q.y)) := by
  rw [EuclideanSpace.dist_eq, Fin.sum_univ_two]
  simp only [toEuclid, Real.dist_eq, Matrix.cons_val_zero, Matrix.cons_val_one,
    Matrix.head_cons, sq, abs_mul_abs_self]

/-- C15, as amended: over exact real arithmetic (squares, sum and square root
without rounding, overflow or underflow), `Edge::length` always returns: the
Euclidean distance between the first two bound points when at least two are
bound, and 0 when fewer are; no subscript is out of range. -/
theorem length_spec {M : CMath ℝ} (hM : IsRealMath M) (e : Edge ℝ) :
    Edge.length M e = some (match e.mVec with
      | p0 :: p1 :: _ => dist (toEuclid p1) (toEuclid p0)
      | _ => 0) := by
  obtain ⟨id, mVec⟩ := e
  match mVec with
  | [] => simp [Edge.length]
  | [_] => simp [Edge.length]
  | p0 :: p1 :: rest =>
    simp only [Edge.length, List.length_cons]
    rw [if_pos (by omega)]
    simp [Hull.norm_real hM, dist_toEuclid]

/-- Witness for C15 as amended, with the real library: the segment from `(0,0)` to
`(3,4)`. -/
theorem length_spec_witness :
    IsRealMath ⟨Real.sqrt, fun y x => Complex.arg ⟨x, y⟩, Real.cos, Real.sin, Real.arcsin,
        Real.pi⟩ ∧
      Edge.length ⟨Real.sqrt, fun y x => Complex.arg ⟨x, y⟩, Real.cos, Real.sin, Real.arcsin,
        Real.pi⟩ (⟨7, [⟨0, 0⟩, ⟨3, 4⟩]⟩ : Edge ℝ) =
        some (dist (toEuclid ⟨3, 4⟩) (toEuclid ⟨0, 0⟩)) :=
  ⟨⟨rfl, rfl, rfl, rfl, rfl, rfl⟩, length_spec ⟨rfl, rfl, rfl, rfl, rfl, rfl⟩ _⟩

end Edge
/-! ## Circular arcs -/

namespace CircularArc

open Vec2

theorem radians_cons {K : Type} [LinearOrderedField K] (M : CMath K) (id : ℤ)
    (p0 p1 : Vec2 K) (rest : List (Vec2 K)) (c : Vec2 K) (cw : Bool) :
    radians M ⟨⟨id, p0 :: p1 :: rest⟩, c, cw⟩ =
      some (if cw then
          -(2 * M.PI - (if Theta M (p0 - c) (p1 - c) ≥ 0 then Theta M (p0 - c) (p1 - c)
            else M.PI + (M.PI - Theta M (p0 - c) (p1 - c))))
        else (if Theta M (p0 - c) (p1 - c) ≥ 0 then Theta M (p0 - c) (p1 - c)
            else M.PI + (M.PI - Theta M (p0 - c) (p1 - c)))) := by
  cases cw <;> simp [radians]

theorem radius_cons {K : Type} [LinearOrderedField K] (M : CMath K) (id : ℤ)
    (p0 : Vec2 K) (rest : List (Vec2 K)) (c : Vec2 K) (cw : Bool) :
    radius M ⟨⟨id, p0 :: rest⟩, c, cw⟩ = some (Dist M p0 c) := by
  simp [radius]

theorem length_of_some {K : Type} [LinearOrderedField K] (M : CMath K) (a : CircularArc K)
    (r t : K) (hr : radius M a = some r) (ht : radians M a = some t) :
    length M a = some (r * |t|) := by
  simp [length, hr, ht]

theorem discretize_of_some {K : Type} [LinearOrderedField K] (M : CMath K) (id : ℤ)
    (p0 : Vec2 K) (rest : List (Vec2 K)) (c : Vec2 K) (cw : Bool) (res : ℕ) (t : K)
    (ht : radians M ⟨⟨id, p0 :: rest⟩, c, cw⟩ = some t) :
    discretize M ⟨⟨id, p0 :: rest⟩, c, cw⟩ res =
      some ((List.range res).map fun (i : ℕ) =>
        ConstructAt M c (ThetaAxis M (p0 - c) + t * ((i : K) / (res : K))) (Dist M p0 c)) := by
  simp [discretize, ht, radius]

theorem theta_real {M : CMath ℝ} (hM : IsRealMath M) (a b : Vec2 ℝ) :
    Theta M a b = Complex.arg ⟨Dot (unit M a) (unit M b), Cross (unit M a) (unit M b)⟩ := by
  rw [Theta, hM.2.1]

/-- The angle from `(1,0)` to `(0,1)` is `π/2`. -/
theorem theta_quarter {M : CMath ℝ} (hM : IsRealMath M) :
    Theta M ((⟨1, 0⟩ : Vec2 ℝ) - ⟨0, 0⟩) (⟨0, 1⟩ - ⟨0, 0⟩) = Real.pi / 2 := by
  rw [theta_real hM, Hull.mk_sub_mk, Hull.mk_sub_mk]
  simp only [sub_zero]
  rw [Hull.unit_east hM 1 one_pos, Hull.unit_north hM 1 one_pos]
  have e : (⟨Dot (⟨1, 0⟩ : Vec2 ℝ) ⟨0, 1⟩, Cross (⟨1, 0⟩ : Vec2 ℝ) ⟨0, 1⟩⟩ : ℂ) = Complex.I := by
    apply Complex.ext <;> simp [Dot, Cross]
  rw [e, Complex.arg_I]

/-- The angle from `(0,1)` to `(1,0)` is `-π/2`. -/
theorem theta_quarter_back {M : CMath ℝ} (hM : IsRealMath M) :
    Theta M ((⟨0, 1⟩ : Vec2 ℝ) - ⟨0, 0⟩) (⟨1, 0⟩ - ⟨0, 0⟩) = -(Real.pi / 2) := by
  rw [theta_real hM, Hull.mk_sub_mk, Hull.mk_sub_mk]
  simp only [sub_zero]
  rw [Hull.unit_east hM 1 one_pos, Hull.unit_north hM 1 one_pos]
  have e : (⟨Dot (⟨0, 1⟩ : Vec2 ℝ) ⟨1, 0⟩, Cross (⟨0, 1⟩ : Vec2 ℝ) ⟨1, 0⟩⟩ : ℂ) =
      -Complex.I := by
    apply Complex.ext <;> simp [Dot, Cross]
  rw [e, Complex.arg_neg_I]

theorem dist_unit_x {M : CMath ℝ} (hM : IsRealMath M) :
    Dist M (⟨1, 0⟩ : Vec2 ℝ) ⟨0, 0⟩ = 1 := by
  rw [Vec2.Dist, Hull.norm_real hM, Hull.mk_sub_mk]
  simp

theorem dist_unit_y {M : CMath ℝ} (hM : IsRealMath M) :
    Dist M (⟨0, 1⟩ : Vec2 ℝ) ⟨0, 0⟩ = 1 := by
  rw [Vec2.Dist, Hull.norm_real hM, Hull.mk_sub_mk]
  simp

/-- C11 (defect of the code): for the counter-clockwise arc from `(0,1)` to
`(1,0)` around `(0,0)` the signed angle is `-π/2`, the normalisation
`PI + (PI - t)` turns it into `5π/2`, and `radians()` returns that: more than
`2π`. The radius is 1 and `length()` returns `5π/2`, more than `2π * radius()`. -/
theorem radians_above_two_pi {M : CMath ℝ} (hM : IsRealMath M) :
    radians M ⟨⟨0, [⟨0, 1⟩, ⟨1, 0⟩]⟩, ⟨0, 0⟩, false⟩ = some (5 * Real.pi / 2) ∧
      radius M ⟨⟨0, [⟨0, 1⟩, ⟨1, 0⟩]⟩, ⟨0, 0⟩, false⟩ = some 1 ∧
      length M ⟨⟨0, [⟨0, 1⟩, ⟨1, 0⟩]⟩, ⟨0, 0⟩, false⟩ = some (5 * Real.pi / 2) ∧
      2 * Real.pi < 5 * Real.pi / 2 ∧ 2 * Real.pi * 1 < 5 * Real.pi / 2 := by
  have hpos := Real.pi_pos
  have hr : radians M ⟨⟨0, [⟨0, 1⟩, ⟨1, 0⟩]⟩, ⟨0, 0⟩, false⟩ = some (5 * Real.pi / 2) := by
    rw [radians_cons, theta_quarter_back hM, hM.2.2.2.2.2]
    have hneg : ¬ (-(Real.pi / 2) ≥ 0) := by
      intro h; linarith
    simp only [Bool.false_eq_true, if_false]
    rw [if_neg hneg]
    congr 1
    ring
  have hrad : radius M ⟨⟨0, [⟨0, 1⟩, ⟨1, 0⟩]⟩, ⟨0, 0⟩, false⟩ = some 1 := by
    rw [radius_cons, dist_unit_y hM]
  refine ⟨hr, hrad, ?_, by linarith, by linarith⟩
  rw [length_of_some M _ _ _ hrad hr, one_mul, abs_of_pos (by linarith)]

/-- Witness for C11 with the real library. -/
theorem radians_above_two_pi_witness :
    IsRealMath ⟨Real.sqrt, fun y x => Complex.arg ⟨x, y⟩, Real.cos, Real.sin, Real.arcsin,
        Real.pi⟩ ∧
      radians ⟨Real.sqrt, fun y x => Complex.arg ⟨x, y⟩, Real.cos, Real.sin, Real.arcsin,
        Real.pi⟩ ⟨⟨0, [⟨0, 1⟩, ⟨1, 0⟩]⟩, ⟨0, 0⟩, false⟩ = some (5 * Real.pi / 2) :=
  ⟨⟨rfl, rfl, rfl, rfl, rfl, rfl⟩,
    (radians_above_two_pi ⟨rfl, rfl, rfl, rfl, rfl, rfl⟩).1⟩

/-- C12, as amended: on the same points and centre, `radians()` of the
clockwise arc is `-(2*PI - n)` for the value `n` of the counter-clockwise
arc: the clockwise arc sweeps the rest of the circle, backwards. -/
theorem radians_clockwise {K : Type} [LinearOrderedField K] (M : CMath K) (e : Edge K)
    (c : Vec2 K) (n : K) (h : radians M ⟨e, c, false⟩ = some n) :
    radians M ⟨e, c, true⟩ = some (-(2 * M.PI - n)) := by
  obtain ⟨id, mVec⟩ := e
  match mVec, h with
  | [], h => simp [radians] at h
  | [_], h => simp [radians] at h
  | p0 :: p1 :: rest, h =>
    rw [radians_cons] at h ⊢
    simp only [Bool.false_eq_true, if_false, Option.some.injEq] at h
    simp only [if_true, h]

/-- Witness for C12 as amended: the quarter arc from `(1,0)` to `(0,1)`. -/
theorem radians_clockwise_witness :
    radians ⟨Real.sqrt, fun y x => Complex.arg ⟨x, y⟩, Real.cos, Real.sin, Real.arcsin,
        Real.pi⟩ ⟨⟨0, [⟨1, 0⟩, ⟨0, 1⟩]⟩, ⟨0, 0⟩, false⟩ = some (Real.pi / 2) ∧
      radians ⟨Real.sqrt, fun y x => Complex.arg ⟨x, y⟩, Real.cos, Real.sin, Real.arcsin,
        Real.pi⟩ ⟨⟨0, [⟨1, 0⟩, ⟨0, 1⟩]⟩, ⟨0, 0⟩, true⟩ =
        some (-(2 * Real.pi - Real.pi / 2)) := by
  have hL : IsRealMath ⟨Real.sqrt, fun y x => Complex.arg ⟨x, y⟩, Real.cos, Real.sin,
      Real.arcsin, Real.pi⟩ := ⟨rfl, rfl, rfl, rfl, rfl, rfl⟩
  have h : radians ⟨Real.sqrt, fun y x => Complex.arg ⟨x, y⟩, Real.cos, Real.sin,
      Real.arcsin, Real.pi⟩ ⟨⟨0, [⟨1, 0⟩, ⟨0, 1⟩]⟩, ⟨0, 0⟩, false⟩ = some (Real.pi / 2) := by
    rw [radians_cons, theta_quarter hL]
    simp only [Bool.false_eq_true, if_false]
    rw [if_pos (by have := Real.pi_pos; linarith)]
  exact ⟨h, radians_clockwise _ _ _ _ h⟩

/-- C12 as stated fails: for the quarter arc from `(1,0)` to `(0,1)` around
`(0,0)` the counter-clockwise value is `π/2` and the clockwise value is
`-(2π - π/2)`, not `-π/2`. -/
theorem radians_clockwise_not_negation :
    ∃ s n, radians ⟨Real.sqrt, fun y x => Complex.arg ⟨x, y⟩, Real.cos, Real.sin,
          Real.arcsin, Real.pi⟩ ⟨⟨0, [⟨1, 0⟩, ⟨0, 1⟩]⟩, ⟨0, 0⟩, true⟩ = some s ∧
      radians ⟨Real.sqrt, fun y x => Complex.arg ⟨x, y⟩, Real.cos, Real.sin,
          Real.arcsin, Real.pi⟩ ⟨⟨0, [⟨1, 0⟩, ⟨0, 1⟩]⟩, ⟨0, 0⟩, false⟩ = some n ∧
      s ≠ -n := by
  have hL : IsRealMath ⟨Real.sqrt, fun y x => Complex.arg ⟨x, y⟩, Real.cos, Real.sin,
      Real.arcsin, Real.pi⟩ := ⟨rfl, rfl, rfl, rfl, rfl, rfl⟩
  have hpos := Real.pi_pos
  refine ⟨-(2 * Real.pi - Real.pi / 2), Real.pi / 2, ?_, ?_, ?_⟩
  · rw [radians_cons, theta_quarter hL]
    simp only [if_true]
    rw [if_pos (by linarith)]
  · rw [radians_cons, theta_quarter hL]
    simp only [Bool.false_eq_true, if_false]
    rw [if_pos (by linarith)]
  · intro h
    linarith

/-- C16 (defect of the code): for an arc with fewer than two bound points
`CircularArc::length` and `CircularArc::discretize` read `mVec[0]` or `mVec[1]`
past the end of the vector (`none`); there is no fallback to 0 as in
`Edge::length`. -/
theorem length_reads_unbound {K : Type} [LinearOrderedField K] (M : CMath K)
    (a : CircularArc K) (h : a.mVec.length < 2) :
    length M a = none ∧ ∀ res, discretize M a res = none := by
  obtain ⟨⟨id, mVec⟩, c, cw⟩ := a
  match mVec, h with
  | [], _ => simp [length, discretize, radius, radians]
  | [_], _ => simp [length, discretize, radius, radians]
  | _ :: _ :: _, h => simp only [List.length_cons] at h; omega

/-- Witness for C16: an arc with one bound point, while the straight edge with
the same single point has length 0. -/
theorem length_reads_unbound_witness :
    ((⟨⟨3, [⟨1, 0⟩]⟩, ⟨0, 0⟩, false⟩ : CircularArc ℝ).mVec.length < 2 ∧
      Edge.length ⟨Real.sqrt, fun y x => Complex.arg ⟨x, y⟩, Real.cos, Real.sin,
        Real.arcsin, Real.pi⟩ (⟨3, [⟨1, 0⟩]⟩ : Edge ℝ) = some 0) ∧
      length ⟨Real.sqrt, fun y x => Complex.arg ⟨x, y⟩, Real.cos, Real.sin, Real.arcsin,
        Real.pi⟩ (⟨⟨3, [⟨1, 0⟩]⟩, ⟨0, 0⟩, false⟩ : CircularArc ℝ) = none ∧
      ∀ res, discretize ⟨Real.sqrt, fun y x => Complex.arg ⟨x, y⟩, Real.cos, Real.sin,
        Real.arcsin, Real.pi⟩ (⟨⟨3, [⟨1, 0⟩]⟩, ⟨0, 0⟩, false⟩ : CircularArc ℝ) res = none :=
  ⟨⟨by simp, by simp [Edge.length]⟩, length_reads_unbound _ _ (by simp)⟩

/-- C14: for an arc with two bound points and `res ≥ 1`, `discretize(res)`
returns exactly `res` points and the first of them is `p0`. -/
theorem discretize_first {M : CMath ℝ} (hM : IsRealMath M) (e : Edge ℝ) (c : Vec2 ℝ)
    (cw : Bool) (p0 p1 : Vec2 ℝ) (rest : List (Vec2 ℝ)) (he : e.mVec = p0 :: p1 :: rest)
    (res : ℕ) (hres : 1 ≤ res) :
    ∃ pts, discretize M ⟨e, c, cw⟩ res = some pts ∧ pts.length = res ∧
      pts[0]? = some p0 := by
  obtain ⟨id, mVec⟩ := e
  simp only at he
  subst he
  refine ⟨_, discretize_of_some M id p0 _ c cw res _ (radians_cons M id p0 p1 rest c cw),
    by simp, ?_⟩
  rw [List.getElem?_map, List.getElem?_range (by omega)]
  simp only [Option.map_some', Nat.cast_zero, zero_div, mul_zero, add_zero]
  rw [Vec2.Dist, constructAt_polar hM, add_sub_cancel_vec]

/-- Witness for C14 with the real library: the quarter arc from `(1,0)` to
`(0,1)` with `discretize(4)` gives 4 points, the first being `(1,0)`. -/
theorem discretize_first_witness :
    (IsRealMath ⟨Real.sqrt, fun y x => Complex.arg ⟨x, y⟩, Real.cos, Real.sin, Real.arcsin,
        Real.pi⟩ ∧ 1 ≤ 4) ∧
      ∃ pts, discretize ⟨Real.sqrt, fun y x => Complex.arg ⟨x, y⟩, Real.cos, Real.sin,
          Real.arcsin, Real.pi⟩ ⟨⟨0, [⟨1, 0⟩, ⟨0, 1⟩]⟩, ⟨0, 0⟩, false⟩ 4 = some pts ∧
        pts.length = 4 ∧ pts[0]? = some ⟨1, 0⟩ :=
  ⟨⟨⟨rfl, rfl, rfl, rfl, rfl, rfl⟩, by norm_num⟩,
    discretize_first ⟨rfl, rfl, rfl, rfl, rfl, rfl⟩ ⟨0, [⟨1, 0⟩, ⟨0, 1⟩]⟩ ⟨0, 0⟩ false
      ⟨1, 0⟩ ⟨0, 1⟩ [] rfl 4 (by norm_num)⟩

/-- Two points at the same positive radius around the same centre coincide only
when their angles differ by a multiple of `2π`. -/
theorem constructAt_inj {M : CMath ℝ} (hM : IsRealMath M) (c : Vec2 ℝ) (a b r : ℝ)
    (hr : 0 < r) (h : ConstructAt M c a r = ConstructAt M c b r) :
    ∃ k : ℤ, a - b = 2 * Real.pi * k := by
  obtain ⟨_, _, h3, h4, _, _⟩ := hM
  rw [ConstructAt, ConstructAt, h3, h4] at h
  have hx := congrArg Vec2.x h
  have hy := congrArg Vec2.y h
  simp only [add_x, add_y, add_right_inj] at hx hy
  have hcos : Real.cos a = Real.cos b := mul_right_cancel₀ hr.ne' hx
  have hsin : Real.sin a = Real.sin b := mul_right_cancel₀ hr.ne' hy
  exact Real.Angle.angle_eq_iff_two_pi_dvd_sub.1 (Real.Angle.cos_sin_inj hcos hsin)

/-- C19, as amended: for an arc of positive radius whose sweep `s = radians()`
is not zero and is smaller than a full turn, `0 < |s| < 2π`, the end point
`Construct(center, start + s, r)` is not among the points of
`discretize(res)`, for every `res`. -/
theorem discretize_omits_endpoint {M : CMath ℝ} (hM : IsRealMath M) (e : Edge ℝ)
    (c : Vec2 ℝ) (cw : Bool) (p0 : Vec2 ℝ) (rest : List (Vec2 ℝ)) (he : e.mVec = p0 :: rest)
    (res : ℕ) (s : ℝ) (hs : radians M ⟨e, c, cw⟩ = some s) (hr : 0 < Vec2.Dist M p0 c)
    (h1 : 0 < |s|) (h2 : |s| < 2 * Real.pi) :
    ∃ pts, discretize M ⟨e, c, cw⟩ res = some pts ∧
      ∀ p ∈ pts, p ≠ ConstructAt M c (ThetaAxis M (p0 - c) + s) (Vec2.Dist M p0 c) := by
  obtain ⟨id, mVec⟩ := e
  simp only at he
  subst he
  refine ⟨_, discretize_of_some M id p0 _ c cw res s hs, ?_⟩
  intro p hp heq
  obtain ⟨i, hi, rfl⟩ := List.mem_map.1 hp
  have hi' : i < res := List.mem_range.1 hi
  obtain ⟨k, hk⟩ := constructAt_inj hM c _ _ _ hr heq
  have hres : (0 : ℝ) < (res : ℝ) := by
    exact_mod_cast Nat.lt_of_le_of_lt (Nat.zero_le i) hi'
  have hu0 : 0 ≤ (i : ℝ) / (res : ℝ) := div_nonneg (Nat.cast_nonneg i) hres.le
  have hu1 : (i : ℝ) / (res : ℝ) < 1 := (div_lt_one hres).2 (by exact_mod_cast hi')
  have hk' : s * ((i : ℝ) / (res : ℝ) - 1) = 2 * Real.pi * k := by
    linear_combination hk
  have hle : |(i : ℝ) / (res : ℝ) - 1| ≤ 1 := by
    rw [abs_le]; constructor <;> linarith
  have habs : |s * ((i : ℝ) / (res : ℝ) - 1)| < 2 * Real.pi := by
    rw [abs_mul]
    calc |s| * |(i : ℝ) / (res : ℝ) - 1| ≤ |s| * 1 :=
          mul_le_mul_of_nonneg_left hle (abs_nonneg s)
      _ < 2 * Real.pi := by rw [mul_one]; exact h2
  rw [hk', abs_mul, abs_of_pos (by positivity : (0 : ℝ) < 2 * Real.pi)] at habs
  have hk1 : |(k : ℝ)| < 1 := by
    have hpi : (0 : ℝ) < 2 * Real.pi := by positivity
    nlinarith [abs_nonneg (k : ℝ)]
  have hk0 : k = 0 := by
    have : |k| < 1 := by exact_mod_cast hk1
    exact Int.abs_lt_one_iff.1 this
  rw [hk0, Int.cast_zero, mul_zero] at hk'
  rcases mul_eq_zero.1 hk' with h | h
  · rw [h, abs_zero] at h1
    exact lt_irrefl 0 h1
  · linarith

/-- Witness for C19 as amended, with the real library: the quarter arc from
`(1,0)` to `(0,1)` with `discretize(4)` never emits `(0,1)`. -/
theorem discretize_omits_endpoint_witness :
    ∃ pts, discretize ⟨Real.sqrt, fun y x => Complex.arg ⟨x, y⟩, Real.cos, Real.sin,
          Real.arcsin, Real.pi⟩ ⟨⟨0, [⟨1, 0⟩, ⟨0, 1⟩]⟩, ⟨0, 0⟩, false⟩ 4 = some pts ∧
      ∀ p ∈ pts, p ≠ (⟨0, 1⟩ : Vec2 ℝ) := by
  have hL : IsRealMath ⟨Real.sqrt, fun y x => Complex.arg ⟨x, y⟩, Real.cos, Real.sin,
      Real.arcsin, Real.pi⟩ := ⟨rfl, rfl, rfl, rfl, rfl, rfl⟩
  have hpos := Real.pi_pos
  have hs : radians ⟨Real.sqrt, fun y x => Complex.arg ⟨x, y⟩, Real.cos, Real.sin,
      Real.arcsin, Real.pi⟩ ⟨⟨0, [⟨1, 0⟩, ⟨0, 1⟩]⟩, ⟨0, 0⟩, false⟩ = some (Real.pi / 2) := by
    rw [radians_cons, theta_quarter hL]
    simp only [Bool.false_eq_true, if_false]
    rw [if_pos (by linarith)]
  have hhalf : |Real.pi / 2| = Real.pi / 2 := abs_of_pos (by linarith)
  have h := discretize_omits_endpoint hL ⟨0, [⟨1, 0⟩, ⟨0, 1⟩]⟩ ⟨0, 0⟩ false ⟨1, 0⟩ [⟨0, 1⟩]
    rfl 4 (Real.pi / 2) hs (by rw [dist_unit_x hL]; exact one_pos)
    (by rw [hhalf]; linarith) (by rw [hhalf]; linarith)
  have hend : ConstructAt ⟨Real.sqrt, fun y x => Complex.arg ⟨x, y⟩, Real.cos, Real.sin,
      Real.arcsin, Real.pi⟩ (⟨0, 0⟩ : Vec2 ℝ) (ThetaAxis ⟨Real.sqrt,
        fun y x => Complex.arg ⟨x, y⟩, Real.cos, Real.sin, Real.arcsin, Real.pi⟩
        ((⟨1, 0⟩ : Vec2 ℝ) - ⟨0, 0⟩) + Real.pi / 2)
      (Vec2.Dist ⟨Real.sqrt, fun y x => Complex.arg ⟨x, y⟩, Real.cos, Real.sin,
        Real.arcsin, Real.pi⟩ (⟨1, 0⟩ : Vec2 ℝ) ⟨0, 0⟩) = ⟨0, 1⟩ := by
    rw [dist_unit_x hL, Hull.mk_sub_mk]
    have harg : Complex.arg (⟨(1 : ℝ) - 0, (0 : ℝ) - 0⟩ : ℂ) = 0 := by
      have e1 : (⟨(1 : ℝ) - 0, (0 : ℝ) - 0⟩ : ℂ) = 1 := by
        apply Complex.ext <;> simp
      rw [e1, Complex.arg_one]
    simp only [ConstructAt, ThetaAxis, harg, zero_add, Real.cos_pi_div_two,
      Real.sin_pi_div_two, mul_one]
    ext <;> simp
  rw [hend] at h
  exact h

/-- C19 as stated fails: the counter-clockwise arc from `(1,0)` to the same
point `(1,0)` around `(0,0)` has radius 1 and sweep 0, and the single point of
`discretize(1)` is its end point. -/
theorem discretize_emits_endpoint :
    ∃ pts s, 0 < Vec2.Dist ⟨Real.sqrt, fun y x => Complex.arg ⟨x, y⟩, Real.cos, Real.sin,
          Real.arcsin, Real.pi⟩ (⟨1, 0⟩ : Vec2 ℝ) ⟨0, 0⟩ ∧
      radius ⟨Real.sqrt, fun y x => Complex.arg ⟨x, y⟩, Real.cos, Real.sin,
          Real.arcsin, Real.pi⟩ ⟨⟨0, [⟨1, 0⟩, ⟨1, 0⟩]⟩, ⟨0, 0⟩, false⟩ =
        some (Vec2.Dist ⟨Real.sqrt, fun y x => Complex.arg ⟨x, y⟩, Real.cos, Real.sin,
          Real.arcsin, Real.pi⟩ (⟨1, 0⟩ : Vec2 ℝ) ⟨0, 0⟩) ∧
      radians ⟨Real.sqrt, fun y x => Complex.arg ⟨x, y⟩, Real.cos, Real.sin,
          Real.arcsin, Real.pi⟩ ⟨⟨0, [⟨1, 0⟩, ⟨1, 0⟩]⟩, ⟨0, 0⟩, false⟩ = some s ∧
      discretize ⟨Real.sqrt, fun y x => Complex.arg ⟨x, y⟩, Real.cos, Real.sin,
          Real.arcsin, Real.pi⟩ ⟨⟨0, [⟨1, 0⟩, ⟨1, 0⟩]⟩, ⟨0, 0⟩, false⟩ 1 = some pts ∧
      ConstructAt ⟨Real.sqrt, fun y x => Complex.arg ⟨x, y⟩, Real.cos, Real.sin,
          Real.arcsin, Real.pi⟩ (⟨0, 0⟩ : Vec2 ℝ)
        (ThetaAxis ⟨Real.sqrt, fun y x => Complex.arg ⟨x, y⟩, Real.cos, Real.sin,
          Real.arcsin, Real.pi⟩ ((⟨1, 0⟩ : Vec2 ℝ) - ⟨0, 0⟩) + s)
        (Vec2.Dist ⟨Real.sqrt, fun y x => Complex.arg ⟨x, y⟩, Real.cos, Real.sin,
          Real.arcsin, Real.pi⟩ (⟨1, 0⟩ : Vec2 ℝ) ⟨0, 0⟩) ∈ pts := by
  have hL : IsRealMath ⟨Real.sqrt, fun y x => Complex.arg ⟨x, y⟩, Real.cos, Real.sin,
      Real.arcsin, Real.pi⟩ := ⟨rfl, rfl, rfl, rfl, rfl, rfl⟩
  have ht : Theta ⟨Real.sqrt, fun y x => Complex.arg ⟨x, y⟩, Real.cos, Real.sin,
      Real.arcsin, Real.pi⟩ ((⟨1, 0⟩ : Vec2 ℝ) - ⟨0, 0⟩) (⟨1, 0⟩ - ⟨0, 0⟩) = 0 := by
    rw [theta_real hL, Hull.mk_sub_mk]
    simp only [sub_zero]
    rw [Hull.unit_east hL 1 one_pos]
    have e1 : (⟨Dot (⟨1, 0⟩ : Vec2 ℝ) ⟨1, 0⟩, Cross (⟨1, 0⟩ : Vec2 ℝ) ⟨1, 0⟩⟩ : ℂ) = 1 := by
      apply Complex.ext <;> simp [Dot, Cross]
    rw [e1, Complex.arg_one]
  have hs : radians ⟨Real.sqrt, fun y x => Complex.arg ⟨x, y⟩, Real.cos, Real.sin,
      Real.arcsin, Real.pi⟩ ⟨⟨0, [⟨1, 0⟩, ⟨1, 0⟩]⟩, ⟨0, 0⟩, false⟩ = some 0 := by
    rw [radians_cons, ht]
    simp
  refine ⟨_, 0, by rw [dist_unit_x hL]; exact one_pos, radius_cons _ _ _ _ _ _, hs,
    discretize_of_some _ 0 _ _ _ _ 1 0 hs, ?_⟩
  simp

end CircularArc

/-! ## The padded area of a data set -/

namespace Data

open Vec2

theorem discretize_single {K : Type} [LinearOrderedField K] (M : CMath K)
    (mVec : List (Vec2 K)) (mEdge : List (Edge K)) (a : CircularArc K) (res : ℕ)
    (v : List (Vec2 K)) (h : CircularArc.discretize M a res = some v) :
    discretize M ⟨mVec, mEdge, [a]⟩ res = some (mVec ++ v) := by
  simp [discretize, h]

/-- The full clockwise circle through `(4,3)` around `(0,3)`: `radians()` is
`-(2π - 0)`. -/
theorem circle_radians {M : CMath ℝ} (hM : IsRealMath M) :
    CircularArc.radians M ⟨⟨0, [⟨4, 3⟩, ⟨4, 3⟩]⟩, ⟨0, 3⟩, true⟩ =
      some (-(2 * Real.pi - 0)) := by
  have hd : ((⟨4, 3⟩ : Vec2 ℝ) - ⟨0, 3⟩) = ⟨4, 0⟩ := by
    rw [Hull.mk_sub_mk]; norm_num
  have ht : Theta M ((⟨4, 3⟩ : Vec2 ℝ) - ⟨0, 3⟩) (⟨4, 3⟩ - ⟨0, 3⟩) = 0 := by
    rw [CircularArc.theta_real hM, hd, Hull.unit_east hM 4 (by norm_num)]
    have e1 : (⟨Dot (⟨1, 0⟩ : Vec2 ℝ) ⟨1, 0⟩, Cross (⟨1, 0⟩ : Vec2 ℝ) ⟨1, 0⟩⟩ : ℂ) = 1 := by
      apply Complex.ext <;> simp [Dot, Cross]
    rw [e1, Complex.arg_one]
  rw [CircularArc.radians_cons, ht, hM.2.2.2.2.2]
  simp

theorem circle_polar {M : CMath ℝ} (hM : IsRealMath M) :
    ThetaAxis M ((⟨4, 3⟩ : Vec2 ℝ) - ⟨0, 3⟩) = 0 ∧ Vec2.Dist M (⟨4, 3⟩ : Vec2 ℝ) ⟨0, 3⟩ = 4 := by
  have hd : ((⟨4, 3⟩ : Vec2 ℝ) - ⟨0, 3⟩) = ⟨4, 0⟩ := by
    rw [Hull.mk_sub_mk]; norm_num
  constructor
  · rw [hd, ThetaAxis, hM.2.1]
    have e1 : (⟨(4 : ℝ), (0 : ℝ)⟩ : ℂ) = ((4 : ℝ) : ℂ) := by
      apply Complex.ext <;> simp
    simp only
    rw [e1, Complex.arg_ofReal_of_nonneg (by norm_num)]
  · rw [Vec2.Dist, hd, Hull.norm_real hM]
    simp only
    rw [show ((4 : ℝ) * 4 + 0 * 0) = 4 * 4 by norm_num]
    exact Real.sqrt_mul_self (by norm_num)

/-- With one step the circle gives its first point only. -/
theorem circle_discretize_one {M : CMath ℝ} (hM : IsRealMath M) :
    CircularArc.discretize M ⟨⟨0, [⟨4, 3⟩, ⟨4, 3⟩]⟩, ⟨0, 3⟩, true⟩ 1 = some [⟨4, 3⟩] := by
  obtain ⟨h0, h4⟩ := circle_polar hM
  rw [CircularArc.discretize_of_some M 0 _ _ _ _ 1 _ (circle_radians hM), h0, h4]
  have hr : List.range 1 = [0] := by decide
  rw [hr]
  simp only [List.map_cons, List.map_nil, Nat.cast_zero, zero_div, mul_zero,
    add_zero, ConstructAt, hM.2.2.1, hM.2.2.2.1, Real.cos_zero, Real.sin_zero, one_mul,
    zero_mul]
  congr 2
  ext <;> simp

/-- With two steps the circle gives its first point and the opposite point. -/
theorem circle_discretize_two {M : CMath ℝ} (hM : IsRealMath M) :
    CircularArc.discretize M ⟨⟨0, [⟨4, 3⟩, ⟨4, 3⟩]⟩, ⟨0, 3⟩, true⟩ 2 =
      some [⟨4, 3⟩, ⟨-4, 3⟩] := by
  obtain ⟨h0, h4⟩ := circle_polar hM
  rw [CircularArc.discretize_of_some M 0 _ _ _ _ 2 _ (circle_radians hM), h0, h4]
  have hr : List.range 2 = [0, 1] := by decide
  have hang : (0 : ℝ) + -(2 * Real.pi - 0) * (((1 : ℕ) : ℝ) / ((2 : ℕ) : ℝ)) = -Real.pi := by
    push_cast; ring
  rw [hr]
  simp only [List.map_cons, List.map_nil, hang]
  simp only [Nat.cast_zero, zero_div, mul_zero, add_zero, ConstructAt, hM.2.2.1, hM.2.2.2.1,
    Real.cos_zero, Real.sin_zero, one_mul, zero_mul, Real.cos_neg, Real.sin_neg, Real.cos_pi,
    Real.sin_pi, neg_zero]
  congr 2
  · ext <;> simp
  · congr 1
    ext <;> simp

theorem padded_tri : ((4 : ℝ) + Material.Padding) * (0 + Material.Padding) = 41 / 100 := by
  norm_num [Material.Padding]

theorem padded_trap :
    ((32 / 5 : ℝ) + Material.Padding) * (12 / 5 + Material.Padding) = 65 / 4 := by
  norm_num [Material.Padding]

/-- The padded area as documented, for the data set with the vertices
`(0,0), (4,0), (4,3)` and the full clockwise circle through `(4,3)` around
`(0,3)`: `41/100` with one step per arc, `65/4` with two. -/
theorem areaSpec_values {M : CMath ℝ} (hM : IsRealMath M) (fuel : ℕ) (box : Hull.Box ℝ) :
    areaSpec M (fuel + 3) box
        ⟨[⟨0, 0⟩, ⟨4, 0⟩, ⟨4, 3⟩], [], [⟨⟨0, [⟨4, 3⟩, ⟨4, 3⟩]⟩, ⟨0, 3⟩, true⟩]⟩ 1 =
        some (41 / 100) ∧
      areaSpec M (fuel + 3) box
        ⟨[⟨0, 0⟩, ⟨4, 0⟩, ⟨4, 3⟩], [], [⟨⟨0, [⟨4, 3⟩, ⟨4, 3⟩]⟩, ⟨0, 3⟩, true⟩]⟩ 2 =
        some (65 / 4) := by
  constructor
  · rw [areaSpec, discretize_single M _ _ _ 1 _ (circle_discretize_one hM)]
    simp only [List.cons_append, List.nil_append, Option.bind_eq_bind, Option.some_bind,
      Hull.Convex_cloud1, Hull.minimumBox_tri hM fuel box]
    rw [← padded_tri]
    rfl
  · rw [areaSpec, discretize_single M _ _ _ 2 _ (circle_discretize_two hM)]
    simp only [List.cons_append, List.nil_append, Option.bind_eq_bind, Option.some_bind,
      Hull.Convex_cloud2, Hull.minimumBox_trap hM (fuel + 1) box]
    rw [← padded_trap]
    rfl

/-- C18 (defect of the code): `Data::area(res)` does not use `res`: it calls
`discretize()` and so always works on the point cloud of 100 steps per arc.
For the data set with the vertices `(0,0), (4,0), (4,3)` and the full
clockwise circle through `(4,3)` around `(0,3)`, the padded area that the
documentation describes is `41/100` for `res = 1` and `65/4` for `res = 2`,
while `area(1)` and `area(2)` are the same number; so `area(res)` is not that
padded area for every `res`. -/
theorem area_ignores_res {M : CMath ℝ} (hM : IsRealMath M) (fuel : ℕ) (box : Hull.Box ℝ) :
    (∀ (d : Data ℝ) (res : ℕ), area M fuel box d res = areaSpec M fuel box d 100) ∧
      areaSpec M (fuel + 3) box
        ⟨[⟨0, 0⟩, ⟨4, 0⟩, ⟨4, 3⟩], [], [⟨⟨0, [⟨4, 3⟩, ⟨4, 3⟩]⟩, ⟨0, 3⟩, true⟩]⟩ 1 =
        some (41 / 100) ∧
      areaSpec M (fuel + 3) box
        ⟨[⟨0, 0⟩, ⟨4, 0⟩, ⟨4, 3⟩], [], [⟨⟨0, [⟨4, 3⟩, ⟨4, 3⟩]⟩, ⟨0, 3⟩, true⟩]⟩ 2 =
        some (65 / 4) ∧
      ∃ res, area M (fuel + 3) box
          ⟨[⟨0, 0⟩, ⟨4, 0⟩, ⟨4, 3⟩], [], [⟨⟨0, [⟨4, 3⟩, ⟨4, 3⟩]⟩, ⟨0, 3⟩, true⟩]⟩ res ≠
        areaSpec M (fuel + 3) box
          ⟨[⟨0, 0⟩, ⟨4, 0⟩, ⟨4, 3⟩], [], [⟨⟨0, [⟨4, 3⟩, ⟨4, 3⟩]⟩, ⟨0, 3⟩, true⟩]⟩ res := by
  obtain ⟨h1, h2⟩ := areaSpec_values hM fuel box
  refine ⟨fun _ _ => rfl, h1, h2, ?_⟩
  by_contra hall
  push_neg at hall
  have e1 := hall 1
  have e2 := hall 2
  have e12 : area M (fuel + 3) box
      ⟨[⟨0, 0⟩, ⟨4, 0⟩, ⟨4, 3⟩], [], [⟨⟨0, [⟨4, 3⟩, ⟨4, 3⟩]⟩, ⟨0, 3⟩, true⟩]⟩ 1 =
      area M (fuel + 3) box
      ⟨[⟨0, 0⟩, ⟨4, 0⟩, ⟨4, 3⟩], [], [⟨⟨0, [⟨4, 3⟩, ⟨4, 3⟩]⟩, ⟨0, 3⟩, true⟩]⟩ 2 := rfl
  rw [e1, e2, h1, h2] at e12
  norm_num at e12

/-- Witness for C18 with the real library, the local `box` of `MinimumBox`
holding zeros. -/
theorem area_ignores_res_witness :
    IsRealMath ⟨Real.sqrt, fun y x => Complex.arg ⟨x, y⟩, Real.cos, Real.sin, Real.arcsin,
        Real.pi⟩ ∧
      ∃ res, area ⟨Real.sqrt, fun y x => Complex.arg ⟨x, y⟩, Real.cos, Real.sin, Real.arcsin,
          Real.pi⟩ (0 + 3) ⟨fun _ => ⟨0, 0⟩, fun _ => 0, 0, 0⟩
          ⟨[⟨0, 0⟩, ⟨4, 0⟩, ⟨4, 3⟩], [], [⟨⟨0, [⟨4, 3⟩, ⟨4, 3⟩]⟩, ⟨0, 3⟩, true⟩]⟩ res ≠
        areaSpec ⟨Real.sqrt, fun y x => Complex.arg ⟨x, y⟩, Real.cos, Real.sin, Real.arcsin,
          Real.pi⟩ (0 + 3) ⟨fun _ => ⟨0, 0⟩, fun _ => 0, 0, 0⟩
          ⟨[⟨0, 0⟩, ⟨4, 0⟩, ⟨4, 3⟩], [], [⟨⟨0, [⟨4, 3⟩, ⟨4, 3⟩]⟩, ⟨0, 3⟩, true⟩]⟩ res :=
  ⟨⟨rfl, rfl, rfl, rfl, rfl, rfl⟩, (area_ignores_res ⟨rfl, rfl, rfl, rfl, rfl, rfl⟩ 0 _).2.2.2⟩

end Data

/-! ## The arithmetic of `double`: the two integer helpers -/

namespace Dbl

/-- The search of `log2` finds the exponent of the leading bit. -/
theorem log2Aux_spec : ∀ (i q acc : ℕ), 0 < q → q < 2 ^ 2 ^ i →
    ∃ L, log2Aux i q acc = acc + L ∧ 2 ^ L ≤ q ∧ q < 2 ^ (L + 1) := by
  intro i
  induction i with
  | zero =>
    intro q acc h0 h1
    refine ⟨0, rfl, ?_, ?_⟩
    · simpa using h0
    · simpa using h1
  | succ i ih =>
    intro q acc h0 h1
    have hd : 0 < 2 ^ 2 ^ i := pow_pos (by norm_num) _
    have hsq : 2 ^ 2 ^ (i + 1) = 2 ^ 2 ^ i * 2 ^ 2 ^ i := by
      rw [← pow_add, pow_succ, Nat.mul_two]
    rw [log2Aux]
    by_cases hc : 2 ^ 2 ^ i ≤ q
    · rw [if_pos hc]
      have hq0 : 0 < q / 2 ^ 2 ^ i := Nat.div_pos hc hd
      have hq1 : q / 2 ^ 2 ^ i < 2 ^ 2 ^ i := by
        rw [Nat.div_lt_iff_lt_mul hd, ← hsq]
        exact h1
      obtain ⟨L, hL, h2, h3⟩ := ih (q / 2 ^ 2 ^ i) (acc + 2 ^ i) hq0 hq1
      refine ⟨2 ^ i + L, by rw [hL, Nat.add_assoc], ?_, ?_⟩
      · calc 2 ^ (2 ^ i + L) = 2 ^ 2 ^ i * 2 ^ L := pow_add _ _ _
          _ ≤ 2 ^ 2 ^ i * (q / 2 ^ 2 ^ i) := Nat.mul_le_mul_left _ h2
          _ ≤ q := Nat.mul_div_le _ _
      · calc q < 2 ^ 2 ^ i * (q / 2 ^ 2 ^ i + 1) := Nat.lt_mul_div_succ _ hd
          _ ≤ 2 ^ 2 ^ i * 2 ^ (L + 1) := Nat.mul_le_mul_left _ h3
          _ = 2 ^ (2 ^ i + L + 1) := by rw [← pow_add, Nat.add_assoc]
    · rw [if_neg hc]
      exact ih q acc h0 (not_le.1 hc)

/-- Below `2^(2^12) = 2^4096` the helper `log2` is the library's `Nat.log2`. -/
theorem log2_eq (q : ℕ) (h : q < 2 ^ 2 ^ 12) : log2 q = Nat.log2 q := by
  rcases Nat.eq_zero_or_pos q with h0 | h0
  · subst h0
    rw [show log2 0 = 0 by decide!, Nat.log2_zero]
  · obtain ⟨L, hL, h2, h3⟩ := log2Aux_spec 12 q 0 h0 h
    have hne : q ≠ 0 := Nat.pos_iff_ne_zero.1 h0
    rw [log2, hL, Nat.zero_add]
    have h4 : L ≤ Nat.log2 q := (Nat.le_log2 hne).2 h2
    have h5 : Nat.log2 q < L + 1 := (Nat.log2_lt hne).2 h3
    omega

/-- The search of `isqrt` keeps `r^2 ≤ n < (r + 2^i)^2` and ends at the
integer square root. -/
theorem isqrtAux_spec : ∀ (i n r : ℕ), r ^ 2 ≤ n → n < (r + 2 ^ i) ^ 2 →
    isqrtAux i n r ^ 2 ≤ n ∧ n < (isqrtAux i n r + 1) ^ 2 := by
  intro i
  induction i with
  | zero =>
    intro n r h1 h2
    exact ⟨h1, by simpa using h2⟩
  | succ i ih =>
    intro n r h1 h2
    rw [isqrtAux]
    by_cases hc : (r + 2 ^ i) ^ 2 ≤ n
    · rw [if_pos hc]
      refine ih n (r + 2 ^ i) hc ?_
      rw [Nat.add_assoc, ← Nat.two_mul, ← pow_succ']
      exact h2
    · rw [if_neg hc]
      exact ih n r h1 (not_le.1 hc)

/-- Below `(2^2048)^2 = 2^4096` the helper `isqrt` is the library's `Nat.sqrt`. -/
theorem isqrt_eq (n : ℕ) (h : n < (2 ^ 2048) ^ 2) : isqrt n = Nat.sqrt n := by
  have hs := isqrtAux_spec 2048 n 0 (Nat.zero_le _) (by rw [Nat.zero_add]; exact h)
  rw [isqrt]
  exact Nat.eq_sqrt.2 ⟨by rw [← sq]; exact hs.1, by rw [← sq]; exact hs.2⟩

end Dbl

/-! ## The code on `double`s -/

namespace Dbl

/-- No `double` is less than itself. -/
theorem lt_self (x : Dbl) : Dbl.lt x x = false := by
  cases x <;> simp [Dbl.lt, Dbl.le, Dbl.eq]

end Dbl

namespace Hull

open Vec2

/-- The last statement of a pass, `if (area < minArea) ...`, with the box `b`
in place of the box `b0` recorded so far. -/
theorem record_box (area m : Dbl) (A : Calipers Dbl) (para : Fin 4 → Vec2 Dbl)
    (idx : Fin 4 → ℕ) (b0 b : Box Dbl) (hA : A.minArea = area) :
    (if Dbl.lt area m then A else ⟨para, idx, m, b⟩) =
      (fun (c1 : Calipers Dbl) =>
        if Dbl.lt c1.minArea m then c1 else ⟨c1.para, c1.idx, c1.minArea, b⟩)
        (if Dbl.lt area m then A else ⟨para, idx, m, b0⟩) := by
  by_cases h : Dbl.lt area m = true
  · simp only [h, if_true, hA]
  · simp only [h, if_false, Dbl.lt_self, Bool.false_eq_true]

/-- A pass of the caliper loop on `double`s reads the recorded box only to
carry it along: with another box in its place the pass does the same, and
hands on the other box unless it records one. -/
theorem caliperStepD_box (L : DMath) (input : List (Vec2 Dbl)) (c : Calipers Dbl)
    (b : Box Dbl) :
    caliperStepD L input ⟨c.para, c.idx, c.minArea, b⟩ =
      (caliperStepD L input c).map (fun c1 =>
        if Dbl.lt c1.minArea c.minArea then c1 else ⟨c1.para, c1.idx, c1.minArea, b⟩) := by
  have hm : minThetaD L input ⟨c.para, c.idx, c.minArea, b⟩ = minThetaD L input c := rfl
  have ht : ∀ i, thetaD L input ⟨c.para, c.idx, c.minArea, b⟩ i = thetaD L input c i :=
    fun _ => rfl
  rw [caliperStepD, caliperStepD]
  simp only [hm, ht, Option.bind_eq_bind, Option.pure_def]
  cases minThetaD L input c with
  | none => rfl
  | some mt =>
  simp only [Option.some_bind]
  cases thetaD L input c 0 with
  | none => rfl
  | some t0 =>
  cases thetaD L input c 1 with
  | none => rfl
  | some t1 =>
  cases thetaD L input c 2 with
  | none => rfl
  | some t2 =>
  cases thetaD L input c 3 with
  | none => rfl
  | some t3 =>
  simp only [Option.some_bind]
  cases rotateD L (c.para 0) mt with
  | none => rfl
  | some p0 =>
  cases rotateD L (c.para 1) mt with
  | none => rfl
  | some p1 =>
  cases rotateD L (c.para 2) mt with
  | none => rfl
  | some p2 =>
  cases rotateD L (c.para 3) mt with
  | none => rfl
  | some p3 =>
  simp only [Option.some_bind, Option.map_some']
  exact congrArg some (record_box _ _ _ _ _ _ _ rfl)

/-- When the caliper loop on `double`s leaves within `f` passes without
recording a box, it returns the box it was started with, whatever that is and
with any further fuel. -/
theorem caliperLoopD_quiet (L : DMath) (input : List (Vec2 Dbl)) (loopIdx : ℕ) :
    ∀ (f : ℕ) (c : Calipers Dbl), quietD L input loopIdx f c = true →
      ∀ (k : ℕ) (b : Box Dbl),
        caliperLoopD L input loopIdx (f + k) ⟨c.para, c.idx, c.minArea, b⟩ = some b := by
  intro f
  induction f with
  | zero => intro c h; simp [quietD] at h
  | succ f ih =>
    intro c h k b
    rw [quietD] at h
    rw [Nat.succ_add, caliperLoopD, caliperStepD_box]
    cases hs : caliperStepD L input c with
    | none => rw [hs] at h; simp at h
    | some c1 =>
      rw [hs] at h
      simp only [Bool.and_eq_true, Bool.not_eq_true'] at h
      simp only [Option.map_some', h.1, Bool.false_eq_true, if_false]
      by_cases h3 : c1.idx 3 ≠ loopIdx
      · rw [if_pos h3]
        have := h.2
        rw [if_pos h3] at this
        exact ih c1 this k b
      · rw [if_neg h3]

/-- The variables at the entry of the loop depend on the local `box` only in
their last component. -/
theorem startD_box (box b0 : Box Dbl) (input : List (Vec2 Dbl)) :
    startD box input =
      ⟨(startD b0 input).para, (startD b0 input).idx, (startD b0 input).minArea, box⟩ :=
  rfl

/-- The hull of the rectangle with corners `(0,0)`, `(1.5,0)`, `(1.5,3.96)`,
`(0,3.96)` on `double`s is the list of its corners (`1.5` is `3 * 2^(-1)` and
`3.96` is the `double` `4458563631096791 * 2^(-50)`). -/
theorem ConvexD_rect :
    ConvexD
      [⟨Dbl.fin 0, Dbl.fin 0⟩, ⟨Dbl.ofScaled 3 (-1), Dbl.fin 0⟩,
        ⟨Dbl.ofScaled 3 (-1), Dbl.ofScaled 4458563631096791 (-50)⟩,
        ⟨Dbl.fin 0, Dbl.ofScaled 4458563631096791 (-50)⟩] =
    some
      [⟨Dbl.fin 0, Dbl.fin 0⟩, ⟨Dbl.ofScaled 3 (-1), Dbl.fin 0⟩,
        ⟨Dbl.ofScaled 3 (-1), Dbl.ofScaled 4458563631096791 (-50)⟩,
        ⟨Dbl.fin 0, Dbl.ofScaled 4458563631096791 (-50)⟩] := by
  decide!

/-- On that rectangle the caliper loop on `double`s leaves after 3 passes, and
none of them records a box: the area of pass 1 is one unit in the last place
above the starting area, those of passes 2 and 3 are equal to it. -/
theorem quietD_rect :
    quietD DMath.libm
      [⟨Dbl.fin 0, Dbl.fin 0⟩, ⟨Dbl.ofScaled 3 (-1), Dbl.fin 0⟩,
        ⟨Dbl.ofScaled 3 (-1), Dbl.ofScaled 4458563631096791 (-50)⟩,
        ⟨Dbl.fin 0, Dbl.ofScaled 4458563631096791 (-50)⟩]
      (extremesD
        [⟨Dbl.fin 0, Dbl.fin 0⟩, ⟨Dbl.ofScaled 3 (-1), Dbl.fin 0⟩,
        ⟨Dbl.ofScaled 3 (-1), Dbl.ofScaled 4458563631096791 (-50)⟩,
        ⟨Dbl.fin 0, Dbl.ofScaled 4458563631096791 (-50)⟩] 0 + 1) 3
      (startD ⟨fun _ => ⟨Dbl.fin 0, Dbl.fin 0⟩, fun _ => 0, Dbl.fin 0, Dbl.fin 0⟩
        [⟨Dbl.fin 0, Dbl.fin 0⟩, ⟨Dbl.ofScaled 3 (-1), Dbl.fin 0⟩,
        ⟨Dbl.ofScaled 3 (-1), Dbl.ofScaled 4458563631096791 (-50)⟩,
        ⟨Dbl.fin 0, Dbl.ofScaled 4458563631096791 (-50)⟩]) = true := by
  decide!

/-- C7 (defect of the code): on `double`s, for the rectangle with corners `(0,0)`,
`(1.5,0)`, `(1.5,3.96)`, `(0,3.96)` the hull is the list of the four corners, and
`Hull::MinimumBox` of it returns, after the 3 passes of its loop (any fuel from
3 on), its local `box` exactly as declared, whatever that storage held: the
starting width and height are never stored and no pass has a smaller area, so
the returned dimensions are not `1.5` and `3.96`. The library values used are
those of `DMath.libm`. -/
theorem minimumBox_rectangle_unassigned (fuel : ℕ) (box : Box Dbl) :
    ConvexD
      [⟨Dbl.fin 0, Dbl.fin 0⟩, ⟨Dbl.ofScaled 3 (-1), Dbl.fin 0⟩,
        ⟨Dbl.ofScaled 3 (-1), Dbl.ofScaled 4458563631096791 (-50)⟩,
        ⟨Dbl.fin 0, Dbl.ofScaled 4458563631096791 (-50)⟩] =
    some
      [⟨Dbl.fin 0, Dbl.fin 0⟩, ⟨Dbl.ofScaled 3 (-1), Dbl.fin 0⟩,
        ⟨Dbl.ofScaled 3 (-1), Dbl.ofScaled 4458563631096791 (-50)⟩,
        ⟨Dbl.fin 0, Dbl.ofScaled 4458563631096791 (-50)⟩] ∧
    MinimumBoxD DMath.libm (fuel + 3) box
      [⟨Dbl.fin 0, Dbl.fin 0⟩, ⟨Dbl.ofScaled 3 (-1), Dbl.fin 0⟩,
        ⟨Dbl.ofScaled 3 (-1), Dbl.ofScaled 4458563631096791 (-50)⟩,
        ⟨Dbl.fin 0, Dbl.ofScaled 4458563631096791 (-50)⟩] = some box := by
  refine ⟨ConvexD_rect, ?_⟩
  rw [MinimumBoxD, if_neg (by simp), Nat.add_comm fuel 3,
    startD_box box ⟨fun _ => ⟨Dbl.fin 0, Dbl.fin 0⟩, fun _ => 0, Dbl.fin 0, Dbl.fin 0⟩]
  exact caliperLoopD_quiet _ _ _ 3 _ quietD_rect fuel box

/-- C3 as stated fails in the arithmetic of the code: the points `(0.1,0.1)`,
`(0.3,0.4)`, `(0.7,1.0)` (as `double`s) are not collinear, their exact cross
product is not zero, but the rounded cross product of the code is `0`, the
middle point is popped from both chains and the hull has only 2 points. -/
theorem convex_rounded_two_points :
    Cross
        (unitsD ⟨Dbl.ofScaled 5404319552844595 (-54), Dbl.ofScaled 3602879701896397 (-53)⟩ -
          unitsD ⟨Dbl.ofScaled 3602879701896397 (-55), Dbl.ofScaled 3602879701896397 (-55)⟩)
        (unitsD ⟨Dbl.ofScaled 3152519739159347 (-52), Dbl.ofScaled 1 0⟩ -
          unitsD ⟨Dbl.ofScaled 3602879701896397 (-55), Dbl.ofScaled 3602879701896397 (-55)⟩)
        ≠ 0 ∧
      ConvexD
        [⟨Dbl.ofScaled 3602879701896397 (-55), Dbl.ofScaled 3602879701896397 (-55)⟩,
          ⟨Dbl.ofScaled 5404319552844595 (-54), Dbl.ofScaled 3602879701896397 (-53)⟩,
          ⟨Dbl.ofScaled 3152519739159347 (-52), Dbl.ofScaled 1 0⟩] =
        some
          [⟨Dbl.ofScaled 3602879701896397 (-55), Dbl.ofScaled 3602879701896397 (-55)⟩,
            ⟨Dbl.ofScaled 3152519739159347 (-52), Dbl.ofScaled 1 0⟩] := by
  decide!

/-- C5 as stated fails in the arithmetic of the code: for the input `(0,0)`,
`(0.1,0.3)`, `(0.2,0.6)`, `(1.0,3.0)` (as `double`s) `Hull::Convex` returns the 3
points `(0,0)`, `(0.2,0.6)`, `(1.0,3.0)`, and `Hull::Convex` of these returns the
4 points `(0,0)`, `(0.2,0.6)`, `(1.0,3.0)`, `(0.2,0.6)`: the rounded cross product
is positive on the way up and on the way down. -/
theorem convex_rounded_not_idempotent :
    ConvexD
        [⟨Dbl.fin 0, Dbl.fin 0⟩,
          ⟨Dbl.ofScaled 3602879701896397 (-55), Dbl.ofScaled 5404319552844595 (-54)⟩,
          ⟨Dbl.ofScaled 3602879701896397 (-54), Dbl.ofScaled 5404319552844595 (-53)⟩,
          ⟨Dbl.ofScaled 1 0, Dbl.ofScaled 3 0⟩] =
        some
          [⟨Dbl.fin 0, Dbl.fin 0⟩,
            ⟨Dbl.ofScaled 3602879701896397 (-54), Dbl.ofScaled 5404319552844595 (-53)⟩,
            ⟨Dbl.ofScaled 1 0, Dbl.ofScaled 3 0⟩] ∧
      ConvexD
        [⟨Dbl.fin 0, Dbl.fin 0⟩,
          ⟨Dbl.ofScaled 3602879701896397 (-54), Dbl.ofScaled 5404319552844595 (-53)⟩,
          ⟨Dbl.ofScaled 1 0, Dbl.ofScaled 3 0⟩] =
        some
          [⟨Dbl.fin 0, Dbl.fin 0⟩,
            ⟨Dbl.ofScaled 3602879701896397 (-54), Dbl.ofScaled 5404319552844595 (-53)⟩,
            ⟨Dbl.ofScaled 1 0, Dbl.ofScaled 3 0⟩,
            ⟨Dbl.ofScaled 3602879701896397 (-54), Dbl.ofScaled 5404319552844595 (-53)⟩] := by
  decide!

/-- The rounding half of the failure of C6: the points `(0,0)`,
`(134217727,134217728)`, `(268435455,268435457)` are pairwise distinct and not
collinear (their exact cross product is `-1` before scaling), so they are in
strictly convex position, but on `double`s the two products of the cross
product round to the same number and the hull keeps only 2 of the 3 points. -/
theorem convexD_triangle_lost :
    ([⟨Dbl.fin 0, Dbl.fin 0⟩, ⟨Dbl.ofScaled 134217727 0, Dbl.ofScaled 134217728 0⟩,
          ⟨Dbl.ofScaled 268435455 0, Dbl.ofScaled 268435457 0⟩] : List (Vec2 Dbl)).Nodup ∧
      Cross
        (unitsD ⟨Dbl.ofScaled 134217727 0, Dbl.ofScaled 134217728 0⟩ -
          unitsD ⟨Dbl.fin 0, Dbl.fin 0⟩)
        (unitsD ⟨Dbl.ofScaled 268435455 0, Dbl.ofScaled 268435457 0⟩ -
          unitsD ⟨Dbl.fin 0, Dbl.fin 0⟩) ≠ 0 ∧
      ConvexD
        [⟨Dbl.fin 0, Dbl.fin 0⟩, ⟨Dbl.ofScaled 134217727 0, Dbl.ofScaled 134217728 0⟩,
          ⟨Dbl.ofScaled 268435455 0, Dbl.ofScaled 268435457 0⟩] =
        some
          [⟨Dbl.fin 0, Dbl.fin 0⟩, ⟨Dbl.ofScaled 268435455 0, Dbl.ofScaled 268435457 0⟩] := by
  decide!

/-- C6 as stated fails twice. On a single point: `[(0,0)]` is a list of pairwise
distinct points in strictly convex position, and `Hull::Convex` returns the
empty hull. In the arithmetic of the code: of the three pairwise distinct,
non-collinear points `(0,0)`, `(134217727,134217728)`, `(268435455,268435457)`
the hull keeps only 2. -/
theorem convex_position_points_lost :
    ((([⟨0, 0⟩] : List (Vec2 ℝ)).Nodup ∧ ConvexPosition ([⟨0, 0⟩] : List (Vec2 ℝ))) ∧
        Hull.Convex ([⟨0, 0⟩] : List (Vec2 ℝ)) = some []) ∧
      (([⟨Dbl.fin 0, Dbl.fin 0⟩, ⟨Dbl.ofScaled 134217727 0, Dbl.ofScaled 134217728 0⟩,
            ⟨Dbl.ofScaled 268435455 0, Dbl.ofScaled 268435457 0⟩] : List (Vec2 Dbl)).Nodup ∧
        Cross
          (unitsD ⟨Dbl.ofScaled 134217727 0, Dbl.ofScaled 134217728 0⟩ -
            unitsD ⟨Dbl.fin 0, Dbl.fin 0⟩)
          (unitsD ⟨Dbl.ofScaled 268435455 0, Dbl.ofScaled 268435457 0⟩ -
            unitsD ⟨Dbl.fin 0, Dbl.fin 0⟩) ≠ 0 ∧
        ConvexD
          [⟨Dbl.fin 0, Dbl.fin 0⟩, ⟨Dbl.ofScaled 134217727 0, Dbl.ofScaled 134217728 0⟩,
            ⟨Dbl.ofScaled 268435455 0, Dbl.ofScaled 268435457 0⟩] =
          some
            [⟨Dbl.fin 0, Dbl.fin 0⟩,
              ⟨Dbl.ofScaled 268435455 0, Dbl.ofScaled 268435457 0⟩]) :=
  ⟨⟨convex_single_point_lost.1, convex_single_point_lost.2.1⟩, convexD_triangle_lost⟩

/-- C20 as stated fails in the arithmetic of the code: the points `(0,0)`,
`(0.1,0.3)`, `(0.4,1.2)` (as `double`s) are exactly collinear, the third being 4
times the second, but on the way down the differences `0.1 - 0.4` and
`0.3 - 1.2` are rounded, the cross product comes out positive, the middle point
is kept and the hull has 3 points. -/
theorem convex_rounded_collinear_kept :
    AllCollinear
        (([⟨Dbl.fin 0, Dbl.fin 0⟩,
          ⟨Dbl.ofScaled 3602879701896397 (-55), Dbl.ofScaled 5404319552844595 (-54)⟩,
          ⟨Dbl.ofScaled 3602879701896397 (-53), Dbl.ofScaled 5404319552844595 (-52)⟩] :
            List (Vec2 Dbl)).map unitsD) ∧
      ConvexD
        [⟨Dbl.fin 0, Dbl.fin 0⟩,
          ⟨Dbl.ofScaled 3602879701896397 (-55), Dbl.ofScaled 5404319552844595 (-54)⟩,
          ⟨Dbl.ofScaled 3602879701896397 (-53), Dbl.ofScaled 5404319552844595 (-52)⟩] =
        some
          [⟨Dbl.fin 0, Dbl.fin 0⟩,
            ⟨Dbl.ofScaled 3602879701896397 (-53), Dbl.ofScaled 5404319552844595 (-52)⟩,
            ⟨Dbl.ofScaled 3602879701896397 (-55), Dbl.ofScaled 5404319552844595 (-54)⟩] := by
  unfold AllCollinear
  decide!

end Hull

namespace Edge

/-- C15 as stated fails in the arithmetic of the code: for the edge from `(0,0)`
to `(2^600, 0)` the Euclidean distance is `2^600`, a `double`, but the square
`2^1200` overflows and `Edge::length` returns `+inf`. -/
theorem length_overflow :
    Edge.lengthD ⟨0, [⟨Dbl.fin 0, Dbl.fin 0⟩, ⟨Dbl.ofScaled 1 600, Dbl.fin 0⟩]⟩ =
      some Dbl.pinf := by
  decide!

end Edge

namespace Vec2

/-- C17 as stated fails in the arithmetic of the code: for the vector
`(2^600, 0)` the square `2^1200` overflows, `norm()` is `+inf`, which is not
zero, and `unit()` returns `(2^600 / inf, 0 / inf) = (0, 0)`, of norm `0`, not a
vector of norm 1. -/
theorem unit_overflow :
    normD ⟨Dbl.ofScaled 1 600, Dbl.fin 0⟩ = Dbl.pinf ∧
      Dbl.eq (normD ⟨Dbl.ofScaled 1 600, Dbl.fin 0⟩) (Dbl.fin 0) = false ∧
      unitD ⟨Dbl.ofScaled 1 600, Dbl.fin 0⟩ = ⟨Dbl.fin 0, Dbl.fin 0⟩ ∧
      normD (unitD ⟨Dbl.ofScaled 1 600, Dbl.fin 0⟩) = Dbl.fin 0 := by
  decide!

end Vec2

end cc
